import Mathlib

/-!
# c4 — "C in four functions": a shallow embedding of `og_c4.c`

The development follows the source file function by function:

* `next`  — the lexer (`next()`),
* `expr`  — the expression parser and code generator (`expr(int lev)`),
* `stmt`  — the statement parser (`stmt()`),
* `compile`, `main` — the declaration parser and driver in `main()`,
* `step`, `run` — the virtual machine loop at the end of `main()`.

Conventions of the embedding.

* `int` is `long long` (`#define int long long`): a machine word is an `Int`
  kept in the signed 64-bit range by `wrap`.
* A pointer into the source text is the list of bytes from the pointed
  position to the end of the buffer (the buffer is never written after it
  has been loaded); `++p` is `List.tail`, `*p` is the head, and a read past
  the end of the buffer yields 0.
* The text area `e` is the list of words emitted so far; the word at list
  index `k` lives at address `ebase + 8 * (k + 1)` because every store is
  `*++e = w`.  `--e` drops the last word.
* The symbol table is a list of records of `Idsz` fields; the zero-filled
  memory behind the last record is the end of the list.
* `printf` output (diagnostics, `-s` and `-d` traces) is not modelled; a
  diagnostic followed by `exit(-1)` is the result `Res.exit`.
-/

namespace C4

/-! ## Machine words -/

/-- Two to the 63. -/
abbrev two63 : Int := 9223372036854775808

/-- Two to the 64. -/
abbrev two64 : Int := 18446744073709551616

/-- Reduce an integer to the signed 64-bit range (two's complement wrap-around). -/
def wrap (x : Int) : Int := (x + two63) % two64 - two63

/-- The value of a byte read through a `char *` (signed char). -/
def cval (b : Nat) : Int := if b % 256 < 128 then ((b % 256 : Nat) : Int) else ((b % 256 : Nat) : Int) - 256

/-- Code of an ASCII character, as written in the source with a character literal. -/
def ch (c : Char) : Int := (c.toNat : Int)

/-- The bytes of an ASCII text. -/
def bytes (s : String) : List Nat := s.toList.map Char.toNat

/-! ## Enumerations of the source -/

-- tokens and classes (operators last and in precedence order)
abbrev Tok.Num : Int := 128
abbrev Tok.Fun : Int := 129
abbrev Tok.Sys : Int := 130
abbrev Tok.Glo : Int := 131
abbrev Tok.Loc : Int := 132
abbrev Tok.Id : Int := 133
abbrev Tok.Char : Int := 134
abbrev Tok.Else : Int := 135
abbrev Tok.Enum : Int := 136
abbrev Tok.If : Int := 137
abbrev Tok.Return : Int := 139
abbrev Tok.Sizeof : Int := 140
abbrev Tok.While : Int := 141
abbrev Tok.Assign : Int := 142
abbrev Tok.Cond : Int := 143
abbrev Tok.Lor : Int := 144
abbrev Tok.Lan : Int := 145
abbrev Tok.Or : Int := 146
abbrev Tok.Xor : Int := 147
abbrev Tok.And : Int := 148
abbrev Tok.Eq : Int := 149
abbrev Tok.Ne : Int := 150
abbrev Tok.Lt : Int := 151
abbrev Tok.Gt : Int := 152
abbrev Tok.Le : Int := 153
abbrev Tok.Ge : Int := 154
abbrev Tok.Shl : Int := 155
abbrev Tok.Shr : Int := 156
abbrev Tok.Add : Int := 157
abbrev Tok.Sub : Int := 158
abbrev Tok.Mul : Int := 159
abbrev Tok.Div : Int := 160
abbrev Tok.Mod : Int := 161
abbrev Tok.Inc : Int := 162
abbrev Tok.Dec : Int := 163
abbrev Tok.Brak : Int := 164
abbrev Tok.Int : Int := 138

-- opcodes
abbrev Op.LEA : Int := 0
abbrev Op.IMM : Int := 1
abbrev Op.JMP : Int := 2
abbrev Op.JSR : Int := 3
abbrev Op.BZ : Int := 4
abbrev Op.BNZ : Int := 5
abbrev Op.ENT : Int := 6
abbrev Op.ADJ : Int := 7
abbrev Op.LEV : Int := 8
abbrev Op.LI : Int := 9
abbrev Op.LC : Int := 10
abbrev Op.SI : Int := 11
abbrev Op.SC : Int := 12
abbrev Op.PSH : Int := 13
abbrev Op.OR : Int := 14
abbrev Op.XOR : Int := 15
abbrev Op.AND : Int := 16
abbrev Op.EQ : Int := 17
abbrev Op.NE : Int := 18
abbrev Op.LT : Int := 19
abbrev Op.GT : Int := 20
abbrev Op.LE : Int := 21
abbrev Op.GE : Int := 22
abbrev Op.SHL : Int := 23
abbrev Op.SHR : Int := 24
abbrev Op.ADD : Int := 25
abbrev Op.SUB : Int := 26
abbrev Op.MUL : Int := 27
abbrev Op.DIV : Int := 28
abbrev Op.MOD : Int := 29
abbrev Op.OPEN : Int := 30
abbrev Op.READ : Int := 31
abbrev Op.CLOS : Int := 32
abbrev Op.PRTF : Int := 33
abbrev Op.MALC : Int := 34
abbrev Op.FREE : Int := 35
abbrev Op.MSET : Int := 36
abbrev Op.MCMP : Int := 37
abbrev Op.EXIT : Int := 38

-- types
abbrev CHAR : Int := 0
abbrev INT : Int := 1
abbrev PTR : Int := 2

/-- The value of `sizeof(int)`, the machine word size in bytes. -/
abbrev sizeofInt : Int := 8

/-- The value of `sizeof(char)`. -/
abbrev sizeofChar : Int := 1

/-- The size in bytes of each of the four pools allocated by `main` (`poolsz`). -/
abbrev poolsz : Int := 256 * 1024

/-! ## Compiler state -/

/-- One record of the symbol table: the fields `Tk .. HVal` of the source
(`Idsz` words).  `Name` is a pointer into the source text. -/
structure Sym where
  Tk : Int := 0
  Hash : Int := 0
  Name : List Nat := []
  Class : Int := 0
  Typ : Int := 0
  Val : Int := 0
  HClass : Int := 0
  HTyp : Int := 0
  HVal : Int := 0
deriving DecidableEq, Repr

/-- The global variables of the compiler.  `ebase` is the address of the text
area (the value `e` starts from), `dmem` the bytes stored through `data`
so far, oldest first, as (address, byte) pairs. -/
structure CState where
  p : List Nat := []
  data : Int := 0
  dmem : List (Int × Int) := []
  ebase : Int := 0
  e : List Int := []
  id : Nat := 0
  sym : List Sym := []
  tk : Int := 0
  ival : Int := 0
  ty : Int := 0
  loc : Int := 0
  line : Int := 0
deriving DecidableEq, Repr

/-- Outcome of a compiler routine: a new state, a diagnostic followed by
`exit(code)`, or exhaustion of the fuel of the model. -/
inductive Res (α : Type) where
  | ok (a : α)
  | exit (code : Int) (line : Int) (msg : String)
  | fuel
deriving DecidableEq, Repr

/-- Sequencing of compiler routines. -/
def Res.bind {α β : Type} (r : Res α) (f : α → Res β) : Res β :=
  match r with
  | .ok a => f a
  | .exit c l m => .exit c l m
  | .fuel => .fuel

instance : Monad Res where
  pure := Res.ok
  bind := Res.bind

/-- The diagnostic `printf("%d: msg\n", line); exit(-1);`. -/
def fail {α : Type} (s : CState) (msg : String) : Res α := .exit (-1) s.line msg

/-- Read a symbol record through a pointer into the table; memory behind the
table is zero-filled. -/
def symAt (sym : List Sym) (i : Nat) : Sym := sym.getD i {}

/-- Write a symbol record through a pointer into the table: an existing
record is updated in place, the first record behind the table is created
from zero-filled memory. -/
def symUpd (sym : List Sym) (i : Nat) (f : Sym → Sym) : List Sym :=
  if i < sym.length then sym.set i (f (symAt sym i))
  else if i = sym.length then sym ++ [f {}]
  else sym

/-- The record `id` points to. -/
def CState.cur (s : CState) : Sym := symAt s.sym s.id

/-- Update of the record `id` points to. -/
def CState.setCur (s : CState) (f : Sym → Sym) : CState := { s with sym := symUpd s.sym s.id f }

/-- The store `*++e = w`. -/
def emit (w : Int) (s : CState) : CState := { s with e := s.e ++ [w] }

/-- The read `*e` (the word below the text area is zero). -/
def lastE (s : CState) : Int := s.e.getLast?.getD 0

/-- The store `*e = w`. -/
def setLastE (w : Int) (s : CState) : CState := { s with e := s.e.dropLast ++ [w] }

/-- The value `(int)(e + k)`. -/
def addrE (s : CState) (k : Nat) : Int := s.ebase + 8 * ((s.e.length + k : Nat) : Int)

/-- The store `*d = w` through a pointer `d` into the text area, `d` being
the list index of the word pointed to. -/
def patch (d : Nat) (w : Int) (s : CState) : CState := { s with e := s.e.set d w }

/-- The step `d = ++e`, which skips one word of the text area to be filled
in later by `patch`: the result is the new state and the pointer `d`.  The
skipped word is written before it is ever read. -/
def hole (s : CState) : CState × Nat := (emit 0 s, s.e.length)

/-! ## The lexer: `next()` -/

/-- The test `(c >= 'a' && c <= 'z') || (c >= 'A' && c <= 'Z') || c == '_'`. -/
def isAlpha (c : Int) : Bool :=
  (decide (ch 'a' ≤ c) && decide (c ≤ ch 'z')) || (decide (ch 'A' ≤ c) && decide (c ≤ ch 'Z'))
    || decide (c = ch '_')

/-- The test of the identifier loop: letter, digit or underscore. -/
def isAlnum (c : Int) : Bool :=
  (decide (ch 'a' ≤ c) && decide (c ≤ ch 'z')) || (decide (ch 'A' ≤ c) && decide (c ≤ ch 'Z'))
    || (decide (ch '0' ≤ c) && decide (c ≤ ch '9')) || decide (c = ch '_')

/-- The test of the hexadecimal loop. -/
def isHex (c : Int) : Bool :=
  (decide (ch '0' ≤ c) && decide (c ≤ ch '9')) || (decide (ch 'a' ≤ c) && decide (c ≤ ch 'f'))
    || (decide (ch 'A' ≤ c) && decide (c ≤ ch 'F'))

/-- The read `*p`. -/
def peek (p : List Nat) : Int :=
  match p with
  | [] => 0
  | c :: _ => cval c

/-- The loop `while (*p != 0 && *p != '\n') ++p;`. -/
def skipLine : List Nat → List Nat
  | [] => []
  | c :: cs => if cval c ≠ 0 ∧ cval c ≠ 10 then skipLine cs else c :: cs

/-- The loop `while (isAlnum(*p)) tk = tk * 147 + *p++;`: the result is the
new `p` and the new `tk`. -/
def scanId : List Nat → Int → List Nat × Int
  | [], h => ([], h)
  | c :: cs, h => if isAlnum (cval c) then scanId cs (wrap (h * 147 + cval c)) else (c :: cs, h)

/-- The loop `while (id[Tk]) { if (tk == id[Hash] && !memcmp(id[Name], pp, n))
return...; id = id + Idsz; }` started with `id` at record `i` of which `syms`
is the rest of the table: the result is the record reached and whether the
name was found there. -/
def symScan (h : Int) (pp : List Nat) (n : Nat) : List Sym → Nat → Nat × Bool
  | [], i => (i, false)
  | d :: ds, i =>
    if d.Tk = 0 then (i, false)
    else if h = d.Hash ∧ d.Name.take n = pp.take n then (i, true)
    else symScan h pp n ds (i + 1)

/-- The loop `while (*p >= '0' && *p <= '9') ival = ival * 10 + *p++ - '0';`. -/
def scanDec : List Nat → Int → List Nat × Int
  | [], v => ([], v)
  | c :: cs, v =>
    if ch '0' ≤ cval c ∧ cval c ≤ ch '9' then scanDec cs (wrap (v * 10 + cval c - ch '0'))
    else (c :: cs, v)

/-- The loop `while (*p >= '0' && *p <= '7') ival = ival * 8 + *p++ - '0';`. -/
def scanOct : List Nat → Int → List Nat × Int
  | [], v => ([], v)
  | c :: cs, v =>
    if ch '0' ≤ cval c ∧ cval c ≤ ch '7' then scanOct cs (wrap (v * 8 + cval c - ch '0'))
    else (c :: cs, v)

/-- The loop `while ((tk = *++p) && isHex(tk)) ival = ival * 16 + (tk & 15) +
(tk >= 'A' ? 9 : 0);` once `++p` has been applied: `q` is the position
`p + 1`.  The result is the position of the first byte that is not a
hexadecimal digit and the value.  On a hexadecimal digit `tk & 15` is
`tk % 16`. -/
def scanHex : List Nat → Int → List Nat × Int
  | [], v => ([], v)
  | c :: cs, v =>
    if cval c ≠ 0 ∧ isHex (cval c) then
      scanHex cs (wrap (v * 16 + cval c % 16 + (if ch 'A' ≤ cval c then 9 else 0)))
    else (c :: cs, v)

/-- The loop of a quoted literal opened by `q`,
`while (*p != 0 && *p != tk) { if ((ival = *p++) == '\\') { if ((ival = *p++)
== 'n') ival = '\n'; } if (tk == '"') *data++ = ival; }`,
on the variables `p`, `ival`, `data` and the bytes stored. -/
def scanQuote (q : Int) : List Nat → Int → Int → List (Int × Int) →
    List Nat × Int × Int × List (Int × Int)
  | [], iv, d, m => ([], iv, d, m)
  | c :: cs, iv, d, m =>
    if cval c ≠ 0 ∧ cval c ≠ q then
      if cval c = 92 then
        match cs with
        | [] =>
          -- the escaped byte is read behind the buffer
          if q = 34 then ([], 0, d + 1, m ++ [(d, 0)]) else ([], 0, d, m)
        | c2 :: cs2 =>
          let iv2 := if cval c2 = ch 'n' then 10 else cval c2
          if q = 34 then scanQuote q cs2 iv2 (d + 1) (m ++ [(d, iv2 % 256)])
          else scanQuote q cs2 iv2 d m
      else
        if q = 34 then scanQuote q cs (cval c) (d + 1) (m ++ [(d, cval c % 256)])
        else scanQuote q cs (cval c) d m
    else (c :: cs, iv, d, m)

/-- The identifier branch of `next()`: `pp = p - 1`, the hash loop, the
search of the symbol table and the entry of a new name; `pp` is the
position of the first character and `tk` its code.  The result is the new
`p`, `id`, `tk` and symbol table. -/
def lexId (sym : List Sym) (pp : List Nat) (tk : Int) : List Nat × Nat × Int × List Sym :=
  let r := scanId pp.tail tk
  let len := pp.length - r.1.length
  let h := wrap (wrap (r.2 * 64) + (len : Int))
  let f := symScan h pp len sym 0
  if f.2 then (r.1, f.1, (symAt sym f.1).Tk, sym)
  else (r.1, f.1, Tok.Id, symUpd sym f.1 (fun d => { d with Name := pp, Hash := h, Tk := Tok.Id }))

/-- The number branch of `next()`; `p` is the position after the first digit
and `tk` the code of that digit.  The result is the new `p` and `ival`. -/
def lexNum (p : List Nat) (tk : Int) : List Nat × Int :=
  if tk - ch '0' ≠ 0 then scanDec p (tk - ch '0')
  else if peek p = ch 'x' ∨ peek p = ch 'X' then scanHex p.tail 0
  else scanOct p 0

/-- The operator and punctuation branches of `next()`, from `tk == '='` to
the last line of the loop body; `p` is the position after the character
`tk`.  The result is the new `p` and `tk`, or `none` when no branch
returns, that is when the loop goes on to the next character. -/
def lexOp (p : List Nat) (tk : Int) : Option (List Nat × Int) :=
  if tk = ch '=' then (if peek p = ch '=' then some (p.tail, Tok.Eq) else some (p, Tok.Assign))
  else if tk = ch '+' then (if peek p = ch '+' then some (p.tail, Tok.Inc) else some (p, Tok.Add))
  else if tk = ch '-' then (if peek p = ch '-' then some (p.tail, Tok.Dec) else some (p, Tok.Sub))
  else if tk = ch '!' then (if peek p = ch '=' then some (p.tail, Tok.Ne) else some (p, tk))
  else if tk = ch '<' then
    (if peek p = ch '=' then some (p.tail, Tok.Le)
     else if peek p = ch '<' then some (p.tail, Tok.Shl) else some (p, Tok.Lt))
  else if tk = ch '>' then
    (if peek p = ch '=' then some (p.tail, Tok.Ge)
     else if peek p = ch '>' then some (p.tail, Tok.Shr) else some (p, Tok.Gt))
  else if tk = ch '|' then (if peek p = ch '|' then some (p.tail, Tok.Lor) else some (p, Tok.Or))
  else if tk = ch '&' then (if peek p = ch '&' then some (p.tail, Tok.Lan) else some (p, Tok.And))
  else if tk = ch '^' then some (p, Tok.Xor)
  else if tk = ch '%' then some (p, Tok.Mod)
  else if tk = ch '*' then some (p, Tok.Mul)
  else if tk = ch '[' then some (p, Tok.Brak)
  else if tk = ch '?' then some (p, Tok.Cond)
  else if tk = ch '~' ∨ tk = ch ';' ∨ tk = 123 ∨ tk = 125 ∨ tk = ch '(' ∨ tk = ch ')'
      ∨ tk = ch ']' ∨ tk = ch ',' ∨ tk = ch ':' then some (p, tk)
  else none

/-- The global variables `next()` reads or writes, `tk` apart: `tk` is
assigned at the head of the loop of `next()` before it is ever read, so
it is a result of the lexer only. -/
structure Lex where
  p : List Nat
  data : Int
  dmem : List (Int × Int)
  id : Nat
  sym : List Sym
  ival : Int
  line : Int
deriving DecidableEq, Repr

/-- The body of `next()`: the loop `while (tk = *p) { ++p; ... }` on the
variables of the lexer; the result is their new values and `tk`.  The
first argument bounds the number of turns of the loop, each of which
consumes a byte. -/
def nextL : Nat → Lex → Lex × Int
  | 0, l => (l, 0)
  | n + 1, l =>
    if peek l.p = 0 then (l, 0)
    else if peek l.p = 10 then nextL n { l with p := l.p.tail, line := l.line + 1 }
    else if peek l.p = ch '#' then nextL n { l with p := skipLine l.p.tail }
    else if isAlpha (peek l.p) then
      ({ l with p := (lexId l.sym l.p (peek l.p)).1, id := (lexId l.sym l.p (peek l.p)).2.1,
                sym := (lexId l.sym l.p (peek l.p)).2.2.2 }, (lexId l.sym l.p (peek l.p)).2.2.1)
    else if ch '0' ≤ peek l.p ∧ peek l.p ≤ ch '9' then
      ({ l with p := (lexNum l.p.tail (peek l.p)).1, ival := (lexNum l.p.tail (peek l.p)).2 }, Tok.Num)
    else if peek l.p = ch '/' then
      if peek l.p.tail = ch '/' then nextL n { l with p := skipLine l.p.tail.tail }
      else ({ l with p := l.p.tail }, Tok.Div)
    else if peek l.p = 39 then
      ({ l with p := (scanQuote 39 l.p.tail l.ival l.data l.dmem).1.tail,
                ival := (scanQuote 39 l.p.tail l.ival l.data l.dmem).2.1 }, Tok.Num)
    else if peek l.p = 34 then
      ({ l with p := (scanQuote 34 l.p.tail l.ival l.data l.dmem).1.tail, ival := l.data,
                data := (scanQuote 34 l.p.tail l.ival l.data l.dmem).2.2.1,
                dmem := (scanQuote 34 l.p.tail l.ival l.data l.dmem).2.2.2 }, 34)
    else
      match lexOp l.p.tail (peek l.p) with
      | some r => ({ l with p := r.1 }, r.2)
      | none => nextL n { l with p := l.p.tail }

/-- The variables of the lexer in a compiler state. -/
def CState.lex (s : CState) : Lex :=
  { p := s.p, data := s.data, dmem := s.dmem, id := s.id, sym := s.sym, ival := s.ival, line := s.line }

/-- A compiler state with new values of the variables of the lexer and of `tk`. -/
def CState.setLex (s : CState) (r : Lex × Int) : CState :=
  { s with p := r.1.p, data := r.1.data, dmem := r.1.dmem, id := r.1.id, sym := r.1.sym,
           ival := r.1.ival, line := r.1.line, tk := r.2 }

/-- The lexer `next()`: the loop runs at most once per remaining byte. -/
def next (s : CState) : CState := s.setLex (nextL (s.p.length + 1) s.lex)

/-! ## The expression parser: `expr(int lev)` -/

/-- The unsigned 64-bit representative of a word. -/
def toU (x : Int) : Nat := (x % two64).toNat

/-- Bitwise and of two words (`x & y` on 64-bit two's complement). -/
def band (x y : Int) : Int := wrap ((Nat.land (toU x) (toU y) : Nat) : Int)

/-- Bitwise or of two words. -/
def bor (x y : Int) : Int := wrap ((Nat.lor (toU x) (toU y) : Nat) : Int)

/-- Bitwise exclusive or of two words. -/
def bxor (x y : Int) : Int := wrap ((Nat.xor (toU x) (toU y) : Nat) : Int)

/-- The loop `while (tk == Mul) { next(); t = t + PTR; }`. -/
def stars : Nat → CState → Int → Res (CState × Int)
  | 0, _, _ => .fuel
  | n + 1, s, t => if s.tk = Tok.Mul then stars n (next s) (wrap (t + PTR)) else .ok (s, t)

/-- The loop `while (tk == '"') next();`. -/
def skipStrings : Nat → CState → Res CState
  | 0, _ => .fuel
  | n + 1, s => if s.tk = 34 then skipStrings n (next s) else .ok s

/-- The argument loop of a call,
`while (tk != ')') { expr(Assign); *++e = PSH; ++t; if (tk == ',') next(); }`. -/
def callArgs (ex : Int → CState → Res CState) : Nat → CState → Int → Res (CState × Int)
  | 0, _, _ => .fuel
  | n + 1, s, t =>
    if s.tk ≠ ch ')' then do
      let s1 ← ex Tok.Assign s
      let s2 := emit Op.PSH s1
      let s3 := if s2.tk = ch ',' then next s2 else s2
      callArgs ex n s3 (wrap (t + 1))
    else .ok (s, t)

/-- The type of `expr` as seen by its own branches: the recursive calls. -/
abbrev Ex := Int → CState → Res CState

/-- The branch `tk == Num` of `expr`. -/
def hdNum (s : CState) : Res CState :=
  .ok { next (emit s.ival (emit Op.IMM s)) with ty := INT }

/-- The branch `tk == '"'` of `expr`. -/
def hdStr (n : Nat) (s : CState) : Res CState := do
  let s1 ← skipStrings n (next (emit s.ival (emit Op.IMM s)))
  .ok { s1 with data := band (wrap (s1.data + sizeofInt)) (-sizeofInt), ty := PTR }

/-- The branch `tk == Sizeof` of `expr`. -/
def hdSizeof (n : Nat) (s : CState) : Res CState := do
  let s1 := next s
  let s2 ← if s1.tk = ch '(' then Res.ok (next s1) else fail s1 "open paren expected in sizeof"
  let s3 := { s2 with ty := INT }
  let s4 := if s3.tk = Tok.Int then next s3
            else if s3.tk = Tok.Char then { next s3 with ty := CHAR } else s3
  let r ← stars n s4 s4.ty
  let s5 := { r.1 with ty := r.2 }
  let s6 ← if s5.tk = ch ')' then Res.ok (next s5) else fail s5 "close paren expected in sizeof"
  .ok { emit (if s6.ty = CHAR then sizeofChar else sizeofInt) (emit Op.IMM s6) with ty := INT }

/-- The function call of the branch `tk == Id` of `expr`, from `next(); t = 0;`
on; `d` is the identifier and `s` the state at the `(`. -/
def hdCall (ex : Ex) (n : Nat) (d : Nat) (s : CState) : Res CState := do
  let r ← callArgs ex n (next s) 0
  let s2 := next r.1
  let s3 ← if (symAt s2.sym d).Class = Tok.Sys then Res.ok (emit (symAt s2.sym d).Val s2)
           else if (symAt s2.sym d).Class = Tok.Fun then
             Res.ok (emit (symAt s2.sym d).Val (emit Op.JSR s2))
           else fail s2 "bad function call"
  let s4 := if r.2 ≠ 0 then emit r.2 (emit Op.ADJ s3) else s3
  .ok { s4 with ty := (symAt s4.sym d).Typ }

/-- The variable reference of the branch `tk == Id` of `expr`; `d` is the
identifier and `s` the state after it. -/
def hdVar (d : Nat) (s : CState) : Res CState := do
  let s2 ← if (symAt s.sym d).Class = Tok.Loc then
             Res.ok (emit (wrap (s.loc - (symAt s.sym d).Val)) (emit Op.LEA s))
           else if (symAt s.sym d).Class = Tok.Glo then
             Res.ok (emit (symAt s.sym d).Val (emit Op.IMM s))
           else fail s "undefined variable"
  let s3 := { s2 with ty := (symAt s2.sym d).Typ }
  .ok (emit (if s3.ty = CHAR then Op.LC else Op.LI) s3)

/-- The branch `tk == Id` of `expr`. -/
def hdId (ex : Ex) (n : Nat) (s : CState) : Res CState :=
  if (next s).tk = ch '(' then hdCall ex n s.id (next s)
  else if (symAt (next s).sym s.id).Class = Tok.Num then
    .ok { emit (symAt (next s).sym s.id).Val (emit Op.IMM (next s)) with ty := INT }
  else hdVar s.id (next s)

/-- The cast of the branch `tk == '('` of `expr`; `s` is the state at the
type name. -/
def hdCast (ex : Ex) (n : Nat) (s : CState) : Res CState := do
  let r ← stars n (next s) (if s.tk = Tok.Int then INT else CHAR)
  let s2 ← if r.1.tk = ch ')' then Res.ok (next r.1) else fail r.1 "bad cast"
  let s3 ← ex Tok.Inc s2
  .ok { s3 with ty := r.2 }

/-- The branch `tk == '('` of `expr`. -/
def hdParen (ex : Ex) (n : Nat) (s : CState) : Res CState :=
  if (next s).tk = Tok.Int ∨ (next s).tk = Tok.Char then hdCast ex n (next s)
  else do
    let s2 ← ex Tok.Assign (next s)
    if s2.tk = ch ')' then .ok (next s2) else fail s2 "close paren expected"

/-- The branch `tk == Mul` of `expr` (dereference). -/
def hdDeref (ex : Ex) (s : CState) : Res CState := do
  let s1 ← ex Tok.Inc (next s)
  let s2 ← if s1.ty > INT then Res.ok { s1 with ty := s1.ty - PTR } else fail s1 "bad dereference"
  .ok (emit (if s2.ty = CHAR then Op.LC else Op.LI) s2)

/-- The branch `tk == And` of `expr` (address-of). -/
def hdAddr (ex : Ex) (s : CState) : Res CState := do
  let s1 ← ex Tok.Inc (next s)
  let s2 ← if lastE s1 = Op.LC ∨ lastE s1 = Op.LI then Res.ok { s1 with e := s1.e.dropLast }
           else fail s1 "bad address-of"
  .ok { s2 with ty := wrap (s2.ty + PTR) }

/-- The branch `tk == '!'` of `expr`. -/
def hdNot (ex : Ex) (s : CState) : Res CState := do
  let s1 ← ex Tok.Inc (next s)
  .ok { emit Op.EQ (emit 0 (emit Op.IMM (emit Op.PSH s1))) with ty := INT }

/-- The branch `tk == '~'` of `expr`. -/
def hdCompl (ex : Ex) (s : CState) : Res CState := do
  let s1 ← ex Tok.Inc (next s)
  .ok { emit Op.XOR (emit (-1) (emit Op.IMM (emit Op.PSH s1))) with ty := INT }

/-- The branch `tk == Add` of `expr` (unary plus). -/
def hdPlus (ex : Ex) (s : CState) : Res CState := do
  let s1 ← ex Tok.Inc (next s)
  .ok { s1 with ty := INT }

/-- The branch `tk == Sub` of `expr` (unary minus). -/
def hdMinus (ex : Ex) (s : CState) : Res CState := do
  let s1 := emit Op.IMM (next s)
  let s2 ← if s1.tk = Tok.Num then Res.ok (next (emit (wrap (-s1.ival)) s1))
           else do
             let s3 ← ex Tok.Inc (emit Op.PSH (emit (-1) s1))
             Res.ok (emit Op.MUL s3)
  .ok { s2 with ty := INT }

/-- The lines `if (*e == LC) { *e = PSH; *++e = LC; } else if (*e == LI)
{ *e = PSH; *++e = LI; } else { printf(msg); exit(-1); }` shared by the
prefix and postfix increments. -/
def dupLoad (msg : String) (s : CState) : Res CState :=
  if lastE s = Op.LC then .ok (emit Op.LC (setLastE Op.PSH s))
  else if lastE s = Op.LI then .ok (emit Op.LI (setLastE Op.PSH s))
  else fail s msg

/-- The branch `tk == Inc || tk == Dec` of `expr` (pre-increment). -/
def hdPreInc (ex : Ex) (s : CState) : Res CState := do
  let s1 ← ex Tok.Inc (next s)
  let s2 ← dupLoad "bad lvalue in pre-increment" s1
  let s4 := emit (if s2.ty > PTR then sizeofInt else sizeofChar) (emit Op.IMM (emit Op.PSH s2))
  let s5 := emit (if s.tk = Tok.Inc then Op.ADD else Op.SUB) s4
  .ok (emit (if s5.ty = CHAR then Op.SC else Op.SI) s5)

/-- The first part of `expr`: the chain of `if`/`else if` on the current
token, up to the loop `while (tk >= lev)`.  `ex` is `expr` itself (the
recursive calls), `n` bounds the inner loops. -/
def exprHead (ex : Ex) (n : Nat) (s : CState) : Res CState :=
  if s.tk = 0 then fail s "unexpected eof in expression"
  else if s.tk = Tok.Num then hdNum s
  else if s.tk = 34 then hdStr n s
  else if s.tk = Tok.Sizeof then hdSizeof n s
  else if s.tk = Tok.Id then hdId ex n s
  else if s.tk = ch '(' then hdParen ex n s
  else if s.tk = Tok.Mul then hdDeref ex s
  else if s.tk = Tok.And then hdAddr ex s
  else if s.tk = ch '!' then hdNot ex s
  else if s.tk = ch '~' then hdCompl ex s
  else if s.tk = Tok.Add then hdPlus ex s
  else if s.tk = Tok.Sub then hdMinus ex s
  else if s.tk = Tok.Inc ∨ s.tk = Tok.Dec then hdPreInc ex s
  else fail s "bad expression"

/-- The branch `tk == Assign` of the loop of `expr`. -/
def opAssign (ex : Ex) (s : CState) : Res CState := do
  let s2 ← if lastE (next s) = Op.LC ∨ lastE (next s) = Op.LI then Res.ok (setLastE Op.PSH (next s))
           else fail (next s) "bad lvalue in assignment"
  let s3 ← ex Tok.Assign s2
  let s4 := { s3 with ty := s.ty }
  .ok (emit (if s4.ty = CHAR then Op.SC else Op.SI) s4)

/-- The branch `tk == Cond` of the loop of `expr`. -/
def opCond (ex : Ex) (s : CState) : Res CState := do
  let s1 ← ex Tok.Assign (hole (emit Op.BZ (next s))).1
  let s2 ← if s1.tk = ch ':' then Res.ok (next s1) else fail s1 "conditional missing colon"
  let s3 ← ex Tok.Cond (hole (emit Op.JMP (patch (hole (emit Op.BZ (next s))).2 (addrE s2 3) s2))).1
  .ok (patch (hole (emit Op.JMP (patch (hole (emit Op.BZ (next s))).2 (addrE s2 3) s2))).2 (addrE s3 1) s3)

/-- The branches `tk == Lor` and `tk == Lan` of the loop of `expr`, with the
opcode `BNZ` or `BZ` and the level `Lan` or `Or`: `next(); *++e = op;
d = ++e; expr(lev); *d = (int)(e + 1); ty = INT;`. -/
def opJump (ex : Ex) (lev op : Int) (s : CState) : Res CState := do
  let s1 ← ex lev (hole (emit op (next s))).1
  .ok { patch (hole (emit op (next s))).2 (addrE s1 1) s1 with ty := INT }

/-- The lines `next(); *++e = PSH; expr(lev); *++e = op; ty = INT;` shared by
the bitwise, comparison, shift and multiplicative operators. -/
def binop (ex : Ex) (lev op : Int) (s : CState) : Res CState := do
  let s1 ← ex lev (emit Op.PSH (next s))
  .ok { emit op s1 with ty := INT }

/-- The lines `*++e = PSH; *++e = IMM; *++e = sizeof(int); *++e = MUL;`. -/
def scale (s : CState) : CState := emit Op.MUL (emit sizeofInt (emit Op.IMM (emit Op.PSH s)))

/-- The branch `tk == Add` of the loop of `expr`. -/
def opAdd (ex : Ex) (s : CState) : Res CState := do
  let s1 ← ex Tok.Mul (emit Op.PSH (next s))
  .ok (emit Op.ADD (if s.ty > PTR then scale { s1 with ty := s.ty } else { s1 with ty := s.ty }))

/-- The branch `tk == Sub` of the loop of `expr`. -/
def opSub (ex : Ex) (s : CState) : Res CState := do
  let s1 ← ex Tok.Mul (emit Op.PSH (next s))
  if s.ty > PTR ∧ s.ty = s1.ty then
    .ok { emit Op.DIV (emit sizeofInt (emit Op.IMM (emit Op.PSH (emit Op.SUB s1)))) with ty := INT }
  else if s.ty > PTR then .ok (emit Op.SUB (scale { s1 with ty := s.ty }))
  else .ok (emit Op.SUB { s1 with ty := s.ty })

/-- The branch `tk == Inc || tk == Dec` of the loop of `expr` (post-increment). -/
def opPost (s : CState) : Res CState := do
  let s1 ← dupLoad "bad lvalue in post-increment" s
  let s2 := emit (if s1.ty > PTR then sizeofInt else sizeofChar) (emit Op.IMM (emit Op.PSH s1))
  let s3 := emit (if s2.tk = Tok.Inc then Op.ADD else Op.SUB) s2
  let s4 := emit (if s3.ty = CHAR then Op.SC else Op.SI) s3
  let s5 := emit (if s4.ty > PTR then sizeofInt else sizeofChar) (emit Op.IMM (emit Op.PSH s4))
  .ok (next (emit (if s5.tk = Tok.Inc then Op.SUB else Op.ADD) s5))

/-- The branch `tk == Brak` of the loop of `expr`. -/
def opBrak (ex : Ex) (s : CState) : Res CState := do
  let s1 ← ex Tok.Assign (emit Op.PSH (next s))
  let s2 ← if s1.tk = ch ']' then Res.ok (next s1) else fail s1 "close bracket expected"
  let s3 ← if s.ty > PTR then Res.ok (scale s2)
           else if s.ty < PTR then fail s2 "pointer type expected"
           else Res.ok s2
  let s4 := { emit Op.ADD s3 with ty := s.ty - PTR }
  .ok (emit (if s4.ty = CHAR then Op.LC else Op.LI) s4)

/-- One turn of the loop `while (tk >= lev)` of `expr`: the chain of
`if`/`else if` on the operator token (`t = ty` is `s.ty`). -/
def exprStep (ex : Ex) (s : CState) : Res CState :=
  if s.tk = Tok.Assign then opAssign ex s
  else if s.tk = Tok.Cond then opCond ex s
  else if s.tk = Tok.Lor then opJump ex Tok.Lan Op.BNZ s
  else if s.tk = Tok.Lan then opJump ex Tok.Or Op.BZ s
  else if s.tk = Tok.Or then binop ex Tok.Xor Op.OR s
  else if s.tk = Tok.Xor then binop ex Tok.And Op.XOR s
  else if s.tk = Tok.And then binop ex Tok.Eq Op.AND s
  else if s.tk = Tok.Eq then binop ex Tok.Lt Op.EQ s
  else if s.tk = Tok.Ne then binop ex Tok.Lt Op.NE s
  else if s.tk = Tok.Lt then binop ex Tok.Shl Op.LT s
  else if s.tk = Tok.Gt then binop ex Tok.Shl Op.GT s
  else if s.tk = Tok.Le then binop ex Tok.Shl Op.LE s
  else if s.tk = Tok.Ge then binop ex Tok.Shl Op.GE s
  else if s.tk = Tok.Shl then binop ex Tok.Add Op.SHL s
  else if s.tk = Tok.Shr then binop ex Tok.Add Op.SHR s
  else if s.tk = Tok.Add then opAdd ex s
  else if s.tk = Tok.Sub then opSub ex s
  else if s.tk = Tok.Mul then binop ex Tok.Inc Op.MUL s
  else if s.tk = Tok.Div then binop ex Tok.Inc Op.DIV s
  else if s.tk = Tok.Mod then binop ex Tok.Inc Op.MOD s
  else if s.tk = Tok.Inc ∨ s.tk = Tok.Dec then opPost s
  else if s.tk = Tok.Brak then opBrak ex s
  else fail s "compiler error tk"

/-- The loop `while (tk >= lev) { ... }` of `expr`. -/
def exprLoop (ex : Ex) : Nat → Int → CState → Res CState
  | 0, _, _ => .fuel
  | n + 1, lev, s =>
    if s.tk ≥ lev then do
      let s1 ← exprStep ex s
      exprLoop ex n lev s1
    else .ok s

/-- The function `expr(int lev)`.  The first argument bounds the depth of
the recursion and the number of turns of each loop. -/
def expr : Nat → Int → CState → Res CState
  | 0, _, _ => .fuel
  | n + 1, lev, s => do
    let s1 ← exprHead (expr n) n s
    exprLoop (expr n) n lev s1

/-! ## The statement parser: `stmt()` -/

/-- The type of `stmt` as seen by its own branches. -/
abbrev St := CState → Res CState

/-- The loop `while (tk != '}') stmt();`. -/
def stmtBlock (st : St) : Nat → CState → Res CState
  | 0, _ => .fuel
  | n + 1, s =>
    if s.tk ≠ 125 then do
      let s1 ← st s
      stmtBlock st n s1
    else .ok s

/-- The lines `if (tk == '(') next(); else { ... exit(-1); } expr(Assign);
if (tk == ')') next(); else { ... exit(-1); }` of `if` and `while`; `ex` is
`expr`. -/
def parenExpr (ex : Ex) (s : CState) : Res CState := do
  let s2 ← if s.tk = ch '(' then Res.ok (next s) else fail s "open paren expected"
  let s3 ← ex Tok.Assign s2
  if s3.tk = ch ')' then .ok (next s3) else fail s3 "close paren expected"

/-- The branch `tk == If` of `stmt`. -/
def stIf (ex : Ex) (st : St) (s : CState) : Res CState := do
  let s4 ← parenExpr ex (next s)
  let s5 ← st (hole (emit Op.BZ s4)).1
  if s5.tk = Tok.Else then do
    let s6 ← st (next (hole (emit Op.JMP (patch (hole (emit Op.BZ s4)).2 (addrE s5 3) s5))).1)
    .ok (patch (hole (emit Op.JMP (patch (hole (emit Op.BZ s4)).2 (addrE s5 3) s5))).2 (addrE s6 1) s6)
  else .ok (patch (hole (emit Op.BZ s4)).2 (addrE s5 1) s5)

/-- The branch `tk == While` of `stmt`; `a = e + 1` is `addrE (next s) 1`. -/
def stWhile (ex : Ex) (st : St) (s : CState) : Res CState := do
  let s4 ← parenExpr ex (next s)
  let s5 ← st (hole (emit Op.BZ s4)).1
  let s6 := emit (addrE (next s) 1) (emit Op.JMP s5)
  .ok (patch (hole (emit Op.BZ s4)).2 (addrE s6 1) s6)

/-- The branch `tk == Return` of `stmt`. -/
def stReturn (ex : Ex) (s : CState) : Res CState := do
  let s2 ← if (next s).tk ≠ ch ';' then ex Tok.Assign (next s) else Res.ok (next s)
  if (emit Op.LEV s2).tk = ch ';' then .ok (next (emit Op.LEV s2))
  else fail (emit Op.LEV s2) "semicolon expected"

/-- The last branch of `stmt`: an expression statement. -/
def stExpr (ex : Ex) (s : CState) : Res CState := do
  let s1 ← ex Tok.Assign s
  if s1.tk = ch ';' then .ok (next s1) else fail s1 "semicolon expected"

/-- The function `stmt()`.  The first argument bounds the depth of the
recursion and is handed to `expr`. -/
def stmt : Nat → CState → Res CState
  | 0, _ => .fuel
  | n + 1, s =>
    if s.tk = Tok.If then stIf (expr n) (stmt n) s
    else if s.tk = Tok.While then stWhile (expr n) (stmt n) s
    else if s.tk = Tok.Return then stReturn (expr n) s
    else if s.tk = 123 then do
      let s1 ← stmtBlock (stmt n) n (next s)
      .ok (next s1)
    else if s.tk = ch ';' then .ok (next s)
    else stExpr (expr n) s

/-! ## The declaration parser of `main()` -/

/-- The addresses returned by `malloc` for the text area, the data area and
the stack area. -/
structure Layout where
  text : Int
  data : Int
  stack : Int
deriving DecidableEq, Repr

/-- The enum loop `while (tk != '}') { ... }` with its counter `i`. -/
def enumLoop : Nat → CState → Int → Res CState
  | 0, _, _ => .fuel
  | n + 1, s, i =>
    if s.tk ≠ 125 then
      if s.tk ≠ Tok.Id then fail s "bad enum identifier"
      else do
        let s1 := next s
        let r ← if s1.tk = Tok.Assign then
                  let s2 := next s1
                  if s2.tk ≠ Tok.Num then fail s2 "bad enum initializer"
                  else Res.ok (next s2, s2.ival)
                else Res.ok (s1, i)
        let s3 := r.1.setCur (fun d => { d with Class := Tok.Num, Typ := INT, Val := r.2 })
        let s4 := if s3.tk = ch ',' then next s3 else s3
        enumLoop n s4 (wrap (r.2 + 1))
    else .ok s

/-- The lines `id[HClass] = id[Class]; id[Class] = Loc; id[HType] = id[Type];
id[Type] = ty; id[HVal] = id[Val]; id[Val] = v;` that register a parameter or
a local and save the binding it shadows. -/
def shadow (ty v : Int) (d : Sym) : Sym :=
  { d with HClass := d.Class, Class := Tok.Loc, HTyp := d.Typ, Typ := ty, HVal := d.Val, Val := v }

/-- The parameter loop `while (tk != ')') { ... }` with its counter `i`. -/
def paramLoop : Nat → CState → Int → Res (CState × Int)
  | 0, _, _ => .fuel
  | n + 1, s, i =>
    if s.tk ≠ ch ')' then do
      let s1 := if s.tk = Tok.Int then (next s, INT)
                else if s.tk = Tok.Char then (next s, CHAR) else (s, INT)
      let r ← stars n s1.1 s1.2
      if r.1.tk ≠ Tok.Id then fail r.1 "bad parameter declaration"
      else if r.1.cur.Class = Tok.Loc then fail r.1 "duplicate parameter definition"
      else
        let s2 := next (r.1.setCur (shadow r.2 i))
        let s3 := if s2.tk = ch ',' then next s2 else s2
        paramLoop n s3 (wrap (i + 1))
    else .ok (s, i)

/-- The inner loop of a local declaration, `while (tk != ';') { ... }`, for
the base type `bt`, with the counter `i`. -/
def localDecl (bt : Int) : Nat → CState → Int → Res (CState × Int)
  | 0, _, _ => .fuel
  | n + 1, s, i =>
    if s.tk ≠ ch ';' then do
      let r ← stars n s bt
      if r.1.tk ≠ Tok.Id then fail r.1 "bad local declaration"
      else if r.1.cur.Class = Tok.Loc then fail r.1 "duplicate local definition"
      else
        let s2 := next (r.1.setCur (shadow r.2 (wrap (i + 1))))
        let s3 := if s2.tk = ch ',' then next s2 else s2
        localDecl bt n s3 (wrap (i + 1))
    else .ok (s, i)

/-- The loop over local declarations, `while (tk == Int || tk == Char) { ... }`:
the result carries the counter `i` and the last base type `bt`. -/
def localLoop : Nat → CState → Int → Int → Res (CState × Int × Int)
  | 0, _, _, _ => .fuel
  | n + 1, s, i, bt =>
    if s.tk = Tok.Int ∨ s.tk = Tok.Char then do
      let bt1 := if s.tk = Tok.Int then INT else CHAR
      let r ← localDecl bt1 n (next s) i
      localLoop n (next r.1) r.2 bt1
    else .ok (s, i, bt)

/-- The loop `while (id[Tk]) { if (id[Class] == Loc) { id[Class] = id[HClass];
id[Type] = id[HType]; id[Val] = id[HVal]; } id = id + Idsz; }` over the
records from `id` on. -/
def restoreLocals : List Sym → List Sym
  | [] => []
  | d :: ds =>
    if d.Tk = 0 then d :: ds
    else (if d.Class = Tok.Loc then { d with Class := d.HClass, Typ := d.HTyp, Val := d.HVal } else d)
      :: restoreLocals ds

/-- The number of records the loop of `restoreLocals` walks over. -/
def symEnd : List Sym → Nat
  | [] => 0
  | d :: ds => if d.Tk = 0 then 0 else symEnd ds + 1

/-- A function definition, from the token after the name (`tk == '('`) to
the restoration of the symbol table; the result carries `bt`. -/
def funcDef (n : Nat) (s : CState) (bt : Int) : Res (CState × Int) := do
  let s1 := s.setCur (fun d => { d with Class := Tok.Fun })
  let s2 := s1.setCur (fun d => { d with Val := addrE s1 1 })
  let r ← paramLoop n (next s2) 0
  let s3 := next r.1
  if s3.tk ≠ 123 then fail s3 "bad function definition"
  else do
    let i := wrap (r.2 + 1)
    let s4 := next { s3 with loc := i }
    let l ← localLoop n s4 i bt
    let s5 := emit (wrap (l.2.1 - l.1.loc)) (emit Op.ENT l.1)
    let s6 ← stmtBlock (stmt n) n s5
    let s7 := emit Op.LEV s6
    .ok ({ s7 with sym := restoreLocals s7.sym, id := symEnd s7.sym }, l.2.2)

/-- The declarator loop `while (tk != ';' && tk != '}') { ... }` for the
base type `bt`. -/
def declLoop : Nat → CState → Int → Res CState
  | 0, _, _ => .fuel
  | n + 1, s, bt =>
    if s.tk ≠ ch ';' ∧ s.tk ≠ 125 then do
      let r ← stars n s bt
      if r.1.tk ≠ Tok.Id then fail r.1 "bad global declaration"
      else if r.1.cur.Class ≠ 0 then fail r.1 "duplicate global definition"
      else do
        let s1 := next r.1
        let s2 := s1.setCur (fun d => { d with Typ := r.2 })
        let f ← if s2.tk = ch '(' then funcDef n s2 bt
                else
                  let s3 := s2.setCur (fun d => { d with Class := Tok.Glo })
                  let s4 := s3.setCur (fun d => { d with Val := s3.data })
                  Res.ok ({ s4 with data := s4.data + sizeofInt }, bt)
        let s5 := if f.1.tk = ch ',' then next f.1 else f.1
        declLoop n s5 f.2
    else .ok s

/-- The loop `while (tk) { ... }` over the top-level declarations. -/
def topLoop : Nat → CState → Res CState
  | 0, _ => .fuel
  | n + 1, s =>
    if s.tk ≠ 0 then do
      let s1 ← if s.tk = Tok.Int then Res.ok (next s, INT)
               else if s.tk = Tok.Char then Res.ok (next s, CHAR)
               else if s.tk = Tok.Enum then do
                 let s2 := next s
                 let s3 := if s2.tk ≠ 123 then next s2 else s2
                 if s3.tk = 123 then do
                   let s4 ← enumLoop n (next s3) 0
                   Res.ok (next s4, INT)
                 else Res.ok (s3, INT)
               else Res.ok (s, INT)
      let s5 ← declLoop n s1.1 s1.2
      topLoop n (next s5)
    else .ok s

/-- The text the symbol table is seeded from. -/
def keywords : List Nat :=
  bytes "char else enum if int return sizeof while open read close printf malloc free memset memcmp exit void main"

/-- The state after the keywords and library functions have been entered
(`idmain` is `id` in the result). -/
def initState (L : Layout) : CState :=
  let s0 : CState := { p := keywords ++ [0], data := L.data, ebase := L.text }
  -- i = Char; while (i <= While) { next(); id[Tk] = i++; }
  let s1 := (List.range 8).foldl
    (fun s k => (next s).setCur (fun d => { d with Tk := Tok.Char + (k : Int) })) s0
  -- i = OPEN; while (i <= EXIT) { next(); id[Class] = Sys; id[Type] = INT; id[Val] = i++; }
  let s2 := (List.range 9).foldl
    (fun s k => (next s).setCur
      (fun d => { d with Class := Tok.Sys, Typ := INT, Val := Op.OPEN + (k : Int) })) s1
  let s3 := (next s2).setCur (fun d => { d with Tk := Tok.Char })
  next s3

/-- The compiler: the part of `main()` from the allocation of the pools to
the end of the declaration loop, on the bytes `src` read from the file.  The
result is the final state and `idmain`. -/
def compile (L : Layout) (src : List Nat) (fuel : Nat) : Res (CState × Nat) :=
  let s0 := initState L
  let idmain := s0.id
  if src.length = 0 then .exit (-1) 0 "read() returned"
  else do
    let s1 := next { s0 with p := src.take (poolsz.toNat - 1) ++ [0], line := 1 }
    let s2 ← topLoop fuel s1
    .ok (s2, idmain)

/-! ## The virtual machine of `main()` -/

/-- The memory of the process: a byte (0 to 255) at every address. -/
abbrev Mem := Int → Int

/-- The read `*(int *)a`: eight bytes, little-endian, as a signed word. -/
def loadInt (m : Mem) (a : Int) : Int :=
  wrap (m a % 256 + (m (a + 1) % 256) * 256 + (m (a + 2) % 256) * 256 ^ 2 + (m (a + 3) % 256) * 256 ^ 3
    + (m (a + 4) % 256) * 256 ^ 4 + (m (a + 5) % 256) * 256 ^ 5 + (m (a + 6) % 256) * 256 ^ 6
    + (m (a + 7) % 256) * 256 ^ 7)

/-- The store `*(int *)a = v`. -/
def storeInt (m : Mem) (a : Int) (v : Int) : Mem :=
  fun x => if a ≤ x ∧ x < a + 8 then (v / 256 ^ (x - a).toNat) % 256 else m x

/-- The read `*(char *)a` (a signed char). -/
def loadChar (m : Mem) (a : Int) : Int := cval (m a % 256).toNat

/-- The store `*(char *)a = v`. -/
def storeChar (m : Mem) (a : Int) (v : Int) : Mem :=
  fun x => if x = a then v % 256 else m x

/-- The registers of the virtual machine and the memory. -/
structure VM where
  pc : Int
  sp : Int
  bp : Int
  a : Int
  mem : Mem

/-- Result of one turn of the interpreter loop: the machine goes on, `main`
returns a status, or the instruction calls into the host (`open`, `read`,
`close`, `printf`, `malloc`, `free`, `memset`, `memcmp`), which the model
does not follow, or the behaviour of the C program is undefined there
(division by zero). -/
inductive Step where
  | cont (s : VM)
  | halt (status : Int)
  | host (i : Int) (s : VM)
  | fault

/-- The instruction `a = *sp++ op a` for a total binary operation. -/
def alu (s : VM) (pc : Int) (f : Int → Int → Int) : Step :=
  .cont { s with pc := pc, sp := wrap (s.sp + 8), a := f (loadInt s.mem s.sp) s.a }

/-- One turn of the loop `while (1) { i = *pc++; ... }`. -/
def step (s : VM) : Step :=
  let i := loadInt s.mem s.pc
  let pc := wrap (s.pc + 8)
  if i = Op.LEA then .cont { s with pc := wrap (pc + 8), a := wrap (s.bp + 8 * loadInt s.mem pc) }
  else if i = Op.IMM then .cont { s with pc := wrap (pc + 8), a := loadInt s.mem pc }
  else if i = Op.JMP then .cont { s with pc := loadInt s.mem pc }
  else if i = Op.JSR then
    .cont { s with pc := loadInt s.mem pc, sp := wrap (s.sp - 8),
                   mem := storeInt s.mem (wrap (s.sp - 8)) (wrap (pc + 8)) }
  else if i = Op.BZ then .cont { s with pc := if s.a ≠ 0 then wrap (pc + 8) else loadInt s.mem pc }
  else if i = Op.BNZ then .cont { s with pc := if s.a ≠ 0 then loadInt s.mem pc else wrap (pc + 8) }
  else if i = Op.ENT then
    .cont { s with pc := wrap (pc + 8), bp := wrap (s.sp - 8),
                   sp := wrap (wrap (s.sp - 8) - 8 * loadInt s.mem pc),
                   mem := storeInt s.mem (wrap (s.sp - 8)) s.bp }
  else if i = Op.ADJ then .cont { s with pc := wrap (pc + 8), sp := wrap (s.sp + 8 * loadInt s.mem pc) }
  else if i = Op.LEV then
    .cont { s with sp := wrap (wrap (s.bp + 8) + 8), bp := loadInt s.mem s.bp,
                   pc := loadInt s.mem (wrap (s.bp + 8)) }
  else if i = Op.LI then .cont { s with pc := pc, a := loadInt s.mem s.a }
  else if i = Op.LC then .cont { s with pc := pc, a := loadChar s.mem s.a }
  else if i = Op.SI then
    .cont { s with pc := pc, sp := wrap (s.sp + 8), mem := storeInt s.mem (loadInt s.mem s.sp) s.a }
  else if i = Op.SC then
    .cont { s with pc := pc, sp := wrap (s.sp + 8), a := cval (s.a % 256).toNat,
                   mem := storeChar s.mem (loadInt s.mem s.sp) s.a }
  else if i = Op.PSH then
    .cont { s with pc := pc, sp := wrap (s.sp - 8), mem := storeInt s.mem (wrap (s.sp - 8)) s.a }
  else if i = Op.OR then alu s pc bor
  else if i = Op.XOR then alu s pc bxor
  else if i = Op.AND then alu s pc band
  else if i = Op.EQ then alu s pc (fun x y => if x = y then 1 else 0)
  else if i = Op.NE then alu s pc (fun x y => if x ≠ y then 1 else 0)
  else if i = Op.LT then alu s pc (fun x y => if x < y then 1 else 0)
  else if i = Op.GT then alu s pc (fun x y => if x > y then 1 else 0)
  else if i = Op.LE then alu s pc (fun x y => if x ≤ y then 1 else 0)
  else if i = Op.GE then alu s pc (fun x y => if x ≥ y then 1 else 0)
  else if i = Op.SHL then
    if 0 ≤ s.a ∧ s.a < 64 then alu s pc (fun x y => wrap (x * 2 ^ y.toNat)) else .fault
  else if i = Op.SHR then
    if 0 ≤ s.a ∧ s.a < 64 then alu s pc (fun x y => x / 2 ^ y.toNat) else .fault
  else if i = Op.ADD then alu s pc (fun x y => wrap (x + y))
  else if i = Op.SUB then alu s pc (fun x y => wrap (x - y))
  else if i = Op.MUL then alu s pc (fun x y => wrap (x * y))
  else if i = Op.DIV then
    if s.a = 0 ∨ (s.a = -1 ∧ loadInt s.mem s.sp = -two63) then .fault
    else alu s pc (fun x y => Int.tdiv x y)
  else if i = Op.MOD then
    if s.a = 0 ∨ (s.a = -1 ∧ loadInt s.mem s.sp = -two63) then .fault
    else alu s pc (fun x y => Int.tmod x y)
  else if i = Op.OPEN ∨ i = Op.READ ∨ i = Op.CLOS ∨ i = Op.PRTF ∨ i = Op.MALC ∨ i = Op.FREE
      ∨ i = Op.MSET ∨ i = Op.MCMP then .host i { s with pc := pc }
  else if i = Op.EXIT then .halt (loadInt s.mem s.sp)
  else .halt (-1)

/-- Result of a run of the interpreter. -/
inductive Outcome where
  | halt (status : Int)
  | host (i : Int)
  | fault
  | fuel
deriving DecidableEq, Repr

/-- The interpreter loop, for at most the given number of instructions. -/
def run : Nat → VM → Outcome
  | 0, _ => .fuel
  | n + 1, s =>
    match step s with
    | .cont s1 => run n s1
    | .halt c => .halt c
    | .host i _ => .host i
    | .fault => .fault

/-- The byte at offset `k` of the text area once the words `e` have been
stored after the `memset`. -/
def textByte (e : List Int) (k : Int) : Int :=
  if 8 ≤ k then (e.getD ((k / 8).toNat - 1) 0 / 256 ^ (k % 8).toNat) % 256 else 0

/-- The last byte stored at address `x` by the stores `dmem`, 0 if there is none. -/
def dataByte (dmem : List (Int × Int)) (x : Int) : Int :=
  match dmem.reverse.find? (fun w => decide (w.1 = x)) with
  | some w => w.2
  | none => 0

/-- The memory when the interpreter starts: the text area holds the emitted
words, the data area the bytes of the string literals, both zero elsewhere
(`memset`); `m0` is the contents of the rest of the memory (the stack area is
not initialised). -/
def image (L : Layout) (st : CState) (m0 : Mem) : Mem :=
  fun x =>
    if L.text ≤ x ∧ x < L.text + poolsz then textByte st.e (x - L.text)
    else if L.data ≤ x ∧ x < L.data + poolsz then dataByte st.dmem x
    else m0 x

/-- The machine at the entry of the interpreter loop: the lines
`bp = sp = (int *)((int)sp + poolsz); *--sp = EXIT; *--sp = PSH; t = sp;
*--sp = argc; *--sp = (int)argv; *--sp = (int)t;` with `pc` at `main`. -/
def boot (L : Layout) (st : CState) (pc argc argv : Int) (m0 : Mem) : VM :=
  let top := L.stack + poolsz
  let m1 := storeInt (image L st m0) (top - 8) Op.EXIT
  let m2 := storeInt m1 (top - 16) Op.PSH
  let m3 := storeInt m2 (top - 24) argc
  let m4 := storeInt m3 (top - 32) argv
  let m5 := storeInt m4 (top - 40) (top - 16)
  { pc := pc, sp := top - 40, bp := top, a := 0, mem := m5 }

/-- The program `main()` without its command line and file handling: compile
the bytes `src` of the source file, then interpret.  `argc` and `argv` are
the values left after the options have been consumed, `m0` the contents
of the memory `malloc` hands out, `fuel` bounds the compiler loops and
`cycles` the number of instructions interpreted. -/
def main (L : Layout) (src : List Nat) (argc argv : Int) (m0 : Mem) (fuel cycles : Nat) : Outcome :=
  match compile L src fuel with
  | .fuel => .fuel
  | .exit c _ _ => .halt c
  | .ok r =>
    let pc := (symAt r.1.sym r.2).Val
    if pc = 0 then .halt (-1)
    else run cycles (boot L r.1 pc argc argv m0)

end C4


namespace C4

/-! ## Definitions used by the statements -/

/-- The signed 64-bit range. -/
def InRange (x : Int) : Prop := -two63 ≤ x ∧ x < two63

instance (x : Int) : Decidable (InRange x) := by unfold InRange; infer_instance

/-- Fuel order on results: `r` is out of fuel, or it is `r1`. -/
def Res.le {α : Type} (r r1 : Res α) : Prop := r = .fuel ∨ r = r1

/-- Pointwise fuel order on the recursive calls. -/
def Ex.le (ex ex1 : Ex) : Prop := ∀ lev s, (ex lev s).le (ex1 lev s)

/-- The result of `expr` at a level, once enough fuel is given. -/
def ExprTo (lev : Int) (s : CState) (r : Res CState) : Prop :=
  r ≠ .fuel ∧ ∃ N, ∀ m, N ≤ m → expr m lev s = r

/-- The result of the loop of `expr` at a level, once enough fuel is given. -/
def LoopTo (lev : Int) (s : CState) (r : Res CState) : Prop :=
  r ≠ .fuel ∧ ∃ N, ∀ m, N ≤ m → exprLoop (expr m) m lev s = r

/-- The result of one turn of the loop of `expr`, once enough fuel is given. -/
def StepTo (s : CState) (r : Res CState) : Prop :=
  r ≠ .fuel ∧ ∃ N, ∀ m, N ≤ m → exprStep (expr m) s = r

/-- The result of the first part of `expr`, once enough fuel is given. -/
def HeadTo (s : CState) (r : Res CState) : Prop :=
  r ≠ .fuel ∧ ∃ N, ∀ m, N ≤ m → exprHead (expr m) m s = r

/-- A character that reaches the operator branches of `next()`: not the
terminator, a newline, `#`, a letter or underscore, a digit, `/` or a quote. -/
def isOpChar (c : Nat) : Bool :=
  decide (¬ cval c = 0) && decide (¬ cval c = 10) && decide (¬ cval c = ch '#')
    && decide (isAlpha (cval c) = false) && decide (¬ (ch '0' ≤ cval c ∧ cval c ≤ ch '9'))
    && decide (¬ cval c = ch '/') && decide (¬ cval c = 39) && decide (¬ cval c = 34)

/-- The decimal digits of a number, most significant first, as characters. -/
def digits (n : Nat) : List Nat :=
  if n = 0 then [48] else ((Nat.digits 10 n).reverse.map (fun d => d + 48))

/-- The text `rest` does not go on a number: it does not begin with a digit,
`x` or `X`. -/
def NoDigit (rest : List Nat) : Prop :=
  ¬ (48 ≤ peek rest ∧ peek rest ≤ 57) ∧ peek rest ≠ 120 ∧ peek rest ≠ 88

/-- Arithmetic expressions over decimal literals, parentheses and `+`, `-`,
`*`, as they are written: every token carries the number of blanks that
follow it in the text. -/
inductive AExp where
  | num (n b : Nat)
  | paren (b1 : Nat) (e : AExp) (b2 : Nat)
  | add (l : AExp) (b : Nat) (r : AExp)
  | sub (l : AExp) (b : Nat) (r : AExp)
  | mul (l : AExp) (b : Nat) (r : AExp)
deriving DecidableEq, Repr

/-- A run of `b` blanks. -/
def blanks (b : Nat) : List Nat := List.replicate b 32

/-- The text of an expression. -/
def AExp.render : AExp → List Nat
  | .num n b => digits n ++ blanks b
  | .paren b1 e b2 => 40 :: (blanks b1 ++ (e.render ++ 41 :: blanks b2))
  | .add l b r => l.render ++ 43 :: (blanks b ++ r.render)
  | .sub l b r => l.render ++ 45 :: (blanks b ++ r.render)
  | .mul l b r => l.render ++ 42 :: (blanks b ++ r.render)

/-- The level of the operator at the root: 0 for `+` and `-`, 1 for `*`, 2 for
a literal or a parenthesis. -/
def AExp.level : AExp → Nat
  | .num _ _ => 2
  | .paren _ _ _ => 2
  | .add _ _ _ => 0
  | .sub _ _ _ => 0
  | .mul _ _ _ => 1

/-- The tree is the reading of its text under C precedence (`*` binds
tighter than `+` and `-`) and left associativity: the right operand of
`+` or `-` has no `+` or `-` at its root, the left operand of `*` has none
either, and the right operand of `*` is a literal or a parenthesis. -/
def AExp.wf : AExp → Bool
  | .num _ _ => true
  | .paren _ e _ => e.wf
  | .add l _ r => l.wf && r.wf && decide (1 ≤ r.level)
  | .sub l _ r => l.wf && r.wf && decide (1 ≤ r.level)
  | .mul l _ r => l.wf && r.wf && decide (1 ≤ l.level) && decide (r.level = 2)

/-- The value of an expression over the integers. -/
def AExp.value : AExp → Int
  | .num n _ => (n : Int)
  | .paren _ e _ => e.value
  | .add l _ r => l.value + r.value
  | .sub l _ r => l.value - r.value
  | .mul l _ r => l.value * r.value

/-- The code of an expression: a literal is `IMM n`, a binary operation is
the left operand, `PSH`, the right operand, the opcode. -/
def AExp.code : AExp → List Int
  | .num n _ => [Op.IMM, wrap n]
  | .paren _ e _ => e.code
  | .add l _ r => l.code ++ Op.PSH :: (r.code ++ [Op.ADD])
  | .sub l _ r => l.code ++ Op.PSH :: (r.code ++ [Op.SUB])
  | .mul l _ r => l.code ++ Op.PSH :: (r.code ++ [Op.MUL])

/-- The value of the last literal of an expression (what `ival` holds after it). -/
def AExp.lastIval : AExp → Int
  | .num n _ => wrap n
  | .paren _ e _ => e.lastIval
  | .add _ _ r => r.lastIval
  | .sub _ _ r => r.lastIval
  | .mul _ _ r => r.lastIval

/-- The number of stack words the code of an expression uses. -/
def AExp.depth : AExp → Nat
  | .num _ _ => 0
  | .paren _ e _ => e.depth
  | .add l _ r => max l.depth (r.depth + 1)
  | .sub l _ r => max l.depth (r.depth + 1)
  | .mul l _ r => max l.depth (r.depth + 1)

/-- The text `tail` begins with a token `t` that is not a number: the lexer
returns `t` from any state placed at `tail`, leaving `rest`, and changes no
other variable. -/
def Follows (tail : List Nat) (t : Int) (rest : List Nat) : Prop :=
  NoDigit tail ∧ ∀ X : CState, X.p = tail → next X = { X with p := rest, tk := t }

/-- The compiler state after an expression: the text at `rest`, the token
`t`, the last literal in `ival`, the code `e`, the type `INT`. -/
def post (s0 : CState) (rest : List Nat) (t iv : Int) (e : List Int) : CState :=
  { s0 with p := rest, tk := t, ival := iv, e := e, ty := INT }

end C4

namespace C4

/-- A memory holding `JSR 64; ADJ 1` at address 0 and `ENT 0; LEV` at address 64. -/
def callMem : Mem :=
  storeInt (storeInt (storeInt (storeInt (storeInt (storeInt (storeInt (fun _ => 0) 0 Op.JSR) 8 64) 16
    Op.ADJ) 24 1) 64 Op.ENT) 72 0) 80 Op.LEV

/-- A machine about to execute the `JSR` of `callMem`. -/
def callVM : VM := { pc := 0, sp := 1000, bp := 2000, a := 0, mem := callMem }

/-- The machine `callVM` after the `JSR`. -/
def callVM1 : VM := { pc := 64, sp := 992, bp := 2000, a := 0, mem := storeInt callMem 992 16 }

/-- The machine `callVM` after the `JSR` and `ENT 0`. -/
def callVM2 : VM := { pc := 80, sp := 984, bp := 984, a := 0, mem := storeInt callVM1.mem 984 2000 }

/-- The machine after `n` turns of the interpreter loop, if none of them
ends the run. -/
def cycles : Nat → VM → Option VM
  | 0, s => some s
  | n + 1, s =>
    match step s with
    | .cont s1 => cycles n s1
    | _ => none

/-- The words `code` are stored in memory from the address `pc` on. -/
def CodeAt (m : Mem) (pc : Int) (code : List Int) : Prop :=
  ∀ i : Nat, i < code.length → loadInt m (pc + 8 * (i : Int)) = code.getD i 0

instance (m : Mem) (pc : Int) (c : List Int) : Decidable (CodeAt m pc c) := by
  unfold CodeAt; infer_instance

/-- The code `c` computes the word `x` with at most `d` words of stack: run
from any machine state where it is stored at `pc`, clear of the `d` words
below `sp`, it ends at the word after it with `a = x`, with `sp` and `bp`
as they were, and with the memory changed in those `d` words only. -/
def Computes (c : List Int) (d : Nat) (x : Int) : Prop :=
  ∀ v : VM, CodeAt v.mem v.pc c →
    -two63 ≤ v.pc → v.pc + 8 * (c.length : Int) < two63 →
    v.sp < two63 → -two63 ≤ v.sp - 8 * (d : Int) →
    (v.pc + 8 * (c.length : Int) ≤ v.sp - 8 * (d : Int) ∨ v.sp ≤ v.pc) →
    ∃ k v1, cycles k v = some v1 ∧ v1.pc = v.pc + 8 * (c.length : Int) ∧ v1.sp = v.sp ∧
      v1.bp = v.bp ∧ v1.a = x ∧
      ∀ y, ¬ (v.sp - 8 * (d : Int) ≤ y ∧ y < v.sp) → v1.mem y = v.mem y

/-- The addresses of the three areas in the scenarios. -/
def L0 : Layout := ⟨1048576, 2097152, 3145728⟩

/-- The words emitted by a compilation. -/
def emitted (r : Res (CState × Nat)) : Res (List Int) :=
  match r with
  | .ok r => .ok r.1.e
  | .exit c l m => .exit c l m
  | .fuel => .fuel

/-- Scenario S1. -/
def srcS1 : List Nat := bytes "int main()\x7b return 0; \x7d"

/-- Scenario S2. -/
def srcS2 : List Nat := bytes "int main()\x7b return 2*3 + 4; \x7d"

/-- Scenario S3. -/
def srcS3 : List Nat :=
  bytes "int main()\x7b int i,s; s=0; i=1; while(i<=4)\x7bs=s+i; i=i+1;\x7d return s; \x7d"

/-- The expression `2*3 + 4` of scenario S2, with its blanks. -/
def exprS2 : AExp := .add (.mul (.num 2 0) 0 (.num 3 1)) 1 (.num 4 0)

/-- A program that assigns to the literal 10. -/
def srcAssign10 : List Nat := bytes "int main()\x7b 10 = 5; return 0; \x7d"

/-- A program that assigns to the literal 9. -/
def srcAssign9 : List Nat := bytes "int main()\x7b 9 = 5; return 0; \x7d"

/-- A program that assigns to the literal 8. -/
def srcAssign8 : List Nat := bytes "int main()\x7b 8 = 5; return 0; \x7d"

/-- A program that takes the address of the literal 10. -/
def srcAddr10 : List Nat := bytes "int main()\x7b return &10; \x7d"

/-- A program that pre-increments the literal 10. -/
def srcPreInc10 : List Nat := bytes "int main()\x7b ++10; return 0; \x7d"

/-- A program that post-increments the literal 10. -/
def srcPostInc10 : List Nat := bytes "int main()\x7b 10++; return 0; \x7d"

/-- The machine at the entry of the interpreter loop in scenario S1. -/
def bootS1 : VM :=
  boot L0 { e := [Op.ENT, 0, Op.IMM, 0, Op.LEV, Op.LEV] } (L0.text + 8) 1 0 (fun _ => 0)

/-- The machine of scenario S1 when `main` reaches its `LEV`. -/
def retS1 : VM :=
  { pc := L0.text + 40, sp := L0.stack + poolsz - 48, bp := L0.stack + poolsz - 48, a := 0,
    mem := storeInt bootS1.mem (L0.stack + poolsz - 48) (L0.stack + poolsz) }

/-- The state a compiler routine returns, the empty state if it does not. -/
def Res.get (r : Res CState) : CState :=
  match r with
  | .ok s => s
  | _ => {}

/-- The compiler at the statement `while(1);`. -/
def whileS : CState := next { initState L0 with p := bytes "while(1);" ++ [0] }

/-- The compiler after the condition of `while(1);`. -/
def whileS4 : CState := (parenExpr (expr 9) (next whileS)).get

/-- The compiler after the body of `while(1);`. -/
def whileS5 : CState := (stmt 9 (hole (emit Op.BZ whileS4)).1).get

/-- The machine after the instruction `PSH`. -/
def pushed (s : VM) : VM :=
  { s with pc := wrap (s.pc + 8), sp := wrap (s.sp - 8), mem := storeInt s.mem (wrap (s.sp - 8)) s.a }

/-- A memory holding the words `c` from address 0 on, zero elsewhere. -/
def codeMem (c : List Int) : Mem := fun x => textByte c (x + 8)

/-- The compiler at the `+` of `p + 3;`, where `p` is a local of type `int *`
whose code `LEA -1; LI` has been emitted. -/
def addS : CState :=
  { initState L0 with p := bytes "3;" ++ [0], tk := Tok.Add, ty := INT + PTR, e := [Op.LEA, -1, Op.LI] }

/-- The compiler after the right operand of `p + 3;`. -/
def addS1 : CState := (expr 5 Tok.Mul (emit Op.PSH (next addS))).get

/-- A machine about to run the code of `p + 3`, the local `p` holding 1000. -/
def addV0 : VM :=
  { pc := 0, sp := 4088, bp := 4096, a := 0,
    mem := storeInt (codeMem [Op.LEA, -1, Op.LI, Op.PSH, Op.IMM, 3, Op.PSH, Op.IMM, 8, Op.MUL, Op.ADD]) 4088 1000 }

/-- The machine of `p + 3` after the code of `p`. -/
def addV1 : VM := (cycles 2 addV0).getD addV0

/-- The machine of `p + 3` after the code of `3`. -/
def addV3 : VM := (cycles 1 (pushed addV1)).getD addV1

/-- The compiler at the `-` of `p - (int*)8;`, where `p` is a local of type
`int *` whose code `LEA -1; LI` has been emitted. -/
def subS : CState :=
  { initState L0 with p := bytes "(int*)8;" ++ [0], tk := Tok.Sub, ty := INT + PTR, e := [Op.LEA, -1, Op.LI] }

/-- The compiler after the right operand of `p - (int*)8;`. -/
def subS1 : CState := (expr 5 Tok.Mul (emit Op.PSH (next subS))).get

/-- A machine about to run the code of `p - (int*)8`, the local `p` holding 1000. -/
def subV0 : VM :=
  { pc := 0, sp := 4088, bp := 4096, a := 0,
    mem := storeInt (codeMem [Op.LEA, -1, Op.LI, Op.PSH, Op.IMM, 8, Op.SUB, Op.PSH, Op.IMM, 8, Op.DIV]) 4088 1000 }

/-- The machine of `p - (int*)8` after the code of `p`. -/
def subV1 : VM := (cycles 2 subV0).getD subV0

/-- The machine of `p - (int*)8` after the code of `(int*)8`. -/
def subV3 : VM := (cycles 1 (pushed subV1)).getD subV1

/-- Scenario S6. -/
def srcS6 : List Nat := bytes "enum \x7b A=5, B, C \x7d; int main()\x7b return B<C ? A+B : 0; \x7d"

/-- A byte no branch of the loop of `next()` recognises: not the terminator,
a newline, `#`, a letter, a digit, `/`, a quote, nor one of the operator and
punctuation characters. -/
def isUnknown (c : Nat) : Bool :=
  isOpChar c && !([ch '=', ch '+', ch '-', ch '!', ch '<', ch '>', ch '|', ch '&', ch '^', ch '%',
    ch '*', ch '[', ch '?', ch '~', ch ';', 123, 125, ch '(', ch ')', ch ']', ch ',', ch ':'].contains (cval c))

/-- The value of a string of digits in base `b`, most significant first. -/
def valOf (b : Nat) (ds : List Nat) : Nat := ds.foldl (fun a d => a * b + d) 0

/-- The characters `0-9`, `a-f`, `A-F`. -/
def isHexChar (c : Nat) : Bool :=
  (decide (48 ≤ c) && decide (c ≤ 57)) || (decide (97 ≤ c) && decide (c ≤ 102))
    || (decide (65 ≤ c) && decide (c ≤ 70))

/-- The value of a hexadecimal digit. -/
def hexDigit (c : Nat) : Nat := if c ≤ 57 then c - 48 else if 97 ≤ c then c - 87 else c - 55

/-- The length `p - pp` of the identifier at `pp`, whose first character has
code `tk`. -/
def idLen (pp : List Nat) (tk : Int) : Nat := pp.length - (scanId pp.tail tk).1.length

/-- The hash of the identifier at `pp`: `tk * 147 + c` over its characters,
then `(tk << 6) + (p - pp)`. -/
def idHash (pp : List Nat) (tk : Int) : Int :=
  wrap (wrap ((scanId pp.tail tk).2 * 64) + (idLen pp tk : Int))

/-- The test `tk == id[Hash] && !memcmp((char *)id[Name], pp, p - pp)` of the
search loop, for the identifier at `pp`. -/
def Matches (pp : List Nat) (tk : Int) (d : Sym) : Prop :=
  idHash pp tk = d.Hash ∧ d.Name.take (idLen pp tk) = pp.take (idLen pp tk)

/-- The record entered for a new identifier at `pp`: `id[Name] = pp; id[Hash] =
tk; id[Tk] = Id` on zero-filled memory. -/
def freshSym (pp : List Nat) (tk : Int) : Sym := { Tk := Tok.Id, Hash := idHash pp tk, Name := pp }

instance (pp : List Nat) (tk : Int) (d : Sym) : Decidable (Matches pp tk d) := by
  unfold Matches; infer_instance

/-- The result of an operator branch is at the position it was given or one
byte further. -/
def Shorter (p : List Nat) (r : Option (List Nat × Int)) : Prop :=
  ∀ x, r = some x → x.1.length ≤ p.length

/-- The compiler at the string literal `"ab" "c"` with the data cursor at 3. -/
def strS : CState := next { p := bytes "\"ab\" \"c\";" ++ [0], data := 3 }

/-- The lines `id[Class] = Num; id[Type] = INT; id[Val] = i++;` of the enum loop. -/
def enumSym (v : Int) (d : Sym) : Sym := { d with Class := Tok.Num, Typ := INT, Val := v }

/-- The line `if (tk == ',') next();`. -/
def comma (s : CState) : CState := if s.tk = ch ',' then next s else s

/-- The record of the identifier `nm` in a symbol table. -/
def symNamed (nm : String) (sym : List Sym) : Option Sym :=
  sym.find? (fun d => decide (d.Name.take nm.length = bytes nm)
    && !(isAlnum (peek (d.Name.drop nm.length))))

/-- The class, type and value of the identifier `nm` after a compilation. -/
def symInfo (nm : String) (r : Res (CState × Nat)) : Option (Int × Int × Int) :=
  match r with
  | .ok r => (symNamed nm r.1.sym).map (fun d => (d.Class, d.Typ, d.Val))
  | _ => none

/-- A program with two enum blocks. -/
def srcEnum : List Nat := bytes "enum \x7b A=5, B, C \x7d; enum \x7b X, Y \x7d; int main()\x7b return 0; \x7d"

/-- The compiler at the first identifier of the enum body `A=5, B }`. -/
def enumS : CState := next { initState L0 with p := bytes "A=5, B \x7d;" ++ [0] }

/-- The lines `ty = INT; if (tk == Int) next(); else if (tk == Char) { next();
ty = CHAR; }` at the head of a parameter. -/
def ptype (s : CState) : CState × Int :=
  if s.tk = Tok.Int then (next s, INT) else if s.tk = Tok.Char then (next s, CHAR) else (s, INT)

/-- A global variable declared twice. -/
def srcDupGlo : List Nat := bytes "int x; int x; int main()\x7b return 0; \x7d"

/-- A function name declared again as a variable. -/
def srcDupFun : List Nat := bytes "int f()\x7b return 0; \x7d int f; int main()\x7b return 0; \x7d"

/-- An enum constant declared again as a variable. -/
def srcDupEnum : List Nat := bytes "enum \x7b A \x7d; int A; int main()\x7b return 0; \x7d"

/-- A library function declared as a variable. -/
def srcDupSys : List Nat := bytes "int printf; int main()\x7b return 0; \x7d"

/-- A parameter name used twice. -/
def srcDupPar : List Nat := bytes "int f(int a, int a)\x7b return 0; \x7d int main()\x7b return 0; \x7d"

/-- A local name used twice. -/
def srcDupLoc : List Nat := bytes "int f()\x7b int a; int a; return 0; \x7d int main()\x7b return 0; \x7d"

/-- A local with the name of a parameter. -/
def srcDupParLoc : List Nat := bytes "int f(int a)\x7b int a; return 0; \x7d int main()\x7b return 0; \x7d"

/-- Two functions whose parameters and locals reuse the names of the other. -/
def srcReuse : List Nat := bytes "int f(int b)\x7b int a; return 0; \x7d int g(int a)\x7b int b; return 0; \x7d int main()\x7b return 0; \x7d"

/-- A function with one parameter. -/
def srcF1 : List Nat := bytes "int f(int a)\x7b return a; \x7d int main()\x7b return 0; \x7d"

/-- A function with two parameters returning the first. -/
def srcF2 : List Nat := bytes "int f(int a, int b)\x7b return a; \x7d int main()\x7b return 0; \x7d"

/-- A function with three parameters referring to each. -/
def srcF3 : List Nat := bytes "int f(int a, int b, int c)\x7b a; b; return c; \x7d int main()\x7b return 0; \x7d"

/-- The compiler at the declarator `printf` of `int printf;`. -/
def dupS : CState := next { initState L0 with p := bytes "printf;" ++ [0] }

/-- The text area read sequentially, as the listing loop of `next()` and the
interpreter read it: an opcode up to `ADJ` takes the following word as its
operand.  The first argument bounds the number of instructions. -/
def decodeN : Nat → List Int → List (Int × Option Int)
  | 0, _ => []
  | _ + 1, [] => []
  | n + 1, w :: t =>
    if w ≤ Op.ADJ then
      match t with
      | [] => [(w, none)]
      | x :: rest => (w, some x) :: decodeN n rest
    else (w, none) :: decodeN n t

/-- The instructions of the words `e`. -/
def decode (e : List Int) : List (Int × Option Int) := decodeN e.length e

/-- The binary operators of the loop of `expr`: `=`, `||`, `&&`, `|`, `^`, `&`, `==`,
`!=`, `<`, `>`, `<=`, `>=`, `<<`, `>>`, `+`, `-`, `*`, `/`, `%`. -/
def isBinOp (tk : Int) : Bool := decide (tk = Tok.Assign) || (decide (Tok.Lor ≤ tk) && decide (tk ≤ Tok.Mod))

/-- The precedence level of a binary operator, in the order `Assign`, `Cond`,
`Lor`, `Lan`, `Or`, `Xor`, `And`, `Eq Ne`, `Lt Gt Le Ge`, `Shl Shr`, `Add Sub`, `Mul Div Mod`. -/
def prec (tk : Int) : Nat :=
  if tk = Tok.Assign then 0 else if tk = Tok.Cond then 1 else if tk = Tok.Lor then 2
  else if tk = Tok.Lan then 3 else if tk = Tok.Or then 4 else if tk = Tok.Xor then 5
  else if tk = Tok.And then 6 else if tk = Tok.Eq ∨ tk = Tok.Ne then 7
  else if tk = Tok.Lt ∨ tk = Tok.Gt ∨ tk = Tok.Le ∨ tk = Tok.Ge then 8
  else if tk = Tok.Shl ∨ tk = Tok.Shr then 9 else if tk = Tok.Add ∨ tk = Tok.Sub then 10 else 11

/-- The level the branch of a binary operator passes to `expr` for its right
operand. -/
def rhsLev (tk : Int) : Int :=
  if tk = Tok.Assign then Tok.Assign else if tk = Tok.Lor then Tok.Lan
  else if tk = Tok.Lan then Tok.Or else if tk = Tok.Or then Tok.Xor
  else if tk = Tok.Xor then Tok.And else if tk = Tok.And then Tok.Eq
  else if tk = Tok.Eq ∨ tk = Tok.Ne then Tok.Lt
  else if tk = Tok.Lt ∨ tk = Tok.Gt ∨ tk = Tok.Le ∨ tk = Tok.Ge then Tok.Shl
  else if tk = Tok.Shl ∨ tk = Tok.Shr then Tok.Add
  else if tk = Tok.Add ∨ tk = Tok.Sub then Tok.Mul else Tok.Inc

/-- The state the branch of a binary operator calls `expr` in for its right
operand: after `next()` and the store of `PSH` (over the load for `=`, after
the branch instruction and its operand for `||` and `&&`). -/
def rhsAt (s : CState) : CState :=
  if s.tk = Tok.Assign then setLastE Op.PSH (next s)
  else if s.tk = Tok.Lor then (hole (emit Op.BNZ (next s))).1
  else if s.tk = Tok.Lan then (hole (emit Op.BZ (next s))).1
  else emit Op.PSH (next s)

/-- The state the branch of `?` calls `expr(Assign)` in for the middle operand. -/
def midAt (s : CState) : CState := (hole (emit Op.BZ (next s))).1

/-- The state the branch of `?` calls `expr(Cond)` in for the last operand,
`su` being the state after the middle operand (at the colon). -/
def elseAt (s su : CState) : CState :=
  (hole (emit Op.JMP (patch (hole (emit Op.BZ (next s))).2 (addrE (next su) 3) (next su)))).1

/-- Recursive calls that return `su` at the level `Assign` and `sw` at the
other levels: the operands of a conditional. -/
def condEx (su sw : CState) : Ex := fun lev _ => if lev = Tok.Assign then .ok su else .ok sw

/-- The compiler at the expression `1 - 2 + 3;`. -/
def c1S0 : CState := next { p := bytes "1 - 2 + 3;" ++ [0] }

/-- After the operand `1` of `1 - 2 + 3;`, at `-`. -/
def c1S1 : CState := (expr 5 Tok.Inc c1S0).get

/-- After the operand `2` of `1 - 2 + 3;`, at `+`. -/
def c1Sy : CState := (expr 5 Tok.Inc (rhsAt c1S1)).get

/-- After `1 - 2` of `1 - 2 + 3;`. -/
def c1S2 : CState := (exprStep (fun _ _ => .ok c1Sy) c1S1).get

/-- After the operand `3` of `1 - 2 + 3;`. -/
def c1Sz : CState := (expr 5 Tok.Inc (rhsAt c1S2)).get

/-- After `(1 - 2) + 3`. -/
def c1R : CState := (exprStep (fun _ _ => .ok c1Sz) c1S2).get

/-- The compiler at the expression `1 + 2 * 3;`. -/
def c1T0 : CState := next { p := bytes "1 + 2 * 3;" ++ [0] }

/-- After the operand `1` of `1 + 2 * 3;`, at `+`. -/
def c1T1 : CState := (expr 5 Tok.Inc c1T0).get

/-- After the operand `2` of `1 + 2 * 3;`, at `*`. -/
def c1Ty : CState := (expr 5 Tok.Inc (rhsAt c1T1)).get

/-- After the operand `3` of `1 + 2 * 3;`. -/
def c1Tz : CState := (expr 5 Tok.Inc (rhsAt c1Ty)).get

/-- After `2 * 3` of `1 + 2 * 3;`. -/
def c1Tyz : CState := (exprStep (fun _ _ => .ok c1Tz) c1Ty).get

/-- After `1 + (2 * 3)`. -/
def c1TR : CState := (exprStep (fun _ _ => .ok c1Tyz) c1T1).get

/-- The program returning `1 - 2 + 3`. -/
def srcSubAdd : List Nat := bytes "int main()\x7b return 1 - 2 + 3; \x7d"

/-- The program returning `(1 - 2) + 3`. -/
def srcSubAddL : List Nat := bytes "int main()\x7b return (1 - 2) + 3; \x7d"

/-- The program returning `1 - (2 + 3)`. -/
def srcSubAddR : List Nat := bytes "int main()\x7b return 1 - (2 + 3); \x7d"

/-- The compiler at the expression `x = y = 3;`, with `x` and `y` declared
as global variables. -/
def c2A0 : CState :=
  next ((declLoop 10 (next { initState L0 with p := bytes "x, y; x = y = 3;" ++ [0] }) INT).get)

/-- After the operand `x` of `x = y = 3;`, at the first `=`. -/
def c2A1 : CState := (expr 5 Tok.Inc c2A0).get

/-- After the operand `y` of `x = y = 3;`, at the second `=`. -/
def c2Ay : CState := (expr 5 Tok.Inc (rhsAt c2A1)).get

/-- After the operand `3` of `x = y = 3;`. -/
def c2Az : CState := (expr 5 Tok.Inc (rhsAt c2Ay)).get

/-- After `y = 3` of `x = y = 3;`. -/
def c2Ayz : CState := (exprStep (fun _ _ => .ok c2Az) c2Ay).get

/-- After `x = (y = 3)`. -/
def c2AR : CState := (exprStep (fun _ _ => .ok c2Ayz) c2A1).get

/-- The compiler at the expression `1 ? 2 : 0 ? 3 : 4;`. -/
def c2C0 : CState := next { p := bytes "1 ? 2 : 0 ? 3 : 4;" ++ [0] }

/-- After the condition `1`, at the first `?`. -/
def c2C1 : CState := (expr 5 Tok.Lor c2C0).get

/-- After the middle operand `2`, at the first colon. -/
def c2Cu : CState := (expr 5 Tok.Assign (midAt c2C1)).get

/-- After the condition `0`, at the second `?`. -/
def c2Cc : CState := (expr 5 Tok.Lor (elseAt c2C1 c2Cu)).get

/-- After the middle operand `3`, at the second colon. -/
def c2Cv : CState := (expr 5 Tok.Assign (midAt c2Cc)).get

/-- After the last operand `4`. -/
def c2Cw : CState := (expr 5 Tok.Cond (elseAt c2Cc c2Cv)).get

/-- After `0 ? 3 : 4`. -/
def c2Cin : CState := (exprStep (condEx c2Cv c2Cw) c2Cc).get

/-- After `1 ? 2 : (0 ? 3 : 4)`. -/
def c2CR : CState := (exprStep (condEx c2Cu c2Cin) c2C1).get

/-! ### The symbol table across a function definition -/

/-- A record `d` of the running table stands for the record `d0` of the table as it was:
it is in use, and carries the binding of `d0`, either as its own (and is not a local) or,
being a local, in its saved fields. -/
def Saved (d0 d : Sym) : Prop :=
  d.Tk ≠ 0 ∧ ((d.Class ≠ Tok.Loc ∧ d.Class = d0.Class ∧ d.Typ = d0.Typ ∧ d.Val = d0.Val) ∨
    (d.Class = Tok.Loc ∧ d.HClass = d0.Class ∧ d.HTyp = d0.Typ ∧ d.HVal = d0.Val))

/-- Every record of the table `sym0` is still there in `sym`, possibly shadowed. -/
def Holds (sym0 sym : List Sym) : Prop :=
  ∀ j, j < sym0.length → Saved (symAt sym0 j) (symAt sym j)

/-- A property `Q` of the symbol table and of `loc` that identifiers read by the lexer
and the registration of a parameter or a local (which the compiler performs on an
identifier that is not of class `Loc`) keep. -/
structure Stable (Q : List Sym → Int → Prop) : Prop where
  lex : ∀ (sym : List Sym) (pp : List Nat) (tk l : Int), Q sym l → Q (lexId sym pp tk).2.2.2 l
  reg : ∀ (sym : List Sym) (d : Nat) (t v l : Int), Q sym l → (symAt sym d).Class ≠ Tok.Loc →
    Q (symUpd sym d (shadow t v)) l

/-- A result that, when it is a state, has the property `Q` of its table and `loc`. -/
structure Keep (Q : List Sym → Int → Prop) (r : Res CState) : Prop where
  holds : ∀ s, r = .ok s → Q s.sym s.loc

/-- The same for a result that carries a value besides the state. -/
structure Keep2 {α : Type} (Q : List Sym → Int → Prop) (r : Res (CState × α)) : Prop where
  holds : ∀ a, r = .ok a → Q a.1.sym a.1.loc

/-- Every call of `ex` keeps `Q`. -/
@[reducible] def KeepEx (Q : List Sym → Int → Prop) (ex : Ex) : Prop := ∀ lev s, Q s.sym s.loc → Keep Q (ex lev s)

/-- Every call of `st` keeps `Q`. -/
@[reducible] def KeepSt (Q : List Sym → Int → Prop) (st : St) : Prop := ∀ s, Q s.sym s.loc → Keep Q (st s)

/-- The lines `id[Class] = Fun; id[Val] = (int)(e + 1);` at the head of a function
definition: the state in which the parameter list is read. -/
def funcHead (s : CState) : CState :=
  (s.setCur (fun d => { d with Class := Tok.Fun })).setCur (fun d => { d with Val := addrE s 1 })

/-- The compiler at the `(` of a function definition whose parameters and locals take
the names of library functions, of `main` and of the function itself. -/
def shadowS : CState :=
  (next (next { initState L0 with p := bytes "f(int printf, char *exit)\x7b int f; char main; if (printf) return *exit; return f; \x7d" ++ [0] })).setCur
    (fun d => { d with Typ := INT })

/-- The result of the function definition at `shadowS`. -/
def shadowR : CState × Int :=
  match funcDef 50 shadowS INT with
  | .ok r => r
  | _ => ({}, 0)

/-- The compiler at the identifier of the first parameter of the definition at `shadowS`. -/
def shadowQ : CState × Int :=
  match stars 49 (ptype (next (funcHead shadowS))).1 (ptype (next (funcHead shadowS))).2 with
  | .ok r => r
  | _ => ({}, 0)

/-! ### Branches: short circuit, logical not, conditional -/

/-- The program `return 2 || 0`. -/
def srcLor1 : List Nat := bytes "int main()\x7b return 2 || 0; \x7d"

/-- The program `return 0 || 3`. -/
def srcLor2 : List Nat := bytes "int main()\x7b return 0 || 3; \x7d"

/-- The program `return 0 && 5`. -/
def srcLan1 : List Nat := bytes "int main()\x7b return 0 && 5; \x7d"

/-- The program `return 2 && 3`. -/
def srcLan2 : List Nat := bytes "int main()\x7b return 2 && 3; \x7d"

/-- The compiler at the `||` of `2 || 0;`, the left operand compiled. -/
def lorS : CState := (exprHead (expr 5) 5 (next { p := bytes "2 || 0;" ++ [0] })).get

/-- The compiler after the right operand of `2 || 0;`. -/
def lorS1 : CState := (expr 5 Tok.Lan (hole (emit Op.BNZ (next lorS))).1).get

/-- The machine at the `BNZ` of the code of `2 || 0`, stored from address 0 on. -/
def lorV : VM :=
  { pc := 16, sp := 1000, bp := 1000, a := 2, mem := codeMem [Op.IMM, 2, Op.BNZ, 48, Op.IMM, 0] }

/-- The program `return !0`. -/
def srcNot1 : List Nat := bytes "int main()\x7b return !0; \x7d"

/-- The program `return !5`. -/
def srcNot2 : List Nat := bytes "int main()\x7b return !5; \x7d"

/-- The program `return !!7`. -/
def srcNot3 : List Nat := bytes "int main()\x7b return !!7; \x7d"

/-- The compiler at the `!` of `!5;`. -/
def notS : CState := next { p := bytes "!5;" ++ [0] }

/-- The compiler after the operand of `!5;`. -/
def notS1 : CState := (expr 5 Tok.Inc (next notS)).get

/-- The machine after the operand of `!5`, its code stored from address 0 on. -/
def notV : VM :=
  { pc := 16, sp := 1000, bp := 1000, a := 5, mem := codeMem [Op.IMM, 5, Op.PSH, Op.IMM, 0, Op.EQ] }

/-- The program `return 1 ? 5 : 7`. -/
def srcCond1 : List Nat := bytes "int main()\x7b return 1 ? 5 : 7; \x7d"

/-- The program `return 0 ? 5 : 7`. -/
def srcCond2 : List Nat := bytes "int main()\x7b return 0 ? 5 : 7; \x7d"

/-- The compiler at the `?` of `1 ? 5 : 7;`, the condition compiled. -/
def cndS : CState := (exprHead (expr 5) 5 (next { p := bytes "1 ? 5 : 7;" ++ [0] })).get

/-- The compiler after the middle operand of `1 ? 5 : 7;`, at the colon. -/
def cndSu : CState := (expr 5 Tok.Assign (midAt cndS)).get

/-- The compiler after the last operand of `1 ? 5 : 7;`. -/
def cndSw : CState := (expr 5 Tok.Cond (elseAt cndS cndSu)).get

/-- The machine at the `BZ` of the code of `1 ? 5 : 7`, stored from address 0 on. -/
def cndV : VM :=
  { pc := 16, sp := 1000, bp := 1000, a := 1,
    mem := codeMem [Op.IMM, 1, Op.BZ, 64, Op.IMM, 5, Op.JMP, 80, Op.IMM, 7] }

/-- The machine after the code of the middle operand. -/
def cndV2 : VM := (cycles 1 { cndV with pc := cndV.pc + 16 }).getD cndV

/-! ### The if statement -/

/-- The state `stmt` compiles the first branch of an `if` in, `s4` being the state
after the condition: after `*++e = BZ; b = ++e;`. -/
def thenAt (s4 : CState) : CState := (hole (emit Op.BZ s4)).1

/-- The state `stmt` compiles the `else` branch in, `s5` being the state after the
first branch: after `*b = (int)(e + 3); *++e = JMP; b = ++e; next();`. -/
def elseStAt (s4 s5 : CState) : CState :=
  next (hole (emit Op.JMP (patch (hole (emit Op.BZ s4)).2 (addrE s5 3) s5))).1

/-- A program with an `if` and an `else` whose condition is 0. -/
def srcIf1 : List Nat := bytes "int main()\x7b if (0) return 1; else return 2; return 3; \x7d"

/-- A program with an `if` without `else` whose condition is 0. -/
def srcIf2 : List Nat := bytes "int main()\x7b if (0) return 1; return 3; \x7d"

/-- A program with an `if` and an `else` whose condition is 4. -/
def srcIf3 : List Nat := bytes "int main()\x7b if (4) return 1; else return 2; \x7d"

/-- The compiler at the statement `if (1) return 5; else return 7;`. -/
def ifS : CState := next { initState L0 with p := bytes "if (1) return 5; else return 7;" ++ [0] }

/-- After the condition. -/
def ifS4 : CState := (parenExpr (expr 9) (next ifS)).get

/-- After the first branch, at `else`. -/
def ifS5 : CState := (stmt 9 (thenAt ifS4)).get

/-- After the second branch. -/
def ifS6 : CState := (stmt 9 (elseStAt ifS4 ifS5)).get

/-! ### Post-increment -/

/-- A program returning `x++`. -/
def srcPost1 : List Nat := bytes "int main()\x7b int x; x = 5; return x++; \x7d"

/-- A program returning `x` after `x++`. -/
def srcPost2 : List Nat := bytes "int main()\x7b int x; x = 5; x++; return x; \x7d"

/-- A program returning `x` after `x--`. -/
def srcPost3 : List Nat := bytes "int main()\x7b int x; x = 5; x--; return x; \x7d"

/-- A program returning an `int *` after `p++`. -/
def srcPost4 : List Nat := bytes "int main()\x7b int *p; p = 0; p++; return p; \x7d"

/-- A program returning a `char *` after `p++`. -/
def srcPost5 : List Nat := bytes "int main()\x7b char *p; p = 0; p++; return p; \x7d"

/-- The stride of `++` and `--` on an operand of type `ty`: `(ty > PTR) ? sizeof(int) :
sizeof(char)`. -/
def stride (ty : Int) : Int := if ty > PTR then sizeofInt else sizeofChar

/-- The words of a post-increment (`up` true) or post-decrement after the code that
leaves the address of the operand in `a`. -/
def postCode (up : Bool) (s : Int) : List Int :=
  [Op.PSH, Op.LI, Op.PSH, Op.IMM, s, if up then Op.ADD else Op.SUB, Op.SI,
   Op.PSH, Op.IMM, s, if up then Op.SUB else Op.ADD]

/-- The compiler at a postfix `++` whose operand, an `int`, is loaded from the
address 4000 by the code `IMM 4000; LI`. -/
def postS : CState := { next { p := bytes "++;" ++ [0] } with e := [Op.IMM, 4000, Op.LI], ty := INT }

/-- The machine with `a = 4000`, the word 41 stored there, at the `PSH` of the code of a
post-increment stored from address 0 on. -/
def postV : VM :=
  { pc := 16, sp := 1000, bp := 1000, a := 4000,
    mem := storeInt (codeMem ([Op.IMM, 4000] ++ postCode true 1)) 4000 41 }

/-! ### Local slots -/

/-- The counter `i` after `j` registrations from the value `i0`: each does `++i`. -/
def countFrom (i0 : Int) : Nat → Int
  | 0 => i0
  | j + 1 => wrap (countFrom i0 j + 1)

/-- A function with two parameters and three locals referring to each local. -/
def srcLoc1 : List Nat := bytes "int f(int a, int b)\x7b int x; int y; char z; x; y; return z; \x7d int main()\x7b return 0; \x7d"

/-- A function without parameters storing to two locals and reading them back. -/
def srcLoc2 : List Nat := bytes "int main()\x7b int a; int b; a = 3; b = 4; return a * 10 + b; \x7d"

/-- The machine at an `ENT 3` followed by `LEA -2`, stored from address 0 on. -/
def locV : VM := { pc := 0, sp := 1000, bp := 2000, a := 0, mem := codeMem [Op.ENT, 3, Op.LEA, -2] }

/-! ### String literals -/

/-- The bytes the loop of a string literal stores for the text `body` between the
quotes: each character, the one after a backslash (a newline for `n`) for an escape. -/
def strBytes : List Nat → List Int
  | [] => []
  | c :: cs =>
    if cval c = 92 then
      match cs with
      | [] => [0]
      | c2 :: cs2 => ((if cval c2 = ch 'n' then 10 else cval c2) % 256) :: strBytes cs2
    else (cval c % 256) :: strBytes cs

/-- The text `body` is the inside of a string literal: the loop of the lexer reads all
of it, meeting no NUL and no quote but after a backslash, and does not end on a
backslash. -/
def isBody : List Nat → Bool
  | [] => true
  | c :: cs =>
    if cval c ≠ 0 ∧ cval c ≠ 34 then
      if cval c = 92 then
        match cs with
        | [] => false
        | _ :: cs2 => isBody cs2
      else isBody cs
    else false

/-- The bytes `bs` at consecutive addresses from `d` on. -/
def runAt (d : Int) : List Int → List (Int × Int)
  | [] => []
  | b :: bs => (d, b) :: runAt (d + 1) bs

/-- The text of adjacent string tokens, each given by the number of blanks before it
and the text between its quotes. -/
def strText : List (Nat × List Nat) → List Nat
  | [] => []
  | t :: ts => blanks t.1 ++ 34 :: (t.2 ++ 34 :: strText ts)

/-- The bytes of adjacent string tokens, in order. -/
def allBytes : List (Nat × List Nat) → List Int
  | [] => []
  | t :: ts => strBytes t.2 ++ allBytes ts

/-- A program reading the byte at offset 2 of the literal `"ab" "c"`. -/
def srcStr1 : List Nat := bytes "int main()\x7b return *(\"ab\" \"c\" + 2); \x7d"

/-- A program reading the byte at offset 3 of the literal `"ab" "c"`. -/
def srcStr2 : List Nat := bytes "int main()\x7b return *(\"ab\" \"c\" + 3); \x7d"

/-- A program reading the byte at offset 1 of the literal `"a\nb"`. -/
def srcStr3 : List Nat := bytes "int main()\x7b return *(\"a\\nb\" + 1); \x7d"

/-- The compiler before the string literal `"ab" "c"` with the data cursor at 3. -/
def strX : CState := { p := bytes "\"ab\" \"c\";" ++ [0], data := 3 }

/-! ### Parameters and locals of a function -/

/-- The parameter loop of `paramLoop` with a record of its turns: besides the state and
the counter it returns the identifiers it has registered, in the order of the
parameter list. -/
def paramIds : Nat → CState → Int → Res (CState × Int × List Nat)
  | 0, _, _ => .fuel
  | n + 1, s, i =>
    if s.tk = ch ')' then .ok (s, i, [])
    else stars n (ptype s).1 (ptype s).2 >>= fun r =>
      if r.1.tk ≠ Tok.Id then fail r.1 "bad parameter declaration"
      else if r.1.cur.Class = Tok.Loc then fail r.1 "duplicate parameter definition"
      else paramIds n (comma (next (r.1.setCur (shadow r.2 i)))) (wrap (i + 1)) >>= fun t =>
        .ok (t.1, t.2.1, r.1.id :: t.2.2)

/-- The declarator loop of `localDecl` with a record of its turns: besides the state
and the counter it returns the identifiers it has registered, in order. -/
def declIds (bt : Int) : Nat → CState → Int → Res (CState × Int × List Nat)
  | 0, _, _ => .fuel
  | n + 1, s, i =>
    if s.tk = ch ';' then .ok (s, i, [])
    else stars n s bt >>= fun r =>
      if r.1.tk ≠ Tok.Id then fail r.1 "bad local declaration"
      else if r.1.cur.Class = Tok.Loc then fail r.1 "duplicate local definition"
      else declIds bt n (comma (next (r.1.setCur (shadow r.2 (wrap (i + 1)))))) (wrap (i + 1)) >>= fun t =>
        .ok (t.1, t.2.1, r.1.id :: t.2.2)

/-- The loop of `localLoop` over the local declarations with a record of its turns:
besides the state, the counter and the base type it returns the identifiers the
declarations have registered, in order. -/
def localIds : Nat → CState → Int → Int → Res (CState × Int × Int × List Nat)
  | 0, _, _, _ => .fuel
  | n + 1, s, i, bt =>
    if s.tk = Tok.Int ∨ s.tk = Tok.Char then
      declIds (if s.tk = Tok.Int then INT else CHAR) n (next s) i >>= fun r =>
        localIds n (next r.1) r.2.1 (if s.tk = Tok.Int then INT else CHAR) >>= fun t =>
          .ok (t.1, t.2.1, t.2.2.1, r.2.2 ++ t.2.2.2)
    else .ok (s, i, bt, [])

/-- The identifiers `ds`, registered one after the other with the counter starting at
`i0`, each with the value the counter had. -/
def slotsFrom (i0 : Int) : List Nat → List (Nat × Int)
  | [] => []
  | d :: ds => (d, i0) :: slotsFrom (wrap (i0 + 1)) ds

/-- The table has each identifier of `regs` as a local (class `Loc`) with the value
paired with it, and `loc` is `L`. -/
def Slots (L : Int) (regs : List (Nat × Int)) (sym : List Sym) (l : Int) : Prop :=
  l = L ∧ ∀ x ∈ regs, (symAt sym x.1).Class = Tok.Loc ∧ (symAt sym x.1).Val = x.2

/-- The compiler is in the body of a function whose parameters are the identifiers
`ds`, in the order of the parameter list, and whose locals are the identifiers
`js`, in the order of their declaration: `loc` is the number of parameters plus
one, parameter `i` (from 0) is of class `Loc` with value `i`, and local `j`
(from 0) is of class `Loc` with value `loc + j + 1`. -/
def InBody (ds js : List Nat) (sym : List Sym) (l : Int) : Prop :=
  l = (ds.length : Int) + 1 ∧
  (∀ (i : Nat) (h : i < ds.length),
    (symAt sym ds[i]).Class = Tok.Loc ∧ (symAt sym ds[i]).Val = (i : Int)) ∧
  (∀ (j : Nat) (h : j < js.length),
    (symAt sym js[j]).Class = Tok.Loc ∧ (symAt sym js[j]).Val = (ds.length : Int) + 1 + ((j : Int) + 1))

/-- The compiler at the `(` of the definition of a function `f` with the parameters
`a`, `b` and the locals `x`, `y`, `z`. -/
def slotS : CState :=
  next (next { initState L0 with p := bytes "f(int a, char *b)\x7b int x, y; char z; x = a; return *b + y + z; \x7d" ++ [0] })

/-- The compiler after the parameter list of the definition at `slotS`. -/
def slotP : CState :=
  match paramIds 50 (next (funcHead slotS)) 0 with
  | .ok r => r.1
  | _ => {}

/-- The compiler after the local declarations of the definition at `slotS`. -/
def slotL : CState :=
  match localIds 50 (next { next slotP with loc := 3 }) 3 INT with
  | .ok r => r.1
  | _ => {}

end C4
namespace C4

/-! ## Basic facts on machine words and memory -/

theorem wrap_eq {x : Int} (h : InRange x) : wrap x = x := by
  simp only [wrap, InRange, two63, two64] at *; omega

theorem wrap_inRange (x : Int) : InRange (wrap x) := by
  simp only [wrap, InRange, two63, two64] at *; omega

theorem wrap_wrap (x : Int) : wrap (wrap x) = wrap x := wrap_eq (wrap_inRange x)

theorem wrap_add_wrap (x y : Int) : wrap (wrap x + y) = wrap (x + y) := by
  simp only [wrap, two63, two64]; omega

theorem loadInt_storeInt_same (m : Mem) (a v : Int) : loadInt (storeInt m a v) a = wrap v := by
  unfold loadInt storeInt
  have h0 : (a ≤ a ∧ a < a + 8) := by omega
  have h1 : (a ≤ a + 1 ∧ a + 1 < a + 8) := by omega
  have h2 : (a ≤ a + 2 ∧ a + 2 < a + 8) := by omega
  have h3 : (a ≤ a + 3 ∧ a + 3 < a + 8) := by omega
  have h4 : (a ≤ a + 4 ∧ a + 4 < a + 8) := by omega
  have h5 : (a ≤ a + 5 ∧ a + 5 < a + 8) := by omega
  have h6 : (a ≤ a + 6 ∧ a + 6 < a + 8) := by omega
  have h7 : (a ≤ a + 7 ∧ a + 7 < a + 8) := by omega
  simp only [h0, h1, h2, h3, h4, h5, h6, h7, if_true, and_self, sub_self, add_sub_cancel_left]
  have e2 : Int.toNat 2 = 2 := rfl
  have e3 : Int.toNat 3 = 3 := rfl
  have e4 : Int.toNat 4 = 4 := rfl
  have e5 : Int.toNat 5 = 5 := rfl
  have e6 : Int.toNat 6 = 6 := rfl
  have e7 : Int.toNat 7 = 7 := rfl
  have e0 : Int.toNat 0 = 0 := rfl
  have e1 : Int.toNat 1 = 1 := rfl
  simp only [e0, e1, e2, e3, e4, e5, e6, e7]
  norm_num
  simp only [wrap, two63, two64]
  omega

theorem loadInt_storeInt_disj (m : Mem) (a v b : Int) (h : b + 8 ≤ a ∨ a + 8 ≤ b) :
    loadInt (storeInt m a v) b = loadInt m b := by
  unfold loadInt storeInt
  have h0 : ¬ (a ≤ b ∧ b < a + 8) := by omega
  have h1 : ¬ (a ≤ b + 1 ∧ b + 1 < a + 8) := by omega
  have h2 : ¬ (a ≤ b + 2 ∧ b + 2 < a + 8) := by omega
  have h3 : ¬ (a ≤ b + 3 ∧ b + 3 < a + 8) := by omega
  have h4 : ¬ (a ≤ b + 4 ∧ b + 4 < a + 8) := by omega
  have h5 : ¬ (a ≤ b + 5 ∧ b + 5 < a + 8) := by omega
  have h6 : ¬ (a ≤ b + 6 ∧ b + 6 < a + 8) := by omega
  have h7 : ¬ (a ≤ b + 7 ∧ b + 7 < a + 8) := by omega
  simp only [h0, h1, h2, h3, h4, h5, h6, h7, if_false]

end C4

namespace C4

/-! ## Fuel: a result obtained with some fuel is obtained with more -/

theorem Res.le_refl {α : Type} (r : Res α) : r.le r := Or.inr rfl

theorem Res.le_of_ok {α : Type} {r r1 : Res α} {a : α} (h : r.le r1) (e : r = .ok a) : r1 = .ok a := by
  rcases h with h | h
  · rw [h] at e; cases e
  · rw [← h]; exact e

theorem Res.le_of_ne_fuel {α : Type} {r r1 : Res α} (h : r.le r1) (e : r ≠ .fuel) : r1 = r := by
  rcases h with h | h
  · exact absurd h e
  · exact h.symm

theorem bind_ok {α β : Type} (a : α) (f : α → Res β) : (Res.ok a >>= f) = f a := rfl
theorem bind_fuel {α β : Type} (f : α → Res β) : ((Res.fuel : Res α) >>= f) = Res.fuel := rfl
theorem bind_exit {α β : Type} (c l : Int) (m : String) (f : α → Res β) :
    ((Res.exit c l m : Res α) >>= f) = Res.exit c l m := rfl

theorem Res.bind_le {α β : Type} {r r1 : Res α} {f f1 : α → Res β} (h : r.le r1)
    (hf : ∀ a, (f a).le (f1 a)) : (r >>= f).le (r1 >>= f1) := by
  rcases h with h | h
  · left; rw [h]; rfl
  · rw [h]
    cases r1 with
    | ok a => exact hf a
    | exit c l m => right; rfl
    | fuel => left; rfl

theorem Res.ite_le {α : Type} {c : Prop} [Decidable c] {a a1 b b1 : Res α} (ha : a.le a1)
    (hb : b.le b1) : (if c then a else b).le (if c then a1 else b1) := by
  split_ifs <;> assumption

theorem stars_mono {n m : Nat} (h : n ≤ m) (s : CState) (t : Int) : (stars n s t).le (stars m s t) := by
  induction n generalizing m s t with
  | zero => left; rfl
  | succ n ih =>
    obtain ⟨m, rfl⟩ : ∃ k, m = k + 1 := ⟨m - 1, by omega⟩
    unfold stars
    split_ifs
    · exact ih (by omega) _ _
    · exact Res.le_refl _

theorem skipStrings_mono {n m : Nat} (h : n ≤ m) (s : CState) : (skipStrings n s).le (skipStrings m s) := by
  induction n generalizing m s with
  | zero => left; rfl
  | succ n ih =>
    obtain ⟨m, rfl⟩ : ∃ k, m = k + 1 := ⟨m - 1, by omega⟩
    unfold skipStrings
    split_ifs
    · exact ih (by omega) _
    · exact Res.le_refl _

theorem callArgs_mono {ex ex1 : Ex} (hex : Ex.le ex ex1) {n m : Nat} (h : n ≤ m) (s : CState) (t : Int) :
    (callArgs ex n s t).le (callArgs ex1 m s t) := by
  induction n generalizing m s t with
  | zero => left; rfl
  | succ n ih =>
    obtain ⟨m, rfl⟩ : ∃ k, m = k + 1 := ⟨m - 1, by omega⟩
    unfold callArgs
    split_ifs
    · exact Res.bind_le (hex _ _) (fun a => ih (by omega) _ _)
    · exact Res.le_refl _

theorem hdStr_mono {n m : Nat} (h : n ≤ m) (s : CState) : (hdStr n s).le (hdStr m s) :=
  Res.bind_le (skipStrings_mono h _) (fun _ => Res.le_refl _)

theorem hdSizeof_mono {n m : Nat} (h : n ≤ m) (s : CState) : (hdSizeof n s).le (hdSizeof m s) := by
  unfold hdSizeof
  dsimp only
  repeat' first
    | exact Res.le_refl _
    | exact stars_mono h _ _
    | apply Res.bind_le
    | intro _
    | split_ifs

theorem hdCall_mono {ex ex1 : Ex} (hex : Ex.le ex ex1) {n m : Nat} (h : n ≤ m) (d : Nat) (s : CState) :
    (hdCall ex n d s).le (hdCall ex1 m d s) := by
  unfold hdCall
  dsimp only
  repeat' first
    | exact Res.le_refl _
    | exact callArgs_mono hex h _ _
    | apply Res.bind_le
    | intro _
    | split_ifs

theorem hdId_mono {ex ex1 : Ex} (hex : Ex.le ex ex1) {n m : Nat} (h : n ≤ m) (s : CState) :
    (hdId ex n s).le (hdId ex1 m s) := by
  unfold hdId
  split_ifs
  · exact hdCall_mono hex h _ _
  · exact Res.le_refl _
  · exact Res.le_refl _

theorem hdCast_mono {ex ex1 : Ex} (hex : Ex.le ex ex1) {n m : Nat} (h : n ≤ m) (s : CState) :
    (hdCast ex n s).le (hdCast ex1 m s) := by
  unfold hdCast
  dsimp only
  repeat' first
    | exact Res.le_refl _
    | exact stars_mono h _ _
    | exact hex _ _
    | apply Res.bind_le
    | intro _
    | split_ifs

theorem hdParen_mono {ex ex1 : Ex} (hex : Ex.le ex ex1) {n m : Nat} (h : n ≤ m) (s : CState) :
    (hdParen ex n s).le (hdParen ex1 m s) := by
  unfold hdParen
  split_ifs
  · exact hdCast_mono hex h _
  · exact Res.bind_le (hex _ _) (fun _ => Res.le_refl _)

theorem hdDeref_mono {ex ex1 : Ex} (hex : Ex.le ex ex1) (s : CState) :
    (hdDeref ex s).le (hdDeref ex1 s) :=
  Res.bind_le (hex _ _) (fun _ => Res.le_refl _)

theorem hdAddr_mono {ex ex1 : Ex} (hex : Ex.le ex ex1) (s : CState) :
    (hdAddr ex s).le (hdAddr ex1 s) :=
  Res.bind_le (hex _ _) (fun _ => Res.le_refl _)

theorem hdNot_mono {ex ex1 : Ex} (hex : Ex.le ex ex1) (s : CState) :
    (hdNot ex s).le (hdNot ex1 s) :=
  Res.bind_le (hex _ _) (fun _ => Res.le_refl _)

theorem hdCompl_mono {ex ex1 : Ex} (hex : Ex.le ex ex1) (s : CState) :
    (hdCompl ex s).le (hdCompl ex1 s) :=
  Res.bind_le (hex _ _) (fun _ => Res.le_refl _)

theorem hdPlus_mono {ex ex1 : Ex} (hex : Ex.le ex ex1) (s : CState) :
    (hdPlus ex s).le (hdPlus ex1 s) :=
  Res.bind_le (hex _ _) (fun _ => Res.le_refl _)

theorem hdMinus_mono {ex ex1 : Ex} (hex : Ex.le ex ex1) (s : CState) :
    (hdMinus ex s).le (hdMinus ex1 s) := by
  unfold hdMinus
  dsimp only
  repeat' first
    | exact Res.le_refl _
    | exact hex _ _
    | apply Res.bind_le
    | intro _
    | split_ifs

theorem hdPreInc_mono {ex ex1 : Ex} (hex : Ex.le ex ex1) (s : CState) :
    (hdPreInc ex s).le (hdPreInc ex1 s) :=
  Res.bind_le (hex _ _) (fun _ => Res.le_refl _)

theorem exprHead_mono {ex ex1 : Ex} (hex : Ex.le ex ex1) {n m : Nat} (h : n ≤ m) (s : CState) :
    (exprHead ex n s).le (exprHead ex1 m s) := by
  unfold exprHead
  repeat' first
    | with_reducible exact Res.le_refl _
    | with_reducible exact hdStr_mono h _
    | with_reducible exact hdSizeof_mono h _
    | with_reducible exact hdId_mono hex h _
    | with_reducible exact hdParen_mono hex h _
    | with_reducible exact hdDeref_mono hex _
    | with_reducible exact hdAddr_mono hex _
    | with_reducible exact hdNot_mono hex _
    | with_reducible exact hdCompl_mono hex _
    | with_reducible exact hdPlus_mono hex _
    | with_reducible exact hdMinus_mono hex _
    | with_reducible exact hdPreInc_mono hex _
    | with_reducible apply Res.ite_le

theorem opAssign_mono {ex ex1 : Ex} (hex : Ex.le ex ex1) (s : CState) :
    (opAssign ex s).le (opAssign ex1 s) := by
  unfold opAssign
  dsimp only
  repeat' first
    | exact Res.le_refl _
    | exact hex _ _
    | apply Res.bind_le
    | intro _
    | split_ifs

theorem opCond_mono {ex ex1 : Ex} (hex : Ex.le ex ex1) (s : CState) :
    (opCond ex s).le (opCond ex1 s) := by
  unfold opCond
  dsimp only
  repeat' first
    | exact Res.le_refl _
    | exact hex _ _
    | apply Res.bind_le
    | intro _
    | split_ifs

theorem opJump_mono {ex ex1 : Ex} (hex : Ex.le ex ex1) (lev op : Int) (s : CState) :
    (opJump ex lev op s).le (opJump ex1 lev op s) :=
  Res.bind_le (hex _ _) (fun _ => Res.le_refl _)

theorem binop_mono {ex ex1 : Ex} (hex : Ex.le ex ex1) (lev op : Int) (s : CState) :
    (binop ex lev op s).le (binop ex1 lev op s) :=
  Res.bind_le (hex _ _) (fun _ => Res.le_refl _)

theorem opAdd_mono {ex ex1 : Ex} (hex : Ex.le ex ex1) (s : CState) :
    (opAdd ex s).le (opAdd ex1 s) :=
  Res.bind_le (hex _ _) (fun _ => Res.le_refl _)

theorem opSub_mono {ex ex1 : Ex} (hex : Ex.le ex ex1) (s : CState) :
    (opSub ex s).le (opSub ex1 s) :=
  Res.bind_le (hex _ _) (fun _ => Res.le_refl _)

theorem opBrak_mono {ex ex1 : Ex} (hex : Ex.le ex ex1) (s : CState) :
    (opBrak ex s).le (opBrak ex1 s) :=
  Res.bind_le (hex _ _) (fun _ => Res.le_refl _)

theorem exprStep_mono {ex ex1 : Ex} (hex : Ex.le ex ex1) (s : CState) :
    (exprStep ex s).le (exprStep ex1 s) := by
  unfold exprStep
  repeat' first
    | with_reducible exact Res.le_refl _
    | with_reducible exact opAssign_mono hex _
    | with_reducible exact opCond_mono hex _
    | with_reducible exact opJump_mono hex _ _ _
    | with_reducible exact binop_mono hex _ _ _
    | with_reducible exact opAdd_mono hex _
    | with_reducible exact opSub_mono hex _
    | with_reducible exact opBrak_mono hex _
    | with_reducible apply Res.ite_le

theorem exprLoop_mono {ex ex1 : Ex} (hex : Ex.le ex ex1) {n m : Nat} (h : n ≤ m) (lev : Int)
    (s : CState) : (exprLoop ex n lev s).le (exprLoop ex1 m lev s) := by
  induction n generalizing m s with
  | zero => left; rfl
  | succ n ih =>
    obtain ⟨m, rfl⟩ : ∃ k, m = k + 1 := ⟨m - 1, by omega⟩
    unfold exprLoop
    split_ifs
    · exact Res.bind_le (exprStep_mono hex _) (fun _ => ih (by omega) _)
    · exact Res.le_refl _

theorem expr_mono {n m : Nat} (h : n ≤ m) : Ex.le (expr n) (expr m) := by
  induction n generalizing m with
  | zero => intro lev s; left; rfl
  | succ n ih =>
    obtain ⟨m, rfl⟩ : ∃ k, m = k + 1 := ⟨m - 1, by omega⟩
    intro lev s
    unfold expr
    exact Res.bind_le (exprHead_mono (ih (by omega)) (by omega) _)
      (fun _ => exprLoop_mono (ih (by omega)) (by omega) _ _)

/-- Fuel monotonicity of `expr`: a result obtained with some fuel is obtained with any larger fuel. -/
theorem expr_fuel {n m : Nat} (h : n ≤ m) {lev : Int} {s : CState} {r : Res CState}
    (e : expr n lev s = r) (hr : r ≠ .fuel) : expr m lev s = r := by
  have := Res.le_of_ne_fuel (expr_mono h lev s) (by rw [e]; exact hr)
  rw [this, e]

end C4

namespace C4

/-! ## Results of `expr` once enough fuel is given -/


theorem Res.le_trans {α : Type} {a b c : Res α} (h1 : a.le b) (h2 : b.le c) : a.le c := by
  rcases h1 with h | h
  · left; exact h
  · rw [h]; exact h2

theorem bind_assoc {α β γ : Type} (r : Res α) (f : α → Res β) (g : β → Res γ) :
    ((r >>= f) >>= g) = (r >>= fun a => f a >>= g) := by
  cases r <;> rfl

theorem exprLoop_succ (ex : Ex) (n : Nat) (lev : Int) (s : CState) :
    exprLoop ex (n + 1) lev s = if s.tk ≥ lev then exprStep ex s >>= exprLoop ex n lev else .ok s := rfl

theorem expr_succ (n : Nat) (lev : Int) (s : CState) :
    expr (n + 1) lev s = exprHead (expr n) n s >>= exprLoop (expr n) n lev := rfl

/-- The loop at a level continues the loop at a higher level. -/
theorem exprLoop_split (ex : Ex) {lev lev1 : Int} (h : lev ≤ lev1) (n k : Nat) (s : CState) :
    (exprLoop ex n lev1 s >>= exprLoop ex k lev).le (exprLoop ex (n + k) lev s) := by
  induction n generalizing s with
  | zero => left; rfl
  | succ n ih =>
    by_cases h1 : s.tk ≥ lev1
    · have h2 : s.tk ≥ lev := le_trans h h1
      have e : n + 1 + k = (n + k) + 1 := by omega
      rw [e, exprLoop_succ, exprLoop_succ, if_pos h1, if_pos h2, bind_assoc]
      exact Res.bind_le (Res.le_refl _) (fun a => ih a)
    · rw [exprLoop_succ, if_neg h1, bind_ok]
      exact exprLoop_mono (fun l s => Res.le_refl (ex l s)) (show k ≤ n + 1 + k by omega) lev s

theorem ExprTo.of_expr_eq {n : Nat} {lev : Int} {s : CState} {r : Res CState} (e : expr n lev s = r)
    (hr : r ≠ .fuel) : ExprTo lev s r :=
  ⟨hr, n, fun _ hm => expr_fuel hm e hr⟩

theorem LoopTo.of_loop_eq {n : Nat} {lev : Int} {s : CState} {r : Res CState}
    (e : exprLoop (expr n) n lev s = r) (hr : r ≠ .fuel) : LoopTo lev s r :=
  ⟨hr, n, fun m hm => by
    have := Res.le_of_ne_fuel (exprLoop_mono (expr_mono hm) hm lev s) (by rw [e]; exact hr)
    rw [this, e]⟩

theorem StepTo.of_step_eq {n : Nat} {s : CState} {r : Res CState}
    (e : exprStep (expr n) s = r) (hr : r ≠ .fuel) : StepTo s r :=
  ⟨hr, n, fun m hm => by
    have := Res.le_of_ne_fuel (exprStep_mono (expr_mono hm) s) (by rw [e]; exact hr)
    rw [this, e]⟩

theorem HeadTo.of_head_eq {n : Nat} {s : CState} {r : Res CState}
    (e : exprHead (expr n) n s = r) (hr : r ≠ .fuel) : HeadTo s r :=
  ⟨hr, n, fun m hm => by
    have := Res.le_of_ne_fuel (exprHead_mono (expr_mono hm) hm s) (by rw [e]; exact hr)
    rw [this, e]⟩

theorem ok_ne_fuel {α : Type} (a : α) : (Res.ok a : Res α) ≠ .fuel := by
  intro h; cases h

/-- `expr` is its first part followed by its loop. -/
theorem ExprTo.of_head {lev : Int} {s s1 : CState} {r : Res CState}
    (h : HeadTo s (.ok s1)) (l : LoopTo lev s1 r) : ExprTo lev s r := by
  obtain ⟨-, N1, h1⟩ := h
  obtain ⟨hr, N2, h2⟩ := l
  refine ⟨hr, N1 + N2 + 1, fun m hm => ?_⟩
  obtain ⟨m, rfl⟩ : ∃ k, m = k + 1 := ⟨m - 1, by omega⟩
  rw [expr_succ, h1 m (by omega), bind_ok, h2 m (by omega)]

/-- The loop does not turn when the token is below the level. -/
theorem LoopTo.done {lev : Int} {s : CState} (h : s.tk < lev) : LoopTo lev s (.ok s) := by
  refine ⟨ok_ne_fuel _, 1, fun m hm => ?_⟩
  obtain ⟨m, rfl⟩ : ∃ k, m = k + 1 := ⟨m - 1, by omega⟩
  rw [exprLoop_succ, if_neg (by omega)]

/-- One turn of the loop followed by the loop. -/
theorem LoopTo.turn {lev : Int} {s s1 : CState} {r : Res CState} (h : lev ≤ s.tk)
    (st : StepTo s (.ok s1)) (l : LoopTo lev s1 r) : LoopTo lev s r := by
  obtain ⟨-, N1, h1⟩ := st
  obtain ⟨hr, N2, h2⟩ := l
  refine ⟨hr, N1 + N2 + 1, fun m hm => ?_⟩
  obtain ⟨m, rfl⟩ : ∃ k, m = k + 1 := ⟨m - 1, by omega⟩
  rw [exprLoop_succ, if_pos h, h1 (m + 1) (by omega), bind_ok]
  have := Res.le_of_ne_fuel (exprLoop_mono (expr_mono (show m ≤ m + 1 by omega)) (le_refl m) lev s1)
    (by rw [h2 m (by omega)]; exact hr)
  rw [this, h2 m (by omega)]

/-- An expression at a level is an expression at a higher level followed
by the loop at the level. -/
theorem ExprTo.of_higher {lev lev1 : Int} {s s1 : CState} {r : Res CState} (h : lev ≤ lev1)
    (e : ExprTo lev1 s (.ok s1)) (l : LoopTo lev s1 r) : ExprTo lev s r := by
  obtain ⟨-, N1, h1⟩ := e
  obtain ⟨hr, N2, h2⟩ := l
  refine ⟨hr, (N1 + N2 + 1) + (N1 + N2 + 1) + 1, fun m hm => ?_⟩
  -- work at fuel K + 1 for the head and the two loops
  have hK := h1 (N1 + N2 + 1) (by omega)
  rw [expr_succ] at hK
  -- the head succeeds
  cases hh : exprHead (expr (N1 + N2)) (N1 + N2) s with
  | fuel => rw [hh] at hK; cases hK
  | exit c l msg => rw [hh] at hK; cases hK
  | ok s0 =>
    rw [hh, bind_ok] at hK
    have hsplit := exprLoop_split (expr (N1 + N2)) h (N1 + N2) (N1 + N2) s0
    rw [hK, bind_ok, h2 (N1 + N2) (by omega)] at hsplit
    have e1 := Res.le_of_ne_fuel hsplit hr
    -- lift to fuel m
    obtain ⟨m, rfl⟩ : ∃ k, m = k + 1 := ⟨m - 1, by omega⟩
    rw [expr_succ]
    have e2 := Res.le_of_ne_fuel (exprHead_mono (expr_mono (show N1 + N2 ≤ m by omega))
      (show N1 + N2 ≤ m by omega) s) (by rw [hh]; exact ok_ne_fuel _)
    rw [e2, hh, bind_ok]
    have e3 := Res.le_of_ne_fuel (exprLoop_mono (expr_mono (show N1 + N2 ≤ m by omega))
      (show N1 + N2 + (N1 + N2) ≤ m by omega) lev s0) (by rw [e1]; exact hr)
    rw [e3, e1]

theorem ExprTo.det {lev : Int} {s : CState} {r r1 : Res CState} (h : ExprTo lev s r)
    (h1 : ExprTo lev s r1) : r = r1 := by
  obtain ⟨-, N, h⟩ := h
  obtain ⟨-, N1, h1⟩ := h1
  rw [← h (N + N1) (by omega), h1 (N + N1) (by omega)]

end C4

namespace C4

/-! ## The lexer on single tokens -/


@[simp] theorem ch_97 : ch 'a' = 97 := by decide
@[simp] theorem ch_122 : ch 'z' = 122 := by decide
@[simp] theorem ch_65 : ch 'A' = 65 := by decide
@[simp] theorem ch_90 : ch 'Z' = 90 := by decide
@[simp] theorem ch_95 : ch '_' = 95 := by decide
@[simp] theorem ch_48 : ch '0' = 48 := by decide
@[simp] theorem ch_57 : ch '9' = 57 := by decide
@[simp] theorem ch_102 : ch 'f' = 102 := by decide
@[simp] theorem ch_70 : ch 'F' = 70 := by decide
@[simp] theorem ch_55 : ch '7' = 55 := by decide
@[simp] theorem ch_120 : ch 'x' = 120 := by decide
@[simp] theorem ch_88 : ch 'X' = 88 := by decide
@[simp] theorem ch_110 : ch 'n' = 110 := by decide
@[simp] theorem ch_35 : ch '#' = 35 := by decide
@[simp] theorem ch_47 : ch '/' = 47 := by decide
@[simp] theorem ch_61 : ch '=' = 61 := by decide
@[simp] theorem ch_43 : ch '+' = 43 := by decide
@[simp] theorem ch_45 : ch '-' = 45 := by decide
@[simp] theorem ch_33 : ch '!' = 33 := by decide
@[simp] theorem ch_60 : ch '<' = 60 := by decide
@[simp] theorem ch_62 : ch '>' = 62 := by decide
@[simp] theorem ch_124 : ch '|' = 124 := by decide
@[simp] theorem ch_38 : ch '&' = 38 := by decide
@[simp] theorem ch_94 : ch '^' = 94 := by decide
@[simp] theorem ch_37 : ch '%' = 37 := by decide
@[simp] theorem ch_42 : ch '*' = 42 := by decide
@[simp] theorem ch_91 : ch '[' = 91 := by decide
@[simp] theorem ch_63 : ch '?' = 63 := by decide
@[simp] theorem ch_126 : ch '~' = 126 := by decide
@[simp] theorem ch_59 : ch ';' = 59 := by decide
@[simp] theorem ch_40 : ch '(' = 40 := by decide
@[simp] theorem ch_41 : ch ')' = 41 := by decide
@[simp] theorem ch_93 : ch ']' = 93 := by decide
@[simp] theorem ch_44 : ch ',' = 44 := by decide
@[simp] theorem ch_58 : ch ':' = 58 := by decide

theorem cval_lt {c : Nat} (h : c < 128) : cval c = (c : Int) := by
  unfold cval
  have : c % 256 = c := Nat.mod_eq_of_lt (by omega)
  rw [this, if_pos h]

theorem lexOp_blank (p : List Nat) : lexOp p (cval 32) = none := by
  rw [cval_lt (by decide)]
  simp [lexOp]

theorem nextL_succ (n : Nat) (l : Lex) :
    nextL (n + 1) l =
    if peek l.p = 0 then (l, 0)
    else if peek l.p = 10 then nextL n { l with p := l.p.tail, line := l.line + 1 }
    else if peek l.p = ch '#' then nextL n { l with p := skipLine l.p.tail }
    else if isAlpha (peek l.p) then
      ({ l with p := (lexId l.sym l.p (peek l.p)).1, id := (lexId l.sym l.p (peek l.p)).2.1,
                sym := (lexId l.sym l.p (peek l.p)).2.2.2 }, (lexId l.sym l.p (peek l.p)).2.2.1)
    else if ch '0' ≤ peek l.p ∧ peek l.p ≤ ch '9' then
      ({ l with p := (lexNum l.p.tail (peek l.p)).1, ival := (lexNum l.p.tail (peek l.p)).2 }, Tok.Num)
    else if peek l.p = ch '/' then
      if peek l.p.tail = ch '/' then nextL n { l with p := skipLine l.p.tail.tail }
      else ({ l with p := l.p.tail }, Tok.Div)
    else if peek l.p = 39 then
      ({ l with p := (scanQuote 39 l.p.tail l.ival l.data l.dmem).1.tail,
                ival := (scanQuote 39 l.p.tail l.ival l.data l.dmem).2.1 }, Tok.Num)
    else if peek l.p = 34 then
      ({ l with p := (scanQuote 34 l.p.tail l.ival l.data l.dmem).1.tail, ival := l.data,
                data := (scanQuote 34 l.p.tail l.ival l.data l.dmem).2.2.1,
                dmem := (scanQuote 34 l.p.tail l.ival l.data l.dmem).2.2.2 }, 34)
    else
      match lexOp l.p.tail (peek l.p) with
      | some r => ({ l with p := r.1 }, r.2)
      | none => nextL n { l with p := l.p.tail } := rfl

theorem nextL_op {l : Lex} {c : Nat} {rest : List Nat} (n : Nat) (hp : l.p = c :: rest)
    (hc : isOpChar c = true) :
    nextL (n + 1) l = match lexOp rest (cval c) with
      | some r => ({ l with p := r.1 }, r.2)
      | none => nextL n { l with p := rest } := by
  simp only [isOpChar, Bool.and_eq_true, decide_eq_true_eq] at hc
  obtain ⟨⟨⟨⟨⟨⟨⟨h0, h1⟩, h2⟩, h3⟩, h4⟩, h5⟩, h6⟩, h7⟩ := hc
  have hpk : peek l.p = cval c := by rw [hp]; rfl
  rw [nextL_succ, hpk, if_neg h0, if_neg h1, if_neg h2, h3]
  simp only [Bool.false_eq_true, if_false]
  rw [if_neg h4, if_neg h5, if_neg h6, if_neg h7, hp]
  rfl

/-- The lexer on an operator or punctuation character. -/
theorem next_tok {s : CState} {c : Nat} {rest p1 : List Nat} {t : Int} (hp : s.p = c :: rest)
    (hc : isOpChar c = true) (ho : lexOp rest (cval c) = some (p1, t)) :
    next s = { s with p := p1, tk := t } := by
  unfold next
  rw [hp]
  have := nextL_op (l := s.lex) (rest.length + 1) (show s.lex.p = c :: rest from hp) hc
  rw [ho] at this
  simp only [List.length_cons]
  rw [this]
  rfl

/-- The lexer skips a character that no branch recognises. -/
theorem next_skip {s : CState} {c : Nat} {rest : List Nat} (hp : s.p = c :: rest)
    (hc : isOpChar c = true) (ho : lexOp rest (cval c) = none) :
    next s = next { s with p := rest } := by
  unfold next
  rw [hp]
  have := nextL_op (l := s.lex) (rest.length + 1) (show s.lex.p = c :: rest from hp) hc
  rw [ho] at this
  simp only [List.length_cons]
  rw [this]
  rfl

theorem next_blanks (s : CState) (b : Nat) (rest : List Nat) (hp : s.p = List.replicate b 32 ++ rest) :
    next s = next { s with p := rest } := by
  induction b generalizing s with
  | zero => simp at hp; rw [← hp]
  | succ b ih =>
    have hp1 : s.p = 32 :: (List.replicate b 32 ++ rest) := by rw [hp]; rfl
    rw [next_skip hp1 (by decide) (lexOp_blank _)]
    rw [ih _ rfl]

theorem wrap_modEq (x : Int) : wrap x ≡ x [ZMOD two64] := by
  unfold Int.ModEq
  simp only [wrap, two63, two64]
  omega

theorem wrap_congr {x y : Int} (h : x ≡ y [ZMOD two64]) : wrap x = wrap y := by
  unfold Int.ModEq at h
  simp only [wrap, two63, two64] at *
  omega

theorem scanDec_nil_of_noDigit {rest : List Nat} (h : NoDigit rest) (v : Int) :
    scanDec rest v = (rest, v) := by
  cases rest with
  | nil => rfl
  | cons c cs =>
    unfold scanDec
    have : ¬ (ch '0' ≤ cval c ∧ cval c ≤ ch '9') := by
      simpa [NoDigit, peek] using h.1
    rw [if_neg this]

theorem scanOct_nil_of_noDigit {rest : List Nat} (h : NoDigit rest) (v : Int) :
    scanOct rest v = (rest, v) := by
  cases rest with
  | nil => rfl
  | cons c cs =>
    unfold scanOct
    have h1 := h.1
    simp only [peek] at h1
    have : ¬ (ch '0' ≤ cval c ∧ cval c ≤ ch '7') := by
      simp only [ch_48, ch_55]
      omega
    rw [if_neg this]

theorem scanDec_digits (ds : List Nat) (hd : ∀ d ∈ ds, d < 10) {rest : List Nat} (hr : NoDigit rest)
    (v v0 : Int) (hv : v = wrap v0) :
    scanDec (ds.map (fun d => d + 48) ++ rest) v =
      (rest, wrap (ds.foldl (fun (a : Int) (d : Nat) => a * 10 + (d : Int)) v0)) := by
  induction ds generalizing v v0 with
  | nil => simp [scanDec_nil_of_noDigit hr, hv]
  | cons d ds ih =>
    have hd1 : d < 10 := hd d (List.mem_cons_self _ _)
    simp only [List.map_cons, List.cons_append, List.foldl_cons]
    unfold scanDec
    have hc : cval (d + 48) = (d : Int) + 48 := by
      rw [cval_lt (by omega)]; push_cast; rfl
    have : (ch '0' ≤ cval (d + 48) ∧ cval (d + 48) ≤ ch '9') := by
      rw [hc]; simp only [ch_48, ch_57]; omega
    rw [if_pos this]
    apply ih (fun x hx => hd x (List.mem_cons_of_mem _ hx))
    rw [hc, hv, ch_48]
    apply wrap_congr
    have := wrap_modEq v0
    have h2 : wrap v0 * 10 + (↑d + 48) - 48 = wrap v0 * 10 + ↑d := by ring
    rw [h2]
    exact (this.mul_right 10).add_right _

theorem foldl_digits (l : List Nat) :
    (l.reverse.foldl (fun (a : Int) (d : Nat) => a * 10 + (d : Int)) 0) = ((Nat.ofDigits 10 l : Nat) : Int) := by
  induction l with
  | nil => simp
  | cons d l ih =>
    simp only [List.reverse_cons, List.foldl_append, List.foldl_cons, List.foldl_nil, ih,
      Nat.ofDigits_cons]
    push_cast
    ring

theorem lexNum_digits (n : Nat) {rest : List Nat} (hr : NoDigit rest) :
    ∃ c cs, digits n = c :: cs ∧ c < 128 ∧ 48 ≤ c ∧ c ≤ 57 ∧
      lexNum (cs ++ rest) (cval c) = (rest, wrap n) := by
  by_cases h0 : n = 0
  · subst h0
    refine ⟨48, [], rfl, by decide, by decide, by decide, ?_⟩
    unfold lexNum
    have : ¬ (cval 48 - ch '0' ≠ 0) := by rw [cval_lt (by decide)]; simp
    rw [if_neg this]
    have hx : ¬ (peek ([] ++ rest) = ch 'x' ∨ peek ([] ++ rest) = ch 'X') := by
      simp only [List.nil_append, ch_120, ch_88]
      intro h; rcases h with h | h
      · exact hr.2.1 h
      · exact hr.2.2 h
    rw [if_neg hx, List.nil_append, scanOct_nil_of_noDigit hr]
    rfl
  · have hne : Nat.digits 10 n ≠ [] := Nat.digits_ne_nil_iff_ne_zero.mpr h0
    have hrev : (Nat.digits 10 n).reverse ≠ [] := by simpa using hne
    obtain ⟨d, ds, hds⟩ := List.exists_cons_of_ne_nil hrev
    have hall : ∀ x ∈ d :: ds, x < 10 := by
      intro x hx
      rw [← hds] at hx
      exact Nat.digits_lt_base (by norm_num) (List.mem_reverse.mp hx)
    have hd : d < 10 := hall d (List.mem_cons_self _ _)
    have hd0 : d ≠ 0 := by
      have := Nat.getLast_digit_ne_zero 10 h0
      have e : (Nat.digits 10 n).getLast hne = d := by
        have : (Nat.digits 10 n) = (d :: ds).reverse := by rw [← hds, List.reverse_reverse]
        simp [this]
      rw [e] at this
      exact this
    refine ⟨d + 48, ds.map (fun d => d + 48), ?_, by omega, by omega, by omega, ?_⟩
    · unfold digits
      rw [if_neg h0, hds]
      rfl
    · unfold lexNum
      have hc : cval (d + 48) = (d : Int) + 48 := by
        rw [cval_lt (by omega)]; push_cast; rfl
      have : cval (d + 48) - ch '0' ≠ 0 := by rw [hc, ch_48]; omega
      rw [if_pos this]
      rw [scanDec_digits ds (fun x hx => hall x (List.mem_cons_of_mem _ hx)) hr _ (d : Int)
        (by rw [hc, ch_48, wrap_eq]; · ring
            · simp only [InRange, two63]; omega)]
      have e : n = Nat.ofDigits 10 (d :: ds).reverse := by
        rw [← hds, List.reverse_reverse, Nat.ofDigits_digits]
      have e2 := foldl_digits (d :: ds).reverse
      rw [List.reverse_reverse, List.foldl_cons] at e2
      simp only [zero_mul, zero_add] at e2
      rw [e2, ← e]

/-- The lexer on a decimal literal. -/
theorem next_num {s : CState} (n : Nat) {rest : List Nat} (hp : s.p = digits n ++ rest)
    (hr : NoDigit rest) : next s = { s with p := rest, ival := wrap n, tk := Tok.Num } := by
  obtain ⟨c, cs, hd, hc1, hc2, hc3, hl⟩ := lexNum_digits n hr
  have hp1 : s.p = c :: (cs ++ rest) := by rw [hp, hd]; rfl
  have hcv : cval c = (c : Int) := cval_lt hc1
  unfold next
  rw [hp1]
  simp only [List.length_cons]
  have hpk : peek s.lex.p = cval c := by
    show peek s.p = cval c
    rw [hp1]; rfl
  rw [nextL_succ, hpk]
  have h0 : ¬ cval c = 0 := by rw [hcv]; omega
  have h1 : ¬ cval c = 10 := by rw [hcv]; omega
  have h2 : ¬ cval c = ch '#' := by rw [hcv]; simp; omega
  have h3 : isAlpha (cval c) = false := by
    rw [hcv]
    simp only [isAlpha, Bool.or_eq_false_iff, Bool.and_eq_false_imp, decide_eq_true_eq,
      decide_eq_false_iff_not]
    simp
    omega
  have h4 : (ch '0' ≤ cval c ∧ cval c ≤ ch '9') := by rw [hcv]; simp; omega
  rw [if_neg h0, if_neg h1, if_neg h2, h3]
  simp only [Bool.false_eq_true, if_false]
  rw [if_pos h4]
  have e : s.lex.p.tail = cs ++ rest := by
    show s.p.tail = _
    rw [hp1]; rfl
  rw [e, hl]
  rfl

end C4

namespace C4

/-! ## The branches of the lexer -/

/-- The lexer at a digit. -/
theorem next_digit {s : CState} {c : Nat} {q : List Nat} (hp : s.p = c :: q)
    (h1 : 48 ≤ c) (h2 : c ≤ 57) :
    next s = { s with p := (lexNum q (cval c)).1, ival := (lexNum q (cval c)).2, tk := Tok.Num } := by
  have hcv : cval c = (c : Int) := cval_lt (by omega)
  unfold next
  rw [hp]
  simp only [List.length_cons]
  have hpk : peek s.lex.p = cval c := by
    show peek s.p = cval c
    rw [hp]; rfl
  rw [nextL_succ, hpk]
  have h0 : ¬ cval c = 0 := by rw [hcv]; omega
  have h1 : ¬ cval c = 10 := by rw [hcv]; omega
  have h2 : ¬ cval c = ch '#' := by rw [hcv]; simp; omega
  have h3 : isAlpha (cval c) = false := by
    rw [hcv]
    simp only [isAlpha, Bool.or_eq_false_iff, Bool.and_eq_false_imp, decide_eq_true_eq,
      decide_eq_false_iff_not]
    simp
    omega
  have h4 : (ch '0' ≤ cval c ∧ cval c ≤ ch '9') := by rw [hcv]; simp; omega
  rw [if_neg h0, if_neg h1, if_neg h2, h3]
  simp only [Bool.false_eq_true, if_false]
  rw [if_pos h4]
  have e : s.lex.p.tail = q := by
    show s.p.tail = _
    rw [hp]; rfl
  rw [e]
  rfl

/-- The lexer at a double quote. -/
theorem next_quote {s : CState} {q : List Nat} (hp : s.p = 34 :: q) :
    next s = { s with p := (scanQuote 34 q s.ival s.data s.dmem).1.tail, ival := s.data,
                      data := (scanQuote 34 q s.ival s.data s.dmem).2.2.1,
                      dmem := (scanQuote 34 q s.ival s.data s.dmem).2.2.2, tk := 34 } := by
  unfold next
  rw [hp]
  simp only [List.length_cons]
  have hpk : peek s.lex.p = 34 := by
    show peek s.p = 34
    rw [hp]; rfl
  rw [nextL_succ, hpk]
  have e : s.lex.p.tail = q := by
    show s.p.tail = _
    rw [hp]; rfl
  rw [e]
  simp [isAlpha]
  rfl

/-- The lexer at a letter or an underscore. -/
theorem next_ident {s : CState} {c : Nat} {q : List Nat} (hp : s.p = c :: q)
    (hc : isAlpha (cval c) = true) :
    next s = { s with p := (lexId s.sym s.p (cval c)).1, id := (lexId s.sym s.p (cval c)).2.1,
                      sym := (lexId s.sym s.p (cval c)).2.2.2, tk := (lexId s.sym s.p (cval c)).2.2.1 } := by
  unfold next
  rw [hp]
  simp only [List.length_cons]
  have hpk : peek s.lex.p = cval c := by
    show peek s.p = cval c
    rw [hp]; rfl
  have hal := hc
  simp only [isAlpha, Bool.or_eq_true, Bool.and_eq_true, decide_eq_true_eq] at hal
  simp only [ch_97, ch_122, ch_65, ch_90, ch_95] at hal
  rw [nextL_succ, hpk]
  have h0 : ¬ cval c = 0 := by omega
  have h1 : ¬ cval c = 10 := by omega
  have h2 : ¬ cval c = ch '#' := by simp only [ch_35]; omega
  rw [if_neg h0, if_neg h1, if_neg h2, hc]
  simp only [if_true]
  have e : s.lex.p = c :: q := hp
  have e1 : s.lex.sym = s.sym := rfl
  rw [e, e1, ← hp]
  rfl

theorem lexOp_unknown {c : Nat} (h : isUnknown c = true) (p : List Nat) : lexOp p (cval c) = none := by
  simp only [isUnknown, Bool.and_eq_true, Bool.not_eq_true', List.contains_eq_any_beq,
    List.any_cons, List.any_nil, Bool.or_false, Bool.or_eq_false_iff, beq_eq_false_iff_ne, ne_eq] at h
  obtain ⟨-, h1, h2, h3, h4, h5, h6, h7, h8, h9, h10, h11, h12, h13, h14, h15, h16, h17, h18, h19, h20,
    h21, h22⟩ := h
  unfold lexOp
  rw [if_neg h1, if_neg h2, if_neg h3, if_neg h4,
    if_neg h5, if_neg h6, if_neg h7, if_neg h8,
    if_neg h9, if_neg h10, if_neg h11, if_neg h12,
    if_neg h13, if_neg]
  intro h
  rcases h with h | h | h | h | h | h | h | h | h
  · exact h14 h
  · exact h15 h
  · exact h16 h
  · exact h17 h
  · exact h18 h
  · exact h19 h
  · exact h20 h
  · exact h21 h
  · exact h22 h

theorem scanQuote_stop (q : Int) (c : Nat) (cs : List Nat) (iv d : Int) (m : List (Int × Int))
    (h : ¬ (cval c ≠ 0 ∧ cval c ≠ q)) : scanQuote q (c :: cs) iv d m = (c :: cs, iv, d, m) := by
  rw [scanQuote.eq_def]
  simp only
  rw [if_neg h]

theorem scanQuote_step (c : Nat) (cs : List Nat) (iv d : Int) (m : List (Int × Int))
    (h0 : cval c ≠ 0) (h1 : cval c ≠ 34) (h2 : cval c ≠ 92) :
    scanQuote 34 (c :: cs) iv d m = scanQuote 34 cs (cval c) (d + 1) (m ++ [(d, cval c % 256)]) := by
  rw [scanQuote.eq_def]
  simp only
  rw [if_pos ⟨h0, h1⟩, if_neg h2, if_pos trivial]

theorem scanDec_cons (c : Nat) (cs : List Nat) (v : Int) :
    scanDec (c :: cs) v =
      if ch '0' ≤ cval c ∧ cval c ≤ ch '9' then scanDec cs (wrap (v * 10 + cval c - ch '0'))
      else (c :: cs, v) := rfl

theorem scanOct_cons (c : Nat) (cs : List Nat) (v : Int) :
    scanOct (c :: cs) v =
      if ch '0' ≤ cval c ∧ cval c ≤ ch '7' then scanOct cs (wrap (v * 8 + cval c - ch '0'))
      else (c :: cs, v) := rfl

theorem scanHex_cons (c : Nat) (cs : List Nat) (v : Int) :
    scanHex (c :: cs) v =
      if cval c ≠ 0 ∧ isHex (cval c) then
        scanHex cs (wrap (v * 16 + cval c % 16 + (if ch 'A' ≤ cval c then 9 else 0)))
      else (c :: cs, v) := rfl

theorem scanDec_stop {rest : List Nat} (h : ¬ (48 ≤ peek rest ∧ peek rest ≤ 57)) (v : Int) :
    scanDec rest v = (rest, v) := by
  cases rest with
  | nil => rfl
  | cons c cs =>
    rw [scanDec_cons, if_neg]
    simpa [peek] using h

theorem scanOct_stop {rest : List Nat} (h : ¬ (48 ≤ peek rest ∧ peek rest ≤ 55)) (v : Int) :
    scanOct rest v = (rest, v) := by
  cases rest with
  | nil => rfl
  | cons c cs =>
    rw [scanOct_cons, if_neg]
    simpa [peek] using h

theorem scanHex_stop {rest : List Nat} (h : peek rest = 0 ∨ isHex (peek rest) = false) (v : Int) :
    scanHex rest v = (rest, v) := by
  cases rest with
  | nil => rfl
  | cons c cs =>
    rw [scanHex_cons, if_neg]
    simp only [peek] at h
    rcases h with h | h <;> simp [h]

theorem scanDec_run (ds : List Nat) (hd : ∀ d ∈ ds, d < 10) {rest : List Nat}
    (hr : ¬ (48 ≤ peek rest ∧ peek rest ≤ 57)) (v : Int) (v0 : Nat) (hv : v = wrap v0) :
    scanDec (ds.map (fun d => d + 48) ++ rest) v =
      (rest, wrap ((ds.foldl (fun a d => a * 10 + d) v0 : Nat) : Int)) := by
  induction ds generalizing v v0 with
  | nil => simp [scanDec_stop hr, hv]
  | cons d ds ih =>
    have hd1 : d < 10 := hd d (List.mem_cons_self _ _)
    simp only [List.map_cons, List.cons_append, List.foldl_cons]
    have hc : cval (d + 48) = (d : Int) + 48 := by
      rw [cval_lt (by omega)]; push_cast; rfl
    rw [scanDec_cons, if_pos (by rw [hc]; simp only [ch_48, ch_57]; omega)]
    apply ih (fun x hx => hd x (List.mem_cons_of_mem _ hx))
    rw [hc, hv, ch_48]
    apply wrap_congr
    have h2 : wrap (v0 : Int) * 10 + (↑d + 48) - 48 = wrap v0 * 10 + ↑d := by ring
    rw [h2]
    push_cast
    exact ((wrap_modEq v0).mul_right 10).add_right _

theorem scanOct_run (ds : List Nat) (hd : ∀ d ∈ ds, d < 8) {rest : List Nat}
    (hr : ¬ (48 ≤ peek rest ∧ peek rest ≤ 55)) (v : Int) (v0 : Nat) (hv : v = wrap v0) :
    scanOct (ds.map (fun d => d + 48) ++ rest) v =
      (rest, wrap ((ds.foldl (fun a d => a * 8 + d) v0 : Nat) : Int)) := by
  induction ds generalizing v v0 with
  | nil => simp [scanOct_stop hr, hv]
  | cons d ds ih =>
    have hd1 : d < 8 := hd d (List.mem_cons_self _ _)
    simp only [List.map_cons, List.cons_append, List.foldl_cons]
    have hc : cval (d + 48) = (d : Int) + 48 := by
      rw [cval_lt (by omega)]; push_cast; rfl
    rw [scanOct_cons, if_pos (by rw [hc]; simp only [ch_48, ch_55]; omega)]
    apply ih (fun x hx => hd x (List.mem_cons_of_mem _ hx))
    rw [hc, hv, ch_48]
    apply wrap_congr
    have h2 : wrap (v0 : Int) * 8 + (↑d + 48) - 48 = wrap v0 * 8 + ↑d := by ring
    rw [h2]
    push_cast
    exact ((wrap_modEq v0).mul_right 8).add_right _

theorem scanHex_run (cs : List Nat) (hd : ∀ c ∈ cs, isHexChar c = true) {rest : List Nat}
    (hr : peek rest = 0 ∨ isHex (peek rest) = false) (v : Int) (v0 : Nat) (hv : v = wrap v0) :
    scanHex (cs ++ rest) v =
      (rest, wrap (((cs.map hexDigit).foldl (fun a d => a * 16 + d) v0 : Nat) : Int)) := by
  induction cs generalizing v v0 with
  | nil => simp [scanHex_stop hr, hv]
  | cons c cs ih =>
    have hc1 := hd c (List.mem_cons_self _ _)
    simp only [isHexChar, Bool.or_eq_true, Bool.and_eq_true, decide_eq_true_eq] at hc1
    simp only [List.map_cons, List.cons_append, List.foldl_cons]
    have hc : cval c = (c : Int) := cval_lt (by omega)
    have hx : isHex (cval c) = true := by
      rw [hc]
      simp only [isHex, Bool.or_eq_true, Bool.and_eq_true, decide_eq_true_eq, ch_48, ch_57, ch_97,
        ch_102, ch_65, ch_70]
      omega
    rw [scanHex_cons, if_pos ⟨by rw [hc]; omega, hx⟩]
    apply ih (fun x hx => hd x (List.mem_cons_of_mem _ hx))
    rw [hc, hv, ch_65]
    apply wrap_congr
    have h2 : (c : Int) % 16 + (if (65 : Int) ≤ c then 9 else 0) = (hexDigit c : Nat) := by
      unfold hexDigit
      split_ifs <;> omega
    rw [add_assoc, h2]
    push_cast
    exact ((wrap_modEq v0).mul_right 16).add_right _


theorem symScan_none (h : Int) (pp : List Nat) (n : Nat) (l : List Sym)
    (hl : ∀ d ∈ l, d.Tk ≠ 0 ∧ ¬ (h = d.Hash ∧ d.Name.take n = pp.take n)) (i : Nat) :
    symScan h pp n l i = (i + l.length, false) := by
  induction l generalizing i with
  | nil => rfl
  | cons d ds ih =>
    obtain ⟨h1, h2⟩ := hl d (List.mem_cons_self _ _)
    rw [symScan, if_neg h1, if_neg h2, ih (fun x hx => hl x (List.mem_cons_of_mem _ hx))]
    simp only [List.length_cons]
    congr 1
    omega

theorem symScan_found (h : Int) (pp : List Nat) (n : Nat) (l1 l2 : List Sym) (d : Sym)
    (hl : ∀ x ∈ l1, x.Tk ≠ 0 ∧ ¬ (h = x.Hash ∧ x.Name.take n = pp.take n))
    (h1 : d.Tk ≠ 0) (h2 : h = d.Hash ∧ d.Name.take n = pp.take n) (i : Nat) :
    symScan h pp n (l1 ++ d :: l2) i = (i + l1.length, true) := by
  induction l1 generalizing i with
  | nil => rw [List.nil_append, symScan, if_neg h1, if_pos h2]; rfl
  | cons x xs ih =>
    obtain ⟨a, b⟩ := hl x (List.mem_cons_self _ _)
    rw [List.cons_append, symScan, if_neg a, if_neg b, ih (fun y hy => hl y (List.mem_cons_of_mem _ hy))]
    simp only [List.length_cons]
    congr 1
    omega

theorem lexId_found (sym : List Sym) (pp : List Nat) (tk : Int) (l1 l2 : List Sym) (d : Sym)
    (hs : sym = l1 ++ d :: l2) (hl : ∀ x ∈ l1, x.Tk ≠ 0 ∧ ¬ Matches pp tk x)
    (h1 : d.Tk ≠ 0) (h2 : Matches pp tk d) :
    lexId sym pp tk = ((scanId pp.tail tk).1, l1.length, d.Tk, sym) := by
  unfold lexId
  simp only
  have := symScan_found (idHash pp tk) pp (idLen pp tk) l1 l2 d hl h1 h2 0
  unfold idHash idLen at this
  rw [hs, this]
  simp [symAt, List.getElem_append_right]

theorem lexId_fresh (sym : List Sym) (pp : List Nat) (tk : Int)
    (hl : ∀ x ∈ sym, x.Tk ≠ 0 ∧ ¬ Matches pp tk x) :
    lexId sym pp tk = ((scanId pp.tail tk).1, sym.length, Tok.Id, sym ++ [freshSym pp tk]) := by
  unfold lexId
  simp only
  have := symScan_none (idHash pp tk) pp (idLen pp tk) sym hl 0
  unfold idHash idLen at this
  rw [this]
  simp [symUpd, idHash, idLen, freshSym]


end C4
namespace C4

/-! ## Progress of the lexer -/

theorem land_mask (a : Nat) : Nat.land a (2 ^ 64 - 8) % 8 = 0 := by
  change (a &&& (2 ^ 64 - 8)) % 2 ^ 3 = 0
  apply Nat.eq_of_testBit_eq
  intro i
  rw [Nat.testBit_mod_two_pow, Nat.zero_testBit, Nat.testBit_and]
  by_cases h : i < 3
  · have : i = 0 ∨ i = 1 ∨ i = 2 := by omega
    have b0 : Nat.testBit 18446744073709551608 0 = false := by decide
    have b1 : Nat.testBit 18446744073709551608 1 = false := by decide
    have b2 : Nat.testBit 18446744073709551608 2 = false := by decide
    rcases this with rfl | rfl | rfl
    · simp [b0]
    · simp [b1]
    · simp [b2]
  · simp [h]

theorem band_mask (x : Int) : band x (-sizeofInt) % 8 = 0 := by
  unfold band
  have e : toU (-sizeofInt) = 2 ^ 64 - 8 := by decide
  rw [e]
  have h := land_mask (toU x)
  have h2 : ((Nat.land (toU x) (2 ^ 64 - 8) : Nat) : Int) % 8 = 0 := by
    exact_mod_cast h
  generalize ((Nat.land (toU x) (2 ^ 64 - 8) : Nat) : Int) = y at h2
  simp only [wrap, two63, two64]
  omega

theorem skipLine_len (l : List Nat) : (skipLine l).length ≤ l.length := by
  induction l with
  | nil => simp [skipLine]
  | cons c cs ih =>
    rw [skipLine]
    split_ifs
    · simp only [List.length_cons]; omega
    · exact le_refl _

theorem scanId_len (l : List Nat) (h : Int) : (scanId l h).1.length ≤ l.length := by
  induction l generalizing h with
  | nil => simp [scanId]
  | cons c cs ih =>
    rw [scanId]
    split_ifs
    · have := ih (wrap (h * 147 + cval c)); simp only [List.length_cons]; omega
    · exact le_refl _

theorem scanDec_len (l : List Nat) (v : Int) : (scanDec l v).1.length ≤ l.length := by
  induction l generalizing v with
  | nil => simp [scanDec]
  | cons c cs ih =>
    rw [scanDec_cons]
    split_ifs
    · have := ih (wrap (v * 10 + cval c - ch '0')); simp only [List.length_cons]; omega
    · exact le_refl _

theorem scanOct_len (l : List Nat) (v : Int) : (scanOct l v).1.length ≤ l.length := by
  induction l generalizing v with
  | nil => simp [scanOct]
  | cons c cs ih =>
    rw [scanOct_cons]
    split_ifs
    · have := ih (wrap (v * 8 + cval c - ch '0')); simp only [List.length_cons]; omega
    · exact le_refl _

theorem scanHex_len (l : List Nat) (v : Int) : (scanHex l v).1.length ≤ l.length := by
  induction l generalizing v with
  | nil => simp [scanHex]
  | cons c cs ih =>
    rw [scanHex_cons]
    by_cases hc : cval c ≠ 0 ∧ isHex (cval c)
    · rw [if_pos hc]
      exact le_trans (ih _) (by simp)
    · rw [if_neg hc]

theorem lexNum_len (p : List Nat) (tk : Int) : (lexNum p tk).1.length ≤ p.length := by
  unfold lexNum
  split_ifs
  · exact scanDec_len _ _
  · have := scanHex_len p.tail 0
    have : p.tail.length ≤ p.length := by simp
    omega
  · exact scanOct_len _ _

theorem Shorter.ite {p : List Nat} {c : Prop} [Decidable c] {a b : Option (List Nat × Int)}
    (ha : Shorter p a) (hb : Shorter p b) : Shorter p (if c then a else b) := by
  split_ifs
  · exact ha
  · exact hb

theorem Shorter.same (p : List Nat) (t : Int) : Shorter p (some (p, t)) := by
  intro x hx
  cases hx
  exact le_refl _

theorem Shorter.of_tail (p : List Nat) (t : Int) : Shorter p (some (p.tail, t)) := by
  intro x hx
  cases hx
  simp

theorem Shorter.none (p : List Nat) : Shorter p none := by
  intro x hx
  cases hx

theorem lexOp_len {p : List Nat} {tk : Int} {r : List Nat × Int} (h : lexOp p tk = some r) :
    r.1.length ≤ p.length := by
  have : Shorter p (lexOp p tk) := by
    unfold lexOp
    repeat' first
      | exact Shorter.same _ _
      | exact Shorter.of_tail _ _
      | exact Shorter.none _
      | apply Shorter.ite
  exact this r h


theorem scanQuote_len (q : Int) (n : Nat) : ∀ (l : List Nat) (iv d : Int) (m : List (Int × Int)),
    l.length ≤ n → (scanQuote q l iv d m).1.length ≤ l.length := by
  induction n with
  | zero =>
    intro l iv d m hl
    have : l = [] := List.length_eq_zero.mp (by omega)
    subst this
    simp [scanQuote]
  | succ n ih =>
    intro l iv d m hl
    cases l with
    | nil => simp [scanQuote]
    | cons c cs =>
      rw [scanQuote.eq_def]
      simp only
      simp only [List.length_cons] at hl
      by_cases h1 : cval c ≠ 0 ∧ cval c ≠ q
      · rw [if_pos h1]
        by_cases h2 : cval c = 92
        · rw [if_pos h2]
          cases cs with
          | nil => simp only; split_ifs <;> simp
          | cons c2 cs2 =>
            simp only [List.length_cons] at hl ⊢
            split_ifs <;> exact le_trans (ih cs2 _ _ _ (by omega)) (by omega)
        · rw [if_neg h2]
          split_ifs
          · exact le_trans (ih cs _ _ _ (by omega)) (by simp)
          · exact le_trans (ih cs _ _ _ (by omega)) (by simp)
      · rw [if_neg h1]

/-- The lexer does not move back, and moves on when it returns a token. -/
theorem nextL_len (n : Nat) : ∀ l : Lex, (nextL n l).1.p.length ≤ l.p.length ∧
    ((nextL n l).2 ≠ 0 → (nextL n l).1.p.length < l.p.length) := by
  induction n with
  | zero => intro l; exact ⟨le_refl _, fun h => absurd rfl h⟩
  | succ n ih =>
    intro l
    rw [nextL_succ]
    cases hp : l.p with
    | nil => simp [peek, hp]
    | cons c q =>
      have hlen : (c :: q).length = q.length + 1 := rfl
      have hq : q.tail.length ≤ q.length := by simp
      simp only [List.tail_cons]
      by_cases h0 : peek (c :: q) = 0
      · rw [if_pos h0]; simp [hp]
      rw [if_neg h0]
      by_cases h1 : peek (c :: q) = 10
      · rw [if_pos h1]
        have := ih { l with p := q, line := l.line + 1 }
        simp only at this
        exact ⟨by omega, fun h => by have := this.2 h; omega⟩
      rw [if_neg h1]
      by_cases h2 : peek (c :: q) = ch '#'
      · rw [if_pos h2]
        have := ih { l with p := skipLine q }
        have := skipLine_len q
        simp only at *
        exact ⟨by omega, fun h => by omega⟩
      rw [if_neg h2]
      by_cases h3 : isAlpha (peek (c :: q)) = true
      · rw [if_pos h3]
        simp only
        have : (lexId l.sym (c :: q) (peek (c :: q))).1.length ≤ q.length := by
          unfold lexId
          simp only [List.tail_cons]
          split_ifs <;> exact scanId_len _ _
        exact ⟨by omega, fun _ => by omega⟩
      rw [if_neg h3]
      by_cases h4 : ch '0' ≤ peek (c :: q) ∧ peek (c :: q) ≤ ch '9'
      · rw [if_pos h4]
        simp only
        have := lexNum_len q (peek (c :: q))
        exact ⟨by omega, fun _ => by omega⟩
      rw [if_neg h4]
      by_cases h5 : peek (c :: q) = ch '/'
      · rw [if_pos h5]
        by_cases h6 : peek q = ch '/'
        · rw [if_pos h6]
          have := ih { l with p := skipLine q.tail }
          have := skipLine_len q.tail
          simp only at *
          exact ⟨by omega, fun h => by omega⟩
        · rw [if_neg h6]
          simp only
          exact ⟨by omega, fun _ => by omega⟩
      rw [if_neg h5]
      by_cases h7 : peek (c :: q) = 39
      · rw [if_pos h7]
        simp only
        have := scanQuote_len 39 q.length q l.ival l.data l.dmem (le_refl _)
        have : (scanQuote 39 q l.ival l.data l.dmem).1.tail.length
            ≤ (scanQuote 39 q l.ival l.data l.dmem).1.length := by simp
        exact ⟨by omega, fun _ => by omega⟩
      rw [if_neg h7]
      by_cases h8 : peek (c :: q) = 34
      · rw [if_pos h8]
        simp only
        have := scanQuote_len 34 q.length q l.ival l.data l.dmem (le_refl _)
        have : (scanQuote 34 q l.ival l.data l.dmem).1.tail.length
            ≤ (scanQuote 34 q l.ival l.data l.dmem).1.length := by simp
        exact ⟨by omega, fun _ => by omega⟩
      rw [if_neg h8]
      cases ho : lexOp q (peek (c :: q)) with
      | none =>
        simp only
        have := ih { l with p := q }
        simp only at this
        exact ⟨by omega, fun h => by have := this.2 h; omega⟩
      | some r =>
        simp only
        have := lexOp_len ho
        exact ⟨by omega, fun _ => by omega⟩

theorem next_len (s : CState) : (next s).p.length ≤ s.p.length ∧
    ((next s).tk ≠ 0 → (next s).p.length < s.p.length) :=
  nextL_len (s.p.length + 1) s.lex


theorem skipStrings_succ (n : Nat) (s : CState) :
    skipStrings (n + 1) s = if s.tk = 34 then skipStrings n (next s) else .ok s := rfl

/-- The loop over adjacent string tokens ends. -/
theorem skipStrings_total (k : Nat) : ∀ s : CState, s.p.length ≤ k →
    ∃ s1, ∀ n, k + 2 ≤ n → skipStrings n s = .ok s1 := by
  induction k with
  | zero =>
    intro s hs
    by_cases h : s.tk = 34
    · have h2 : (next s).tk ≠ 34 := by
        intro h3
        have := (next_len s).2 (by rw [h3]; decide)
        omega
      refine ⟨next s, fun n hn => ?_⟩
      obtain ⟨m, rfl⟩ : ∃ m, n = m + 2 := ⟨n - 2, by omega⟩
      rw [skipStrings_succ, if_pos h, skipStrings_succ, if_neg h2]
    · refine ⟨s, fun n hn => ?_⟩
      obtain ⟨m, rfl⟩ : ∃ m, n = m + 1 := ⟨n - 1, by omega⟩
      rw [skipStrings_succ, if_neg h]
  | succ k ih =>
    intro s hs
    by_cases h : s.tk = 34
    · by_cases h2 : (next s).tk = 34
      · have := (next_len s).2 (by rw [h2]; decide)
        obtain ⟨s1, h1⟩ := ih (next s) (by omega)
        refine ⟨s1, fun n hn => ?_⟩
        obtain ⟨m, rfl⟩ : ∃ m, n = m + 1 := ⟨n - 1, by omega⟩
        rw [skipStrings_succ, if_pos h, h1 m (by omega)]
      · refine ⟨next s, fun n hn => ?_⟩
        obtain ⟨m, rfl⟩ : ∃ m, n = m + 2 := ⟨n - 2, by omega⟩
        rw [skipStrings_succ, if_pos h, skipStrings_succ, if_neg h2]
    · refine ⟨s, fun n hn => ?_⟩
      obtain ⟨m, rfl⟩ : ∃ m, n = m + 1 := ⟨n - 1, by omega⟩
      rw [skipStrings_succ, if_neg h]

theorem exprHead_Str (ex : Ex) (n : Nat) {s : CState} (h : s.tk = 34) :
    exprHead ex n s = hdStr n s := by
  simp [exprHead, h]

end C4
namespace C4

/-! ## Single instructions -/

theorem step_JSR {s : VM} (h : loadInt s.mem s.pc = Op.JSR) :
    step s = .cont { s with pc := loadInt s.mem (wrap (s.pc + 8)), sp := wrap (s.sp - 8), mem := storeInt s.mem (wrap (s.sp - 8)) (wrap (wrap (s.pc + 8) + 8)) } := by
  simp [step, h]

theorem step_ENT {s : VM} (h : loadInt s.mem s.pc = Op.ENT) :
    step s = .cont { s with pc := wrap (wrap (s.pc + 8) + 8), bp := wrap (s.sp - 8), sp := wrap (wrap (s.sp - 8) - 8 * loadInt s.mem (wrap (s.pc + 8))), mem := storeInt s.mem (wrap (s.sp - 8)) s.bp } := by
  simp [step, h]

theorem step_ADJ {s : VM} (h : loadInt s.mem s.pc = Op.ADJ) :
    step s = .cont { s with pc := wrap (wrap (s.pc + 8) + 8), sp := wrap (s.sp + 8 * loadInt s.mem (wrap (s.pc + 8))) } := by
  simp [step, h]

theorem step_LEV {s : VM} (h : loadInt s.mem s.pc = Op.LEV) :
    step s = .cont { s with sp := wrap (wrap (s.bp + 8) + 8), bp := loadInt s.mem s.bp, pc := loadInt s.mem (wrap (s.bp + 8)) } := by
  simp [step, h]

theorem step_PSH {s : VM} (h : loadInt s.mem s.pc = Op.PSH) :
    step s = .cont { s with pc := wrap (s.pc + 8), sp := wrap (s.sp - 8), mem := storeInt s.mem (wrap (s.sp - 8)) s.a } := by
  simp [step, h]

theorem step_EXIT {s : VM} (h : loadInt s.mem s.pc = Op.EXIT) :
    step s = .halt (loadInt s.mem s.sp) := by
  simp [step, h]

theorem step_IMM {s : VM} (h : loadInt s.mem s.pc = Op.IMM) :
    step s = .cont { s with pc := wrap (wrap (s.pc + 8) + 8), a := loadInt s.mem (wrap (s.pc + 8)) } := by
  simp [step, h]

theorem step_ADD {s : VM} (h : loadInt s.mem s.pc = Op.ADD) :
    step s = .cont { s with pc := wrap (s.pc + 8), sp := wrap (s.sp + 8), a := wrap (loadInt s.mem s.sp + s.a) } := by
  simp [step, h, alu]

theorem step_SUB {s : VM} (h : loadInt s.mem s.pc = Op.SUB) :
    step s = .cont { s with pc := wrap (s.pc + 8), sp := wrap (s.sp + 8), a := wrap (loadInt s.mem s.sp - s.a) } := by
  simp [step, h, alu]

theorem step_MUL {s : VM} (h : loadInt s.mem s.pc = Op.MUL) :
    step s = .cont { s with pc := wrap (s.pc + 8), sp := wrap (s.sp + 8), a := wrap (loadInt s.mem s.sp * s.a) } := by
  simp [step, h, alu]

end C4
namespace C4

/-! ## Runs of the interpreter over straight-line code -/

theorem storeInt_other (m : Mem) (a v x : Int) (h : ¬ (a ≤ x ∧ x < a + 8)) :
    storeInt m a v x = m x := by
  unfold storeInt; rw [if_neg h]

theorem loadInt_congr {m m1 : Mem} {a : Int} (h : ∀ x, a ≤ x → x < a + 8 → m1 x = m x) :
    loadInt m1 a = loadInt m a := by
  unfold loadInt
  rw [h a (by omega) (by omega), h (a + 1) (by omega) (by omega), h (a + 2) (by omega) (by omega),
    h (a + 3) (by omega) (by omega), h (a + 4) (by omega) (by omega), h (a + 5) (by omega) (by omega),
    h (a + 6) (by omega) (by omega), h (a + 7) (by omega) (by omega)]

theorem cycles_add {k j : Nat} {v v1 v2 : VM} (h1 : cycles k v = some v1) (h2 : cycles j v1 = some v2) :
    cycles (k + j) v = some v2 := by
  induction k generalizing v with
  | zero => simp only [cycles, Option.some.injEq] at h1; subst h1; simpa using h2
  | succ k ih =>
    have e : k + 1 + j = (k + j) + 1 := by omega
    rw [e]
    unfold cycles at h1 ⊢
    cases hs : step v with
    | cont s1 => rw [hs] at h1; simp only at h1 ⊢; exact ih h1
    | halt c => rw [hs] at h1; simp at h1
    | host i s => rw [hs] at h1; simp at h1
    | fault => rw [hs] at h1; simp at h1

theorem cycles_one {v v1 : VM} (h : step v = .cont v1) : cycles 1 v = some v1 := by
  unfold cycles; rw [h]; rfl

theorem run_succ (n : Nat) (s : VM) :
    run (n + 1) s = match step s with
      | .cont s1 => run n s1
      | .halt c => .halt c
      | .host i _ => .host i
      | .fault => .fault := rfl

theorem run_cycles {k : Nat} {v v1 : VM} (h : cycles k v = some v1) (n : Nat) :
    run (k + n) v = run n v1 := by
  induction k generalizing v with
  | zero => simp only [cycles, Option.some.injEq] at h; subst h; simp
  | succ k ih =>
    have e : k + 1 + n = (k + n) + 1 := by omega
    rw [e, run_succ]
    unfold cycles at h
    cases hs : step v with
    | cont s1 => rw [hs] at h; simp only at h ⊢; exact ih h
    | halt c => rw [hs] at h; simp at h
    | host i s => rw [hs] at h; simp at h
    | fault => rw [hs] at h; simp at h

theorem CodeAt.left {m : Mem} {pc : Int} {a b : List Int} (h : CodeAt m pc (a ++ b)) : CodeAt m pc a := by
  intro i hi
  have := h i (by rw [List.length_append]; omega)
  rw [this]
  simp [List.getD_eq_getElem?_getD, List.getElem?_append_left hi]

theorem CodeAt.right {m : Mem} {pc : Int} {a b : List Int} (h : CodeAt m pc (a ++ b)) :
    CodeAt m (pc + 8 * (a.length : Int)) b := by
  intro i hi
  have := h (a.length + i) (by rw [List.length_append]; omega)
  have e : pc + 8 * ((a.length + i : Nat) : Int) = pc + 8 * (a.length : Int) + 8 * (i : Int) := by
    push_cast; ring
  rw [e] at this
  rw [this]
  simp [List.getD_eq_getElem?_getD, List.getElem?_append_right]

theorem CodeAt.head {m : Mem} {pc w : Int} {b : List Int} (h : CodeAt m pc (w :: b)) :
    loadInt m pc = w := by
  have := h 0 (by simp)
  simpa using this

theorem CodeAt.tail {m : Mem} {pc w : Int} {b : List Int} (h : CodeAt m pc (w :: b)) :
    CodeAt m (pc + 8) b := by
  have := CodeAt.right (a := [w]) (b := b) h
  simpa using this

theorem CodeAt.congr {m m1 : Mem} {pc : Int} {c : List Int} (h : CodeAt m pc c)
    (hm : ∀ x, pc ≤ x → x < pc + 8 * (c.length : Int) → m1 x = m x) : CodeAt m1 pc c := by
  intro i hi
  rw [← h i hi]
  apply loadInt_congr
  intro x h1 h2
  apply hm x (by omega)
  have : (i : Int) + 1 ≤ (c.length : Int) := by exact_mod_cast hi
  omega

theorem wrap_sub_wrap (x y : Int) : wrap (wrap x - wrap y) = wrap (x - y) := by
  simp only [wrap, two63, two64]; omega

theorem wrap_add_wrap2 (x y : Int) : wrap (wrap x + wrap y) = wrap (x + y) := by
  simp only [wrap, two63, two64]; omega

theorem wrap_mul_wrap (x y : Int) : wrap (wrap x * wrap y) = wrap (x * y) := by
  apply wrap_congr
  exact (wrap_modEq x).mul (wrap_modEq y)


end C4
namespace C4

/-! ## The code of binary operations on the machine -/

theorem step_alu_ADD {s : VM} (h : loadInt s.mem s.pc = Op.ADD) :
    step s = alu s (wrap (s.pc + 8)) (fun x y => wrap (x + y)) := by
  simp [step, h]

theorem step_alu_SUB {s : VM} (h : loadInt s.mem s.pc = Op.SUB) :
    step s = alu s (wrap (s.pc + 8)) (fun x y => wrap (x - y)) := by
  simp [step, h]

theorem step_alu_MUL {s : VM} (h : loadInt s.mem s.pc = Op.MUL) :
    step s = alu s (wrap (s.pc + 8)) (fun x y => wrap (x * y)) := by
  simp [step, h]

theorem computes_imm (x : Int) : Computes [Op.IMM, wrap x] 0 (wrap x) := by
  intro v hc hp1 hp2 hs1 hs2 hd
  simp only [List.length_cons, List.length_nil] at hp2 hd
  have h0 : loadInt v.mem v.pc = Op.IMM := hc.head
  have h1 : loadInt v.mem (v.pc + 8) = wrap x := hc.tail.head
  have w1 : wrap (v.pc + 8) = v.pc + 8 := wrap_eq (by simp only [InRange, two63] at *; omega)
  have w2 : wrap (v.pc + 8 + 8) = v.pc + 8 + 8 := wrap_eq (by simp only [InRange, two63] at *; omega)
  refine ⟨1, _, cycles_one (step_IMM h0), ?_, rfl, rfl, ?_, fun _ _ => rfl⟩
  · simp only [w1, w2, List.length_cons, List.length_nil]; push_cast; ring
  · simp only [w1, h1]

/-- The code `l; PSH; r; op` of a binary operation. -/
theorem computes_binop {cl cr : List Int} {dl dr : Nat} {xl xr w : Int} {f : Int → Int → Int}
    (Hl : Computes cl dl xl) (Hr : Computes cr dr xr)
    (hw : ∀ s : VM, loadInt s.mem s.pc = w → step s = alu s (wrap (s.pc + 8)) f) :
    Computes (cl ++ Op.PSH :: (cr ++ [w])) (max dl (dr + 1)) (f (wrap xl) xr) := by
  intro v hc hp1 hp2 hs1 hs2 hd
  have hD1 : (dl : Int) ≤ ((max dl (dr + 1) : Nat) : Int) := by exact_mod_cast le_max_left _ _
  have hD2 : (dr : Int) + 1 ≤ ((max dl (dr + 1) : Nat) : Int) := by exact_mod_cast le_max_right _ _
  have hlen : (((cl ++ Op.PSH :: (cr ++ [w])).length : Nat) : Int) = cl.length + 1 + cr.length + 1 := by
    simp only [List.length_append, List.length_cons, List.length_nil]; push_cast; ring
  rw [hlen] at hp2 hd ⊢
  generalize hD : ((max dl (dr + 1) : Nat) : Int) = D at *
  have hL1 : (0 : Int) ≤ cl.length := Int.natCast_nonneg _
  have hL2 : (0 : Int) ≤ cr.length := Int.natCast_nonneg _
  have hdl : (0 : Int) ≤ dl := Int.natCast_nonneg _
  have hdr : (0 : Int) ≤ dr := Int.natCast_nonneg _
  simp only [two63] at hp1 hp2 hs1 hs2
  -- the left operand
  obtain ⟨k1, v1, hk1, hpc1, hsp1, hbp1, ha1, hm1⟩ := Hl v hc.left (by simp only [two63]; omega)
    (by simp only [two63]; omega) (by simp only [two63]; omega) (by simp only [two63]; omega) (by omega)
  -- the push
  have hcode1 : ∀ y, v.pc ≤ y → y < v.pc + 8 * (cl.length + 1 + cr.length + 1) → v1.mem y = v.mem y :=
    fun y h1 h2 => hm1 y (by omega)
  have hpsh : loadInt v1.mem v1.pc = Op.PSH := by
    rw [hpc1, ← hc.right.head]
    exact loadInt_congr (fun y h1 h2 => hcode1 y (by omega) (by omega))
  have w1 : wrap (v1.pc + 8) = v.pc + 8 * cl.length + 8 := by
    rw [hpc1]; exact wrap_eq (by simp only [InRange, two63]; omega)
  have w2 : wrap (v1.sp - 8) = v.sp - 8 := by
    rw [hsp1]; exact wrap_eq (by simp only [InRange, two63]; omega)
  have hk2 := cycles_one (step_PSH hpsh)
  rw [w1, w2] at hk2
  -- the right operand
  obtain ⟨k3, v3, hk3, hpc3, hsp3, hbp3, ha3, hm3⟩ := Hr
    { v1 with pc := v.pc + 8 * cl.length + 8, sp := v.sp - 8, mem := storeInt v1.mem (v.sp - 8) v1.a }
    (show CodeAt (storeInt v1.mem (v.sp - 8) v1.a) (v.pc + 8 * cl.length + 8) cr from
      CodeAt.congr hc.right.tail.left (fun y h1 h2 => by
        rw [storeInt_other _ _ _ _ (by omega)]
        exact hcode1 y (by omega) (by omega)))
    (by simp only [two63]; omega) (by simp only [two63]; omega) (by simp only [two63]; omega)
    (by simp only [two63]; omega) (by simp only; omega)
  simp only at hpc3 hsp3 hbp3 hm3
  -- the operation
  have hop : loadInt v3.mem v3.pc = w := by
    rw [hpc3, ← hc.right.tail.right.head]
    exact loadInt_congr (fun y h1 h2 => by
      rw [hm3 y (by omega), storeInt_other _ _ _ _ (by omega)]
      exact hcode1 y (by omega) (by omega))
  have htop : loadInt v3.mem v3.sp = wrap xl := by
    rw [hsp3, ← ha1, ← loadInt_storeInt_same v1.mem (v.sp - 8) v1.a]
    exact loadInt_congr (fun y h1 h2 => hm3 y (by omega))
  have hk4 : cycles 1 v3 = some { v3 with pc := wrap (v3.pc + 8), sp := wrap (v3.sp + 8), a := f (loadInt v3.mem v3.sp) v3.a } :=
    cycles_one (by rw [hw v3 hop]; rfl)
  refine ⟨k1 + (1 + (k3 + 1)), _, cycles_add hk1 (cycles_add hk2 (cycles_add hk3 hk4)), ?_, ?_, ?_, ?_, ?_⟩
  · simp only
    rw [hpc3]
    rw [wrap_eq (by simp only [InRange, two63]; omega)]
    ring
  · simp only
    rw [hsp3, wrap_eq (by simp only [InRange, two63]; omega)]
    ring
  · simp only
    rw [hbp3, hbp1]
  · simp only
    rw [htop, ha3]
  · intro y hy
    simp only
    rw [hm3 y (by omega), storeInt_other _ _ _ _ (by omega)]
    exact hm1 y (by omega)

/-- The code of an arithmetic expression computes its value and restores
the stack pointer. -/
theorem exec_aexp (E : AExp) : Computes E.code E.depth (wrap E.value) := by
  induction E with
  | num n b => exact computes_imm n
  | paren b1 e b2 ih => exact ih
  | add l b r ihl ihr =>
    have := computes_binop ihl ihr (fun s h => step_alu_ADD h)
    simp only [wrap_wrap, wrap_add_wrap2] at this
    exact this
  | sub l b r ihl ihr =>
    have := computes_binop ihl ihr (fun s h => step_alu_SUB h)
    simp only [wrap_wrap, wrap_sub_wrap] at this
    exact this
  | mul l b r ihl ihr =>
    have := computes_binop ihl ihr (fun s h => step_alu_MUL h)
    simp only [wrap_wrap, wrap_mul_wrap] at this
    exact this

end C4
namespace C4

/-! ## The initial stack -/

theorem boot_sp (L : Layout) (st : CState) (pc argc argv : Int) (m0 : Mem) :
    (boot L st pc argc argv m0).sp = L.stack + poolsz - 40 := rfl

theorem boot_bp (L : Layout) (st : CState) (pc argc argv : Int) (m0 : Mem) :
    (boot L st pc argc argv m0).bp = L.stack + poolsz := rfl

/-- The words of the initial stack. -/
theorem boot_stack (L : Layout) (st : CState) (pc argc argv : Int) (m0 : Mem)
    (h1 : -two63 + 48 ≤ L.stack + poolsz) (h2 : L.stack + poolsz < two63) :
    loadInt (boot L st pc argc argv m0).mem (L.stack + poolsz - 8) = Op.EXIT ∧
    loadInt (boot L st pc argc argv m0).mem (L.stack + poolsz - 16) = Op.PSH ∧
    loadInt (boot L st pc argc argv m0).mem (L.stack + poolsz - 24) = wrap argc ∧
    loadInt (boot L st pc argc argv m0).mem (L.stack + poolsz - 32) = wrap argv ∧
    loadInt (boot L st pc argc argv m0).mem (L.stack + poolsz - 40) = L.stack + poolsz - 16 := by
  unfold boot
  simp only
  refine ⟨?_, ?_, ?_, ?_, ?_⟩
  · rw [loadInt_storeInt_disj _ _ _ _ (by omega), loadInt_storeInt_disj _ _ _ _ (by omega),
      loadInt_storeInt_disj _ _ _ _ (by omega), loadInt_storeInt_disj _ _ _ _ (by omega),
      loadInt_storeInt_same]
    decide
  · rw [loadInt_storeInt_disj _ _ _ _ (by omega), loadInt_storeInt_disj _ _ _ _ (by omega),
      loadInt_storeInt_disj _ _ _ _ (by omega), loadInt_storeInt_same]
    decide
  · rw [loadInt_storeInt_disj _ _ _ _ (by omega), loadInt_storeInt_disj _ _ _ _ (by omega),
      loadInt_storeInt_same]
  · rw [loadInt_storeInt_disj _ _ _ _ (by omega), loadInt_storeInt_same]
  · rw [loadInt_storeInt_same]
    exact wrap_eq (by simp only [InRange, two63] at *; omega)

end C4
namespace C4

/-! ## Scaling code on the machine -/

theorem step_alu_DIV {s : VM} (h : loadInt s.mem s.pc = Op.DIV) (ha : s.a = 8) :
    step s = alu s (wrap (s.pc + 8)) (fun x y => Int.tdiv x y) := by
  simp [step, h, ha]

/-- The words `PSH; IMM w; op` on the machine: `a` becomes `a op w`. -/
theorem exec_psh_imm_op {v : VM} {w o : Int} {f : Int → Int → Int}
    (hc : CodeAt v.mem v.pc [Op.PSH, Op.IMM, w, o])
    (hop : ∀ s : VM, loadInt s.mem s.pc = o → s.a = w → step s = alu s (wrap (s.pc + 8)) f)
    (hp1 : -two63 ≤ v.pc) (hp2 : v.pc + 32 < two63) (hs1 : -two63 + 8 ≤ v.sp) (hs2 : v.sp < two63)
    (hd : v.pc + 32 ≤ v.sp - 8 ∨ v.sp ≤ v.pc) :
    ∃ v1, cycles 3 v = some v1 ∧ v1.pc = v.pc + 32 ∧ v1.sp = v.sp ∧ v1.bp = v.bp ∧
      v1.a = f (wrap v.a) w ∧ ∀ y, ¬ (v.sp - 8 ≤ y ∧ y < v.sp) → v1.mem y = v.mem y := by
  simp only [two63] at hp1 hp2 hs1 hs2
  have c0 : loadInt v.mem v.pc = Op.PSH := hc.head
  have c1 : loadInt v.mem (v.pc + 8) = Op.IMM := hc.tail.head
  have c2 : loadInt v.mem (v.pc + 8 + 8) = w := hc.tail.tail.head
  have c3 : loadInt v.mem (v.pc + 8 + 8 + 8) = o := hc.tail.tail.tail.head
  have w1 : wrap (v.pc + 8) = v.pc + 8 := wrap_eq (by simp only [InRange, two63]; omega)
  have w2 : wrap (v.sp - 8) = v.sp - 8 := wrap_eq (by simp only [InRange, two63]; omega)
  have w3 : wrap (v.pc + 8 + 8) = v.pc + 8 + 8 := wrap_eq (by simp only [InRange, two63]; omega)
  have w4 : wrap (v.pc + 8 + 8 + 8) = v.pc + 8 + 8 + 8 := wrap_eq (by simp only [InRange, two63]; omega)
  have w5 : wrap (v.pc + 8 + 8 + 8 + 8) = v.pc + 32 := by
    rw [wrap_eq (by simp only [InRange, two63]; omega)]; ring
  have w6 : wrap (v.sp - 8 + 8) = v.sp := by
    rw [wrap_eq (by simp only [InRange, two63]; omega)]; ring
  have k1 := cycles_one (step_PSH c0)
  rw [w1, w2] at k1
  have k2 : cycles 1 { v with pc := v.pc + 8, sp := v.sp - 8, mem := storeInt v.mem (v.sp - 8) v.a }
      = some { v with pc := v.pc + 8 + 8 + 8, sp := v.sp - 8, mem := storeInt v.mem (v.sp - 8) v.a, a := w } := by
    have h := cycles_one (step_IMM (s := { v with pc := v.pc + 8, sp := v.sp - 8, mem := storeInt v.mem (v.sp - 8) v.a })
      (by simp only; rw [loadInt_storeInt_disj _ _ _ _ (by omega)]; exact c1))
    simp only [w3, w4] at h
    rw [loadInt_storeInt_disj _ _ _ _ (by omega), c2] at h
    exact h
  have k3 : cycles 1 { v with pc := v.pc + 8 + 8 + 8, sp := v.sp - 8, mem := storeInt v.mem (v.sp - 8) v.a, a := w }
      = some { v with pc := v.pc + 32, sp := v.sp, mem := storeInt v.mem (v.sp - 8) v.a, a := f (wrap v.a) w } := by
    have h := cycles_one ((hop { v with pc := v.pc + 8 + 8 + 8, sp := v.sp - 8, mem := storeInt v.mem (v.sp - 8) v.a, a := w }
      (by simp only; rw [loadInt_storeInt_disj _ _ _ _ (by omega)]; exact c3) rfl).trans rfl)
    simp only [w5, w6, loadInt_storeInt_same] at h
    exact h
  refine ⟨_, cycles_add k1 (cycles_add k2 k3), rfl, rfl, rfl, rfl, fun y hy => ?_⟩
  exact storeInt_other _ _ _ _ (by omega)

/-- One arithmetic instruction on the machine. -/
theorem exec_alu {v : VM} {f : Int → Int → Int}
    (hop : step v = alu v (wrap (v.pc + 8)) f)
    (hp1 : -two63 ≤ v.pc) (hp2 : v.pc + 8 < two63) (hs1 : -two63 ≤ v.sp) (hs2 : v.sp + 8 < two63) :
    cycles 1 v = some { v with pc := v.pc + 8, sp := v.sp + 8, a := f (loadInt v.mem v.sp) v.a } := by
  have h := cycles_one (hop.trans rfl)
  rw [wrap_eq (show InRange (v.pc + 8) by simp only [InRange, two63] at *; omega),
    wrap_eq (show InRange (v.sp + 8) by simp only [InRange, two63] at *; omega)] at h
  exact h

end C4
namespace C4

/-! ## The parser on arithmetic expressions -/

theorem exprHead_Num (ex : Ex) (n : Nat) {s : CState} (h : s.tk = Tok.Num) :
    exprHead ex n s = hdNum s := by
  simp [exprHead, h]

theorem exprHead_Paren (ex : Ex) (n : Nat) {s : CState} (h : s.tk = 40) :
    exprHead ex n s = hdParen ex n s := by
  simp [exprHead, h]

theorem exprStep_Add (ex : Ex) {s : CState} (h : s.tk = Tok.Add) : exprStep ex s = opAdd ex s := by
  simp [exprStep, h]

theorem exprStep_Sub (ex : Ex) {s : CState} (h : s.tk = Tok.Sub) : exprStep ex s = opSub ex s := by
  simp [exprStep, h]

theorem exprStep_Mul (ex : Ex) {s : CState} (h : s.tk = Tok.Mul) :
    exprStep ex s = binop ex Tok.Inc Op.MUL s := by
  simp [exprStep, h]

/-- The text of an expression begins with a digit or an opening parenthesis. -/
theorem render_head (E : AExp) : ∃ c cs, E.render = c :: cs ∧ ((48 ≤ c ∧ c ≤ 57) ∨ c = 40) := by
  induction E with
  | num n b =>
    obtain ⟨c, cs, hd, -, h1, h2, -⟩ := lexNum_digits n (show NoDigit [] from by simp [NoDigit, peek])
    exact ⟨c, cs ++ blanks b, by simp [AExp.render, hd], Or.inl ⟨h1, h2⟩⟩
  | paren b1 e b2 _ => exact ⟨40, _, rfl, Or.inr rfl⟩
  | add l b r ihl _ =>
    obtain ⟨c, cs, hd, h⟩ := ihl
    exact ⟨c, cs ++ _, by simp only [AExp.render, hd, List.cons_append]; rfl, h⟩
  | sub l b r ihl _ =>
    obtain ⟨c, cs, hd, h⟩ := ihl
    exact ⟨c, cs ++ _, by simp only [AExp.render, hd, List.cons_append]; rfl, h⟩
  | mul l b r ihl _ =>
    obtain ⟨c, cs, hd, h⟩ := ihl
    exact ⟨c, cs ++ _, by simp only [AExp.render, hd, List.cons_append]; rfl, h⟩

/-- What follows an operator: blanks, then an expression. -/
theorem peek_operand (b : Nat) (E : AExp) (tail : List Nat) :
    peek (blanks b ++ (E.render ++ tail)) = 32 ∨
    (48 ≤ peek (blanks b ++ (E.render ++ tail)) ∧ peek (blanks b ++ (E.render ++ tail)) ≤ 57) ∨
    peek (blanks b ++ (E.render ++ tail)) = 40 := by
  cases b with
  | zero =>
    obtain ⟨c, cs, hd, h⟩ := render_head E
    simp only [blanks, List.replicate_zero, List.nil_append, hd, List.cons_append, peek]
    rcases h with ⟨h1, h2⟩ | h
    · right; left; rw [cval_lt (by omega)]; omega
    · right; right; rw [h]; rfl
  | succ b => left; rfl

theorem noDigit_blanks {b : Nat} {tail : List Nat} (h : NoDigit tail) : NoDigit (blanks b ++ tail) := by
  cases b with
  | zero => simpa [blanks] using h
  | succ b =>
    have : peek (blanks (b + 1) ++ tail) = 32 := rfl
    simp [NoDigit, this]

theorem follows_add {q : List Nat} (h : peek q ≠ 43) : Follows (43 :: q) Tok.Add q := by
  refine ⟨by simp [NoDigit, peek, cval_lt], fun X hX => next_tok hX (by decide) ?_⟩
  simp [lexOp, cval_lt, h]

theorem follows_sub {q : List Nat} (h : peek q ≠ 45) : Follows (45 :: q) Tok.Sub q := by
  refine ⟨by simp [NoDigit, peek, cval_lt], fun X hX => next_tok hX (by decide) ?_⟩
  simp [lexOp, cval_lt, h]

theorem follows_mul (q : List Nat) : Follows (42 :: q) Tok.Mul q := by
  refine ⟨by simp [NoDigit, peek, cval_lt], fun X hX => next_tok hX (by decide) ?_⟩
  simp [lexOp, cval_lt]

theorem follows_close (q : List Nat) : Follows (41 :: q) 41 q := by
  refine ⟨by simp [NoDigit, peek, cval_lt], fun X hX => next_tok hX (by decide) ?_⟩
  simp [lexOp, cval_lt]

theorem follows_semi (q : List Nat) : Follows (59 :: q) 59 q := by
  refine ⟨by simp [NoDigit, peek, cval_lt], fun X hX => next_tok hX (by decide) ?_⟩
  simp [lexOp, cval_lt]

/-- The lexer over blanks and a follower. -/
theorem next_blanks_follows {X : CState} {b : Nat} {tail rest : List Nat} {t : Int}
    (hp : X.p = blanks b ++ tail) (hf : Follows tail t rest) :
    next X = { X with p := rest, tk := t } := by
  rw [next_blanks X b tail hp, hf.2 { X with p := tail } rfl]

theorem next_open {X : CState} {q : List Nat} (hp : X.p = 40 :: q) :
    next X = { X with p := q, tk := 40 } :=
  next_tok hp (by decide) (by simp [lexOp, cval_lt])

/-- The first token of an expression is a number or an opening parenthesis. -/
theorem first_tok (E : AExp) : ∀ (X : CState) (tail : List Nat), X.p = E.render ++ tail →
    NoDigit tail → (next X).tk = Tok.Num ∨ (next X).tk = 40 := by
  induction E with
  | num n b =>
    intro X tail hp hn
    left
    rw [next_num n (show X.p = digits n ++ (blanks b ++ tail) from by rw [hp]; simp [AExp.render]) (noDigit_blanks hn)]
  | paren b1 e b2 _ =>
    intro X tail hp hn
    right
    rw [next_open (q := blanks b1 ++ (e.render ++ 41 :: blanks b2) ++ tail) (by rw [hp]; simp [AExp.render])]
  | add l b r ihl _ =>
    intro X tail hp hn
    exact ihl X (43 :: (blanks b ++ (r.render ++ tail))) (by rw [hp]; simp [AExp.render])
      (by simp [NoDigit, peek, cval_lt])
  | sub l b r ihl _ =>
    intro X tail hp hn
    exact ihl X (45 :: (blanks b ++ (r.render ++ tail))) (by rw [hp]; simp [AExp.render])
      (by simp [NoDigit, peek, cval_lt])
  | mul l b r ihl _ =>
    intro X tail hp hn
    exact ihl X (42 :: (blanks b ++ (r.render ++ tail))) (by rw [hp]; simp [AExp.render])
      (by simp [NoDigit, peek, cval_lt])


theorem post_tk (s0 : CState) (rest : List Nat) (t iv : Int) (e : List Int) :
    (post s0 rest t iv e).tk = t := rfl

/-- The parser on an arithmetic expression: from the state before the
first token, `expr(lev)` goes on as its loop does from the state after the
last token, with the code of the expression appended. -/
theorem parse_aexp (E : AExp) (hwf : E.wf = true) :
    ∀ (s0 : CState) (tail rest : List Nat) (t lev : Int) (r : Res CState),
      s0.p = E.render ++ tail → Follows tail t rest →
      (E.level = 0 → lev ≤ Tok.Add ∧ t < Tok.Mul) → (E.level = 1 → lev ≤ Tok.Mul ∧ t < Tok.Inc) →
      LoopTo lev (post s0 rest t E.lastIval (s0.e ++ E.code)) r → ExprTo lev (next s0) r := by
  induction E with
  | num n b =>
    intro s0 tail rest t lev r hp hf _ _ hl
    have hn : next s0 = { s0 with p := blanks b ++ tail, ival := wrap n, tk := Tok.Num } :=
      next_num n (by rw [hp]; simp [AExp.render]) (noDigit_blanks hf.1)
    refine ExprTo.of_head ?_ hl
    refine HeadTo.of_head_eq (n := 0) ?_ (ok_ne_fuel _)
    rw [exprHead_Num _ _ (by rw [hn]), hn]
    unfold hdNum
    rw [show next (emit (wrap n) (emit Op.IMM { s0 with p := blanks b ++ tail, ival := wrap n, tk := Tok.Num }))
      = _ from next_blanks_follows (b := b) rfl hf]
    simp [post, emit, AExp.code, AExp.lastIval]
  | paren b1 e b2 ih =>
    intro s0 tail rest t lev r hp hf _ _ hl
    simp only [AExp.wf] at hwf
    have hn : next s0 = { s0 with p := blanks b1 ++ (e.render ++ 41 :: blanks b2) ++ tail, tk := 40 } :=
      next_open (by rw [hp]; simp [AExp.render])
    have hfc : Follows (41 :: (blanks b2 ++ tail)) 41 (blanks b2 ++ tail) := follows_close _
    have hb : next (next s0) = next { next s0 with p := e.render ++ (41 :: (blanks b2 ++ tail)) } :=
      next_blanks _ b1 _ (by rw [hn]; simp [blanks])
    have hin := ih hwf { next s0 with p := e.render ++ (41 :: (blanks b2 ++ tail)) }
      (41 :: (blanks b2 ++ tail)) (blanks b2 ++ tail) 41 Tok.Assign _ rfl hfc
      (fun _ => ⟨by decide, by decide⟩) (fun _ => ⟨by decide, by decide⟩)
      (LoopTo.done (by rw [post_tk]; decide))
    obtain ⟨-, N, hN⟩ := hin
    have hft := first_tok e { next s0 with p := e.render ++ (41 :: (blanks b2 ++ tail)) } _ rfl hfc.1
    refine ExprTo.of_head ?_ hl
    refine HeadTo.of_head_eq (n := N) ?_ (ok_ne_fuel _)
    rw [exprHead_Paren _ _ (by rw [hn]), hdParen, hb]
    rw [if_neg (by rcases hft with h | h <;> rw [h] <;> decide), hN N (le_refl _), bind_ok,
      if_pos (by rw [post_tk]; rfl)]
    rw [next_blanks_follows (b := b2) (by simp [post]) hf]
    simp [post, hn, AExp.code, AExp.lastIval]
  | add l b r ihl ihr =>
    intro s0 tail rest t lev r0 hp hf h0 _ hl
    simp only [AExp.wf, Bool.and_eq_true, decide_eq_true_eq] at hwf
    obtain ⟨⟨hwl, hwr⟩, hlr⟩ := hwf
    obtain ⟨hlev, ht⟩ := h0 rfl
    have hpk : peek (blanks b ++ (r.render ++ tail)) ≠ 43 := by
      rcases peek_operand b r tail with h | h | h <;> omega
    refine ihl hwl s0 (43 :: (blanks b ++ (r.render ++ tail))) _ Tok.Add lev r0
      (by rw [hp]; simp [AExp.render]) (follows_add hpk)
      (fun _ => ⟨hlev, by decide⟩) (fun _ => ⟨le_trans hlev (by decide), by decide⟩) ?_
    refine LoopTo.turn (by rw [post_tk]; exact hlev) ?_ hl
    have hin := ihr hwr
      (emit Op.PSH { post s0 (blanks b ++ (r.render ++ tail)) Tok.Add l.lastIval (s0.e ++ l.code) with
        p := r.render ++ tail })
      tail rest t Tok.Mul _ rfl hf (fun h => by omega)
      (fun _ => ⟨le_refl _, lt_trans ht (by decide)⟩) (LoopTo.done (by rw [post_tk]; exact ht))
    obtain ⟨-, N, hN⟩ := hin
    refine StepTo.of_step_eq (n := N) ?_ (ok_ne_fuel _)
    rw [exprStep_Add _ (post_tk _ _ _ _ _), opAdd]
    rw [show emit Op.PSH (next (post s0 (blanks b ++ (r.render ++ tail)) Tok.Add l.lastIval (s0.e ++ l.code)))
      = next (emit Op.PSH { post s0 (blanks b ++ (r.render ++ tail)) Tok.Add l.lastIval (s0.e ++ l.code) with
        p := r.render ++ tail }) from by
        rw [next_blanks _ b (r.render ++ tail) rfl]; rfl]
    rw [hN N (le_refl _), bind_ok]
    simp [post, emit, AExp.code, AExp.lastIval]
  | sub l b r ihl ihr =>
    intro s0 tail rest t lev r0 hp hf h0 _ hl
    simp only [AExp.wf, Bool.and_eq_true, decide_eq_true_eq] at hwf
    obtain ⟨⟨hwl, hwr⟩, hlr⟩ := hwf
    obtain ⟨hlev, ht⟩ := h0 rfl
    have hpk : peek (blanks b ++ (r.render ++ tail)) ≠ 45 := by
      rcases peek_operand b r tail with h | h | h <;> omega
    refine ihl hwl s0 (45 :: (blanks b ++ (r.render ++ tail))) _ Tok.Sub lev r0
      (by rw [hp]; simp [AExp.render]) (follows_sub hpk)
      (fun _ => ⟨hlev, by decide⟩) (fun _ => ⟨le_trans hlev (by decide), by decide⟩) ?_
    refine LoopTo.turn (by rw [post_tk]; exact le_trans hlev (by decide)) ?_ hl
    have hin := ihr hwr
      (emit Op.PSH { post s0 (blanks b ++ (r.render ++ tail)) Tok.Sub l.lastIval (s0.e ++ l.code) with
        p := r.render ++ tail })
      tail rest t Tok.Mul _ rfl hf (fun h => by omega)
      (fun _ => ⟨le_refl _, lt_trans ht (by decide)⟩) (LoopTo.done (by rw [post_tk]; exact ht))
    obtain ⟨-, N, hN⟩ := hin
    refine StepTo.of_step_eq (n := N) ?_ (ok_ne_fuel _)
    rw [exprStep_Sub _ (post_tk _ _ _ _ _), opSub]
    rw [show emit Op.PSH (next (post s0 (blanks b ++ (r.render ++ tail)) Tok.Sub l.lastIval (s0.e ++ l.code)))
      = next (emit Op.PSH { post s0 (blanks b ++ (r.render ++ tail)) Tok.Sub l.lastIval (s0.e ++ l.code) with
        p := r.render ++ tail }) from by
        rw [next_blanks _ b (r.render ++ tail) rfl]; rfl]
    rw [hN N (le_refl _), bind_ok]
    simp [post, emit, AExp.code, AExp.lastIval]
  | mul l b r ihl ihr =>
    intro s0 tail rest t lev r0 hp hf _ h1 hl
    simp only [AExp.wf, Bool.and_eq_true, decide_eq_true_eq] at hwf
    obtain ⟨⟨⟨hwl, hwr⟩, hll⟩, hlr⟩ := hwf
    obtain ⟨hlev, ht⟩ := h1 rfl
    refine ihl hwl s0 (42 :: (blanks b ++ (r.render ++ tail))) _ Tok.Mul lev r0
      (by rw [hp]; simp [AExp.render]) (follows_mul _)
      (fun h => by omega) (fun _ => ⟨hlev, by decide⟩) ?_
    refine LoopTo.turn (by rw [post_tk]; exact hlev) ?_ hl
    have hin := ihr hwr
      (emit Op.PSH { post s0 (blanks b ++ (r.render ++ tail)) Tok.Mul l.lastIval (s0.e ++ l.code) with
        p := r.render ++ tail })
      tail rest t Tok.Inc _ rfl hf (fun h => by omega) (fun h => by omega)
      (LoopTo.done (by rw [post_tk]; exact ht))
    obtain ⟨-, N, hN⟩ := hin
    refine StepTo.of_step_eq (n := N) ?_ (ok_ne_fuel _)
    rw [exprStep_Mul _ (post_tk _ _ _ _ _), binop]
    rw [show emit Op.PSH (next (post s0 (blanks b ++ (r.render ++ tail)) Tok.Mul l.lastIval (s0.e ++ l.code)))
      = next (emit Op.PSH { post s0 (blanks b ++ (r.render ++ tail)) Tok.Mul l.lastIval (s0.e ++ l.code) with
        p := r.render ++ tail }) from by
        rw [next_blanks _ b (r.render ++ tail) rfl]; rfl]
    rw [hN N (le_refl _), bind_ok]
    simp [post, emit, AExp.code, AExp.lastIval]

end C4
namespace C4

/-! ## Statements -/

theorem stmt_While (n : Nat) {s : CState} (h : s.tk = Tok.While) :
    stmt (n + 1) s = stWhile (expr n) (stmt n) s := by
  simp [stmt, h]

/-- Filling the hole after the word `x`. -/
theorem set_hole (a c : List Int) (x w0 w : Int) :
    (a ++ x :: w0 :: c).set (a.length + 1) w = a ++ x :: w :: c := by
  induction a with
  | nil => rfl
  | cons y a ih => simp only [List.cons_append, List.length_cons, List.set_cons_succ, ih]

end C4
namespace C4

/-! ## The declaration loops -/

theorem enumLoop_succ (n : Nat) (s : CState) (i : Int) :
    enumLoop (n + 1) s i =
    if s.tk ≠ 125 then
      if s.tk ≠ Tok.Id then fail s "bad enum identifier"
      else
        (if (next s).tk = Tok.Assign then
            if (next (next s)).tk ≠ Tok.Num then fail (next (next s)) "bad enum initializer"
            else Res.ok (next (next (next s)), (next (next s)).ival)
          else Res.ok (next s, i)) >>= fun r =>
        enumLoop n (comma (r.1.setCur (enumSym r.2))) (wrap (r.2 + 1))
    else .ok s := by
  rw [enumLoop]
  by_cases h1 : s.tk ≠ 125
  · rw [if_pos h1, if_pos h1]
    by_cases h2 : s.tk ≠ Tok.Id
    · rw [if_pos h2, if_pos h2]
    · rw [if_neg h2, if_neg h2]
      simp only
      by_cases ha : (next s).tk = Tok.Assign
      · rw [if_pos ha, if_pos ha]
        by_cases hn : (next (next s)).tk ≠ Tok.Num
        · rw [if_pos hn, if_pos hn]; rfl
        · rw [if_neg hn, if_neg hn]; rfl
      · rw [if_neg ha, if_neg ha]; rfl
  · rw [if_neg h1, if_neg h1]

theorem declLoop_dup (n : Nat) (s : CState) (bt : Int) (r : CState × Int)
    (h1 : s.tk ≠ ch ';' ∧ s.tk ≠ 125) (hs : stars n s bt = .ok r) (h2 : r.1.tk = Tok.Id)
    (h3 : r.1.cur.Class ≠ 0) :
    declLoop (n + 1) s bt = .exit (-1) r.1.line "duplicate global definition" := by
  rw [declLoop, if_pos h1, hs, bind_ok, if_neg (not_not.mpr h2), if_pos h3]
  rfl

theorem paramLoop_dup (n : Nat) (s : CState) (i : Int) (r : CState × Int)
    (h1 : s.tk ≠ ch ')') (hs : stars n (ptype s).1 (ptype s).2 = .ok r) (h2 : r.1.tk = Tok.Id)
    (h3 : r.1.cur.Class = Tok.Loc) :
    paramLoop (n + 1) s i = .exit (-1) r.1.line "duplicate parameter definition" := by
  rw [paramLoop, if_pos h1]
  simp only
  unfold ptype at hs
  rw [hs, bind_ok, if_neg (not_not.mpr h2), if_pos h3]
  rfl

theorem paramLoop_reg (n : Nat) (s : CState) (i : Int) (r : CState × Int)
    (h1 : s.tk ≠ ch ')') (hs : stars n (ptype s).1 (ptype s).2 = .ok r) (h2 : r.1.tk = Tok.Id)
    (h3 : r.1.cur.Class ≠ Tok.Loc) :
    paramLoop (n + 1) s i = paramLoop n (comma (next (r.1.setCur (shadow r.2 i)))) (wrap (i + 1)) := by
  rw [paramLoop, if_pos h1]
  simp only
  unfold ptype at hs
  rw [hs, bind_ok, if_neg (not_not.mpr h2), if_neg h3]
  rfl

theorem localDecl_dup (bt : Int) (n : Nat) (s : CState) (i : Int) (r : CState × Int)
    (h1 : s.tk ≠ ch ';') (hs : stars n s bt = .ok r) (h2 : r.1.tk = Tok.Id)
    (h3 : r.1.cur.Class = Tok.Loc) :
    localDecl bt (n + 1) s i = .exit (-1) r.1.line "duplicate local definition" := by
  rw [localDecl, if_pos h1, hs, bind_ok, if_neg (not_not.mpr h2), if_pos h3]
  rfl

theorem hdVar_loc (d : Nat) (s : CState) (h : (symAt s.sym d).Class = Tok.Loc) :
    hdVar d s = .ok (emit (if (symAt s.sym d).Typ = CHAR then Op.LC else Op.LI)
      { emit (wrap (s.loc - (symAt s.sym d).Val)) (emit Op.LEA s) with ty := (symAt s.sym d).Typ }) := by
  rw [hdVar, if_pos h, bind_ok]
  rfl

end C4
namespace C4

/-! ## The symbol table across a function definition -/

set_option linter.unusedTactic false
set_option linter.unreachableTactic false
set_option linter.unusedVariables false

theorem symAt_lt {sym : List Sym} {i : Nat} (h : (symAt sym i).Tk ≠ 0) : i < sym.length := by
  by_contra hc
  apply h
  unfold symAt
  rw [List.getD_eq_default _ _ (by omega)]

theorem symAt_symUpd_ne (sym : List Sym) (i j : Nat) (f : Sym → Sym) (h : j ≠ i) :
    symAt (symUpd sym i f) j = symAt sym j := by
  unfold symUpd symAt
  split_ifs with h1 h2
  · simp [List.getD_eq_getElem?_getD, List.getElem?_set, Ne.symm h]
  · subst h2
    simp only [List.getD_eq_getElem?_getD]
    rcases Nat.lt_or_gt_of_ne h with h3 | h3
    · rw [List.getElem?_append_left h3]
    · rw [List.getElem?_eq_none (by simp; omega), List.getElem?_eq_none (by omega)]
  · rfl

theorem symAt_symUpd_self (sym : List Sym) (i : Nat) (f : Sym → Sym) (h : i < sym.length) :
    symAt (symUpd sym i f) i = f (symAt sym i) := by
  unfold symUpd symAt
  rw [if_pos h]
  simp [List.getD_eq_getElem?_getD, List.getElem?_set, h]

theorem holds_symUpd {sym0 sym : List Sym} (h : Holds sym0 sym) (i : Nat) (f : Sym → Sym)
    (hf : i < sym0.length → Saved (symAt sym0 i) (f (symAt sym i))) :
    Holds sym0 (symUpd sym i f) := by
  intro j hj
  by_cases e : j = i
  · subst e
    rw [symAt_symUpd_self _ _ _ (symAt_lt (h j hj).1)]
    exact hf hj
  · rw [symAt_symUpd_ne _ _ _ _ e]
    exact h j hj

theorem holds_id (sym0 : List Sym) (hT : ∀ d ∈ sym0, d.Tk ≠ 0) (hC : ∀ d ∈ sym0, d.Class ≠ Tok.Loc) :
    Holds sym0 sym0 := by
  intro j hj
  have hm : symAt sym0 j ∈ sym0 := by
    unfold symAt
    rw [List.getD_eq_getElem _ _ hj]
    exact List.getElem_mem hj
  exact ⟨hT _ hm, Or.inl ⟨hC _ hm, rfl, rfl, rfl⟩⟩

theorem symScan_le (h : Int) (pp : List Nat) (n : Nat) : ∀ (l : List Sym) (i : Nat),
    i ≤ (symScan h pp n l i).1 := by
  intro l
  induction l with
  | nil => intro i; exact le_refl _
  | cons d ds ih =>
    intro i
    unfold symScan
    split_ifs
    · exact le_refl _
    · exact le_refl _
    · exact le_trans (Nat.le_succ i) (ih (i + 1))

theorem symScan_ge (h : Int) (pp : List Nat) (n : Nat) (k : Nat) : ∀ (l : List Sym) (i : Nat),
    (∀ j, j < k → (symAt l j).Tk ≠ 0) → (symScan h pp n l i).2 = false →
    i + k ≤ (symScan h pp n l i).1 := by
  induction k with
  | zero => intro l i _ _; exact symScan_le h pp n l i
  | succ k ih =>
    intro l i hk hf
    cases l with
    | nil => exact absurd rfl (hk 0 (Nat.succ_pos k))
    | cons d ds =>
      have hd : d.Tk ≠ 0 := hk 0 (Nat.succ_pos k)
      unfold symScan at hf ⊢
      rw [if_neg hd] at hf ⊢
      by_cases hm : h = d.Hash ∧ d.Name.take n = pp.take n
      · rw [if_pos hm] at hf; cases hf
      · rw [if_neg hm] at hf ⊢
        have := ih ds (i + 1) (fun j hj => hk (j + 1) (Nat.succ_lt_succ hj)) hf
        omega

theorem holds_lexId {sym0 sym : List Sym} (h : Holds sym0 sym) (pp : List Nat) (tk : Int) :
    Holds sym0 (lexId sym pp tk).2.2.2 := by
  unfold lexId
  dsimp only
  split_ifs with hf
  · exact h
  · dsimp only
    refine holds_symUpd h _ _ ?_
    intro hi
    have := symScan_ge (wrap (wrap ((scanId pp.tail tk).2 * 64) + ((pp.length - (scanId pp.tail tk).1.length : Nat) : Int)))
      pp (pp.length - (scanId pp.tail tk).1.length) sym0.length sym 0 (fun j hj => (h j hj).1)
      (by simpa using hf)
    omega

theorem holds_nextL {sym0 : List Sym} (n : Nat) : ∀ l : Lex, Holds sym0 l.sym →
    Holds sym0 (nextL n l).1.sym := by
  induction n with
  | zero => intro l h; exact h
  | succ n ih =>
    intro l h
    rw [nextL_succ]
    repeat' first
      | with_reducible exact h
      | with_reducible exact ih _ h
      | with_reducible exact holds_lexId h _ _
      | split

theorem holds_next {sym0 : List Sym} {s : CState} (h : Holds sym0 s.sym) : Holds sym0 (next s).sym :=
  holds_nextL _ _ h

theorem symAt_restoreLocals (k : Nat) : ∀ (l : List Sym) (j : Nat), j < k →
    (∀ i, i < k → (symAt l i).Tk ≠ 0) →
    symAt (restoreLocals l) j = (if (symAt l j).Class = Tok.Loc then
      { symAt l j with Class := (symAt l j).HClass, Typ := (symAt l j).HTyp, Val := (symAt l j).HVal }
      else symAt l j) := by
  induction k with
  | zero => intro l j hj; omega
  | succ k ih =>
    intro l j hj hk
    cases l with
    | nil => exact absurd rfl (hk 0 (Nat.succ_pos k))
    | cons d ds =>
      have hd : d.Tk ≠ 0 := hk 0 (Nat.succ_pos k)
      unfold restoreLocals
      rw [if_neg hd]
      cases j with
      | zero => rfl
      | succ j =>
        exact ih ds j (by omega) (fun i hi => hk (i + 1) (Nat.succ_lt_succ hi))

theorem holds_restore {sym0 sym : List Sym} (h : Holds sym0 sym) (j : Nat) (hj : j < sym0.length) :
    (symAt (restoreLocals sym) j).Class = (symAt sym0 j).Class ∧
    (symAt (restoreLocals sym) j).Typ = (symAt sym0 j).Typ ∧
    (symAt (restoreLocals sym) j).Val = (symAt sym0 j).Val := by
  rw [symAt_restoreLocals sym0.length sym j hj (fun i hi => (h i hi).1)]
  rcases (h j hj).2 with ⟨h1, h2, h3, h4⟩ | ⟨h1, h2, h3, h4⟩
  · rw [if_neg h1]; exact ⟨h2, h3, h4⟩
  · rw [if_pos h1]; exact ⟨h2, h3, h4⟩

theorem holds_shadow {sym0 : List Sym} {s : CState} (t v : Int) (h : Holds sym0 s.sym)
    (hc : s.cur.Class ≠ Tok.Loc) : Holds sym0 (s.setCur (shadow t v)).sym := by
  unfold CState.setCur
  refine holds_symUpd h _ _ ?_
  intro hi
  rcases h s.id hi with ⟨h0, ⟨_, h2, h3, h4⟩ | ⟨h1, _⟩⟩
  · exact ⟨h0, Or.inr ⟨rfl, h2, h3, h4⟩⟩
  · exact absurd h1 hc

theorem holds_stable (sym0 : List Sym) : Stable (fun sym (_ : Int) => Holds sym0 sym) := by
  constructor
  · intro sym pp tk _ h
    exact holds_lexId h pp tk
  · intro sym d t v _ h hc
    refine holds_symUpd h _ _ ?_
    intro hi
    rcases h d hi with ⟨h0, ⟨_, h2, h3, h4⟩ | ⟨h1, _⟩⟩
    · exact ⟨h0, Or.inr ⟨rfl, h2, h3, h4⟩⟩
    · exact absurd h1 hc

theorem stable_nextL {Q : List Sym → Int → Prop} (hQ : Stable Q) (x : Int) (n : Nat) :
    ∀ l : Lex, Q l.sym x → Q (nextL n l).1.sym x := by
  induction n with
  | zero => intro l h; exact h
  | succ n ih =>
    intro l h
    rw [nextL_succ]
    repeat' first
      | with_reducible exact h
      | with_reducible exact ih _ h
      | with_reducible exact hQ.lex _ _ _ _ h
      | split

theorem stable_next {Q : List Sym → Int → Prop} (hQ : Stable Q) {s : CState} (h : Q s.sym s.loc) :
    Q (next s).sym (next s).loc :=
  stable_nextL hQ _ _ _ h

theorem stable_shadow {Q : List Sym → Int → Prop} (hQ : Stable Q) {s : CState} (t v : Int)
    (h : Q s.sym s.loc) (hc : s.cur.Class ≠ Tok.Loc) :
    Q (s.setCur (shadow t v)).sym (s.setCur (shadow t v)).loc :=
  hQ.reg _ _ _ _ _ h hc

theorem keep_ok {Q : List Sym → Int → Prop} {s : CState} (h : Q s.sym s.loc) : Keep Q (.ok s) := by
  constructor; intro a e; cases e; exact h

theorem keep_fail (Q : List Sym → Int → Prop) (s : CState) (msg : String) : Keep Q (fail s msg) := by
  constructor; intro a e; unfold fail at e; cases e

theorem keep_fuel (Q : List Sym → Int → Prop) : Keep Q .fuel := by
  constructor; intro a e; cases e

theorem keep2_ok {α : Type} {Q : List Sym → Int → Prop} {s : CState} {x : α} (h : Q s.sym s.loc) :
    Keep2 Q (.ok (s, x)) := by
  constructor; intro a e; cases e; exact h

theorem keep2_fail {α : Type} (Q : List Sym → Int → Prop) (s : CState) (msg : String) :
    Keep2 Q (fail s msg : Res (CState × α)) := by
  constructor; intro a e; unfold fail at e; cases e

theorem keep2_fuel {α : Type} (Q : List Sym → Int → Prop) : Keep2 Q (.fuel : Res (CState × α)) := by
  constructor; intro a e; cases e

theorem keep_bind {Q : List Sym → Int → Prop} {r : Res CState} {f : CState → Res CState} (h : Keep Q r)
    (hf : ∀ a, Q a.sym a.loc → Keep Q (f a)) : Keep Q (r >>= f) := by
  cases r with
  | ok a => exact hf a (h.holds a rfl)
  | exit c l m => constructor; intro a e; cases e
  | fuel => constructor; intro a e; cases e

theorem keep_bind2 {α : Type} {Q : List Sym → Int → Prop} {r : Res (CState × α)} {f : CState × α → Res CState}
    (h : Keep2 Q r) (hf : ∀ a, Q a.1.sym a.1.loc → Keep Q (f a)) : Keep Q (r >>= f) := by
  cases r with
  | ok a => exact hf a (h.holds a rfl)
  | exit c l m => constructor; intro a e; cases e
  | fuel => constructor; intro a e; cases e

theorem keep2_bind {α : Type} {Q : List Sym → Int → Prop} {r : Res CState} {f : CState → Res (CState × α)}
    (h : Keep Q r) (hf : ∀ a, Q a.sym a.loc → Keep2 Q (f a)) : Keep2 Q (r >>= f) := by
  cases r with
  | ok a => exact hf a (h.holds a rfl)
  | exit c l m => constructor; intro a e; cases e
  | fuel => constructor; intro a e; cases e

theorem keep2_bind2 {α β : Type} {Q : List Sym → Int → Prop} {r : Res (CState × α)}
    {f : CState × α → Res (CState × β)}
    (h : Keep2 Q r) (hf : ∀ a, Q a.1.sym a.1.loc → Keep2 Q (f a)) : Keep2 Q (r >>= f) := by
  cases r with
  | ok a => exact hf a (h.holds a rfl)
  | exit c l m => constructor; intro a e; cases e
  | fuel => constructor; intro a e; cases e

theorem emit_sym (w : Int) (s : CState) : (emit w s).sym = s.sym := rfl
theorem patch_sym (d : Nat) (w : Int) (s : CState) : (patch d w s).sym = s.sym := rfl
theorem setLastE_sym (w : Int) (s : CState) : (setLastE w s).sym = s.sym := rfl
theorem hole_sym (s : CState) : (hole s).1.sym = s.sym := rfl
theorem scale_sym (s : CState) : (scale s).sym = s.sym := rfl
theorem emit_loc (w : Int) (s : CState) : (emit w s).loc = s.loc := rfl
theorem patch_loc (d : Nat) (w : Int) (s : CState) : (patch d w s).loc = s.loc := rfl
theorem setLastE_loc (w : Int) (s : CState) : (setLastE w s).loc = s.loc := rfl
theorem hole_loc (s : CState) : (hole s).1.loc = s.loc := rfl
theorem scale_loc (s : CState) : (scale s).loc = s.loc := rfl

theorem stars_keep {Q : List Sym → Int → Prop} (hQ : Stable Q) (n : Nat) : ∀ (s : CState) (t : Int), Q s.sym s.loc →
    Keep2 Q (stars n s t) := by
  induction n with
  | zero => intro s t _; exact keep2_fuel _
  | succ n ih =>
    intro s t h
    unfold stars
    split
    · exact ih _ _ (stable_next hQ h)
    · exact keep2_ok h

theorem skipStrings_keep {Q : List Sym → Int → Prop} (hQ : Stable Q) (n : Nat) : ∀ (s : CState), Q s.sym s.loc →
    Keep Q (skipStrings n s) := by
  induction n with
  | zero => intro s _; exact keep_fuel _
  | succ n ih =>
    intro s h
    unfold skipStrings
    split
    · exact ih _ (stable_next hQ h)
    · exact keep_ok h

theorem callArgs_keep {Q : List Sym → Int → Prop} (hQ : Stable Q) {ex : Ex} (hex : KeepEx Q ex) (n : Nat) :
    ∀ (s : CState) (t : Int), Q s.sym s.loc → Keep2 Q (callArgs ex n s t) := by
  induction n with
  | zero => intro s t _; exact keep2_fuel _
  | succ n ih =>
    intro s t h
    unfold callArgs
    split
    · refine keep2_bind (hex _ _ h) (fun a ha => ?_)
      apply ih
      split
      · exact stable_next hQ ha
      · exact ha
    · exact keep2_ok h

theorem hdNum_keep {Q : List Sym → Int → Prop} (hQ : Stable Q) {s : CState} (h : Q s.sym s.loc) : Keep Q (hdNum s) :=
  keep_ok (stable_next hQ h)

theorem hdStr_keep {Q : List Sym → Int → Prop} (hQ : Stable Q) (n : Nat) {s : CState} (h : Q s.sym s.loc) :
    Keep Q (hdStr n s) :=
  keep_bind (skipStrings_keep hQ n _ (stable_next hQ h)) (fun _ ha => keep_ok ha)

theorem keep_ite {Q : List Sym → Int → Prop} {c : Prop} [Decidable c] {a b : Res CState} (ha : Keep Q a)
    (hb : Keep Q b) : Keep Q (if c then a else b) := by
  split <;> assumption

theorem dupLoad_keep {Q : List Sym → Int → Prop} (hQ : Stable Q) (msg : String) {s : CState}
    (h : Q s.sym s.loc) : Keep Q (dupLoad msg s) := by
  unfold dupLoad
  repeat' first
    | with_reducible exact keep_fail _ _ _
    | with_reducible apply keep_ok
    | simp only [emit_sym, patch_sym, setLastE_sym, scale_sym, hole_sym, emit_loc, patch_loc, setLastE_loc, scale_loc, hole_loc]
    | with_reducible apply stable_next hQ
    | with_reducible assumption
    | with_reducible refine keep_bind ?_ (fun _ _ => ?_)
    | with_reducible refine keep_bind2 ?_ (fun _ _ => ?_)
    | split

theorem hdSizeof_keep {Q : List Sym → Int → Prop} (hQ : Stable Q) (n : Nat) {s : CState}
    (h : Q s.sym s.loc) : Keep Q (hdSizeof n s) := by
  unfold hdSizeof
  repeat' first
    | with_reducible exact keep_fail _ _ _
    | with_reducible apply keep_ok
    | simp only [emit_sym, patch_sym, setLastE_sym, scale_sym, hole_sym, emit_loc, patch_loc, setLastE_loc, scale_loc, hole_loc]
    | with_reducible apply stable_next hQ
    | with_reducible assumption
    | with_reducible apply stars_keep hQ
    | with_reducible refine keep_bind ?_ (fun _ _ => ?_)
    | with_reducible refine keep_bind2 ?_ (fun _ _ => ?_)
    | split

theorem hdCall_keep {Q : List Sym → Int → Prop} (hQ : Stable Q) {ex : Ex} (hex : KeepEx Q ex) (n d : Nat) {s : CState}
    (h : Q s.sym s.loc) : Keep Q (hdCall ex n d s) := by
  unfold hdCall
  repeat' first
    | with_reducible exact keep_fail _ _ _
    | with_reducible apply keep_ok
    | simp only [emit_sym, patch_sym, setLastE_sym, scale_sym, hole_sym, emit_loc, patch_loc, setLastE_loc, scale_loc, hole_loc]
    | with_reducible apply stable_next hQ
    | with_reducible assumption
    | with_reducible apply hex
    | with_reducible apply callArgs_keep hQ hex
    | with_reducible refine keep_bind ?_ (fun _ _ => ?_)
    | with_reducible refine keep_bind2 ?_ (fun _ _ => ?_)
    | split

theorem hdVar_keep {Q : List Sym → Int → Prop} (hQ : Stable Q) (d : Nat) {s : CState}
    (h : Q s.sym s.loc) : Keep Q (hdVar d s) := by
  unfold hdVar
  repeat' first
    | with_reducible exact keep_fail _ _ _
    | with_reducible apply keep_ok
    | simp only [emit_sym, patch_sym, setLastE_sym, scale_sym, hole_sym, emit_loc, patch_loc, setLastE_loc, scale_loc, hole_loc]
    | with_reducible apply stable_next hQ
    | with_reducible assumption
    | with_reducible refine keep_bind ?_ (fun _ _ => ?_)
    | with_reducible refine keep_bind2 ?_ (fun _ _ => ?_)
    | split

theorem hdId_keep {Q : List Sym → Int → Prop} (hQ : Stable Q) {ex : Ex} (hex : KeepEx Q ex) (n : Nat) {s : CState}
    (h : Q s.sym s.loc) : Keep Q (hdId ex n s) := by
  unfold hdId
  repeat' first
    | with_reducible exact hdCall_keep hQ hex _ _ (stable_next hQ h)
    | with_reducible exact hdVar_keep hQ _ (stable_next hQ h)
    | with_reducible apply keep_ite
    | exact keep_ok (stable_next hQ h)

theorem hdCast_keep {Q : List Sym → Int → Prop} (hQ : Stable Q) {ex : Ex} (hex : KeepEx Q ex) (n : Nat) {s : CState}
    (h : Q s.sym s.loc) : Keep Q (hdCast ex n s) := by
  unfold hdCast
  repeat' first
    | with_reducible exact keep_fail _ _ _
    | with_reducible apply keep_ok
    | simp only [emit_sym, patch_sym, setLastE_sym, scale_sym, hole_sym, emit_loc, patch_loc, setLastE_loc, scale_loc, hole_loc]
    | with_reducible apply stable_next hQ
    | with_reducible assumption
    | with_reducible apply hex
    | with_reducible apply stars_keep hQ
    | with_reducible refine keep_bind ?_ (fun _ _ => ?_)
    | with_reducible refine keep_bind2 ?_ (fun _ _ => ?_)
    | split

theorem hdParen_keep {Q : List Sym → Int → Prop} (hQ : Stable Q) {ex : Ex} (hex : KeepEx Q ex) (n : Nat) {s : CState}
    (h : Q s.sym s.loc) : Keep Q (hdParen ex n s) := by
  unfold hdParen
  repeat' first
    | with_reducible exact keep_fail _ _ _
    | with_reducible apply keep_ok
    | simp only [emit_sym, patch_sym, setLastE_sym, scale_sym, hole_sym, emit_loc, patch_loc, setLastE_loc, scale_loc, hole_loc]
    | with_reducible apply stable_next hQ
    | with_reducible assumption
    | with_reducible apply hex
    | with_reducible apply hdCast_keep hQ hex
    | with_reducible refine keep_bind ?_ (fun _ _ => ?_)
    | with_reducible refine keep_bind2 ?_ (fun _ _ => ?_)
    | split

theorem hdDeref_keep {Q : List Sym → Int → Prop} (hQ : Stable Q) {ex : Ex} (hex : KeepEx Q ex) {s : CState}
    (h : Q s.sym s.loc) : Keep Q (hdDeref ex s) := by
  unfold hdDeref
  repeat' first
    | with_reducible exact keep_fail _ _ _
    | with_reducible apply keep_ok
    | simp only [emit_sym, patch_sym, setLastE_sym, scale_sym, hole_sym, emit_loc, patch_loc, setLastE_loc, scale_loc, hole_loc]
    | with_reducible apply stable_next hQ
    | with_reducible assumption
    | with_reducible apply hex
    | with_reducible refine keep_bind ?_ (fun _ _ => ?_)
    | with_reducible refine keep_bind2 ?_ (fun _ _ => ?_)
    | split

theorem hdAddr_keep {Q : List Sym → Int → Prop} (hQ : Stable Q) {ex : Ex} (hex : KeepEx Q ex) {s : CState}
    (h : Q s.sym s.loc) : Keep Q (hdAddr ex s) := by
  unfold hdAddr
  repeat' first
    | with_reducible exact keep_fail _ _ _
    | with_reducible apply keep_ok
    | simp only [emit_sym, patch_sym, setLastE_sym, scale_sym, hole_sym, emit_loc, patch_loc, setLastE_loc, scale_loc, hole_loc]
    | with_reducible apply stable_next hQ
    | with_reducible assumption
    | with_reducible apply hex
    | with_reducible refine keep_bind ?_ (fun _ _ => ?_)
    | with_reducible refine keep_bind2 ?_ (fun _ _ => ?_)
    | split

theorem hdNot_keep {Q : List Sym → Int → Prop} (hQ : Stable Q) {ex : Ex} (hex : KeepEx Q ex) {s : CState}
    (h : Q s.sym s.loc) : Keep Q (hdNot ex s) := by
  unfold hdNot
  repeat' first
    | with_reducible exact keep_fail _ _ _
    | with_reducible apply keep_ok
    | simp only [emit_sym, patch_sym, setLastE_sym, scale_sym, hole_sym, emit_loc, patch_loc, setLastE_loc, scale_loc, hole_loc]
    | with_reducible apply stable_next hQ
    | with_reducible assumption
    | with_reducible apply hex
    | with_reducible refine keep_bind ?_ (fun _ _ => ?_)
    | with_reducible refine keep_bind2 ?_ (fun _ _ => ?_)
    | split

theorem hdCompl_keep {Q : List Sym → Int → Prop} (hQ : Stable Q) {ex : Ex} (hex : KeepEx Q ex) {s : CState}
    (h : Q s.sym s.loc) : Keep Q (hdCompl ex s) := by
  unfold hdCompl
  repeat' first
    | with_reducible exact keep_fail _ _ _
    | with_reducible apply keep_ok
    | simp only [emit_sym, patch_sym, setLastE_sym, scale_sym, hole_sym, emit_loc, patch_loc, setLastE_loc, scale_loc, hole_loc]
    | with_reducible apply stable_next hQ
    | with_reducible assumption
    | with_reducible apply hex
    | with_reducible refine keep_bind ?_ (fun _ _ => ?_)
    | with_reducible refine keep_bind2 ?_ (fun _ _ => ?_)
    | split

theorem hdPlus_keep {Q : List Sym → Int → Prop} (hQ : Stable Q) {ex : Ex} (hex : KeepEx Q ex) {s : CState}
    (h : Q s.sym s.loc) : Keep Q (hdPlus ex s) := by
  unfold hdPlus
  repeat' first
    | with_reducible exact keep_fail _ _ _
    | with_reducible apply keep_ok
    | simp only [emit_sym, patch_sym, setLastE_sym, scale_sym, hole_sym, emit_loc, patch_loc, setLastE_loc, scale_loc, hole_loc]
    | with_reducible apply stable_next hQ
    | with_reducible assumption
    | with_reducible apply hex
    | with_reducible refine keep_bind ?_ (fun _ _ => ?_)
    | with_reducible refine keep_bind2 ?_ (fun _ _ => ?_)
    | split

theorem hdMinus_keep {Q : List Sym → Int → Prop} (hQ : Stable Q) {ex : Ex} (hex : KeepEx Q ex) {s : CState}
    (h : Q s.sym s.loc) : Keep Q (hdMinus ex s) := by
  unfold hdMinus
  repeat' first
    | with_reducible exact keep_fail _ _ _
    | with_reducible apply keep_ok
    | simp only [emit_sym, patch_sym, setLastE_sym, scale_sym, hole_sym, emit_loc, patch_loc, setLastE_loc, scale_loc, hole_loc]
    | with_reducible apply stable_next hQ
    | with_reducible assumption
    | with_reducible apply hex
    | with_reducible refine keep_bind ?_ (fun _ _ => ?_)
    | with_reducible refine keep_bind2 ?_ (fun _ _ => ?_)
    | split

theorem hdPreInc_keep {Q : List Sym → Int → Prop} (hQ : Stable Q) {ex : Ex} (hex : KeepEx Q ex) {s : CState}
    (h : Q s.sym s.loc) : Keep Q (hdPreInc ex s) := by
  unfold hdPreInc
  repeat' first
    | with_reducible exact keep_fail _ _ _
    | with_reducible apply keep_ok
    | simp only [emit_sym, patch_sym, setLastE_sym, scale_sym, hole_sym, emit_loc, patch_loc, setLastE_loc, scale_loc, hole_loc]
    | with_reducible apply stable_next hQ
    | with_reducible assumption
    | with_reducible apply hex
    | with_reducible apply dupLoad_keep hQ
    | with_reducible refine keep_bind ?_ (fun _ _ => ?_)
    | with_reducible refine keep_bind2 ?_ (fun _ _ => ?_)
    | split

theorem exprHead_keep {Q : List Sym → Int → Prop} (hQ : Stable Q) {ex : Ex} (hex : KeepEx Q ex) (n : Nat) {s : CState}
    (h : Q s.sym s.loc) : Keep Q (exprHead ex n s) := by
  unfold exprHead
  repeat' first
    | with_reducible exact keep_fail _ _ _
    | with_reducible exact hdNum_keep hQ h
    | with_reducible exact hdStr_keep hQ _ h
    | with_reducible exact hdSizeof_keep hQ _ h
    | with_reducible exact hdId_keep hQ hex _ h
    | with_reducible exact hdParen_keep hQ hex _ h
    | with_reducible exact hdDeref_keep hQ hex h
    | with_reducible exact hdAddr_keep hQ hex h
    | with_reducible exact hdNot_keep hQ hex h
    | with_reducible exact hdCompl_keep hQ hex h
    | with_reducible exact hdPlus_keep hQ hex h
    | with_reducible exact hdMinus_keep hQ hex h
    | with_reducible exact hdPreInc_keep hQ hex h
    | with_reducible apply keep_ite

theorem opAssign_keep {Q : List Sym → Int → Prop} (hQ : Stable Q) {ex : Ex} (hex : KeepEx Q ex) {s : CState}
    (h : Q s.sym s.loc) : Keep Q (opAssign ex s) := by
  unfold opAssign
  repeat' first
    | with_reducible exact keep_fail _ _ _
    | with_reducible apply keep_ok
    | simp only [emit_sym, patch_sym, setLastE_sym, scale_sym, hole_sym, emit_loc, patch_loc, setLastE_loc, scale_loc, hole_loc]
    | with_reducible apply stable_next hQ
    | with_reducible assumption
    | with_reducible apply hex
    | with_reducible refine keep_bind ?_ (fun _ _ => ?_)
    | with_reducible refine keep_bind2 ?_ (fun _ _ => ?_)
    | split

theorem opCond_keep {Q : List Sym → Int → Prop} (hQ : Stable Q) {ex : Ex} (hex : KeepEx Q ex) {s : CState}
    (h : Q s.sym s.loc) : Keep Q (opCond ex s) := by
  unfold opCond
  repeat' first
    | with_reducible exact keep_fail _ _ _
    | with_reducible apply keep_ok
    | simp only [emit_sym, patch_sym, setLastE_sym, scale_sym, hole_sym, emit_loc, patch_loc, setLastE_loc, scale_loc, hole_loc]
    | with_reducible apply stable_next hQ
    | with_reducible assumption
    | with_reducible apply hex
    | with_reducible refine keep_bind ?_ (fun _ _ => ?_)
    | with_reducible refine keep_bind2 ?_ (fun _ _ => ?_)
    | split

theorem opJump_keep {Q : List Sym → Int → Prop} (hQ : Stable Q) {ex : Ex} (hex : KeepEx Q ex) (lev op : Int) {s : CState}
    (h : Q s.sym s.loc) : Keep Q (opJump ex lev op s) := by
  unfold opJump
  repeat' first
    | with_reducible exact keep_fail _ _ _
    | with_reducible apply keep_ok
    | simp only [emit_sym, patch_sym, setLastE_sym, scale_sym, hole_sym, emit_loc, patch_loc, setLastE_loc, scale_loc, hole_loc]
    | with_reducible apply stable_next hQ
    | with_reducible assumption
    | with_reducible apply hex
    | with_reducible refine keep_bind ?_ (fun _ _ => ?_)
    | with_reducible refine keep_bind2 ?_ (fun _ _ => ?_)
    | split

theorem binop_keep {Q : List Sym → Int → Prop} (hQ : Stable Q) {ex : Ex} (hex : KeepEx Q ex) (lev op : Int) {s : CState}
    (h : Q s.sym s.loc) : Keep Q (binop ex lev op s) := by
  unfold binop
  repeat' first
    | with_reducible exact keep_fail _ _ _
    | with_reducible apply keep_ok
    | simp only [emit_sym, patch_sym, setLastE_sym, scale_sym, hole_sym, emit_loc, patch_loc, setLastE_loc, scale_loc, hole_loc]
    | with_reducible apply stable_next hQ
    | with_reducible assumption
    | with_reducible apply hex
    | with_reducible refine keep_bind ?_ (fun _ _ => ?_)
    | with_reducible refine keep_bind2 ?_ (fun _ _ => ?_)
    | split

theorem opAdd_keep {Q : List Sym → Int → Prop} (hQ : Stable Q) {ex : Ex} (hex : KeepEx Q ex) {s : CState}
    (h : Q s.sym s.loc) : Keep Q (opAdd ex s) := by
  unfold opAdd
  repeat' first
    | with_reducible exact keep_fail _ _ _
    | with_reducible apply keep_ok
    | simp only [emit_sym, patch_sym, setLastE_sym, scale_sym, hole_sym, emit_loc, patch_loc, setLastE_loc, scale_loc, hole_loc]
    | with_reducible apply stable_next hQ
    | with_reducible assumption
    | with_reducible apply hex
    | with_reducible refine keep_bind ?_ (fun _ _ => ?_)
    | with_reducible refine keep_bind2 ?_ (fun _ _ => ?_)
    | split

theorem opSub_keep {Q : List Sym → Int → Prop} (hQ : Stable Q) {ex : Ex} (hex : KeepEx Q ex) {s : CState}
    (h : Q s.sym s.loc) : Keep Q (opSub ex s) := by
  unfold opSub
  repeat' first
    | with_reducible exact keep_fail _ _ _
    | with_reducible apply keep_ok
    | simp only [emit_sym, patch_sym, setLastE_sym, scale_sym, hole_sym, emit_loc, patch_loc, setLastE_loc, scale_loc, hole_loc]
    | with_reducible apply stable_next hQ
    | with_reducible assumption
    | with_reducible apply hex
    | with_reducible refine keep_bind ?_ (fun _ _ => ?_)
    | with_reducible refine keep_bind2 ?_ (fun _ _ => ?_)
    | split

theorem opPost_keep {Q : List Sym → Int → Prop} (hQ : Stable Q) {s : CState}
    (h : Q s.sym s.loc) : Keep Q (opPost s) := by
  unfold opPost
  repeat' first
    | with_reducible exact keep_fail _ _ _
    | with_reducible apply keep_ok
    | simp only [emit_sym, patch_sym, setLastE_sym, scale_sym, hole_sym, emit_loc, patch_loc, setLastE_loc, scale_loc, hole_loc]
    | with_reducible apply stable_next hQ
    | with_reducible assumption
    | with_reducible apply dupLoad_keep hQ
    | with_reducible refine keep_bind ?_ (fun _ _ => ?_)
    | with_reducible refine keep_bind2 ?_ (fun _ _ => ?_)
    | split

theorem opBrak_keep {Q : List Sym → Int → Prop} (hQ : Stable Q) {ex : Ex} (hex : KeepEx Q ex) {s : CState}
    (h : Q s.sym s.loc) : Keep Q (opBrak ex s) := by
  unfold opBrak
  repeat' first
    | with_reducible exact keep_fail _ _ _
    | with_reducible apply keep_ok
    | simp only [emit_sym, patch_sym, setLastE_sym, scale_sym, hole_sym, emit_loc, patch_loc, setLastE_loc, scale_loc, hole_loc]
    | with_reducible apply stable_next hQ
    | with_reducible assumption
    | with_reducible apply hex
    | with_reducible refine keep_bind ?_ (fun _ _ => ?_)
    | with_reducible refine keep_bind2 ?_ (fun _ _ => ?_)
    | split

theorem exprStep_keep {Q : List Sym → Int → Prop} (hQ : Stable Q) {ex : Ex} (hex : KeepEx Q ex) {s : CState}
    (h : Q s.sym s.loc) : Keep Q (exprStep ex s) := by
  unfold exprStep
  repeat' first
    | with_reducible exact keep_fail _ _ _
    | with_reducible exact opAssign_keep hQ hex h
    | with_reducible exact opCond_keep hQ hex h
    | with_reducible exact opJump_keep hQ hex _ _ h
    | with_reducible exact binop_keep hQ hex _ _ h
    | with_reducible exact opAdd_keep hQ hex h
    | with_reducible exact opSub_keep hQ hex h
    | with_reducible exact opPost_keep hQ h
    | with_reducible exact opBrak_keep hQ hex h
    | with_reducible apply keep_ite

theorem exprLoop_keep {Q : List Sym → Int → Prop} (hQ : Stable Q) {ex : Ex} (hex : KeepEx Q ex) (n : Nat) (lev : Int) :
    ∀ s : CState, Q s.sym s.loc → Keep Q (exprLoop ex n lev s) := by
  induction n with
  | zero => intro s _; exact keep_fuel _
  | succ n ih =>
    intro s h
    unfold exprLoop
    split
    · exact keep_bind (exprStep_keep hQ hex h) (fun a ha => ih a ha)
    · exact keep_ok h

theorem expr_keep {Q : List Sym → Int → Prop} (hQ : Stable Q) (n : Nat) : KeepEx Q (expr n) := by
  induction n with
  | zero => intro lev s _; exact keep_fuel _
  | succ n ih =>
    intro lev s h
    unfold expr
    exact keep_bind (exprHead_keep hQ ih n h) (fun a ha => exprLoop_keep hQ ih n lev a ha)

theorem stmtBlock_keep {Q : List Sym → Int → Prop} (hQ : Stable Q) {st : St} (hst : KeepSt Q st) (n : Nat) :
    ∀ s : CState, Q s.sym s.loc → Keep Q (stmtBlock st n s) := by
  induction n with
  | zero => intro s _; exact keep_fuel _
  | succ n ih =>
    intro s h
    unfold stmtBlock
    split
    · exact keep_bind (hst _ h) (fun a ha => ih a ha)
    · exact keep_ok h

theorem parenExpr_keep {Q : List Sym → Int → Prop} (hQ : Stable Q) {ex : Ex} (hex : KeepEx Q ex) {s : CState}
    (h : Q s.sym s.loc) : Keep Q (parenExpr ex s) := by
  unfold parenExpr
  repeat' first
    | with_reducible exact keep_fail _ _ _
    | with_reducible apply keep_ok
    | simp only [emit_sym, patch_sym, setLastE_sym, scale_sym, hole_sym, emit_loc, patch_loc, setLastE_loc, scale_loc, hole_loc]
    | with_reducible apply stable_next hQ
    | with_reducible assumption
    | with_reducible apply hex
    | with_reducible refine keep_bind ?_ (fun _ _ => ?_)
    | with_reducible refine keep_bind2 ?_ (fun _ _ => ?_)
    | split

theorem stIf_keep {Q : List Sym → Int → Prop} (hQ : Stable Q) {ex : Ex} (hex : KeepEx Q ex) {st : St} (hst : KeepSt Q st) {s : CState}
    (h : Q s.sym s.loc) : Keep Q (stIf ex st s) := by
  unfold stIf
  repeat' first
    | with_reducible exact keep_fail _ _ _
    | with_reducible apply keep_ok
    | simp only [emit_sym, patch_sym, setLastE_sym, scale_sym, hole_sym, emit_loc, patch_loc, setLastE_loc, scale_loc, hole_loc]
    | with_reducible apply stable_next hQ
    | with_reducible assumption
    | with_reducible apply hst
    | with_reducible apply hex
    | with_reducible apply parenExpr_keep hQ hex
    | with_reducible refine keep_bind ?_ (fun _ _ => ?_)
    | with_reducible refine keep_bind2 ?_ (fun _ _ => ?_)
    | split

theorem stWhile_keep {Q : List Sym → Int → Prop} (hQ : Stable Q) {ex : Ex} (hex : KeepEx Q ex) {st : St} (hst : KeepSt Q st) {s : CState}
    (h : Q s.sym s.loc) : Keep Q (stWhile ex st s) := by
  unfold stWhile
  repeat' first
    | with_reducible exact keep_fail _ _ _
    | with_reducible apply keep_ok
    | simp only [emit_sym, patch_sym, setLastE_sym, scale_sym, hole_sym, emit_loc, patch_loc, setLastE_loc, scale_loc, hole_loc]
    | with_reducible apply stable_next hQ
    | with_reducible assumption
    | with_reducible apply hst
    | with_reducible apply hex
    | with_reducible apply parenExpr_keep hQ hex
    | with_reducible refine keep_bind ?_ (fun _ _ => ?_)
    | with_reducible refine keep_bind2 ?_ (fun _ _ => ?_)
    | split

theorem stReturn_keep {Q : List Sym → Int → Prop} (hQ : Stable Q) {ex : Ex} (hex : KeepEx Q ex) {s : CState}
    (h : Q s.sym s.loc) : Keep Q (stReturn ex s) := by
  unfold stReturn
  repeat' first
    | with_reducible exact keep_fail _ _ _
    | with_reducible apply keep_ok
    | simp only [emit_sym, patch_sym, setLastE_sym, scale_sym, hole_sym, emit_loc, patch_loc, setLastE_loc, scale_loc, hole_loc]
    | with_reducible apply stable_next hQ
    | with_reducible assumption
    | with_reducible apply hex
    | with_reducible refine keep_bind ?_ (fun _ _ => ?_)
    | with_reducible refine keep_bind2 ?_ (fun _ _ => ?_)
    | split

theorem stExpr_keep {Q : List Sym → Int → Prop} (hQ : Stable Q) {ex : Ex} (hex : KeepEx Q ex) {s : CState}
    (h : Q s.sym s.loc) : Keep Q (stExpr ex s) := by
  unfold stExpr
  repeat' first
    | with_reducible exact keep_fail _ _ _
    | with_reducible apply keep_ok
    | simp only [emit_sym, patch_sym, setLastE_sym, scale_sym, hole_sym, emit_loc, patch_loc, setLastE_loc, scale_loc, hole_loc]
    | with_reducible apply stable_next hQ
    | with_reducible assumption
    | with_reducible apply hex
    | with_reducible refine keep_bind ?_ (fun _ _ => ?_)
    | with_reducible refine keep_bind2 ?_ (fun _ _ => ?_)
    | split

theorem stmt_keep {Q : List Sym → Int → Prop} (hQ : Stable Q) (n : Nat) : KeepSt Q (stmt n) := by
  induction n with
  | zero => intro s _; exact keep_fuel _
  | succ n ih =>
    intro s h
    unfold stmt
    repeat' first
      | with_reducible exact stIf_keep hQ (expr_keep hQ n) ih h
      | with_reducible exact stWhile_keep hQ (expr_keep hQ n) ih h
      | with_reducible exact stReturn_keep hQ (expr_keep hQ n) h
      | with_reducible exact stExpr_keep hQ (expr_keep hQ n) h
      | with_reducible exact keep_ok (stable_next hQ h)
      | with_reducible exact keep_bind (stmtBlock_keep hQ ih n _ (stable_next hQ h)) (fun a ha => keep_ok (stable_next hQ ha))
      | with_reducible apply keep_ite

theorem paramLoop_keep {Q : List Sym → Int → Prop} (hQ : Stable Q) (n : Nat) : ∀ (s : CState) (i : Int), Q s.sym s.loc →
    Keep2 Q (paramLoop n s i) := by
  induction n with
  | zero => intro s i _; exact keep2_fuel _
  | succ n ih =>
    intro s i h
    unfold paramLoop
    repeat' first
      | with_reducible exact keep2_fail _ _ _
      | with_reducible apply keep2_ok
      | with_reducible apply ih
      | with_reducible apply stars_keep hQ
      | with_reducible apply stable_next hQ
      | with_reducible apply stable_shadow hQ
      | assumption
      | refine keep2_bind2 ?_ (fun _ _ => ?_)
      | split

theorem localDecl_keep {Q : List Sym → Int → Prop} (hQ : Stable Q) (bt : Int) (n : Nat) : ∀ (s : CState) (i : Int),
    Q s.sym s.loc → Keep2 Q (localDecl bt n s i) := by
  induction n with
  | zero => intro s i _; exact keep2_fuel _
  | succ n ih =>
    intro s i h
    unfold localDecl
    repeat' first
      | with_reducible exact keep2_fail _ _ _
      | with_reducible apply keep2_ok
      | with_reducible apply ih
      | with_reducible apply stars_keep hQ
      | with_reducible apply stable_next hQ
      | with_reducible apply stable_shadow hQ
      | assumption
      | refine keep2_bind2 ?_ (fun _ _ => ?_)
      | split

theorem localLoop_keep {Q : List Sym → Int → Prop} (hQ : Stable Q) (n : Nat) : ∀ (s : CState) (i bt : Int),
    Q s.sym s.loc → Keep2 Q (localLoop n s i bt) := by
  induction n with
  | zero => intro s i bt _; exact keep2_fuel _
  | succ n ih =>
    intro s i bt h
    unfold localLoop
    split
    · refine keep2_bind2 (localDecl_keep hQ _ n _ _ (stable_next hQ h)) (fun a ha => ?_)
      exact ih _ _ _ (stable_next hQ ha)
    · exact keep2_ok h

theorem bind_eq_ok {α β : Type} {r : Res α} {f : α → Res β} {b : β} (h : (r >>= f) = .ok b) :
    ∃ a, r = .ok a ∧ f a = .ok b := by
  cases r with
  | ok a => exact ⟨a, rfl, h⟩
  | exit c l m => cases h
  | fuel => cases h

theorem funcDef_split {n : Nat} {s : CState} {bt : Int} {r : CState × Int}
    (h : funcDef n s bt = .ok r) :
    ∃ (p : CState × Int) (t : CState), paramLoop n (next (funcHead s)) 0 = .ok p ∧
      r.1.sym = restoreLocals t.sym ∧
      ∀ Q : List Sym → Int → Prop, Stable Q → Q (next p.1).sym (wrap (p.2 + 1)) → Q t.sym t.loc := by
  unfold funcDef at h
  dsimp only at h
  obtain ⟨p, hp, h⟩ := bind_eq_ok h
  split at h
  · unfold fail at h; cases h
  · obtain ⟨l, hl, h⟩ := bind_eq_ok h
    obtain ⟨s6, h6, h⟩ := bind_eq_ok h
    cases h
    refine ⟨p, s6, hp, rfl, fun Q hQ hp1 => ?_⟩
    have hl0 : Q (next { next p.1 with loc := wrap (p.2 + 1) }).sym
        (next { next p.1 with loc := wrap (p.2 + 1) }).loc :=
      stable_next hQ hp1
    have hl1 := (localLoop_keep hQ n _ _ bt hl0).holds l hl
    have h5 : Q (emit (wrap (l.2.1 - l.1.loc)) (emit Op.ENT l.1)).sym
        (emit (wrap (l.2.1 - l.1.loc)) (emit Op.ENT l.1)).loc := hl1
    exact (stmtBlock_keep hQ (stmt_keep hQ n) n _ h5).holds s6 h6

theorem paramLoop_first {n : Nat} {s : CState} {i : Int} {q p : CState × Int}
    (h1 : s.tk ≠ ch ')') (hq : stars n (ptype s).1 (ptype s).2 = .ok q)
    (hp : paramLoop (n + 1) s i = .ok p) :
    q.1.cur.Class ≠ Tok.Loc ∧
      paramLoop n (comma (next (q.1.setCur (shadow q.2 i)))) (wrap (i + 1)) = .ok p := by
  by_cases h2 : q.1.tk = Tok.Id
  · by_cases h3 : q.1.cur.Class = Tok.Loc
    · rw [paramLoop_dup n s i q h1 hq h2 h3] at hp; cases hp
    · rw [paramLoop_reg n s i q h1 hq h2 h3] at hp; exact ⟨h3, hp⟩
  · rw [paramLoop, if_pos h1] at hp
    simp only at hp
    unfold ptype at hq
    rw [hq, bind_ok, if_pos h2] at hp
    unfold fail at hp; cases hp

end C4

namespace C4

/-! ## Parameters and locals: what the lexer and the declaration loops keep -/

set_option linter.unusedTactic false
set_option linter.unreachableTactic false

theorem symAt_symUpd_end (sym : List Sym) (f : Sym → Sym) :
    symAt (symUpd sym sym.length f) sym.length = f {} := by
  unfold symUpd symAt
  rw [if_neg (lt_irrefl _), if_pos rfl]
  simp [List.getD_eq_getElem?_getD]

theorem symAt_len (sym : List Sym) : symAt sym sym.length = {} := by
  unfold symAt
  rw [List.getD_eq_default _ _ (le_refl _)]

theorem symAt_symUpd_field {α : Type} (g : Sym → α) (sym : List Sym) (i j : Nat) (f : Sym → Sym)
    (hf : ∀ d, g (f d) = g d) : g (symAt (symUpd sym i f) j) = g (symAt sym j) := by
  by_cases e : j = i
  · subst e
    rcases Nat.lt_trichotomy j sym.length with h | h | h
    · rw [symAt_symUpd_self _ _ _ h, hf]
    · subst h
      rw [symAt_symUpd_end, symAt_len, hf]
    · unfold symUpd
      rw [if_neg (by omega), if_neg (by omega)]
  · rw [symAt_symUpd_ne _ _ _ _ e]

theorem lexId_field {α : Type} (g : Sym → α)
    (hg : ∀ (d : Sym) (nm : List Nat) (h : Int), g { d with Name := nm, Hash := h, Tk := Tok.Id } = g d)
    (sym : List Sym) (pp : List Nat) (tk : Int) (j : Nat) :
    g (symAt (lexId sym pp tk).2.2.2 j) = g (symAt sym j) := by
  unfold lexId
  dsimp only
  split_ifs with hf
  · rfl
  · exact symAt_symUpd_field g _ _ _ _ (fun d => hg d _ _)

theorem slots_stable (L : Int) (regs : List (Nat × Int)) : Stable (Slots L regs) := by
  constructor
  · intro sym pp tk l h
    refine ⟨h.1, fun x hx => ?_⟩
    rw [lexId_field (fun d => d.Class) (fun _ _ _ => rfl), lexId_field (fun d => d.Val) (fun _ _ _ => rfl)]
    exact h.2 x hx
  · intro sym d t v l h hc
    refine ⟨h.1, fun x hx => ?_⟩
    have hne : x.1 ≠ d := by
      intro e
      rw [← e] at hc
      exact hc (h.2 x hx).1
    rw [symAt_symUpd_ne _ _ _ _ hne]
    exact h.2 x hx

theorem symScan_bound (h : Int) (pp : List Nat) (n : Nat) : ∀ (l : List Sym) (i : Nat),
    (symScan h pp n l i).1 ≤ i + l.length ∧
      ((symScan h pp n l i).2 = true → (symScan h pp n l i).1 < i + l.length) := by
  intro l
  induction l with
  | nil => intro i; unfold symScan; simp
  | cons d ds ih =>
    intro i
    unfold symScan
    split_ifs
    · simp
    · simp
    · have := ih (i + 1)
      simp only [List.length_cons]
      constructor
      · omega
      · intro hh; have := this.2 hh; omega

theorem symUpd_length (sym : List Sym) (i : Nat) (f : Sym → Sym) :
    sym.length ≤ (symUpd sym i f).length ∧ (i ≤ sym.length → i < (symUpd sym i f).length) := by
  unfold symUpd
  split_ifs with h1 h2
  · simp [h1]
  · subst h2; simp
  · constructor
    · exact le_refl _
    · intro h; omega

theorem lexId_id_lt (sym : List Sym) (pp : List Nat) (tk : Int) :
    (lexId sym pp tk).2.1 < (lexId sym pp tk).2.2.2.length := by
  unfold lexId
  dsimp only
  split_ifs with hf
  · have := (symScan_bound (wrap (wrap ((scanId pp.tail tk).2 * 64) + ((pp.length - (scanId pp.tail tk).1.length : Nat) : Int)))
      pp (pp.length - (scanId pp.tail tk).1.length) sym 0).2 hf
    simpa using this
  · dsimp only
    apply (symUpd_length _ _ _).2
    have := (symScan_bound (wrap (wrap ((scanId pp.tail tk).2 * 64) + ((pp.length - (scanId pp.tail tk).1.length : Nat) : Int)))
      pp (pp.length - (scanId pp.tail tk).1.length) sym 0).1
    simpa using this

theorem ite_tok {c : Prop} [Decidable c] {a b : Option (List Nat × Int)} {x : Int}
    (ha : c → ∀ r, a = some r → r.2 ≠ x) (hb : ¬c → ∀ r, b = some r → r.2 ≠ x) :
    ∀ r, (if c then a else b) = some r → r.2 ≠ x := by
  split
  · exact ha ‹_›
  · exact hb ‹_›

theorem lexOp_ne_Id (p : List Nat) (tk : Int) : ∀ r, lexOp p tk = some r → r.2 ≠ Tok.Id := by
  unfold lexOp
  repeat' first
    | (intro r e; cases e; done)
    | (intro r e; cases e; intro e2; dsimp only at e2; first
        | exact absurd e2 (by decide)
        | (subst e2; revert hc; decide))
    | (refine ite_tok (fun hc => ?_) (fun _ => ?_))

theorem nextL_id_lt (n : Nat) : ∀ l : Lex, (nextL n l).2 = Tok.Id →
    (nextL n l).1.id < (nextL n l).1.sym.length := by
  induction n with
  | zero => intro l h; change (0 : Int) = 133 at h; exact absurd h (by decide)
  | succ n ih =>
    intro l
    rw [nextL_succ]
    repeat' first
      | with_reducible exact ih _
      | (intro h; dsimp only at h; exact absurd h (by decide))
      | (intro _; exact lexId_id_lt _ _ _)
      | (intro h; exact absurd h (lexOp_ne_Id _ _ _ ‹_›))
      | split

theorem next_id_lt (s : CState) (h : (next s).tk = Tok.Id) : (next s).id < (next s).sym.length :=
  nextL_id_lt _ _ h

theorem next_field {α : Type} (g : Sym → α)
    (hg : ∀ (d : Sym) (nm : List Nat) (h : Int), g { d with Name := nm, Hash := h, Tk := Tok.Id } = g d)
    (s : CState) (j : Nat) : g (symAt (next s).sym j) = g (symAt s.sym j) := by
  have key : ∀ (n : Nat) (l : Lex), g (symAt (nextL n l).1.sym j) = g (symAt l.sym j) := by
    intro n
    induction n with
    | zero => intro l; rfl
    | succ n ih =>
      intro l
      rw [nextL_succ]
      repeat' first
        | with_reducible rfl
        | with_reducible exact ih _
        | with_reducible exact lexId_field g hg _ _ _ _
        | split
  exact key _ _

theorem stars_frame (n : Nat) : ∀ (s : CState) (t : Int) (r : CState × Int), stars n s t = .ok r →
    r.1.loc = s.loc ∧ r.1.e = s.e ∧
      ((s.tk = Tok.Id → s.id < s.sym.length) → r.1.tk = Tok.Id → r.1.id < r.1.sym.length) := by
  induction n with
  | zero => intro s t r h; cases h
  | succ n ih =>
    intro s t r h
    unfold stars at h
    split at h
    · obtain ⟨h1, h2, h3⟩ := ih _ _ _ h
      exact ⟨h1, h2, fun _ => h3 (next_id_lt s)⟩
    · cases h
      exact ⟨rfl, rfl, id⟩

end C4
namespace C4

/-! ## Pointer arithmetic -/

theorem step_pushed {s : VM} (h : loadInt s.mem s.pc = Op.PSH) : step s = .cont (pushed s) :=
  step_PSH h

/-- The loop turn on `+` once the right operand is compiled. -/
theorem opAdd_code (n : Nat) (S s1 : CState) (cn : List Int) (hk : S.tk = Tok.Add)
    (hn : expr n Tok.Mul (emit Op.PSH (next S)) = .ok s1) (hne : s1.e = S.e ++ Op.PSH :: cn) :
    exprStep (expr n) S = .ok { s1 with
      e := S.e ++ Op.PSH :: (cn ++ if S.ty > PTR then [Op.PSH, Op.IMM, sizeofInt, Op.MUL, Op.ADD] else [Op.ADD]),
      ty := S.ty } := by
  rw [exprStep_Add _ hk, opAdd, hn, bind_ok]
  by_cases h : S.ty > PTR
  · simp only [if_pos h, scale, emit, hne, List.append_assoc, List.cons_append, List.nil_append]
  · simp only [if_neg h, emit, hne, List.append_assoc, List.cons_append, List.nil_append]

/-- The run of `PSH; IMM 8; MUL; ADD` after the operands. -/
theorem exec_scaled_add {v3 : VM} {xp : Int}
    (hx : loadInt v3.mem v3.sp = wrap xp)
    (hc : CodeAt v3.mem v3.pc [Op.PSH, Op.IMM, sizeofInt, Op.MUL, Op.ADD])
    (hp1 : -two63 ≤ v3.pc) (hp2 : v3.pc + 40 < two63) (hs1 : -two63 + 8 ≤ v3.sp) (hs2 : v3.sp + 8 < two63)
    (hd : v3.pc + 40 ≤ v3.sp - 8 ∨ v3.sp ≤ v3.pc) :
    ∃ v4, cycles 4 v3 = some v4 ∧ v4.a = wrap (xp + v3.a * 8) ∧ v4.sp = v3.sp + 8 ∧
      v4.pc = v3.pc + 40 ∧ v4.bp = v3.bp := by
  simp only [two63] at hp1 hp2 hs1 hs2
  obtain ⟨u, hu, upc, usp, ubp, ua, um⟩ := exec_psh_imm_op (v := v3) (w := sizeofInt) (o := Op.MUL)
    (f := fun x y => wrap (x * y))
    (CodeAt.left (a := [Op.PSH, Op.IMM, sizeofInt, Op.MUL]) (b := [Op.ADD]) hc)
    (fun s h _ => step_alu_MUL h) (by simp only [two63]; omega) (by simp only [two63]; omega)
    (by simp only [two63]; omega) (by simp only [two63]; omega) (by omega)
  have hadd : loadInt u.mem u.pc = Op.ADD := by
    rw [upc, ← (CodeAt.right (a := [Op.PSH, Op.IMM, sizeofInt, Op.MUL]) (b := [Op.ADD]) hc).head]
    exact loadInt_congr (fun y h1 h2 => um y (by omega))
  have htop : loadInt u.mem u.sp = wrap xp := by
    rw [usp, ← hx]
    exact loadInt_congr (fun y h1 h2 => um y (by omega))
  have k := exec_alu (v := u) (step_alu_ADD hadd) (by simp only [two63]; omega) (by simp only [two63]; omega)
    (by simp only [two63]; omega) (by simp only [two63]; omega)
  refine ⟨_, cycles_add hu k, ?_, ?_, ?_, ?_⟩
  · simp only [htop, ua]
    show wrap (wrap xp + wrap (wrap v3.a * 8)) = _
    apply wrap_congr
    exact (wrap_modEq xp).add ((wrap_modEq _).trans ((wrap_modEq v3.a).mul_right 8))
  · simp only [usp]
  · simp only [upc]; ring
  · simp only [ubp]

/-- The loop turn on `-` between two pointers of the same type once the
right operand is compiled. -/
theorem opSub_code (n : Nat) (S s1 : CState) (cq : List Int) (hk : S.tk = Tok.Sub)
    (hn : expr n Tok.Mul (emit Op.PSH (next S)) = .ok s1) (hne : s1.e = S.e ++ Op.PSH :: cq)
    (ht : S.ty > PTR) (hty : S.ty = s1.ty) :
    exprStep (expr n) S = .ok { s1 with
      e := S.e ++ Op.PSH :: (cq ++ [Op.SUB, Op.PSH, Op.IMM, sizeofInt, Op.DIV]), ty := INT } := by
  rw [exprStep_Sub _ hk, opSub, hn, bind_ok, if_pos ⟨ht, hty⟩]
  simp only [emit, hne, List.append_assoc, List.cons_append, List.nil_append]

/-- The run of `ADD` after the operands. -/
theorem exec_plain_add {v3 : VM} {xp : Int}
    (hx : loadInt v3.mem v3.sp = wrap xp) (hc : CodeAt v3.mem v3.pc [Op.ADD])
    (hp1 : -two63 ≤ v3.pc) (hp2 : v3.pc + 8 < two63) (hs1 : -two63 ≤ v3.sp) (hs2 : v3.sp + 8 < two63) :
    ∃ v4, cycles 1 v3 = some v4 ∧ v4.a = wrap (xp + v3.a) ∧ v4.sp = v3.sp + 8 ∧
      v4.pc = v3.pc + 8 ∧ v4.bp = v3.bp := by
  refine ⟨_, exec_alu (step_alu_ADD hc.head) hp1 hp2 hs1 hs2, ?_, rfl, rfl, rfl⟩
  simp only [hx]
  exact wrap_add_wrap _ _

/-- The run of `SUB; PSH; IMM 8; DIV` after the operands. -/
theorem exec_ptr_diff {v3 : VM} {xp : Int}
    (hx : loadInt v3.mem v3.sp = wrap xp)
    (hc : CodeAt v3.mem v3.pc [Op.SUB, Op.PSH, Op.IMM, sizeofInt, Op.DIV])
    (hp1 : -two63 ≤ v3.pc) (hp2 : v3.pc + 40 < two63) (hs1 : -two63 ≤ v3.sp) (hs2 : v3.sp + 8 < two63)
    (hd : v3.pc + 40 ≤ v3.sp ∨ v3.sp + 8 ≤ v3.pc) :
    ∃ v4, cycles 4 v3 = some v4 ∧ v4.a = Int.tdiv (wrap (xp - v3.a)) 8 ∧ v4.sp = v3.sp + 8 ∧
      v4.pc = v3.pc + 40 ∧ v4.bp = v3.bp := by
  simp only [two63] at hp1 hp2 hs1 hs2
  have k1 := exec_alu (v := v3) (step_alu_SUB hc.head) (by simp only [two63]; omega)
    (by simp only [two63]; omega) (by simp only [two63]; omega) (by simp only [two63]; omega)
  obtain ⟨u, hu, upc, usp, ubp, ua, -⟩ := exec_psh_imm_op
    (v := { v3 with pc := v3.pc + 8, sp := v3.sp + 8, a := wrap (loadInt v3.mem v3.sp - v3.a) })
    (w := sizeofInt) (o := Op.DIV) (f := fun x y => Int.tdiv x y) hc.tail
    (fun s h ha => step_alu_DIV h ha) (by simp only [two63]; omega) (by simp only [two63]; omega)
    (by simp only [two63]; omega) (by simp only [two63]; omega) (by simp only; omega)
  refine ⟨u, cycles_add k1 hu, ?_, ?_, ?_, ?_⟩
  · rw [ua]
    simp only [hx, wrap_wrap]
    rw [show wrap (wrap xp - v3.a) = wrap (xp - v3.a) from
      wrap_congr ((wrap_modEq xp).sub_right _)]
  · rw [usp]
  · rw [upc]; ring
  · rw [ubp]

theorem cycles_getD {k : Nat} {v : VM} (h : (cycles k v).isSome = true) :
    cycles k v = some ((cycles k v).getD v) := by
  cases hc : cycles k v with
  | none => rw [hc] at h; cases h
  | some u => rfl

end C4
namespace C4

/-! ## Grouping of binary operators -/

theorem exprStep_Assign (ex : Ex) {s : CState} (h : s.tk = Tok.Assign) :
    exprStep ex s = opAssign ex s := by
  unfold exprStep
  rw [h]
  rfl

theorem exprStep_Lor (ex : Ex) {s : CState} (h : s.tk = Tok.Lor) :
    exprStep ex s = opJump ex Tok.Lan Op.BNZ s := by
  unfold exprStep
  rw [h]
  rfl

theorem exprStep_Lan (ex : Ex) {s : CState} (h : s.tk = Tok.Lan) :
    exprStep ex s = opJump ex Tok.Or Op.BZ s := by
  unfold exprStep
  rw [h]
  rfl

theorem exprStep_Or (ex : Ex) {s : CState} (h : s.tk = Tok.Or) :
    exprStep ex s = binop ex Tok.Xor Op.OR s := by
  unfold exprStep
  rw [h]
  rfl

theorem exprStep_Xor (ex : Ex) {s : CState} (h : s.tk = Tok.Xor) :
    exprStep ex s = binop ex Tok.And Op.XOR s := by
  unfold exprStep
  rw [h]
  rfl

theorem exprStep_And (ex : Ex) {s : CState} (h : s.tk = Tok.And) :
    exprStep ex s = binop ex Tok.Eq Op.AND s := by
  unfold exprStep
  rw [h]
  rfl

theorem exprStep_Eq (ex : Ex) {s : CState} (h : s.tk = Tok.Eq) :
    exprStep ex s = binop ex Tok.Lt Op.EQ s := by
  unfold exprStep
  rw [h]
  rfl

theorem exprStep_Ne (ex : Ex) {s : CState} (h : s.tk = Tok.Ne) :
    exprStep ex s = binop ex Tok.Lt Op.NE s := by
  unfold exprStep
  rw [h]
  rfl

theorem exprStep_Lt (ex : Ex) {s : CState} (h : s.tk = Tok.Lt) :
    exprStep ex s = binop ex Tok.Shl Op.LT s := by
  unfold exprStep
  rw [h]
  rfl

theorem exprStep_Gt (ex : Ex) {s : CState} (h : s.tk = Tok.Gt) :
    exprStep ex s = binop ex Tok.Shl Op.GT s := by
  unfold exprStep
  rw [h]
  rfl

theorem exprStep_Le (ex : Ex) {s : CState} (h : s.tk = Tok.Le) :
    exprStep ex s = binop ex Tok.Shl Op.LE s := by
  unfold exprStep
  rw [h]
  rfl

theorem exprStep_Ge (ex : Ex) {s : CState} (h : s.tk = Tok.Ge) :
    exprStep ex s = binop ex Tok.Shl Op.GE s := by
  unfold exprStep
  rw [h]
  rfl

theorem exprStep_Shl (ex : Ex) {s : CState} (h : s.tk = Tok.Shl) :
    exprStep ex s = binop ex Tok.Add Op.SHL s := by
  unfold exprStep
  rw [h]
  rfl

theorem exprStep_Shr (ex : Ex) {s : CState} (h : s.tk = Tok.Shr) :
    exprStep ex s = binop ex Tok.Add Op.SHR s := by
  unfold exprStep
  rw [h]
  rfl

theorem exprStep_Div (ex : Ex) {s : CState} (h : s.tk = Tok.Div) :
    exprStep ex s = binop ex Tok.Inc Op.DIV s := by
  unfold exprStep
  rw [h]
  rfl

theorem exprStep_Mod (ex : Ex) {s : CState} (h : s.tk = Tok.Mod) :
    exprStep ex s = binop ex Tok.Inc Op.MOD s := by
  unfold exprStep
  rw [h]
  rfl

theorem opAssign_congr {ex ex1 : Ex} {s : CState}
    (h : ex Tok.Assign (setLastE Op.PSH (next s)) = ex1 Tok.Assign (setLastE Op.PSH (next s))) :
    opAssign ex s = opAssign ex1 s := by
  unfold opAssign
  dsimp only
  by_cases hl : lastE (next s) = Op.LC ∨ lastE (next s) = Op.LI
  · rw [if_pos hl, if_pos hl, bind_ok, bind_ok, h]
  · rw [if_neg hl, if_neg hl]; rfl

theorem opJump_congr {ex ex1 : Ex} {lev op : Int} {s : CState}
    (h : ex lev (hole (emit op (next s))).1 = ex1 lev (hole (emit op (next s))).1) :
    opJump ex lev op s = opJump ex1 lev op s := by
  unfold opJump
  rw [h]

theorem binop_congr {ex ex1 : Ex} {lev op : Int} {s : CState}
    (h : ex lev (emit Op.PSH (next s)) = ex1 lev (emit Op.PSH (next s))) :
    binop ex lev op s = binop ex1 lev op s := by
  unfold binop
  rw [h]

theorem opAdd_congr {ex ex1 : Ex} {s : CState}
    (h : ex Tok.Mul (emit Op.PSH (next s)) = ex1 Tok.Mul (emit Op.PSH (next s))) :
    opAdd ex s = opAdd ex1 s := by
  unfold opAdd
  rw [h]

theorem opSub_congr {ex ex1 : Ex} {s : CState}
    (h : ex Tok.Mul (emit Op.PSH (next s)) = ex1 Tok.Mul (emit Op.PSH (next s))) :
    opSub ex s = opSub ex1 s := by
  unfold opSub
  rw [h]

theorem isBinOp_cases {tk : Int} (h : isBinOp tk = true) :
    tk = Tok.Assign ∨ tk = Tok.Lor ∨ tk = Tok.Lan ∨ tk = Tok.Or ∨ tk = Tok.Xor ∨ tk = Tok.And ∨ tk = Tok.Eq ∨ tk = Tok.Ne ∨ tk = Tok.Lt ∨ tk = Tok.Gt ∨ tk = Tok.Le ∨ tk = Tok.Ge ∨ tk = Tok.Shl ∨ tk = Tok.Shr ∨ tk = Tok.Add ∨ tk = Tok.Sub ∨ tk = Tok.Mul ∨ tk = Tok.Div ∨ tk = Tok.Mod := by
  simp only [isBinOp, Bool.or_eq_true, Bool.and_eq_true, decide_eq_true_eq] at h
  simp only [Tok.Assign, Tok.Lor, Tok.Lan, Tok.Or, Tok.Xor, Tok.And, Tok.Eq, Tok.Ne, Tok.Lt, Tok.Gt, Tok.Le, Tok.Ge, Tok.Shl, Tok.Shr, Tok.Add, Tok.Sub, Tok.Mul, Tok.Div, Tok.Mod] at h ⊢
  omega

theorem rhsAt_plain {s : CState} (h1 : s.tk ≠ Tok.Assign) (h2 : s.tk ≠ Tok.Lor)
    (h3 : s.tk ≠ Tok.Lan) : rhsAt s = emit Op.PSH (next s) := by
  unfold rhsAt
  rw [if_neg h1, if_neg h2, if_neg h3]

theorem rhsAt_Assign {s : CState} (h : s.tk = Tok.Assign) : rhsAt s = setLastE Op.PSH (next s) := by
  unfold rhsAt
  rw [if_pos h]

theorem rhsAt_Lor {s : CState} (h : s.tk = Tok.Lor) :
    rhsAt s = (hole (emit Op.BNZ (next s))).1 := by
  unfold rhsAt
  rw [if_neg (by rw [h]; decide), if_pos h]

theorem rhsAt_Lan {s : CState} (h : s.tk = Tok.Lan) :
    rhsAt s = (hole (emit Op.BZ (next s))).1 := by
  unfold rhsAt
  rw [if_neg (by rw [h]; decide), if_neg (by rw [h]; decide), if_pos h]

/-- The branch of a binary operator calls `expr` once, at `rhsLev` in `rhsAt`. -/
theorem exprStep_congr {ex ex1 : Ex} {s : CState} (hb : isBinOp s.tk = true)
    (h : ex (rhsLev s.tk) (rhsAt s) = ex1 (rhsLev s.tk) (rhsAt s)) :
    exprStep ex s = exprStep ex1 s := by
  rcases isBinOp_cases hb with t | t | t | t | t | t | t | t | t | t | t | t | t | t | t | t | t | t | t
  · rw [exprStep_Assign ex t, exprStep_Assign ex1 t]
    rw [show rhsLev s.tk = Tok.Assign by rw [t]; decide, rhsAt_Assign t] at h
    exact opAssign_congr h
  · rw [exprStep_Lor ex t, exprStep_Lor ex1 t]
    rw [show rhsLev s.tk = Tok.Lan by rw [t]; decide, rhsAt_Lor t] at h
    exact opJump_congr h
  · rw [exprStep_Lan ex t, exprStep_Lan ex1 t]
    rw [show rhsLev s.tk = Tok.Or by rw [t]; decide, rhsAt_Lan t] at h
    exact opJump_congr h
  · rw [exprStep_Or ex t, exprStep_Or ex1 t]
    rw [show rhsLev s.tk = Tok.Xor by rw [t]; decide, rhsAt_plain (by rw [t]; decide) (by rw [t]; decide) (by rw [t]; decide)] at h
    exact binop_congr h
  · rw [exprStep_Xor ex t, exprStep_Xor ex1 t]
    rw [show rhsLev s.tk = Tok.And by rw [t]; decide, rhsAt_plain (by rw [t]; decide) (by rw [t]; decide) (by rw [t]; decide)] at h
    exact binop_congr h
  · rw [exprStep_And ex t, exprStep_And ex1 t]
    rw [show rhsLev s.tk = Tok.Eq by rw [t]; decide, rhsAt_plain (by rw [t]; decide) (by rw [t]; decide) (by rw [t]; decide)] at h
    exact binop_congr h
  · rw [exprStep_Eq ex t, exprStep_Eq ex1 t]
    rw [show rhsLev s.tk = Tok.Lt by rw [t]; decide, rhsAt_plain (by rw [t]; decide) (by rw [t]; decide) (by rw [t]; decide)] at h
    exact binop_congr h
  · rw [exprStep_Ne ex t, exprStep_Ne ex1 t]
    rw [show rhsLev s.tk = Tok.Lt by rw [t]; decide, rhsAt_plain (by rw [t]; decide) (by rw [t]; decide) (by rw [t]; decide)] at h
    exact binop_congr h
  · rw [exprStep_Lt ex t, exprStep_Lt ex1 t]
    rw [show rhsLev s.tk = Tok.Shl by rw [t]; decide, rhsAt_plain (by rw [t]; decide) (by rw [t]; decide) (by rw [t]; decide)] at h
    exact binop_congr h
  · rw [exprStep_Gt ex t, exprStep_Gt ex1 t]
    rw [show rhsLev s.tk = Tok.Shl by rw [t]; decide, rhsAt_plain (by rw [t]; decide) (by rw [t]; decide) (by rw [t]; decide)] at h
    exact binop_congr h
  · rw [exprStep_Le ex t, exprStep_Le ex1 t]
    rw [show rhsLev s.tk = Tok.Shl by rw [t]; decide, rhsAt_plain (by rw [t]; decide) (by rw [t]; decide) (by rw [t]; decide)] at h
    exact binop_congr h
  · rw [exprStep_Ge ex t, exprStep_Ge ex1 t]
    rw [show rhsLev s.tk = Tok.Shl by rw [t]; decide, rhsAt_plain (by rw [t]; decide) (by rw [t]; decide) (by rw [t]; decide)] at h
    exact binop_congr h
  · rw [exprStep_Shl ex t, exprStep_Shl ex1 t]
    rw [show rhsLev s.tk = Tok.Add by rw [t]; decide, rhsAt_plain (by rw [t]; decide) (by rw [t]; decide) (by rw [t]; decide)] at h
    exact binop_congr h
  · rw [exprStep_Shr ex t, exprStep_Shr ex1 t]
    rw [show rhsLev s.tk = Tok.Add by rw [t]; decide, rhsAt_plain (by rw [t]; decide) (by rw [t]; decide) (by rw [t]; decide)] at h
    exact binop_congr h
  · rw [exprStep_Add ex t, exprStep_Add ex1 t]
    rw [show rhsLev s.tk = Tok.Mul by rw [t]; decide, rhsAt_plain (by rw [t]; decide) (by rw [t]; decide) (by rw [t]; decide)] at h
    exact opAdd_congr h
  · rw [exprStep_Sub ex t, exprStep_Sub ex1 t]
    rw [show rhsLev s.tk = Tok.Mul by rw [t]; decide, rhsAt_plain (by rw [t]; decide) (by rw [t]; decide) (by rw [t]; decide)] at h
    exact opSub_congr h
  · rw [exprStep_Mul ex t, exprStep_Mul ex1 t]
    rw [show rhsLev s.tk = Tok.Inc by rw [t]; decide, rhsAt_plain (by rw [t]; decide) (by rw [t]; decide) (by rw [t]; decide)] at h
    exact binop_congr h
  · rw [exprStep_Div ex t, exprStep_Div ex1 t]
    rw [show rhsLev s.tk = Tok.Inc by rw [t]; decide, rhsAt_plain (by rw [t]; decide) (by rw [t]; decide) (by rw [t]; decide)] at h
    exact binop_congr h
  · rw [exprStep_Mod ex t, exprStep_Mod ex1 t]
    rw [show rhsLev s.tk = Tok.Inc by rw [t]; decide, rhsAt_plain (by rw [t]; decide) (by rw [t]; decide) (by rw [t]; decide)] at h
    exact binop_congr h

/-- The level of the right operand decides the grouping: the operator `b`
is below it exactly when its precedence is not above that of `a`. -/
theorem prec_rhsLev {a b : Int} (ha : isBinOp a = true) (hb : isBinOp b = true) (hab : a ≠ b) :
    (prec b ≤ prec a ↔ b < rhsLev a) := by
  rcases isBinOp_cases ha with h | h | h | h | h | h | h | h | h | h | h | h | h | h | h | h | h | h | h <;>
  rcases isBinOp_cases hb with g | g | g | g | g | g | g | g | g | g | g | g | g | g | g | g | g | g | g <;>
  subst h <;> subst g <;> first | exact absurd rfl hab | decide

theorem opAssign_const_tk {s sy s2 : CState} (h : opAssign (fun _ _ => .ok sy) s = .ok s2) :
    s2.tk = sy.tk := by
  unfold opAssign at h
  dsimp only at h
  by_cases hl : lastE (next s) = Op.LC ∨ lastE (next s) = Op.LI
  · rw [if_pos hl, bind_ok, bind_ok] at h
    cases h
    rfl
  · rw [if_neg hl] at h
    cases h

theorem opJump_const_tk {lev op : Int} {s sy s2 : CState}
    (h : opJump (fun _ _ => .ok sy) lev op s = .ok s2) : s2.tk = sy.tk := by
  unfold opJump at h
  rw [bind_ok] at h
  cases h
  rfl

theorem binop_const_tk {lev op : Int} {s sy s2 : CState}
    (h : binop (fun _ _ => .ok sy) lev op s = .ok s2) : s2.tk = sy.tk := by
  unfold binop at h
  rw [bind_ok] at h
  cases h
  rfl

theorem opAdd_const_tk {s sy s2 : CState} (h : opAdd (fun _ _ => .ok sy) s = .ok s2) :
    s2.tk = sy.tk := by
  unfold opAdd at h
  rw [bind_ok] at h
  cases h
  by_cases ht : s.ty > PTR
  · rw [if_pos ht]; rfl
  · rw [if_neg ht]; rfl

theorem opSub_const_tk {s sy s2 : CState} (h : opSub (fun _ _ => .ok sy) s = .ok s2) :
    s2.tk = sy.tk := by
  unfold opSub at h
  rw [bind_ok] at h
  by_cases h1 : s.ty > PTR ∧ s.ty = sy.ty
  · rw [if_pos h1] at h; cases h; rfl
  · rw [if_neg h1] at h
    by_cases h2 : s.ty > PTR
    · rw [if_pos h2] at h; cases h; rfl
    · rw [if_neg h2] at h; cases h; rfl

/-- The branch of a binary operator leaves the token where its right operand
left it. -/
theorem exprStep_const_tk {s sy s2 : CState} (hb : isBinOp s.tk = true)
    (h : exprStep (fun _ _ => .ok sy) s = .ok s2) : s2.tk = sy.tk := by
  rcases isBinOp_cases hb with t | t | t | t | t | t | t | t | t | t | t | t | t | t | t | t | t | t | t
  · rw [exprStep_Assign _ t] at h
    exact opAssign_const_tk h
  · rw [exprStep_Lor _ t] at h
    exact opJump_const_tk h
  · rw [exprStep_Lan _ t] at h
    exact opJump_const_tk h
  · rw [exprStep_Or _ t] at h
    exact binop_const_tk h
  · rw [exprStep_Xor _ t] at h
    exact binop_const_tk h
  · rw [exprStep_And _ t] at h
    exact binop_const_tk h
  · rw [exprStep_Eq _ t] at h
    exact binop_const_tk h
  · rw [exprStep_Ne _ t] at h
    exact binop_const_tk h
  · rw [exprStep_Lt _ t] at h
    exact binop_const_tk h
  · rw [exprStep_Gt _ t] at h
    exact binop_const_tk h
  · rw [exprStep_Le _ t] at h
    exact binop_const_tk h
  · rw [exprStep_Ge _ t] at h
    exact binop_const_tk h
  · rw [exprStep_Shl _ t] at h
    exact binop_const_tk h
  · rw [exprStep_Shr _ t] at h
    exact binop_const_tk h
  · rw [exprStep_Add _ t] at h
    exact opAdd_const_tk h
  · rw [exprStep_Sub _ t] at h
    exact opSub_const_tk h
  · rw [exprStep_Mul _ t] at h
    exact binop_const_tk h
  · rw [exprStep_Div _ t] at h
    exact binop_const_tk h
  · rw [exprStep_Mod _ t] at h
    exact binop_const_tk h

theorem ite_le_of {c : Prop} [Decidable c] {x y m : Int} (hx : x ≤ m) (hy : y ≤ m) :
    (if c then x else y) ≤ m := by
  by_cases h : c
  · rw [if_pos h]; exact hx
  · rw [if_neg h]; exact hy

theorem le_ite_of {c : Prop} [Decidable c] {x y m : Int} (hx : m ≤ x) (hy : m ≤ y) :
    m ≤ (if c then x else y) := by
  by_cases h : c
  · rw [if_pos h]; exact hx
  · rw [if_neg h]; exact hy

theorem rhsLev_le_Inc (a : Int) : rhsLev a ≤ Tok.Inc := by
  unfold rhsLev
  repeat' first
    | apply ite_le_of
    | decide

theorem Assign_le_rhsLev (a : Int) : Tok.Assign ≤ rhsLev a := by
  unfold rhsLev
  repeat' first
    | apply le_ite_of
    | decide

/-- The turn of the loop on the operator at `s`, when the right operand is
the operand `sy` followed by a token below the level of the right operand. -/
theorem step_operand {n : Nat} {s sy s2 : CState} (hb : isBinOp s.tk = true)
    (hy : expr n Tok.Inc (rhsAt s) = .ok sy) (ht : sy.tk < rhsLev s.tk)
    (h2 : exprStep (fun _ _ => .ok sy) s = .ok s2) : StepTo s (.ok s2) := by
  have e : ExprTo (rhsLev s.tk) (rhsAt s) (.ok sy) :=
    ExprTo.of_higher (rhsLev_le_Inc _) (ExprTo.of_expr_eq hy (ok_ne_fuel _)) (LoopTo.done ht)
  obtain ⟨-, N, hN⟩ := e
  refine ⟨ok_ne_fuel _, N, fun m hm => ?_⟩
  rw [← h2]
  exact exprStep_congr hb (hN m hm)

/-- The turn of the loop on the operator at `s`, when the right operand is
the result `sr` of `expr` at the level of the right operand. -/
theorem step_result {s sr s2 : CState} (hb : isBinOp s.tk = true)
    (hr : ExprTo (rhsLev s.tk) (rhsAt s) (.ok sr))
    (h2 : exprStep (fun _ _ => .ok sr) s = .ok s2) : StepTo s (.ok s2) := by
  obtain ⟨-, N, hN⟩ := hr
  refine ⟨ok_ne_fuel _, N, fun m hm => ?_⟩
  rw [← h2]
  exact exprStep_congr hb (hN m hm)

/-- Left grouping: `x a y b z` when `b` is below the level of the right
operand of `a`. -/
theorem group_left {n : Nat} {s0 s1 sy s2 sz r : CState} (ha : isBinOp s1.tk = true)
    (hb : isBinOp sy.tk = true) (hlt : sy.tk < rhsLev s1.tk)
    (hx : expr n Tok.Inc s0 = .ok s1) (hy : expr n Tok.Inc (rhsAt s1) = .ok sy)
    (h2 : exprStep (fun _ _ => .ok sy) s1 = .ok s2)
    (hz : expr n Tok.Inc (rhsAt s2) = .ok sz) (hzt : sz.tk < Tok.Assign)
    (h3 : exprStep (fun _ _ => .ok sz) s2 = .ok r) : ExprTo Tok.Assign s0 (.ok r) := by
  have t2 : s2.tk = sy.tk := exprStep_const_tk ha h2
  have hb2 : isBinOp s2.tk = true := by rw [t2]; exact hb
  have t3 : r.tk = sz.tk := exprStep_const_tk hb2 h3
  have hA1 : Tok.Assign ≤ s1.tk := by
    have := isBinOp_cases ha
    rcases this with h | h | h | h | h | h | h | h | h | h | h | h | h | h | h | h | h | h | h <;>
      rw [h] <;> decide
  have hA2 : Tok.Assign ≤ s2.tk := by
    have := isBinOp_cases hb2
    rcases this with h | h | h | h | h | h | h | h | h | h | h | h | h | h | h | h | h | h | h <;>
      rw [h] <;> decide
  refine ExprTo.of_higher (show Tok.Assign ≤ Tok.Inc by decide) (ExprTo.of_expr_eq hx (ok_ne_fuel _)) ?_
  refine LoopTo.turn hA1 (step_operand ha hy hlt h2) ?_
  refine LoopTo.turn hA2 (step_operand hb2 hz (lt_of_lt_of_le hzt (Assign_le_rhsLev _)) h3) ?_
  exact LoopTo.done (by rw [t3]; exact hzt)

/-- Right grouping: `x a y b z` when `b` is at or above the level of the
right operand of `a`. -/
theorem group_right {n : Nat} {s0 s1 sy sz syz r : CState} (ha : isBinOp s1.tk = true)
    (hb : isBinOp sy.tk = true) (hge : rhsLev s1.tk ≤ sy.tk)
    (hx : expr n Tok.Inc s0 = .ok s1) (hy : expr n Tok.Inc (rhsAt s1) = .ok sy)
    (hz : expr n Tok.Inc (rhsAt sy) = .ok sz) (hzt : sz.tk < Tok.Assign)
    (h2 : exprStep (fun _ _ => .ok sz) sy = .ok syz)
    (h3 : exprStep (fun _ _ => .ok syz) s1 = .ok r) : ExprTo Tok.Assign s0 (.ok r) := by
  have t2 : syz.tk = sz.tk := exprStep_const_tk hb h2
  have t3 : r.tk = syz.tk := exprStep_const_tk ha h3
  have hA1 : Tok.Assign ≤ s1.tk := by
    have := isBinOp_cases ha
    rcases this with h | h | h | h | h | h | h | h | h | h | h | h | h | h | h | h | h | h | h <;>
      rw [h] <;> decide
  have inner : ExprTo (rhsLev s1.tk) (rhsAt s1) (.ok syz) := by
    refine ExprTo.of_higher (rhsLev_le_Inc _) (ExprTo.of_expr_eq hy (ok_ne_fuel _)) ?_
    refine LoopTo.turn hge (step_operand hb hz (lt_of_lt_of_le hzt (Assign_le_rhsLev _)) h2) ?_
    exact LoopTo.done (by rw [t2]; exact lt_of_lt_of_le hzt (Assign_le_rhsLev _))
  refine ExprTo.of_higher (show Tok.Assign ≤ Tok.Inc by decide) (ExprTo.of_expr_eq hx (ok_ne_fuel _)) ?_
  refine LoopTo.turn hA1 (step_result ha inner h3) ?_
  exact LoopTo.done (by rw [t3, t2]; exact hzt)

theorem exprStep_Cond (ex : Ex) {s : CState} (h : s.tk = Tok.Cond) :
    exprStep ex s = opCond ex s := by
  unfold exprStep
  rw [h]
  rfl

theorem opCond_eq {ex : Ex} {s su sw : CState} (hu : ex Tok.Assign (midAt s) = .ok su)
    (hc : su.tk = ch ':') (hw : ex Tok.Cond (elseAt s su) = .ok sw) :
    opCond ex s = .ok (patch (hole (emit Op.JMP (patch (hole (emit Op.BZ (next s))).2
      (addrE (next su) 3) (next su)))).2 (addrE sw 1) sw) := by
  unfold opCond
  unfold midAt at hu
  unfold elseAt at hw
  rw [hu, bind_ok, if_pos hc, bind_ok]
  dsimp only
  rw [hw, bind_ok]

/-- The branch of `?` is determined by its two operands. -/
theorem condEx_mid (su sw s : CState) : condEx su sw Tok.Assign (midAt s) = .ok su := by
  simp [condEx]

theorem condEx_else (su sw s : CState) : condEx su sw Tok.Cond (elseAt s su) = .ok sw := by
  simp [condEx]

theorem opCond_congr {ex : Ex} {s su sw : CState} (hu : ex Tok.Assign (midAt s) = .ok su)
    (hc : su.tk = ch ':') (hw : ex Tok.Cond (elseAt s su) = .ok sw) :
    opCond ex s = opCond (condEx su sw) s := by
  rw [opCond_eq hu hc hw, opCond_eq (condEx_mid su sw s) hc (condEx_else su sw s)]

theorem opCond_const_tk {s su sw r : CState} (hc : su.tk = ch ':')
    (h : opCond (condEx su sw) s = .ok r) : r.tk = sw.tk := by
  rw [opCond_eq (condEx_mid su sw s) hc (condEx_else su sw s)] at h
  cases h
  rfl

/-- A conditional whose last operand is a conditional: `c1 ? u : c2 ? v : w`. -/
theorem cond_right {n : Nat} {s1 su sc sv sw sin r : CState} (h1 : s1.tk = Tok.Cond)
    (hu : ExprTo Tok.Assign (midAt s1) (.ok su)) (huc : su.tk = ch ':')
    (hc2 : expr n Tok.Lor (elseAt s1 su) = .ok sc) (h2 : sc.tk = Tok.Cond)
    (hv : ExprTo Tok.Assign (midAt sc) (.ok sv)) (hvc : sv.tk = ch ':')
    (hw : ExprTo Tok.Cond (elseAt sc sv) (.ok sw)) (hwt : sw.tk < Tok.Assign)
    (hin : exprStep (condEx sv sw) sc = .ok sin)
    (hout : exprStep (condEx su sin) s1 = .ok r) : LoopTo Tok.Assign s1 (.ok r) := by
  rw [exprStep_Cond _ h2] at hin
  rw [exprStep_Cond _ h1] at hout
  have tin : sin.tk = sw.tk := opCond_const_tk hvc hin
  have tr : r.tk = sin.tk := opCond_const_tk huc hout
  -- the inner conditional is one turn of the loop at `sc`
  have stepIn : StepTo sc (.ok sin) := by
    obtain ⟨-, N1, hN1⟩ := hv
    obtain ⟨-, N2, hN2⟩ := hw
    refine ⟨ok_ne_fuel _, N1 + N2, fun m hm => ?_⟩
    rw [exprStep_Cond _ h2, opCond_congr (hN1 m (by omega)) hvc (hN2 m (by omega)), hin]
  -- the last operand of the outer conditional is `c2 ? v : w`
  have elseOut : ExprTo Tok.Cond (elseAt s1 su) (.ok sin) := by
    refine ExprTo.of_higher (show Tok.Cond ≤ Tok.Lor by decide) (ExprTo.of_expr_eq hc2 (ok_ne_fuel _)) ?_
    refine LoopTo.turn (by rw [h2]) stepIn ?_
    exact LoopTo.done (by rw [tin]; exact lt_trans hwt (by decide))
  have stepOut : StepTo s1 (.ok r) := by
    obtain ⟨-, N1, hN1⟩ := hu
    obtain ⟨-, N2, hN2⟩ := elseOut
    refine ⟨ok_ne_fuel _, N1 + N2, fun m hm => ?_⟩
    rw [exprStep_Cond _ h1, opCond_congr (hN1 m (by omega)) huc (hN2 m (by omega)), hout]
  refine LoopTo.turn (by rw [h1]; decide) stepOut ?_
  exact LoopTo.done (by rw [tr, tin]; exact hwt)

theorem same_level_lt {a b : Int} (ha : isBinOp a = true) (hb : isBinOp b = true)
    (hab : prec a = prec b) (hA : a ≠ Tok.Assign) : b < rhsLev a := by
  rcases isBinOp_cases ha with h | h | h | h | h | h | h | h | h | h | h | h | h | h | h | h | h | h | h <;>
  rcases isBinOp_cases hb with g | g | g | g | g | g | g | g | g | g | g | g | g | g | g | g | g | g | g <;>
  subst h <;> subst g <;> first | exact absurd rfl hA | exact absurd hab (by decide) | decide


end C4
namespace C4

/-! ## Branch instructions and the operators compiled to them -/

theorem step_BZ {s : VM} (h : loadInt s.mem s.pc = Op.BZ) :
    step s = .cont { s with pc := if s.a ≠ 0 then wrap (wrap (s.pc + 8) + 8)
                               else loadInt s.mem (wrap (s.pc + 8)) } := by
  simp [step, h]

theorem step_BNZ {s : VM} (h : loadInt s.mem s.pc = Op.BNZ) :
    step s = .cont { s with pc := if s.a ≠ 0 then loadInt s.mem (wrap (s.pc + 8))
                               else wrap (wrap (s.pc + 8) + 8) } := by
  simp [step, h]

theorem step_JMP {s : VM} (h : loadInt s.mem s.pc = Op.JMP) :
    step s = .cont { s with pc := loadInt s.mem (wrap (s.pc + 8)) } := by
  simp [step, h]

theorem step_alu_EQ {s : VM} (h : loadInt s.mem s.pc = Op.EQ) :
    step s = alu s (wrap (s.pc + 8)) (fun x y => if x = y then 1 else 0) := by
  simp [step, h]

/-- A taken branch: one turn of the loop moves `pc` to the operand of the branch. -/
theorem exec_jump {v : VM} {o h : Int} (hc : CodeAt v.mem v.pc [o, h])
    (ho : o = Op.JMP ∨ (o = Op.BZ ∧ v.a = 0) ∨ (o = Op.BNZ ∧ v.a ≠ 0))
    (hp1 : -two63 ≤ v.pc) (hp2 : v.pc + 8 < two63) :
    cycles 1 v = some { v with pc := h } := by
  have c0 : loadInt v.mem v.pc = o := hc.head
  have c1 : loadInt v.mem (v.pc + 8) = h := hc.tail.head
  have w1 : wrap (v.pc + 8) = v.pc + 8 := wrap_eq (by simp only [InRange, two63] at *; omega)
  apply cycles_one
  rcases ho with ho | ⟨ho, ha⟩ | ⟨ho, ha⟩
  · rw [step_JMP (c0.trans ho), w1, c1]
  · rw [step_BZ (c0.trans ho), w1, c1, if_neg (not_not.mpr ha)]
  · rw [step_BNZ (c0.trans ho), w1, c1, if_pos ha]

/-- A branch not taken: one turn of the loop moves `pc` past the operand. -/
theorem exec_fall {v : VM} {o h : Int} (hc : CodeAt v.mem v.pc [o, h])
    (ho : (o = Op.BZ ∧ v.a ≠ 0) ∨ (o = Op.BNZ ∧ v.a = 0))
    (hp1 : -two63 ≤ v.pc) (hp2 : v.pc + 16 < two63) :
    cycles 1 v = some { v with pc := v.pc + 16 } := by
  have c0 : loadInt v.mem v.pc = o := hc.head
  have w1 : wrap (v.pc + 8) = v.pc + 8 := wrap_eq (by simp only [InRange, two63] at *; omega)
  have w2 : wrap (v.pc + 8 + 8) = v.pc + 16 := by
    rw [wrap_eq (by simp only [InRange, two63] at *; omega)]; ring
  apply cycles_one
  rcases ho with ⟨ho, ha⟩ | ⟨ho, ha⟩
  · rw [step_BZ (c0.trans ho), w1, w2, if_pos ha]
  · rw [step_BNZ (c0.trans ho), w1, w2, if_neg (not_not.mpr ha)]

/-- The turn of the loop of `expr` on `||` or `&&` once the right operand is compiled. -/
theorem opJump_code (ex : Ex) (lev op : Int) (S s1 : CState) (cy : List Int)
    (hn : ex lev (hole (emit op (next S))).1 = .ok s1) (hne : s1.e = S.e ++ op :: 0 :: cy) :
    opJump ex lev op S = .ok { s1 with e := S.e ++ op :: addrE s1 1 :: cy, ty := INT } := by
  rw [opJump, hn, bind_ok]
  have hd : (hole (emit op (next S))).2 = S.e.length + 1 := by
    show (S.e ++ [op]).length = _
    simp
  rw [hd]
  simp only [patch, hne, set_hole]

theorem next_bang {X : CState} {q : List Nat} (hp : X.p = 33 :: q) (hq : peek q ≠ ch '=') :
    next X = { X with p := q, tk := 33 } := by
  refine next_tok hp (by decide) ?_
  unfold lexOp
  rw [if_neg (by decide), if_neg (by decide), if_neg (by decide), if_pos (by decide), if_neg hq]
  rfl

theorem exprHead_Not (ex : Ex) (n : Nat) {s : CState} (h : s.tk = ch '!') :
    exprHead ex n s = hdNot ex s := by
  unfold exprHead
  rw [h]
  rfl

/-- The run of `PSH; IMM 0; EQ`. -/
theorem exec_not {v : VM} (hc : CodeAt v.mem v.pc [Op.PSH, Op.IMM, 0, Op.EQ]) (ha : InRange v.a)
    (hp1 : -two63 ≤ v.pc) (hp2 : v.pc + 32 < two63) (hs1 : -two63 + 8 ≤ v.sp) (hs2 : v.sp < two63)
    (hd : v.pc + 32 ≤ v.sp - 8 ∨ v.sp ≤ v.pc) :
    ∃ v1, cycles 3 v = some v1 ∧ v1.a = (if v.a = 0 then 1 else 0) ∧ v1.sp = v.sp ∧
      v1.bp = v.bp ∧ v1.pc = v.pc + 32 := by
  obtain ⟨v1, h1, hpc, hsp, hbp, ha1, -⟩ := exec_psh_imm_op hc (fun s h _ => step_alu_EQ h)
    hp1 hp2 hs1 hs2 hd
  refine ⟨v1, h1, ?_, hsp, hbp, hpc⟩
  rw [ha1, wrap_eq ha]

/-- The turn of the loop of `expr` on `?` once the two operands are compiled. -/
theorem opCond_code (ex : Ex) (S su sw : CState) (cu cv : List Int)
    (hu : ex Tok.Assign (midAt S) = .ok su) (hc : su.tk = ch ':')
    (hue : su.e = S.e ++ Op.BZ :: 0 :: cu) (hw : ex Tok.Cond (elseAt S su) = .ok sw)
    (hwe : sw.e = S.e ++ Op.BZ :: addrE (next su) 3 :: (cu ++ Op.JMP :: 0 :: cv)) :
    opCond ex S = .ok { sw with
      e := S.e ++ Op.BZ :: addrE (next su) 3 :: (cu ++ Op.JMP :: addrE sw 1 :: cv) } := by
  rw [opCond_eq hu hc hw]
  have hd : (hole (emit Op.JMP (patch (hole (emit Op.BZ (next S))).2 (addrE (next su) 3)
      (next su)))).2 = (S.e ++ Op.BZ :: addrE (next su) 3 :: cu).length + 1 := by
    show ((su.e.set _ _) ++ [Op.JMP]).length = _
    simp [hue]
  rw [hd]
  have := set_hole (S.e ++ Op.BZ :: addrE (next su) 3 :: cu) cv Op.JMP 0 (addrE sw 1)
  simp only [List.append_assoc, List.cons_append] at this
  simp only [patch, hwe, this]

end C4

namespace C4

/-! ## The if statement -/

theorem stmt_If (n : Nat) {s : CState} (h : s.tk = Tok.If) :
    stmt (n + 1) s = stIf (expr n) (stmt n) s := by
  unfold stmt
  rw [if_pos h]

/-- The statement `if (E) S1` once its parts are compiled. -/
theorem stIf_code (ex : Ex) (st : St) (S s4 s5 : CState) (c1 : List Int)
    (hE : parenExpr ex (next S) = .ok s4) (h1 : st (thenAt s4) = .ok s5) (hk : s5.tk ≠ Tok.Else)
    (h1e : s5.e = s4.e ++ Op.BZ :: 0 :: c1) :
    stIf ex st S = .ok { s5 with e := s4.e ++ Op.BZ :: addrE s5 1 :: c1 } := by
  unfold thenAt at h1
  rw [stIf, hE, bind_ok, h1, bind_ok, if_neg hk]
  have hd : (hole (emit Op.BZ s4)).2 = s4.e.length + 1 := by
    show (s4.e ++ [Op.BZ]).length = _
    simp
  rw [hd]
  simp only [patch, h1e, set_hole]

/-- The statement `if (E) S1 else S2` once its parts are compiled. -/
theorem stIf_else_code (ex : Ex) (st : St) (S s4 s5 s6 : CState) (c1 c2 : List Int)
    (hE : parenExpr ex (next S) = .ok s4) (h1 : st (thenAt s4) = .ok s5) (hk : s5.tk = Tok.Else)
    (h1e : s5.e = s4.e ++ Op.BZ :: 0 :: c1) (h2 : st (elseStAt s4 s5) = .ok s6)
    (h2e : s6.e = s4.e ++ Op.BZ :: addrE s5 3 :: (c1 ++ Op.JMP :: 0 :: c2)) :
    stIf ex st S = .ok { s6 with
      e := s4.e ++ Op.BZ :: addrE s5 3 :: (c1 ++ Op.JMP :: addrE s6 1 :: c2) } := by
  unfold thenAt at h1
  unfold elseStAt at h2
  rw [stIf, hE, bind_ok, h1, bind_ok, if_pos hk, h2, bind_ok]
  have hd : (hole (emit Op.JMP (patch (hole (emit Op.BZ s4)).2 (addrE s5 3) s5))).2
      = (s4.e ++ Op.BZ :: addrE s5 3 :: c1).length + 1 := by
    show ((s5.e.set _ _) ++ [Op.JMP]).length = _
    simp [h1e]
  rw [hd]
  have := set_hole (s4.e ++ Op.BZ :: addrE s5 3 :: c1) c2 Op.JMP 0 (addrE s6 1)
  simp only [List.append_assoc, List.cons_append] at this
  simp only [patch, h2e, this]

end C4

namespace C4

/-! ## Post-increment and post-decrement -/

theorem step_LI {s : VM} (h : loadInt s.mem s.pc = Op.LI) :
    step s = .cont { s with pc := wrap (s.pc + 8), a := loadInt s.mem s.a } := by
  simp [step, h]

theorem step_SI {s : VM} (h : loadInt s.mem s.pc = Op.SI) :
    step s = .cont { s with pc := wrap (s.pc + 8), sp := wrap (s.sp + 8),
                            mem := storeInt s.mem (loadInt s.mem s.sp) s.a } := by
  simp [step, h]

theorem loadInt_inRange (m : Mem) (a : Int) : InRange (loadInt m a) := wrap_inRange _

/-- The run of `PSH; LI` from the state where `a` is an address. -/
theorem exec_psh_li {v : VM} (hc : CodeAt v.mem v.pc [Op.PSH, Op.LI])
    (hp1 : -two63 ≤ v.pc) (hp2 : v.pc + 16 < two63) (hs1 : -two63 + 8 ≤ v.sp) (hs2 : v.sp < two63)
    (hd : v.pc + 16 ≤ v.sp - 8 ∨ v.sp ≤ v.pc) (hd1 : v.a + 8 ≤ v.sp - 8 ∨ v.sp ≤ v.a) :
    ∃ v1, cycles 2 v = some v1 ∧ v1.pc = v.pc + 16 ∧ v1.sp = v.sp - 8 ∧ v1.bp = v.bp ∧
      v1.a = loadInt v.mem v.a ∧ v1.mem = storeInt v.mem (v.sp - 8) v.a := by
  simp only [two63] at hp1 hp2 hs1 hs2
  have c0 : loadInt v.mem v.pc = Op.PSH := hc.head
  have c1 : loadInt v.mem (v.pc + 8) = Op.LI := hc.tail.head
  have w1 : wrap (v.pc + 8) = v.pc + 8 := wrap_eq (by simp only [InRange, two63]; omega)
  have w2 : wrap (v.sp - 8) = v.sp - 8 := wrap_eq (by simp only [InRange, two63]; omega)
  have w3 : wrap (v.pc + 8 + 8) = v.pc + 16 := by
    rw [wrap_eq (by simp only [InRange, two63]; omega)]; ring
  have k1 := cycles_one (step_PSH c0)
  rw [w1, w2] at k1
  have k2 := cycles_one (step_LI (s := { v with pc := v.pc + 8, sp := v.sp - 8, mem := storeInt v.mem (v.sp - 8) v.a })
    (by simp only; rw [loadInt_storeInt_disj _ _ _ _ (by omega)]; exact c1))
  simp only [w3] at k2
  rw [loadInt_storeInt_disj _ _ _ _ (by omega)] at k2
  exact ⟨_, cycles_add k1 k2, rfl, rfl, rfl, rfl, rfl⟩

/-- The run of `SI` from the state where the word on top of the stack is an address. -/
theorem exec_si {v : VM} (hc : loadInt v.mem v.pc = Op.SI)
    (hp1 : -two63 ≤ v.pc) (hp2 : v.pc + 8 < two63) (hs1 : -two63 ≤ v.sp) (hs2 : v.sp + 8 < two63) :
    ∃ v1, cycles 1 v = some v1 ∧ v1.pc = v.pc + 8 ∧ v1.sp = v.sp + 8 ∧ v1.bp = v.bp ∧
      v1.a = v.a ∧ v1.mem = storeInt v.mem (loadInt v.mem v.sp) v.a := by
  simp only [two63] at hp1 hp2 hs1 hs2
  have k := cycles_one (step_SI hc)
  rw [wrap_eq (show InRange (v.pc + 8) by simp only [InRange, two63]; omega),
    wrap_eq (show InRange (v.sp + 8) by simp only [InRange, two63]; omega)] at k
  exact ⟨_, k, rfl, rfl, rfl, rfl, rfl⟩

/-- The run of the words of a post-increment or post-decrement, `PSH; LI; PSH; IMM s;
o1; SI; PSH; IMM s; o2`, from the state where `a` is the address of the operand. -/
theorem exec_post {v : VM} {s o1 o2 : Int} {f g : Int → Int → Int}
    (hc : CodeAt v.mem v.pc [Op.PSH, Op.LI, Op.PSH, Op.IMM, s, o1, Op.SI, Op.PSH, Op.IMM, s, o2])
    (hop1 : ∀ t : VM, loadInt t.mem t.pc = o1 → t.a = s → step t = alu t (wrap (t.pc + 8)) f)
    (hop2 : ∀ t : VM, loadInt t.mem t.pc = o2 → t.a = s → step t = alu t (wrap (t.pc + 8)) g)
    (hA : InRange v.a)
    (hp1 : -two63 ≤ v.pc) (hp2 : v.pc + 88 < two63) (hs1 : -two63 + 16 ≤ v.sp) (hs2 : v.sp < two63)
    (hd : v.pc + 88 ≤ v.sp - 16 ∨ v.sp ≤ v.pc) (hd1 : v.a + 8 ≤ v.sp - 16 ∨ v.sp ≤ v.a)
    (hd2 : v.a + 8 ≤ v.pc ∨ v.pc + 88 ≤ v.a) :
    ∃ v1, cycles 9 v = some v1 ∧ v1.a = g (wrap (f (loadInt v.mem v.a) s)) s ∧
      loadInt v1.mem v.a = wrap (f (loadInt v.mem v.a) s) ∧ v1.sp = v.sp ∧ v1.bp = v.bp ∧
      v1.pc = v.pc + 88 := by
  simp only [two63] at hp1 hp2 hs1 hs2
  have cA : CodeAt v.mem (v.pc + 16) [Op.PSH, Op.IMM, s, o1] := by
    have := CodeAt.left (a := [Op.PSH, Op.IMM, s, o1]) (b := [Op.SI, Op.PSH, Op.IMM, s, o2]) hc.tail.tail
    rwa [show v.pc + 8 + 8 = v.pc + 16 by ring] at this
  have c6 : loadInt v.mem (v.pc + 48) = Op.SI := by
    have := hc.tail.tail.tail.tail.tail.tail.head
    rwa [show v.pc + 8 + 8 + 8 + 8 + 8 + 8 = v.pc + 48 by ring] at this
  have cB : CodeAt v.mem (v.pc + 56) [Op.PSH, Op.IMM, s, o2] := by
    have := hc.tail.tail.tail.tail.tail.tail.tail
    rwa [show v.pc + 8 + 8 + 8 + 8 + 8 + 8 + 8 = v.pc + 56 by ring] at this
  -- PSH; LI
  obtain ⟨a, ha, apc, asp, abp, aa, am⟩ := exec_psh_li
    (CodeAt.left (a := [Op.PSH, Op.LI]) (b := [Op.PSH, Op.IMM, s, o1, Op.SI, Op.PSH, Op.IMM, s, o2]) hc)
    (by simp only [two63]; omega) (by simp only [two63]; omega) (by simp only [two63]; omega)
    (by simp only [two63]; omega) (by omega) (by omega)
  -- PSH; IMM s; o1
  obtain ⟨u, hu, upc, usp, ubp, ua, um⟩ := exec_psh_imm_op (v := a)
    (by rw [apc, am]; exact CodeAt.congr cA (fun x h1 h2 => storeInt_other _ _ _ _ (by norm_num at h2; omega)))
    hop1 (by simp only [two63]; omega) (by simp only [two63]; omega) (by simp only [two63]; omega)
    (by simp only [two63]; omega) (by omega)
  rw [aa, wrap_eq (loadInt_inRange _ _)] at ua
  -- SI
  have um1 : ∀ y, ¬ (v.sp - 16 ≤ y ∧ y < v.sp) → u.mem y = v.mem y := by
    intro y hy
    rw [um y (by omega), am, storeInt_other _ _ _ _ (by omega)]
  have htop : loadInt u.mem u.sp = v.a := by
    have : loadInt u.mem u.sp = loadInt a.mem u.sp := loadInt_congr (fun x h1 h2 => um x (by omega))
    rw [this, usp, asp, am, loadInt_storeInt_same, wrap_eq hA]
  obtain ⟨b, hb, bpc, bsp, bbp, ba, bm⟩ := exec_si (v := u)
    (by rw [upc, apc, show v.pc + 16 + 32 = v.pc + 48 by ring, ← c6]
        exact loadInt_congr (fun x h1 h2 => um1 x (by omega)))
    (by simp only [two63]; omega) (by simp only [two63]; omega) (by simp only [two63]; omega)
    (by simp only [two63]; omega)
  rw [htop] at bm
  -- PSH; IMM s; o2
  obtain ⟨w, hw, wpc, wsp, wbp, wa, wm⟩ := exec_psh_imm_op (v := b)
    (by rw [bpc, upc, apc, show v.pc + 16 + 32 + 8 = v.pc + 56 by ring, bm]
        exact CodeAt.congr cB (fun x h1 h2 => by
          norm_num at h2
          rw [storeInt_other _ _ _ _ (by omega), um1 x (by omega)]))
    hop2 (by simp only [two63]; omega) (by simp only [two63]; omega) (by simp only [two63]; omega)
    (by simp only [two63]; omega) (by omega)
  refine ⟨w, cycles_add ha (cycles_add hu (cycles_add hb hw)), ?_, ?_, ?_, ?_, ?_⟩
  · rw [wa, ba, ua]
  · have : loadInt w.mem v.a = loadInt b.mem v.a := loadInt_congr (fun x h1 h2 => wm x (by omega))
    rw [this, bm, loadInt_storeInt_same, ua]
  · rw [wsp, bsp, usp, asp]; ring
  · rw [wbp, bbp, ubp, abp]
  · rw [wpc, bpc, upc, apc]; ring
theorem exprStep_Post (ex : Ex) {s : CState} (h : s.tk = Tok.Inc ∨ s.tk = Tok.Dec) :
    exprStep ex s = opPost s := by
  unfold exprStep
  rcases h with h | h <;> rw [h] <;> rfl

/-- The turn of the loop of `expr` on a postfix `++` or `--` after an operand loaded
by `LI`. -/
theorem opPost_code (S : CState) (c : List Int) (hk : S.tk = Tok.Inc ∨ S.tk = Tok.Dec)
    (he : S.e = c ++ [Op.LI]) (ht : S.ty ≠ CHAR) :
    opPost S = .ok (next { S with e := c ++ postCode (decide (S.tk = Tok.Inc)) (stride S.ty) }) := by
  have hl : lastE S = Op.LI := by simp [lastE, he]
  have hd : S.e.dropLast = c := by simp [he]
  unfold opPost dupLoad
  rw [hl, if_neg (by decide), if_pos rfl, bind_ok]
  simp only [emit, setLastE, hd, if_neg ht, postCode, stride, List.append_assoc, List.cons_append,
    List.nil_append]
  rcases hk with hk | hk <;> simp [hk]

theorem wrap_add_sub (x s : Int) (h : InRange x) : wrap (wrap (wrap (x + s)) - s) = x := by
  have e : wrap (wrap (wrap (x + s)) - s) = wrap x := by
    apply wrap_congr
    have := ((wrap_modEq (wrap (x + s))).trans (wrap_modEq (x + s))).sub_right s
    simpa using this
  rw [e, wrap_eq h]

theorem wrap_sub_add (x s : Int) (h : InRange x) : wrap (wrap (wrap (x - s)) + s) = x := by
  have e : wrap (wrap (wrap (x - s)) + s) = wrap x := by
    apply wrap_congr
    have := ((wrap_modEq (wrap (x - s))).trans (wrap_modEq (x - s))).add_right s
    simpa using this
  rw [e, wrap_eq h]

end C4

namespace C4

/-! ## Local declarations and their slots -/

theorem localDecl_reg (bt : Int) (n : Nat) (s : CState) (i : Int) (r : CState × Int)
    (h1 : s.tk ≠ ch ';') (hs : stars n s bt = .ok r) (h2 : r.1.tk = Tok.Id)
    (h3 : r.1.cur.Class ≠ Tok.Loc) :
    localDecl bt (n + 1) s i =
      localDecl bt n (comma (next (r.1.setCur (shadow r.2 (wrap (i + 1)))))) (wrap (i + 1)) := by
  rw [localDecl, if_pos h1, hs, bind_ok, if_neg (not_not.mpr h2), if_neg h3]
  rfl

theorem localDecl_done (bt : Int) (n : Nat) (s : CState) (i : Int) (h1 : s.tk = ch ';') :
    localDecl bt (n + 1) s i = .ok (s, i) := by
  rw [localDecl, if_neg (not_not.mpr h1)]

theorem localLoop_succ (n : Nat) (s : CState) (i bt : Int) :
    localLoop (n + 1) s i bt =
      if s.tk = Tok.Int ∨ s.tk = Tok.Char then
        localDecl (if s.tk = Tok.Int then INT else CHAR) n (next s) i >>= fun r =>
          localLoop n (next r.1) r.2 (if s.tk = Tok.Int then INT else CHAR)
      else .ok (s, i, bt) := by
  rw [localLoop]

theorem funcDef_eq (n : Nat) (s : CState) (bt : Int) :
    funcDef n s bt =
      paramLoop n (next (funcHead s)) 0 >>= fun p =>
        if (next p.1).tk ≠ 123 then fail (next p.1) "bad function definition"
        else localLoop n (next { next p.1 with loc := wrap (p.2 + 1) }) (wrap (p.2 + 1)) bt >>= fun l =>
          stmtBlock (stmt n) n (emit (wrap (l.2.1 - l.1.loc)) (emit Op.ENT l.1)) >>= fun s6 =>
            .ok ({ emit Op.LEV s6 with sym := restoreLocals s6.sym, id := symEnd s6.sym }, l.2.2) := by
  rfl

theorem step_LEA {s : VM} (h : loadInt s.mem s.pc = Op.LEA) :
    step s = .cont { s with pc := wrap (wrap (s.pc + 8) + 8),
                            a := wrap (s.bp + 8 * loadInt s.mem (wrap (s.pc + 8))) } := by
  simp [step, h]

/-- The instruction `ENT m`. -/
theorem exec_ent {v : VM} {m : Int} (hc : CodeAt v.mem v.pc [Op.ENT, m])
    (hp1 : -two63 ≤ v.pc) (hp2 : v.pc + 16 < two63) (hs1 : -two63 + 8 ≤ v.sp) (hs2 : v.sp < two63)
    (hm : InRange (v.sp - 8 - 8 * m)) :
    cycles 1 v = some { v with pc := v.pc + 16, bp := v.sp - 8, sp := v.sp - 8 - 8 * m,
                               mem := storeInt v.mem (v.sp - 8) v.bp } := by
  simp only [two63] at hp1 hp2 hs1 hs2
  have c0 : loadInt v.mem v.pc = Op.ENT := hc.head
  have c1 : loadInt v.mem (v.pc + 8) = m := hc.tail.head
  have w1 : wrap (v.pc + 8) = v.pc + 8 := wrap_eq (by simp only [InRange, two63]; omega)
  have w2 : wrap (v.pc + 8 + 8) = v.pc + 16 := by
    rw [wrap_eq (by simp only [InRange, two63]; omega)]; ring
  have w3 : wrap (v.sp - 8) = v.sp - 8 := wrap_eq (by simp only [InRange, two63]; omega)
  have k := cycles_one (step_ENT c0)
  rw [w1, w2, w3, c1, wrap_eq hm] at k
  exact k

/-- The instruction `LEA x`. -/
theorem exec_lea {v : VM} {x : Int} (hc : CodeAt v.mem v.pc [Op.LEA, x])
    (hp1 : -two63 ≤ v.pc) (hp2 : v.pc + 16 < two63) (hx : InRange (v.bp + 8 * x)) :
    cycles 1 v = some { v with pc := v.pc + 16, a := v.bp + 8 * x } := by
  simp only [two63] at hp1 hp2
  have c0 : loadInt v.mem v.pc = Op.LEA := hc.head
  have c1 : loadInt v.mem (v.pc + 8) = x := hc.tail.head
  have w1 : wrap (v.pc + 8) = v.pc + 8 := wrap_eq (by simp only [InRange, two63]; omega)
  have w2 : wrap (v.pc + 8 + 8) = v.pc + 16 := by
    rw [wrap_eq (by simp only [InRange, two63]; omega)]; ring
  have k := cycles_one (step_LEA c0)
  rw [w1, w2, c1, wrap_eq hx] at k
  exact k

end C4

namespace C4

/-! ## String literals in the data area -/

theorem testBit_mask (i : Nat) : Nat.testBit (2 ^ 64 - 8) i = (decide (3 ≤ i) && decide (i < 64)) := by
  by_cases h : i < 64
  · interval_cases i <;> rfl
  · have h1 : Nat.testBit (2 ^ 64 - 8) i = false :=
      Nat.testBit_lt_two_pow (lt_of_lt_of_le (by norm_num) (Nat.pow_le_pow_right (by norm_num) (not_lt.mp h)))
    rw [h1]
    simp [h]

theorem land_val (a : Nat) (h : a < 2 ^ 64) : Nat.land a (2 ^ 64 - 8) = a / 8 * 8 := by
  change a &&& (2 ^ 64 - 8) = a / 8 * 8
  have e : a / 8 * 8 = (a >>> 3) <<< 3 := by
    rw [Nat.shiftRight_eq_div_pow, Nat.shiftLeft_eq]
  rw [e]
  apply Nat.eq_of_testBit_eq
  intro i
  rw [Nat.testBit_and, testBit_mask, Nat.testBit_shiftLeft, Nat.testBit_shiftRight]
  by_cases h3 : 3 ≤ i
  · have e3 : 3 + (i - 3) = i := by omega
    rw [e3]
    by_cases h64 : i < 64
    · simp [h3, h64]
    · have : Nat.testBit a i = false :=
        Nat.testBit_lt_two_pow (lt_of_lt_of_le h (Nat.pow_le_pow_right (by norm_num) (not_lt.mp h64)))
      simp [this]
  · simp [h3]

theorem band_val (y : Int) (h : InRange y) :
    y - 8 < band y (-sizeofInt) ∧ band y (-sizeofInt) ≤ y := by
  unfold band
  have e : toU (-sizeofInt) = 2 ^ 64 - 8 := by decide
  rw [e]
  have hu : toU y < 2 ^ 64 := by
    unfold toU
    simp only [two64]
    omega
  rw [land_val _ hu]
  have hy : ((toU y : Nat) : Int) = y % two64 := by
    unfold toU
    simp only [two64]
    omega
  simp only [wrap, InRange, two63, two64] at *
  push_cast
  omega

theorem scanQuote_esc (c c2 : Nat) (cs2 : List Nat) (iv d : Int) (m : List (Int × Int))
    (h : cval c = 92) :
    scanQuote 34 (c :: c2 :: cs2) iv d m =
      scanQuote 34 cs2 (if cval c2 = ch 'n' then 10 else cval c2) (d + 1)
        (m ++ [(d, (if cval c2 = ch 'n' then 10 else cval c2) % 256)]) := by
  rw [scanQuote.eq_def]
  simp only
  rw [if_pos ⟨by rw [h]; decide, by rw [h]; decide⟩, if_pos h, if_pos trivial]

theorem runAt_append (d : Int) (a b : List Int) :
    runAt d (a ++ b) = runAt d a ++ runAt (d + (a.length : Int)) b := by
  induction a generalizing d with
  | nil => simp [runAt]
  | cons x a ih =>
    have e : d + ((x :: a).length : Int) = d + 1 + (a.length : Int) := by
      simp only [List.length_cons]; push_cast; ring
    rw [e]
    show (d, x) :: runAt (d + 1) (a ++ b) = (d, x) :: (runAt (d + 1) a ++ runAt (d + 1 + (a.length : Int)) b)
    rw [ih]

theorem strBytes_plain (c : Nat) (cs : List Nat) (h : ¬ cval c = 92) :
    strBytes (c :: cs) = (cval c % 256) :: strBytes cs := by
  rw [strBytes.eq_def]
  simp only
  rw [if_neg h]

theorem strBytes_esc (c c2 : Nat) (cs2 : List Nat) (h : cval c = 92) :
    strBytes (c :: c2 :: cs2) = ((if cval c2 = ch 'n' then 10 else cval c2) % 256) :: strBytes cs2 := by
  rw [strBytes.eq_def]
  simp only
  rw [if_pos h]

/-- The loop of a string literal on the inside of a literal: it stops at the closing
quote or at the NUL with the bytes stored from the cursor on. -/
theorem scanQuote_body_stop (stop : Nat) (hs : ¬ (cval stop ≠ 0 ∧ cval stop ≠ 34)) (k : Nat) :
    ∀ (body : List Nat), body.length ≤ k → isBody body = true →
    ∀ (rest : List Nat) (iv d : Int) (m : List (Int × Int)),
    (scanQuote 34 (body ++ stop :: rest) iv d m).1 = stop :: rest ∧
    (scanQuote 34 (body ++ stop :: rest) iv d m).2.2.1 = d + ((strBytes body).length : Int) ∧
    (scanQuote 34 (body ++ stop :: rest) iv d m).2.2.2 = m ++ runAt d (strBytes body) := by
  induction k with
  | zero =>
    intro body hl _ rest iv d m
    have : body = [] := List.length_eq_zero.mp (Nat.le_zero.mp hl)
    subst this
    rw [List.nil_append, scanQuote_stop _ _ _ _ _ _ hs]
    simp [strBytes, runAt]
  | succ k ih =>
    intro body hl hb rest iv d m
    cases body with
    | nil =>
      rw [List.nil_append, scanQuote_stop _ _ _ _ _ _ hs]
      simp [strBytes, runAt]
    | cons c cs =>
      unfold isBody at hb
      by_cases h0 : cval c ≠ 0 ∧ cval c ≠ 34
      · rw [if_pos h0] at hb
        by_cases h92 : cval c = 92
        · rw [if_pos h92] at hb
          cases cs with
          | nil => simp at hb
          | cons c2 cs2 =>
            simp only at hb
            have hl2 : cs2.length ≤ k := by simp only [List.length_cons] at hl; omega
            obtain ⟨i1, i2, i3⟩ := ih cs2 hl2 hb rest (if cval c2 = ch 'n' then 10 else cval c2)
              (d + 1) (m ++ [(d, (if cval c2 = ch 'n' then 10 else cval c2) % 256)])
            simp only [List.cons_append]
            rw [scanQuote_esc c c2 _ iv d m h92]
            refine ⟨i1, ?_, ?_⟩
            · rw [i2, strBytes_esc c c2 cs2 h92]; simp only [List.length_cons]; push_cast; ring
            · rw [i3, strBytes_esc c c2 cs2 h92]; simp [runAt]
        · rw [if_neg h92] at hb
          have hl2 : cs.length ≤ k := by simp only [List.length_cons] at hl; omega
          obtain ⟨i1, i2, i3⟩ := ih cs hl2 hb rest (cval c) (d + 1) (m ++ [(d, cval c % 256)])
          simp only [List.cons_append]
          rw [scanQuote_step c _ iv d m h0.1 h0.2 h92]
          refine ⟨i1, ?_, ?_⟩
          · rw [i2, strBytes_plain c cs h92]; simp only [List.length_cons]; push_cast; ring
          · rw [i3, strBytes_plain c cs h92]; simp [runAt]
      · rw [if_neg h0] at hb; cases hb

/-- The loop of a string literal on the inside of a literal: it stops at the closing
quote with the bytes stored from the cursor on. -/
theorem scanQuote_body (k : Nat) : ∀ (body : List Nat), body.length ≤ k → isBody body = true →
    ∀ (rest : List Nat) (iv d : Int) (m : List (Int × Int)),
    (scanQuote 34 (body ++ 34 :: rest) iv d m).1 = 34 :: rest ∧
    (scanQuote 34 (body ++ 34 :: rest) iv d m).2.2.1 = d + ((strBytes body).length : Int) ∧
    (scanQuote 34 (body ++ 34 :: rest) iv d m).2.2.2 = m ++ runAt d (strBytes body) :=
  scanQuote_body_stop 34 (by decide) k

/-- The lexer on a string token. -/
theorem next_str (X : CState) (k : Nat) (body rest : List Nat)
    (hp : X.p = blanks k ++ 34 :: (body ++ 34 :: rest)) (hb : isBody body = true) :
    next X = { X with p := rest, tk := 34, ival := X.data,
                      data := X.data + ((strBytes body).length : Int),
                      dmem := X.dmem ++ runAt X.data (strBytes body) } := by
  obtain ⟨h1, h2, h3⟩ := scanQuote_body body.length body (le_refl _) hb rest X.ival X.data X.dmem
  rw [next_blanks X k _ hp, next_quote (s := { X with p := 34 :: (body ++ 34 :: rest) }) rfl]
  simp only [h1, h2, h3, List.tail_cons]
/-- The loop over adjacent string tokens, from a string token on to the first token
that is not a string. -/
theorem skipStrings_toks (tail rest : List Nat) (t : Int)
    (hf : ∀ Y : CState, Y.p = tail → next Y = { Y with p := rest, tk := t }) (ht : t ≠ 34) :
    ∀ (toks : List (Nat × List Nat)) (X : CState) (n : Nat), X.tk = 34 →
      X.p = strText toks ++ tail → (∀ b ∈ toks, isBody b.2 = true) → toks.length + 2 ≤ n →
      ∃ iv, skipStrings n X = .ok { X with p := rest, tk := t, ival := iv, data := X.data + ((allBytes toks).length : Int), dmem := X.dmem ++ runAt X.data (allBytes toks) } := by
  intro toks
  induction toks with
  | nil =>
    intro X n hk hp _ hn
    obtain ⟨n, rfl⟩ : ∃ j, n = j + 2 := ⟨n - 2, by simp only [List.length_nil] at hn; omega⟩
    refine ⟨X.ival, ?_⟩
    rw [skipStrings_succ, if_pos hk, hf X (by simpa [strText] using hp), skipStrings_succ,
      if_neg (by exact ht)]
    simp [allBytes, runAt]
  | cons b ts ih =>
    intro X n hk hp hb hn
    obtain ⟨n, rfl⟩ : ∃ j, n = j + 1 := ⟨n - 1, by simp only [List.length_cons] at hn; omega⟩
    have hp1 : X.p = blanks b.1 ++ 34 :: (b.2 ++ 34 :: (strText ts ++ tail)) := by
      rw [hp]; simp [strText]
    have hx := next_str X b.1 b.2 _ hp1 (hb b (List.mem_cons_self _ _))
    obtain ⟨iv, h⟩ := ih (next X) n (by rw [hx]) (by rw [hx])
      (fun c hc => hb c (List.mem_cons_of_mem _ hc)) (by simp only [List.length_cons] at hn; omega)
    refine ⟨iv, ?_⟩
    rw [skipStrings_succ, if_pos hk, h, hx]
    have e1 : X.data + ((strBytes b.2).length : Int) + ((allBytes ts).length : Int)
        = X.data + ((allBytes (b :: ts)).length : Int) := by
      simp only [allBytes, List.length_append]; push_cast; ring
    simp only [e1, allBytes, runAt_append, List.append_assoc]

/-- The string branch of `expr` on adjacent string tokens. -/
theorem hdStr_toks (X : CState) (toks : List (Nat × List Nat)) (b : Nat × List Nat)
    (tail rest : List Nat) (t : Int) (n : Nat)
    (hp : X.p = strText (b :: toks) ++ tail) (hb : ∀ c ∈ b :: toks, isBody c.2 = true)
    (hf : ∀ Y : CState, Y.p = tail → next Y = { Y with p := rest, tk := t }) (ht : t ≠ 34)
    (hn : toks.length + 1 ≤ n) :
    ∃ iv, exprHead (expr n) n (next X) = .ok { X with p := rest, tk := t, ival := iv, ty := PTR, e := X.e ++ [Op.IMM, X.data], data := band (wrap (X.data + ((allBytes (b :: toks)).length : Int) + sizeofInt)) (-sizeofInt), dmem := X.dmem ++ runAt X.data (allBytes (b :: toks)) } := by
  have hp1 : X.p = blanks b.1 ++ 34 :: (b.2 ++ 34 :: (strText toks ++ tail)) := by
    rw [hp]; simp [strText]
  have hx := next_str X b.1 b.2 _ hp1 (hb b (List.mem_cons_self _ _))
  have hk : (next X).tk = 34 := by rw [hx]
  obtain ⟨iv, h⟩ := skipStrings_toks tail rest t hf ht toks
    (emit (next X).ival (emit Op.IMM (next X))) (n + 1) hk (by rw [hx]; rfl)
    (fun c hc => hb c (List.mem_cons_of_mem _ hc)) (by omega)
  rw [skipStrings_succ, if_pos (show (emit (next X).ival (emit Op.IMM (next X))).tk = 34 from hk)] at h
  refine ⟨iv, ?_⟩
  rw [exprHead_Str _ _ hk, hdStr, h, bind_ok, hx]
  have e1 : X.data + ((strBytes b.2).length : Int) + ((allBytes toks).length : Int)
      = X.data + ((allBytes (b :: toks)).length : Int) := by
    simp only [allBytes, List.length_append]; push_cast; ring
  simp only [emit, e1, allBytes, runAt_append, List.append_assoc, List.cons_append, List.nil_append]

theorem mem_runAt {d : Int} {bs : List Int} {w : Int × Int} (h : w ∈ runAt d bs) :
    d ≤ w.1 ∧ w.1 < d + (bs.length : Int) := by
  induction bs generalizing d with
  | nil => simp [runAt] at h
  | cons b bs ih =>
    simp only [runAt, List.mem_cons] at h
    simp only [List.length_cons]
    push_cast
    rcases h with h | h
    · rw [h]; simp only; omega
    · have := ih h; omega

theorem dataByte_none {l : List (Int × Int)} {x : Int} (h : ∀ w ∈ l, w.1 ≠ x) : dataByte l x = 0 := by
  unfold dataByte
  have : l.reverse.find? (fun w => decide (w.1 = x)) = none := by
    rw [List.find?_eq_none]
    intro w hw
    simpa using h w (List.mem_reverse.mp hw)
  rw [this]

theorem dataByte_snoc (l : List (Int × Int)) (a b x : Int) :
    dataByte (l ++ [(a, b)]) x = if a = x then b else dataByte l x := by
  unfold dataByte
  rw [List.reverse_append, List.reverse_singleton, List.singleton_append, List.find?_cons]
  by_cases h : a = x
  · simp [h]
  · simp [h]

/-- The bytes stored last are read back. -/
theorem dataByte_runAt (m : List (Int × Int)) (d : Int) (bs : List Int) :
    ∀ i : Nat, i < bs.length → dataByte (m ++ runAt d bs) (d + (i : Int)) = bs.getD i 0 := by
  induction bs using List.reverseRecOn with
  | nil => intro i hi; simp at hi
  | append_singleton bs b ih =>
    intro i hi
    rw [runAt_append, ← List.append_assoc]
    show dataByte (m ++ runAt d bs ++ [(d + (bs.length : Int), b)]) _ = _
    rw [dataByte_snoc]
    by_cases h : i = bs.length
    · subst h
      rw [if_pos rfl]
      simp [List.getD_eq_getElem?_getD]
    · have hi2 : i < bs.length := by
        simp only [List.length_append, List.length_singleton] at hi; omega
      rw [if_neg (by intro e; apply h; have : (bs.length : Int) = (i : Int) := by omega
                     exact_mod_cast this.symm), ih i hi2]
      simp [List.getD_eq_getElem?_getD, List.getElem?_append_left hi2]

end C4

namespace C4

/-! ## The turns of the declaration loops of a function -/

set_option linter.unusedTactic false
set_option linter.unreachableTactic false

theorem countFrom_shift (i0 : Int) (k : Nat) : countFrom (wrap (i0 + 1)) k = countFrom i0 (k + 1) := by
  induction k with
  | zero => rfl
  | succ k ih =>
    show wrap (countFrom (wrap (i0 + 1)) k + 1) = wrap (countFrom i0 (k + 1) + 1)
    rw [ih]

theorem countFrom_add (i0 : Int) (a b : Nat) : countFrom (countFrom i0 a) b = countFrom i0 (a + b) := by
  induction b with
  | zero => rfl
  | succ b ih =>
    show wrap (countFrom (countFrom i0 a) b + 1) = wrap (countFrom i0 (a + b) + 1)
    rw [ih]

theorem countFrom_eq (i0 : Int) (k : Nat) (h0 : -two63 ≤ i0) (h1 : i0 + (k : Int) < two63) :
    countFrom i0 k = i0 + (k : Int) := by
  induction k with
  | zero => simp [countFrom]
  | succ k ih =>
    unfold countFrom
    rw [ih (by push_cast at h1; omega)]
    push_cast at h1 ⊢
    simp only [wrap, two63, two64] at *
    omega

theorem mem_slotsFrom : ∀ (ds : List Nat) (i0 : Int) (k : Nat) (h : k < ds.length),
    (ds[k], countFrom i0 k) ∈ slotsFrom i0 ds := by
  intro ds
  induction ds with
  | nil => intro i0 k h; exact absurd h (Nat.not_lt_zero _)
  | cons d ds ih =>
    intro i0 k h
    cases k with
    | zero => exact List.mem_cons_self _ _
    | succ k =>
      rw [← countFrom_shift]
      exact List.mem_cons_of_mem _ (ih _ k (Nat.lt_of_succ_lt_succ h))

theorem slotsFrom_append : ∀ (a b : List Nat) (i0 : Int),
    slotsFrom i0 (a ++ b) = slotsFrom i0 a ++ slotsFrom (countFrom i0 a.length) b := by
  intro a
  induction a with
  | nil => intro b i0; rfl
  | cons d ds ih =>
    intro b i0
    show (d, i0) :: slotsFrom (wrap (i0 + 1)) (ds ++ b) = _
    rw [ih, countFrom_shift]
    rfl

theorem slots_append {L : Int} {r1 r2 : List (Nat × Int)} {sym : List Sym} {l : Int}
    (h1 : Slots L r1 sym l) (h2 : Slots L r2 sym l) : Slots L (r1 ++ r2) sym l :=
  ⟨h1.1, fun x hx => (List.mem_append.mp hx).elim (h1.2 x) (h2.2 x)⟩

theorem slots_nil (sym : List Sym) (l : Int) : Slots l [] sym l :=
  ⟨rfl, fun _ hx => absurd hx (List.not_mem_nil _)⟩

theorem ptype_frame (s : CState) : (ptype s).1.loc = s.loc ∧ (ptype s).1.e = s.e ∧
    ((s.tk = Tok.Id → s.id < s.sym.length) → (ptype s).1.tk = Tok.Id →
      (ptype s).1.id < (ptype s).1.sym.length) := by
  unfold ptype
  split
  · exact ⟨rfl, rfl, fun _ => next_id_lt s⟩
  · split
    · exact ⟨rfl, rfl, fun _ => next_id_lt s⟩
    · exact ⟨rfl, rfl, id⟩

theorem comma_next_frame (s : CState) : (comma (next s)).loc = s.loc ∧ (comma (next s)).e = s.e ∧
    ((comma (next s)).tk = Tok.Id → (comma (next s)).id < (comma (next s)).sym.length) := by
  unfold comma
  split
  · exact ⟨rfl, rfl, next_id_lt _⟩
  · exact ⟨rfl, rfl, next_id_lt _⟩

theorem stable_comma_next {Q : List Sym → Int → Prop} (hQ : Stable Q) {s : CState}
    (h : Q s.sym s.loc) : Q (comma (next s)).sym (comma (next s)).loc := by
  unfold comma
  split
  · exact stable_next hQ (stable_next hQ h)
  · exact stable_next hQ h

theorem slots_register (s : CState) (t v : Int) (h : s.id < s.sym.length) :
    Slots s.loc [(s.id, v)] (comma (next (s.setCur (shadow t v)))).sym
      (comma (next (s.setCur (shadow t v)))).loc := by
  apply stable_comma_next (slots_stable _ _)
  refine ⟨rfl, fun x hx => ?_⟩
  rw [List.mem_singleton] at hx
  subst hx
  show (symAt (symUpd s.sym s.id (shadow t v)) s.id).Class = Tok.Loc ∧
    (symAt (symUpd s.sym s.id (shadow t v)) s.id).Val = v
  rw [symAt_symUpd_self _ _ _ h]
  exact ⟨rfl, rfl⟩

theorem paramIds_spec (n : Nat) : ∀ (s : CState) (i : Int) (t : CState × Int × List Nat),
    paramIds n s i = .ok t → (s.tk = Tok.Id → s.id < s.sym.length) →
    paramLoop n s i = .ok (t.1, t.2.1) ∧ t.2.1 = countFrom i t.2.2.length ∧ t.1.loc = s.loc ∧
      t.1.e = s.e ∧ Slots s.loc (slotsFrom i t.2.2) t.1.sym t.1.loc := by
  induction n with
  | zero => intro s i t h; cases h
  | succ n ih =>
    intro s i t h hs
    unfold paramIds at h
    split at h
    · cases h
      rename_i h1
      refine ⟨?_, rfl, rfl, rfl, slots_nil _ _⟩
      rw [paramLoop, if_neg (not_not.mpr h1)]
    · rename_i h1
      obtain ⟨r, hr, h⟩ := bind_eq_ok h
      split at h
      · unfold fail at h; cases h
      · rename_i h2
        split at h
        · unfold fail at h; cases h
        · rename_i h3
          obtain ⟨u, hu, h⟩ := bind_eq_ok h
          cases h
          have hf := stars_frame n _ _ r hr
          have hpt := ptype_frame s
          have hv : r.1.id < r.1.sym.length := hf.2.2 (hpt.2.2 hs) (not_not.mp h2)
          have hc := comma_next_frame (r.1.setCur (shadow r.2 i))
          obtain ⟨k1, k2, k3, k4, k5⟩ := ih _ _ u hu hc.2.2
          have hloc : (comma (next (r.1.setCur (shadow r.2 i)))).loc = s.loc := by
            rw [hc.1]; exact hf.1.trans hpt.1
          have he : (comma (next (r.1.setCur (shadow r.2 i)))).e = s.e := by
            rw [hc.2.1]; exact hf.2.1.trans hpt.2.1
          rw [hloc] at k5
          refine ⟨?_, ?_, k3.trans hloc, k4.trans he, ?_⟩
          · rw [paramLoop_reg n s i r h1 hr (not_not.mp h2) h3]
            exact k1
          · show u.2.1 = countFrom i (u.2.2.length + 1)
            rw [← countFrom_shift]
            exact k2
          · have hreg := slots_register r.1 r.2 i hv
            have hk := (paramLoop_keep (slots_stable _ _) n _ (wrap (i + 1)) hreg).holds _ k1
            have e1 : r.1.loc = s.loc := hf.1.trans hpt.1
            rw [e1] at hk
            exact slots_append hk k5

theorem declIds_spec (bt : Int) (n : Nat) : ∀ (s : CState) (i : Int) (t : CState × Int × List Nat),
    declIds bt n s i = .ok t → (s.tk = Tok.Id → s.id < s.sym.length) →
    localDecl bt n s i = .ok (t.1, t.2.1) ∧ t.2.1 = countFrom i t.2.2.length ∧ t.1.loc = s.loc ∧
      t.1.e = s.e ∧ Slots s.loc (slotsFrom (wrap (i + 1)) t.2.2) t.1.sym t.1.loc := by
  induction n with
  | zero => intro s i t h; cases h
  | succ n ih =>
    intro s i t h hs
    unfold declIds at h
    split at h
    · cases h
      rename_i h1
      exact ⟨localDecl_done bt n s i h1, rfl, rfl, rfl, slots_nil _ _⟩
    · rename_i h1
      obtain ⟨r, hr, h⟩ := bind_eq_ok h
      split at h
      · unfold fail at h; cases h
      · rename_i h2
        split at h
        · unfold fail at h; cases h
        · rename_i h3
          obtain ⟨u, hu, h⟩ := bind_eq_ok h
          cases h
          have hf := stars_frame n _ _ r hr
          have hv : r.1.id < r.1.sym.length := hf.2.2 hs (not_not.mp h2)
          have hc := comma_next_frame (r.1.setCur (shadow r.2 (wrap (i + 1))))
          obtain ⟨k1, k2, k3, k4, k5⟩ := ih _ _ u hu hc.2.2
          have hloc : (comma (next (r.1.setCur (shadow r.2 (wrap (i + 1)))))).loc = s.loc := by
            rw [hc.1]; exact hf.1
          have he : (comma (next (r.1.setCur (shadow r.2 (wrap (i + 1)))))).e = s.e := by
            rw [hc.2.1]; exact hf.2.1
          rw [hloc] at k5
          refine ⟨?_, ?_, k3.trans hloc, k4.trans he, ?_⟩
          · rw [localDecl_reg bt n s i r h1 hr (not_not.mp h2) h3]
            exact k1
          · show u.2.1 = countFrom i (u.2.2.length + 1)
            rw [← countFrom_shift]
            exact k2
          · have hreg := slots_register r.1 r.2 (wrap (i + 1)) hv
            have hk := (localDecl_keep (slots_stable _ _) bt n _ (wrap (i + 1)) hreg).holds _ k1
            rw [hf.1] at hk
            exact slots_append hk k5

theorem localIds_spec (n : Nat) : ∀ (s : CState) (i bt : Int) (t : CState × Int × Int × List Nat),
    localIds n s i bt = .ok t →
    localLoop n s i bt = .ok (t.1, t.2.1, t.2.2.1) ∧ t.2.1 = countFrom i t.2.2.2.length ∧
      t.1.loc = s.loc ∧ t.1.e = s.e ∧ Slots s.loc (slotsFrom (wrap (i + 1)) t.2.2.2) t.1.sym t.1.loc := by
  induction n with
  | zero => intro s i bt t h; cases h
  | succ n ih =>
    intro s i bt t h
    unfold localIds at h
    rw [localLoop_succ]
    split at h
    · rename_i h1
      rw [if_pos h1]
      obtain ⟨r, hr, h⟩ := bind_eq_ok h
      obtain ⟨u, hu, h⟩ := bind_eq_ok h
      cases h
      obtain ⟨d1, d2, d3, d4, d5⟩ := declIds_spec _ n _ _ r hr (next_id_lt s)
      obtain ⟨k1, k2, k3, k4, k5⟩ := ih _ _ _ u hu
      have hloc : (next r.1).loc = s.loc := d3
      have he : (next r.1).e = s.e := d4
      rw [hloc] at k5
      refine ⟨?_, ?_, k3.trans hloc, k4.trans he, ?_⟩
      · rw [d1, bind_ok]
        exact k1
      · show u.2.1 = countFrom i (r.2.2 ++ u.2.2.2).length
        rw [List.length_append, ← countFrom_add, ← d2]
        exact k2
      · show Slots s.loc (slotsFrom (wrap (i + 1)) (r.2.2 ++ u.2.2.2)) u.1.sym u.1.loc
        rw [slotsFrom_append, countFrom_shift, ← countFrom_add, ← d2, ← countFrom_shift]
        have d6 : Slots s.loc (slotsFrom (wrap (i + 1)) r.2.2) (next r.1).sym (next r.1).loc :=
          stable_next (slots_stable _ _) d5
        have hk := (localLoop_keep (slots_stable _ _) n _ _ _ d6).holds _ k1
        exact slots_append hk k5
    · rename_i h1
      rw [if_neg h1]
      cases h
      exact ⟨rfl, rfl, rfl, rfl, slots_nil _ _⟩

theorem expr_ref (k : Nat) (lev : Int) (s : CState) (h1 : s.tk = Tok.Id)
    (h2 : (next s).tk ≠ ch '(') (h3 : (symAt s.sym s.id).Class = Tok.Loc) :
    expr (k + 1) lev s = exprLoop (expr k) k lev
      (emit (if (symAt s.sym s.id).Typ = CHAR then Op.LC else Op.LI)
        { emit (wrap (s.loc - (symAt s.sym s.id).Val)) (emit Op.LEA (next s)) with
            ty := (symAt s.sym s.id).Typ }) := by
  have c1 : (symAt (next s).sym s.id).Class = Tok.Loc :=
    (next_field (fun d => d.Class) (fun _ _ _ => rfl) s s.id).trans h3
  have c2 : (symAt (next s).sym s.id).Typ = (symAt s.sym s.id).Typ :=
    next_field (fun d => d.Typ) (fun _ _ _ => rfl) s s.id
  have c3 : (symAt (next s).sym s.id).Val = (symAt s.sym s.id).Val :=
    next_field (fun d => d.Val) (fun _ _ _ => rfl) s s.id
  have hh : exprHead (expr k) k s = hdVar s.id (next s) := by
    unfold exprHead
    rw [h1]
    simp only [show ¬ (Tok.Id = 0) by decide, show ¬ (Tok.Id = Tok.Num) by decide,
      show ¬ (Tok.Id = (34 : Int)) by decide, show ¬ (Tok.Id = Tok.Sizeof) by decide, if_false, if_true]
    unfold hdId
    rw [if_neg h2, if_neg (by rw [c1]; decide)]
  unfold expr
  rw [hh, hdVar_loc _ _ c1, bind_ok, c2, c3]
  rfl

theorem inBody_stable (ds js : List Nat) : Stable (InBody ds js) := by
  constructor
  · intro sym pp tk l h
    refine ⟨h.1, fun i hi => ?_, fun j hj => ?_⟩
    · rw [lexId_field (fun d => d.Class) (fun _ _ _ => rfl), lexId_field (fun d => d.Val) (fun _ _ _ => rfl)]
      exact h.2.1 i hi
    · rw [lexId_field (fun d => d.Class) (fun _ _ _ => rfl), lexId_field (fun d => d.Val) (fun _ _ _ => rfl)]
      exact h.2.2 j hj
  · intro sym d t v l h hc
    refine ⟨h.1, fun i hi => ?_, fun j hj => ?_⟩
    · have hne : ds[i] ≠ d := by
        intro e
        rw [← e] at hc
        exact hc (h.2.1 i hi).1
      rw [symAt_symUpd_ne _ _ _ _ hne]
      exact h.2.1 i hi
    · have hne : js[j] ≠ d := by
        intro e
        rw [← e] at hc
        exact hc (h.2.2 j hj).1
      rw [symAt_symUpd_ne _ _ _ _ hne]
      exact h.2.2 j hj

theorem inBody_of_slots {ds js : List Nat} {sym : List Sym} {l : Int}
    (hn : (ds.length : Int) + 1 + (js.length : Int) < two63)
    (h1 : Slots ((ds.length : Int) + 1) (slotsFrom 0 ds) sym l)
    (h2 : Slots ((ds.length : Int) + 1) (slotsFrom (wrap ((ds.length : Int) + 1 + 1)) js) sym l) :
    InBody ds js sym l := by
  refine ⟨h1.1, fun i hi => ?_, fun j hj => ?_⟩
  · have := h1.2 _ (mem_slotsFrom ds 0 i hi)
    rw [countFrom_eq 0 i (by decide) (by omega)] at this
    simpa using this
  · have := h2.2 _ (mem_slotsFrom js _ j hj)
    have e : wrap ((ds.length : Int) + 1 + 1) = (ds.length : Int) + 1 + 1 := by
      simp only [wrap, two63, two64] at *
      omega
    rw [e, countFrom_eq _ j (by simp only [two63]; omega) (by omega)] at this
    rw [this.2]
    exact ⟨this.1, by ring⟩

theorem paramIds_of_loop (n : Nat) : ∀ (s : CState) (i : Int) (r : CState × Int),
    paramLoop n s i = .ok r → ∃ ds, paramIds n s i = .ok (r.1, r.2, ds) := by
  induction n with
  | zero => intro s i r h; cases h
  | succ n ih =>
    intro s i r h
    unfold paramIds
    by_cases h1 : s.tk = ch ')'
    · rw [paramLoop, if_neg (not_not.mpr h1)] at h
      cases h
      exact ⟨[], by rw [if_pos h1]⟩
    · rw [if_neg h1]
      cases hq : stars n (ptype s).1 (ptype s).2 with
      | ok q =>
        rw [bind_ok]
        by_cases h2 : q.1.tk = Tok.Id
        · by_cases h3 : q.1.cur.Class = Tok.Loc
          · rw [paramLoop_dup n s i q h1 hq h2 h3] at h; cases h
          · rw [paramLoop_reg n s i q h1 hq h2 h3] at h
            obtain ⟨ds, hds⟩ := ih _ _ r h
            refine ⟨q.1.id :: ds, ?_⟩
            rw [if_neg (not_not.mpr h2), if_neg h3, hds, bind_ok]
        · rw [paramLoop, if_pos h1] at h
          simp only at h
          unfold ptype at hq
          rw [hq, bind_ok, if_pos h2] at h
          unfold fail at h; cases h
      | exit c l m =>
        rw [paramLoop, if_pos h1] at h
        simp only at h
        unfold ptype at hq
        rw [hq] at h
        cases h
      | fuel =>
        rw [paramLoop, if_pos h1] at h
        simp only at h
        unfold ptype at hq
        rw [hq] at h
        cases h

theorem declIds_of_loop (bt : Int) (n : Nat) : ∀ (s : CState) (i : Int) (r : CState × Int),
    localDecl bt n s i = .ok r → ∃ ds, declIds bt n s i = .ok (r.1, r.2, ds) := by
  induction n with
  | zero => intro s i r h; cases h
  | succ n ih =>
    intro s i r h
    unfold declIds
    by_cases h1 : s.tk = ch ';'
    · rw [localDecl_done bt n s i h1] at h
      cases h
      exact ⟨[], by rw [if_pos h1]⟩
    · rw [if_neg h1]
      cases hq : stars n s bt with
      | ok q =>
        rw [bind_ok]
        by_cases h2 : q.1.tk = Tok.Id
        · by_cases h3 : q.1.cur.Class = Tok.Loc
          · rw [localDecl_dup bt n s i q h1 hq h2 h3] at h; cases h
          · rw [localDecl_reg bt n s i q h1 hq h2 h3] at h
            obtain ⟨ds, hds⟩ := ih _ _ r h
            refine ⟨q.1.id :: ds, ?_⟩
            rw [if_neg (not_not.mpr h2), if_neg h3, hds, bind_ok]
        · rw [localDecl, if_pos h1, hq, bind_ok, if_pos h2] at h
          unfold fail at h; cases h
      | exit c l m =>
        rw [localDecl, if_pos h1, hq] at h
        cases h
      | fuel =>
        rw [localDecl, if_pos h1, hq] at h
        cases h

theorem localIds_of_loop (n : Nat) : ∀ (s : CState) (i bt : Int) (r : CState × Int × Int),
    localLoop n s i bt = .ok r → ∃ js, localIds n s i bt = .ok (r.1, r.2.1, r.2.2, js) := by
  induction n with
  | zero => intro s i bt r h; cases h
  | succ n ih =>
    intro s i bt r h
    unfold localIds
    rw [localLoop_succ] at h
    by_cases h1 : s.tk = Tok.Int ∨ s.tk = Tok.Char
    · rw [if_pos h1] at h ⊢
      obtain ⟨q, hq, h⟩ := bind_eq_ok h
      obtain ⟨ds, hds⟩ := declIds_of_loop _ n _ _ q hq
      obtain ⟨js, hjs⟩ := ih _ _ _ r h
      exact ⟨ds ++ js, by rw [hds, bind_ok, hjs, bind_ok]⟩
    · rw [if_neg h1] at h ⊢
      cases h
      exact ⟨[], rfl⟩

theorem slots_loc {L l : Int} {regs : List (Nat × Int)} {sym : List Sym} (h : Slots L regs sym l)
    (x : Int) : Slots x regs sym x :=
  ⟨rfl, h.2⟩

theorem wrap_small {x : Int} (h0 : -two63 ≤ x) (h1 : x < two63) : wrap x = x := by
  simp only [wrap, two63, two64] at *
  omega

/-- The parameter list of a function whose turns are traced: the parameter loop returns
the traced state with the number of parameters as the counter, and the state in which
the local declarations are read has the parameters in their slots. -/
theorem params_read {k : Nat} {s p : CState} {c : Int} {ds : List Nat}
    (hp : paramIds k (next (funcHead s)) 0 = .ok (p, c, ds)) (hn : (ds.length : Int) + 1 < two63) :
    c = (ds.length : Int) ∧ paramLoop k (next (funcHead s)) 0 = .ok (p, (ds.length : Int)) ∧
    p.e = s.e ∧
    Slots ((ds.length : Int) + 1) (slotsFrom 0 ds) (next { next p with loc := (ds.length : Int) + 1 }).sym
      (next { next p with loc := (ds.length : Int) + 1 }).loc := by
  obtain ⟨k1, k2, _, k4, k5⟩ := paramIds_spec k _ 0 _ hp (next_id_lt _)
  have hc : c = (ds.length : Int) := by
    have := countFrom_eq 0 ds.length (by decide) (by omega)
    rw [this] at k2
    simpa using k2
  refine ⟨hc, ?_, k4, ?_⟩
  · rw [← hc]; exact k1
  · have h1 : Slots ((ds.length : Int) + 1) (slotsFrom 0 ds) p.sym ((ds.length : Int) + 1) :=
      slots_loc k5 _
    have h2 : Slots ((ds.length : Int) + 1) (slotsFrom 0 ds) (next p).sym ((ds.length : Int) + 1) :=
      stable_nextL (slots_stable _ _) _ _ _ h1
    exact stable_next (slots_stable _ _)
      (show Slots ((ds.length : Int) + 1) (slotsFrom 0 ds) ({ next p with loc := (ds.length : Int) + 1 } : CState).sym
        ({ next p with loc := (ds.length : Int) + 1 } : CState).loc from h2)

/-- The reference to an identifier that is of class `Loc` with the value `v` while
`loc` is `L`: the code `LEA L - v` and the load of its type. -/
theorem expr_ref_at (m : Nat) (lev : Int) (s : CState) (d : Nat) (L v : Int) (h1 : s.tk = Tok.Id)
    (hd : s.id = d) (h2 : (next s).tk ≠ ch '(') (h3 : (symAt s.sym d).Class = Tok.Loc)
    (h4 : (symAt s.sym d).Val = v) (h5 : s.loc = L) (h6 : -two63 ≤ L - v) (h7 : L - v < two63) :
    expr (m + 1) lev s = exprLoop (expr m) m lev
      (emit (if (symAt s.sym d).Typ = CHAR then Op.LC else Op.LI)
        { emit (L - v) (emit Op.LEA (next s)) with ty := (symAt s.sym d).Typ }) := by
  subst hd
  rw [expr_ref m lev s h1 h2 h3, h4, h5, wrap_small h6 h7]

end C4
namespace C4

/-- C5 (call/return balance).  In any machine state whose `sp` and `bp` hold
64-bit values and whose next instruction is `JSR`: the call goes on to the
callee; if the callee starts with `ENT n`, that instruction is executed, and
from every later state `sB` in which `bp` and the two stack words at `bp`
and `bp + 1` (saved `bp`, return `pc`) are what `ENT` left and whose next
instruction is `LEV`, the return restores `sp` and `bp` to their values
before the `JSR` and sets `pc` to the word after the `JSR` operand; a
following `ADJ k` then raises `sp` by `k` words. -/
theorem C5_call_return_balance (s0 : VM) (hsp : InRange s0.sp) (hbp : InRange s0.bp)
    (hjsr : loadInt s0.mem s0.pc = Op.JSR) :
    ∃ s1, step s0 = .cont s1 ∧ s1.pc = loadInt s0.mem (wrap (s0.pc + 8)) ∧
      (loadInt s1.mem s1.pc = Op.ENT →
        ∃ s2, step s1 = .cont s2 ∧
          s2.sp = wrap (s2.bp - 8 * loadInt s1.mem (wrap (s1.pc + 8))) ∧
          ∀ sB : VM, sB.bp = s2.bp →
            loadInt sB.mem sB.bp = loadInt s2.mem s2.bp →
            loadInt sB.mem (wrap (sB.bp + 8)) = loadInt s2.mem (wrap (s2.bp + 8)) →
            loadInt sB.mem sB.pc = Op.LEV →
            ∃ s3, step sB = .cont s3 ∧ s3.sp = s0.sp ∧ s3.bp = s0.bp ∧
              s3.pc = wrap (s0.pc + 16) ∧
              ∀ k : Int, loadInt s3.mem s3.pc = Op.ADJ → loadInt s3.mem (wrap (s3.pc + 8)) = k →
                ∃ s4, step s3 = .cont s4 ∧ s4.sp = wrap (s0.sp + 8 * k)) := by
  refine ⟨_, step_JSR hjsr, rfl, ?_⟩
  intro hent
  refine ⟨_, step_ENT hent, by simp, ?_⟩
  intro sB hB1 hB2 hB3 hlev
  have hs : wrap (wrap (sB.bp + 8) + 8) = s0.sp := by
    simp only [hB1]
    simp only [wrap, InRange, two63, two64] at *
    omega
  refine ⟨_, step_LEV hlev, hs, ?_, ?_, ?_⟩
  · simp only [hB2]
    rw [loadInt_storeInt_same]
    exact wrap_eq hbp
  · simp only [hB3]
    have e1 : wrap (wrap (wrap (s0.sp - 8) - 8) + 8) = wrap (s0.sp - 8) := by
      simp only [wrap, two63, two64]; omega
    rw [e1, loadInt_storeInt_disj, loadInt_storeInt_same]
    · simp only [wrap, two63, two64]; omega
    · simp only [wrap, InRange, two63, two64] at *; omega
  · intro k hadj hk
    refine ⟨_, step_ADJ hadj, ?_⟩
    subst hk
    show wrap (wrap (wrap (sB.bp + 8) + 8) + 8 * _) = _
    rw [hs]

theorem callVM_step1 : step callVM = .cont callVM1 := by
  rw [step_JSR (by decide)]; rfl

theorem callVM_step2 : step callVM1 = .cont callVM2 := by
  rw [step_ENT (by decide)]; rfl

/-- Witness of C5 on `callVM`: the call, `ENT 0`, `LEV` and `ADJ 1` are
executed in turn, `sp` and `bp` are 1000 and 2000 again after `LEV`, `pc` is
16, and `ADJ 1` leaves `sp` at 1008. -/
theorem C5_call_return_balance_witness :
    InRange callVM.sp ∧ InRange callVM.bp ∧ loadInt callVM.mem callVM.pc = Op.JSR ∧
    ∃ s3 s4, step callVM = .cont callVM1 ∧ step callVM1 = .cont callVM2 ∧ step callVM2 = .cont s3 ∧
      s3.sp = 1000 ∧ s3.bp = 2000 ∧ s3.pc = 16 ∧ step s3 = .cont s4 ∧ s4.sp = 1008 := by
  refine ⟨by decide, by decide, by decide, ?_⟩
  obtain ⟨s1, h1, -, hrest⟩ :=
    C5_call_return_balance callVM (by decide) (by decide) (by decide)
  rw [callVM_step1] at h1
  cases h1
  obtain ⟨s2, h2, -, hB⟩ := hrest (by decide)
  rw [callVM_step2] at h2
  cases h2
  obtain ⟨s3, h3, hsp, hbp, hpc, hadj⟩ := hB callVM2 rfl rfl rfl (by decide)
  have hpc3 : s3.pc = 16 := by rw [hpc]; decide
  have hm : s3.mem = callVM2.mem := by
    rw [step_LEV (by decide)] at h3
    cases h3
    rfl
  obtain ⟨s4, h4, hsp4⟩ := hadj 1 (by rw [hpc3, hm]; decide) (by rw [hpc3, hm]; decide)
  exact ⟨s3, s4, callVM_step1, callVM_step2, h3, hsp, hbp, hpc3, h4, by rw [hsp4]; decide⟩

end C4
namespace C4

/-! ## C1: precedence -/

/-- C1, as the code has it.  In `x a y b z`, let `s1` be the compiler after the
operand `x` (at the operator `a`), `sy` after the operand `y` (at `b`), with `a`
and `b` distinct binary operators; `exprStep (fun _ _ => .ok t) s` is the code
the branch of the operator at `s` emits around a right operand that ends in
`t`.  (1) When the precedence of `b` is at most that of `a`, `expr(Assign)`
returns what `(x a y) b z` gives: `a` applied to `x` and `y`, then `b` applied to
that and the operand `z`.  (2) When the precedence of `b` is above that of `a`, it
returns what `x a (y b z)` gives: `b` applied to `y` and `z`, then `a` applied to
`x` and that. -/
theorem C1_precedence (n : Nat) (s0 s1 sy : CState) (ha : isBinOp s1.tk = true)
    (hb : isBinOp sy.tk = true) (hab : s1.tk ≠ sy.tk) (hx : expr n Tok.Inc s0 = .ok s1)
    (hy : expr n Tok.Inc (rhsAt s1) = .ok sy) :
    (prec sy.tk ≤ prec s1.tk → ∀ s2 sz r : CState, exprStep (fun _ _ => .ok sy) s1 = .ok s2 →
      expr n Tok.Inc (rhsAt s2) = .ok sz → sz.tk < Tok.Assign →
      exprStep (fun _ _ => .ok sz) s2 = .ok r → ExprTo Tok.Assign s0 (.ok r)) ∧
    (prec s1.tk < prec sy.tk → ∀ sz syz r : CState, expr n Tok.Inc (rhsAt sy) = .ok sz →
      sz.tk < Tok.Assign → exprStep (fun _ _ => .ok sz) sy = .ok syz →
      exprStep (fun _ _ => .ok syz) s1 = .ok r → ExprTo Tok.Assign s0 (.ok r)) := by
  have key := prec_rhsLev ha hb hab
  refine ⟨fun hp s2 sz r h2 hz hzt h3 => ?_, fun hp sz syz r hz hzt h2 h3 => ?_⟩
  · exact group_left ha hb (key.mp hp) hx hy h2 hz hzt h3
  · have : rhsLev s1.tk ≤ sy.tk := by
      by_contra hc
      have := key.mpr (lt_of_not_le hc)
      omega
    exact group_right ha hb this hx hy hz hzt h2 h3

/-- C1 at `1 - 2 + 3;` (equal precedence, grouped to the left) and at `1 + 2 *
3;` (higher precedence on the right, grouped to the right). -/
theorem C1_precedence_witness :
    c1R.e = [Op.IMM, 1, Op.PSH, Op.IMM, 2, Op.SUB, Op.PSH, Op.IMM, 3, Op.ADD] ∧
    ExprTo Tok.Assign c1S0 (.ok c1R) ∧
    c1TR.e = [Op.IMM, 1, Op.PSH, Op.IMM, 2, Op.PSH, Op.IMM, 3, Op.MUL, Op.ADD] ∧
    ExprTo Tok.Assign c1T0 (.ok c1TR) :=
  ⟨by decide!,
    (C1_precedence 5 c1S0 c1S1 c1Sy (by decide!) (by decide!) (by decide!) (by decide!)
      (by decide!)).1 (by decide!) c1S2 c1Sz c1R (by decide!) (by decide!) (by decide!) (by decide!),
    by decide!,
    (C1_precedence 5 c1T0 c1T1 c1Ty (by decide!) (by decide!) (by decide!) (by decide!)
      (by decide!)).2 (by decide!) c1Tz c1Tyz c1TR (by decide!) (by decide!) (by decide!) (by decide!)⟩

/-- C1 as stated fails: `-` and `+` are distinct operators, the precedence of
`-` is not greater than that of `+`, and `1 - 2 + 3` compiles to the code of
`(1 - 2) + 3`, not to that of `1 - (2 + 3)`. -/
theorem C1_equal_level_groups_left :
    emitted (compile L0 srcSubAdd 50) = emitted (compile L0 srcSubAddL 50) ∧
    emitted (compile L0 srcSubAdd 50) ≠ emitted (compile L0 srcSubAddR 50) ∧
    ¬ (prec Tok.Sub > prec Tok.Add) :=
  ⟨by decide!, by decide!, by decide⟩

end C4
namespace C4

/-! ## C2: associativity -/

/-- C2: associativity.  With the notation of C1: (1) for two binary operators
`a`, `b` of the same precedence level other than `=` (equal or not), `x a y b z`
is compiled as `(x a y) b z`; (2) `x = y = z` is compiled as `x = (y = z)`;
(3) `c1 ? u : c2 ? v : w` is compiled as `c1 ? u : (c2 ? v : w)`: the last
operand of the first `?` is the whole conditional `c2 ? v : w`. -/
theorem C2_associativity :
    (∀ (n : Nat) (s0 s1 sy s2 sz r : CState), isBinOp s1.tk = true → isBinOp sy.tk = true →
      prec s1.tk = prec sy.tk → s1.tk ≠ Tok.Assign →
      expr n Tok.Inc s0 = .ok s1 → expr n Tok.Inc (rhsAt s1) = .ok sy →
      exprStep (fun _ _ => .ok sy) s1 = .ok s2 →
      expr n Tok.Inc (rhsAt s2) = .ok sz → sz.tk < Tok.Assign →
      exprStep (fun _ _ => .ok sz) s2 = .ok r → ExprTo Tok.Assign s0 (.ok r)) ∧
    (∀ (n : Nat) (s0 s1 sy sz syz r : CState), s1.tk = Tok.Assign → sy.tk = Tok.Assign →
      expr n Tok.Inc s0 = .ok s1 → expr n Tok.Inc (rhsAt s1) = .ok sy →
      expr n Tok.Inc (rhsAt sy) = .ok sz → sz.tk < Tok.Assign →
      exprStep (fun _ _ => .ok sz) sy = .ok syz →
      exprStep (fun _ _ => .ok syz) s1 = .ok r → ExprTo Tok.Assign s0 (.ok r)) ∧
    (∀ (n : Nat) (s0 s1 su sc sv sw sin r : CState), expr n Tok.Lor s0 = .ok s1 →
      s1.tk = Tok.Cond → ExprTo Tok.Assign (midAt s1) (.ok su) → su.tk = ch ':' →
      expr n Tok.Lor (elseAt s1 su) = .ok sc → sc.tk = Tok.Cond →
      ExprTo Tok.Assign (midAt sc) (.ok sv) → sv.tk = ch ':' →
      ExprTo Tok.Cond (elseAt sc sv) (.ok sw) → sw.tk < Tok.Assign →
      exprStep (condEx sv sw) sc = .ok sin → exprStep (condEx su sin) s1 = .ok r →
      ExprTo Tok.Assign s0 (.ok r)) := by
  refine ⟨fun n s0 s1 sy s2 sz r ha hb hp hA hx hy h2 hz hzt h3 => ?_,
    fun n s0 s1 sy sz syz r ha hb hx hy hz hzt h2 h3 => ?_,
    fun n s0 s1 su sc sv sw sin r hc1 h1 hu huc hc2 h2 hv hvc hw hwt hin hout => ?_⟩
  · exact group_left ha hb (same_level_lt ha hb hp hA) hx hy h2 hz hzt h3
  · exact group_right (by rw [ha]; decide) (by rw [hb]; decide) (by rw [ha, hb]; decide)
      hx hy hz hzt h2 h3
  · exact ExprTo.of_higher (show Tok.Assign ≤ Tok.Lor by decide)
      (ExprTo.of_expr_eq hc1 (ok_ne_fuel _))
      (cond_right h1 hu huc hc2 h2 hv hvc hw hwt hin hout)

/-- C2 at `1 - 2 + 3;`, at `x = y = 3;` for two global variables, and at
`1 ? 2 : 0 ? 3 : 4;`. -/
theorem C2_associativity_witness :
    ExprTo Tok.Assign c1S0 (.ok c1R) ∧
    c2AR.e = [Op.IMM, L0.data, Op.PSH, Op.IMM, L0.data + 8, Op.PSH, Op.IMM, 3, Op.SI, Op.SI] ∧
    ExprTo Tok.Assign c2A0 (.ok c2AR) ∧
    c2CR.e = [Op.IMM, 1, Op.BZ, 8 * 9, Op.IMM, 2, Op.JMP, 8 * 19,
      Op.IMM, 0, Op.BZ, 8 * 17, Op.IMM, 3, Op.JMP, 8 * 19, Op.IMM, 4] ∧
    ExprTo Tok.Assign c2C0 (.ok c2CR) :=
  ⟨C2_associativity.1 5 c1S0 c1S1 c1Sy c1S2 c1Sz c1R (by decide!) (by decide!) (by decide!)
      (by decide!) (by decide!) (by decide!) (by decide!) (by decide!) (by decide!) (by decide!),
    by decide!,
    C2_associativity.2.1 5 c2A0 c2A1 c2Ay c2Az c2Ayz c2AR (by decide!) (by decide!) (by decide!)
      (by decide!) (by decide!) (by decide!) (by decide!) (by decide!),
    by decide!,
    C2_associativity.2.2 5 c2C0 c2C1 c2Cu c2Cc c2Cv c2Cw c2Cin c2CR (by decide!) (by decide!)
      (ExprTo.of_expr_eq (n := 5) (by decide!) (ok_ne_fuel _)) (by decide!) (by decide!) (by decide!)
      (ExprTo.of_expr_eq (n := 5) (by decide!) (ok_ne_fuel _)) (by decide!)
      (ExprTo.of_expr_eq (n := 5) (by decide!) (ok_ne_fuel _)) (by decide!) (by decide!) (by decide!)⟩

end C4
namespace C4

/-! ## C3: the lvalue check -/

/-- C3: the lvalue check of `=`, `&`, `++` and `--` reads the word `*e` last
stored in the text area, not the last instruction.  The operand `10` compiles
to `IMM 10`, whose last word is the operand 10, the value of `LC`; the
operand `9` ends in 9, the value of `LI`.  So `10 = 5` and `9 = 5` are
accepted (the operand of `IMM` is overwritten by `PSH` and `SI` is emitted),
and so are `&10` (the operand of `IMM` is dropped), `++10` and `10++`, while
`8 = 5` is rejected with the diagnostic and exit code -1. -/
theorem C3_lvalue_check_reads_last_word :
    emitted (compile L0 srcAssign10 50)
      = .ok [Op.ENT, 0, Op.IMM, Op.PSH, Op.IMM, 5, Op.SI, Op.IMM, 0, Op.LEV, Op.LEV] ∧
    emitted (compile L0 srcAssign9 50)
      = .ok [Op.ENT, 0, Op.IMM, Op.PSH, Op.IMM, 5, Op.SI, Op.IMM, 0, Op.LEV, Op.LEV] ∧
    emitted (compile L0 srcAssign8 50) = .exit (-1) 1 "bad lvalue in assignment" ∧
    emitted (compile L0 srcAddr10 50) = .ok [Op.ENT, 0, Op.IMM, Op.LEV, Op.LEV] ∧
    emitted (compile L0 srcPreInc10 50)
      = .ok [Op.ENT, 0, Op.IMM, Op.PSH, Op.LC, Op.PSH, Op.IMM, 1, Op.ADD, Op.SI, Op.IMM, 0,
             Op.LEV, Op.LEV] ∧
    emitted (compile L0 srcPostInc10 50)
      = .ok [Op.ENT, 0, Op.IMM, Op.PSH, Op.LC, Op.PSH, Op.IMM, 1, Op.ADD, Op.SI, Op.PSH, Op.IMM, 1,
             Op.SUB, Op.IMM, 0, Op.LEV, Op.LEV] :=
  ⟨by decide!, by decide!, by decide!, by decide!, by decide!, by decide!⟩

end C4
namespace C4

/-! ## C4: shadow restoration -/

/-- C4: shadow restoration.  Let a function definition compile (`funcDef` returns
a state).  (1) Take the symbol table as it is when the name of the function has
been given the class `Fun` and its address, before the parameter list is read.
Every record of that table has, after the restore loop at the end of the body, the
`Class`, `Type` and `Val` it had then, whether or not a parameter or a local took
its name in between.  (2) When the function has a parameter, the same holds of
the table as it is at the identifier of the first parameter, immediately before
that parameter is registered.  In both the table is one the compiler can be in:
its records are in use (`Tk` is not 0) and none is of class `Loc`. -/
theorem C4_shadow_restoration (n : Nat) (s : CState) (bt : Int) (r : CState × Int)
    (h : funcDef (n + 1) s bt = .ok r) :
    ((∀ d ∈ (funcHead s).sym, d.Tk ≠ 0) → (∀ d ∈ (funcHead s).sym, d.Class ≠ Tok.Loc) →
      ∀ j, j < (funcHead s).sym.length →
        (symAt r.1.sym j).Class = (symAt (funcHead s).sym j).Class ∧
        (symAt r.1.sym j).Typ = (symAt (funcHead s).sym j).Typ ∧
        (symAt r.1.sym j).Val = (symAt (funcHead s).sym j).Val) ∧
    (∀ q : CState × Int, (next (funcHead s)).tk ≠ ch ')' →
      stars n (ptype (next (funcHead s))).1 (ptype (next (funcHead s))).2 = .ok q →
      (∀ d ∈ q.1.sym, d.Tk ≠ 0) → (∀ d ∈ q.1.sym, d.Class ≠ Tok.Loc) →
      ∀ j, j < q.1.sym.length →
        (symAt r.1.sym j).Class = (symAt q.1.sym j).Class ∧
        (symAt r.1.sym j).Typ = (symAt q.1.sym j).Typ ∧
        (symAt r.1.sym j).Val = (symAt q.1.sym j).Val) := by
  obtain ⟨p, t, hp, ht, hk⟩ := funcDef_split h
  rw [ht]
  constructor
  · intro hT hC j hj
    exact holds_restore
      (hk _ (holds_stable _) (holds_next ((paramLoop_keep (holds_stable _) _ _ 0
        (holds_next (holds_id _ hT hC))).holds p hp))) j hj
  · intro q htk hq hT hC j hj
    obtain ⟨hc, hp1⟩ := paramLoop_first htk hq hp
    have h1 : Holds q.1.sym (comma (next (q.1.setCur (shadow q.2 0)))).sym := by
      unfold comma
      split
      · exact holds_next (holds_next (holds_shadow _ _ (holds_id _ hT hC) hc))
      · exact holds_next (holds_shadow _ _ (holds_id _ hT hC) hc)
    exact holds_restore (hk _ (holds_stable _)
      (holds_next ((paramLoop_keep (holds_stable _) _ _ _ h1).holds p hp1))) j hj

/-- C4 at `f(int printf, char *exit){ int f; char main; ... }`: the parameters and
locals take the names of two library functions, of the function itself and of
`main`, and the definition compiles. -/
theorem C4_shadow_restoration_witness :
    funcDef 50 shadowS INT = .ok shadowR ∧
    ((∀ d ∈ (funcHead shadowS).sym, d.Tk ≠ 0) ∧ (∀ d ∈ (funcHead shadowS).sym, d.Class ≠ Tok.Loc) ∧
      ∀ j, j < (funcHead shadowS).sym.length →
        (symAt shadowR.1.sym j).Class = (symAt (funcHead shadowS).sym j).Class ∧
        (symAt shadowR.1.sym j).Typ = (symAt (funcHead shadowS).sym j).Typ ∧
        (symAt shadowR.1.sym j).Val = (symAt (funcHead shadowS).sym j).Val) ∧
    ((next (funcHead shadowS)).tk ≠ ch ')' ∧
      stars 49 (ptype (next (funcHead shadowS))).1 (ptype (next (funcHead shadowS))).2 = .ok shadowQ ∧
      (∀ d ∈ shadowQ.1.sym, d.Tk ≠ 0) ∧ (∀ d ∈ shadowQ.1.sym, d.Class ≠ Tok.Loc) ∧
      ∀ j, j < shadowQ.1.sym.length →
        (symAt shadowR.1.sym j).Class = (symAt shadowQ.1.sym j).Class ∧
        (symAt shadowR.1.sym j).Typ = (symAt shadowQ.1.sym j).Typ ∧
        (symAt shadowR.1.sym j).Val = (symAt shadowQ.1.sym j).Val) := by
  have h : funcDef 50 shadowS INT = .ok shadowR := by decide!
  have hT : ∀ d ∈ (funcHead shadowS).sym, d.Tk ≠ 0 := by decide!
  have hC : ∀ d ∈ (funcHead shadowS).sym, d.Class ≠ Tok.Loc := by decide!
  have htk : (next (funcHead shadowS)).tk ≠ ch ')' := by decide!
  have hq : stars 49 (ptype (next (funcHead shadowS))).1 (ptype (next (funcHead shadowS))).2 =
      .ok shadowQ := by decide!
  have hTq : ∀ d ∈ shadowQ.1.sym, d.Tk ≠ 0 := by decide!
  have hCq : ∀ d ∈ shadowQ.1.sym, d.Class ≠ Tok.Loc := by decide!
  exact ⟨h, ⟨hT, hC, (C4_shadow_restoration 49 shadowS INT shadowR h).1 hT hC⟩,
    ⟨htk, hq, hTq, hCq, (C4_shadow_restoration 49 shadowS INT shadowR h).2 shadowQ htk hq hTq hCq⟩⟩

end C4

namespace C4

/-! ## C6: pointer addition -/

/-- C6: pointer addition scaling.  Let the compiler be at the `+` of `p + n`
with the code of `p` emitted and `ty` the type of `p`, and let the right
operand compile to the words `cn`.  (1) The turn of the loop of `expr` emits
`PSH; cn`, then `PSH; IMM 8; MUL; ADD` when `ty > PTR` (pointer to non-char) and
`ADD` alone otherwise (`char *`, `INT`, `CHAR`), and leaves `ty` the type of `p`.
(2) On the machine, when the code of `p` leaves `a = xp`, the code of `n` run
after the `PSH` leaves `a = xn` with the pushed word on top of the stack, and
those last words follow, the run ends with `a = xp + xn * 8` when `ty > PTR`
and `a = xp + xn` otherwise, as signed 64-bit words. -/
theorem C6_pointer_add_scaling (n : Nat) (S s1 : CState) (cn : List Int) (v0 v1 v3 : VM)
    (k0 k : Nat) (xp xn : Int)
    (hk : S.tk = Tok.Add) (hn : expr n Tok.Mul (emit Op.PSH (next S)) = .ok s1)
    (hne : s1.e = S.e ++ Op.PSH :: cn)
    (r0 : cycles k0 v0 = some v1) (ha : v1.a = xp) (hpsh : loadInt v1.mem v1.pc = Op.PSH)
    (r1 : cycles k (pushed v1) = some v3) (hb : v3.a = xn) (hx : loadInt v3.mem v3.sp = loadInt (pushed v1).mem (pushed v1).sp)
    (hp1 : -two63 ≤ v3.pc) (hp2 : v3.pc + 40 < two63) (hs1 : -two63 + 8 ≤ v3.sp)
    (hs2 : v3.sp + 8 < two63) (hd : v3.pc + 40 ≤ v3.sp - 8 ∨ v3.sp ≤ v3.pc) :
    exprStep (expr n) S = .ok { s1 with
      e := S.e ++ Op.PSH :: (cn ++ if S.ty > PTR then [Op.PSH, Op.IMM, sizeofInt, Op.MUL, Op.ADD] else [Op.ADD]),
      ty := S.ty } ∧
    (CodeAt v3.mem v3.pc (if S.ty > PTR then [Op.PSH, Op.IMM, sizeofInt, Op.MUL, Op.ADD] else [Op.ADD]) →
      ∃ j v4, cycles j v0 = some v4 ∧ v4.a = wrap (xp + xn * (if S.ty > PTR then 8 else 1)) ∧
        v4.sp = v3.sp + 8 ∧ v4.bp = v3.bp) := by
  refine ⟨opAdd_code n S s1 cn hk hn hne, fun hc => ?_⟩
  replace hx : loadInt v3.mem v3.sp = wrap xp := by
    rw [hx, ← ha]; exact loadInt_storeInt_same _ _ _
  have r01 : cycles (k0 + (1 + k)) v0 = some v3 := cycles_add r0 (cycles_add (cycles_one (step_pushed hpsh)) r1)
  by_cases h : S.ty > PTR
  · rw [if_pos h] at hc
    obtain ⟨v4, h4, a4, s4, -, b4⟩ := exec_scaled_add hx hc hp1 hp2 hs1 hs2 hd
    exact ⟨_, v4, cycles_add r01 h4, by rw [a4, hb, if_pos h], s4, b4⟩
  · rw [if_neg h] at hc
    simp only [two63] at hp1 hp2 hs1 hs2
    obtain ⟨v4, h4, a4, s4, -, b4⟩ := exec_plain_add hx hc (by simp only [two63]; omega)
      (by simp only [two63]; omega) (by simp only [two63]; omega) (by simp only [two63]; omega)
    exact ⟨_, v4, cycles_add r01 h4, by rw [a4, hb, if_neg h, mul_one], s4, b4⟩

/-- C6 at `p + 3` for a local `p` of type `int *` holding 1000: the code is
`LEA -1; LI; PSH; IMM 3; PSH; IMM 8; MUL; ADD` and its run leaves `a = 1024`. -/
theorem C6_pointer_add_scaling_witness :
    exprStep (expr 5) addS = .ok { addS1 with
      e := [Op.LEA, -1, Op.LI, Op.PSH, Op.IMM, 3, Op.PSH, Op.IMM, sizeofInt, Op.MUL, Op.ADD],
      ty := INT + PTR } ∧
    ∃ j v4, cycles j addV0 = some v4 ∧ v4.a = 1024 ∧ v4.sp = 4088 ∧ v4.bp = 4096 :=
  ⟨(C6_pointer_add_scaling 5 addS addS1 [Op.IMM, 3] addV0 addV1 addV3 2 1 1000 3 (by decide!)
      (by decide!) (by decide!) (cycles_getD (by decide!)) (by decide!) (by decide!)
      (cycles_getD (by decide!)) (by decide!) (by decide!) (by decide!) (by decide!) (by decide!)
      (by decide!) (by decide!)).1,
    (C6_pointer_add_scaling 5 addS addS1 [Op.IMM, 3] addV0 addV1 addV3 2 1 1000 3 (by decide!)
      (by decide!) (by decide!) (cycles_getD (by decide!)) (by decide!) (by decide!)
      (cycles_getD (by decide!)) (by decide!) (by decide!) (by decide!) (by decide!) (by decide!)
      (by decide!) (by decide!)).2 (by decide!)⟩

end C4
namespace C4

/-! ## C7: pointer difference -/

/-- C7: pointer difference.  Let the compiler be at the `-` of `p - q` with the
code of `p` emitted and `ty > PTR` the type of `p` (pointer to non-char), and
let the right operand compile to the words `cq` with the same type.  (1) The
turn of the loop of `expr` emits `PSH; cq; SUB; PSH; IMM 8; DIV` and sets `ty`
to `INT`.  (2) On the machine, when the code of `p` leaves `a = xp`, the code
of `q` run after the `PSH` leaves `a = xq` with the pushed word on top of the
stack, and those last words follow, the run ends with `a` the truncated
quotient by 8 of the 64-bit difference `xp - xq`, which is `(xp - xq) / 8`
when the difference does not overflow. -/
theorem C7_pointer_difference (n : Nat) (S s1 : CState) (cq : List Int) (v0 v1 v3 : VM)
    (k0 k : Nat) (xp xq : Int)
    (hk : S.tk = Tok.Sub) (hn : expr n Tok.Mul (emit Op.PSH (next S)) = .ok s1)
    (hne : s1.e = S.e ++ Op.PSH :: cq) (ht : S.ty > PTR) (hty : S.ty = s1.ty)
    (r0 : cycles k0 v0 = some v1) (ha : v1.a = xp) (hpsh : loadInt v1.mem v1.pc = Op.PSH)
    (r1 : cycles k (pushed v1) = some v3) (hb : v3.a = xq)
    (hx : loadInt v3.mem v3.sp = loadInt (pushed v1).mem (pushed v1).sp)
    (hp1 : -two63 ≤ v3.pc) (hp2 : v3.pc + 40 < two63) (hs1 : -two63 ≤ v3.sp)
    (hs2 : v3.sp + 8 < two63) (hd : v3.pc + 40 ≤ v3.sp ∨ v3.sp + 8 ≤ v3.pc) :
    exprStep (expr n) S = .ok { s1 with
      e := S.e ++ Op.PSH :: (cq ++ [Op.SUB, Op.PSH, Op.IMM, sizeofInt, Op.DIV]), ty := INT } ∧
    (CodeAt v3.mem v3.pc [Op.SUB, Op.PSH, Op.IMM, sizeofInt, Op.DIV] →
      ∃ j v4, cycles j v0 = some v4 ∧ v4.a = Int.tdiv (wrap (xp - xq)) 8 ∧
        (InRange (xp - xq) → v4.a = Int.tdiv (xp - xq) 8) ∧ v4.sp = v3.sp + 8 ∧ v4.bp = v3.bp) := by
  refine ⟨opSub_code n S s1 cq hk hn hne ht hty, fun hc => ?_⟩
  replace hx : loadInt v3.mem v3.sp = wrap xp := by
    rw [hx, ← ha]; exact loadInt_storeInt_same _ _ _
  have r01 : cycles (k0 + (1 + k)) v0 = some v3 := cycles_add r0 (cycles_add (cycles_one (step_pushed hpsh)) r1)
  obtain ⟨v4, h4, a4, s4, -, b4⟩ := exec_ptr_diff hx hc hp1 hp2 hs1 hs2 hd
  refine ⟨_, v4, cycles_add r01 h4, by rw [a4, hb], fun hr => ?_, s4, b4⟩
  rw [a4, hb, wrap_eq hr]

/-- C7 at `p - (int*)8` for a local `p` of type `int *` holding 1000: the code
is `LEA -1; LI; PSH; IMM 8; SUB; PSH; IMM 8; DIV` and its run leaves `a = 124`. -/
theorem C7_pointer_difference_witness :
    exprStep (expr 5) subS = .ok { subS1 with
      e := [Op.LEA, -1, Op.LI, Op.PSH, Op.IMM, 8, Op.SUB, Op.PSH, Op.IMM, sizeofInt, Op.DIV],
      ty := INT } ∧
    ∃ j v4, cycles j subV0 = some v4 ∧ v4.a = 124 ∧ (InRange (1000 - 8) → v4.a = 124) ∧
      v4.sp = 4088 ∧ v4.bp = 4096 :=
  ⟨(C7_pointer_difference 5 subS subS1 [Op.IMM, 8] subV0 subV1 subV3 2 1 1000 8 (by decide!)
      (by decide!) (by decide!) (by decide!) (by decide!) (cycles_getD (by decide!)) (by decide!)
      (by decide!) (cycles_getD (by decide!)) (by decide!) (by decide!) (by decide!) (by decide!)
      (by decide!) (by decide!) (by decide!)).1,
    (C7_pointer_difference 5 subS subS1 [Op.IMM, 8] subV0 subV1 subV3 2 1 1000 8 (by decide!)
      (by decide!) (by decide!) (by decide!) (by decide!) (cycles_getD (by decide!)) (by decide!)
      (by decide!) (cycles_getD (by decide!)) (by decide!) (by decide!) (by decide!) (by decide!)
      (by decide!) (by decide!) (by decide!)).2 (by decide!)⟩

end C4
namespace C4

/-! ## C8: the return value of `main` -/

/-- C8: the return value of `main` is the exit status.  With the stack built
by the driver below `top = stack + poolsz` (`EXIT`, `PSH`, `argc`, `argv`, the
address of the `PSH` word): (1) the `ENT` of `main` sets `bp = top - 48`, saves
the old `bp` there, and leaves the return slot `top - 40` holding the
address `top - 16` of the `PSH` word, above it the words `PSH` and `EXIT`;
(2) from any machine state with that `bp` whose instruction is `LEV`, with
the return slot and the words `PSH` and `EXIT` still in place and `a = v`, the
interpreter executes `LEV`, the `PSH` word and the `EXIT` word and returns
`v` (the saved `bp` is not needed for that); (3) `int main(){ return 0; }`
exits 0. -/
theorem C8_main_return_is_exit_status (L : Layout) (st : CState) (pc argc argv : Int) (m0 : Mem)
    (h1 : -two63 + 48 ≤ L.stack + poolsz) (h2 : L.stack + poolsz < two63) :
    (loadInt (boot L st pc argc argv m0).mem pc = Op.ENT →
      ∃ v1, step (boot L st pc argc argv m0) = .cont v1 ∧ v1.bp = L.stack + poolsz - 48 ∧
        loadInt v1.mem (L.stack + poolsz - 48) = L.stack + poolsz ∧
        loadInt v1.mem (L.stack + poolsz - 40) = L.stack + poolsz - 16 ∧
        loadInt v1.mem (L.stack + poolsz - 16) = Op.PSH ∧
        loadInt v1.mem (L.stack + poolsz - 8) = Op.EXIT) ∧
    (∀ s : VM, s.bp = L.stack + poolsz - 48 → loadInt s.mem s.pc = Op.LEV →
      loadInt s.mem (L.stack + poolsz - 40) = L.stack + poolsz - 16 →
      loadInt s.mem (L.stack + poolsz - 16) = Op.PSH →
      loadInt s.mem (L.stack + poolsz - 8) = Op.EXIT → InRange s.a →
      ∀ n, run (n + 3) s = .halt s.a) ∧
    main L0 srcS1 1 0 (fun _ => 0) 50 100 = .halt 0 := by
  obtain ⟨bE, bP, -, -, bL⟩ := boot_stack L st pc argc argv m0 h1 h2
  refine ⟨fun hent => ?_, fun s hbp hlev hret hpsh hexit ha n => ?_, by decide!⟩
  · have hpc : (boot L st pc argc argv m0).pc = pc := rfl
    rw [← hpc] at hent
    refine ⟨_, step_ENT hent, ?_, ?_, ?_, ?_, ?_⟩
    · simp only [boot_sp]
      rw [show L.stack + poolsz - 40 - 8 = L.stack + poolsz - 48 by ring]
      exact wrap_eq (by simp only [InRange, two63] at *; omega)
    · simp only [boot_sp, boot_bp]
      rw [show L.stack + poolsz - 40 - 8 = L.stack + poolsz - 48 by ring,
        wrap_eq (show InRange (L.stack + poolsz - 48) by simp only [InRange, two63] at *; omega),
        loadInt_storeInt_same]
      exact wrap_eq (by simp only [InRange, two63] at *; omega)
    · simp only [boot_sp]
      rw [show L.stack + poolsz - 40 - 8 = L.stack + poolsz - 48 by ring,
        wrap_eq (show InRange (L.stack + poolsz - 48) by simp only [InRange, two63] at *; omega),
        loadInt_storeInt_disj _ _ _ _ (by omega)]
      exact bL
    · simp only [boot_sp]
      rw [show L.stack + poolsz - 40 - 8 = L.stack + poolsz - 48 by ring,
        wrap_eq (show InRange (L.stack + poolsz - 48) by simp only [InRange, two63] at *; omega),
        loadInt_storeInt_disj _ _ _ _ (by omega)]
      exact bP
    · simp only [boot_sp]
      rw [show L.stack + poolsz - 40 - 8 = L.stack + poolsz - 48 by ring,
        wrap_eq (show InRange (L.stack + poolsz - 48) by simp only [InRange, two63] at *; omega),
        loadInt_storeInt_disj _ _ _ _ (by omega)]
      exact bE
  · have w1 : wrap (s.bp + 8) = L.stack + poolsz - 40 := by
      rw [hbp, show L.stack + poolsz - 48 + 8 = L.stack + poolsz - 40 by ring]
      exact wrap_eq (by simp only [InRange, two63] at *; omega)
    have w2 : wrap (L.stack + poolsz - 40 + 8) = L.stack + poolsz - 32 := by
      rw [show L.stack + poolsz - 40 + 8 = L.stack + poolsz - 32 by ring]
      exact wrap_eq (by simp only [InRange, two63] at *; omega)
    have w3 : wrap (L.stack + poolsz - 16 + 8) = L.stack + poolsz - 8 := by
      rw [show L.stack + poolsz - 16 + 8 = L.stack + poolsz - 8 by ring]
      exact wrap_eq (by simp only [InRange, two63] at *; omega)
    have w4 : wrap (L.stack + poolsz - 32 - 8) = L.stack + poolsz - 40 := by
      rw [show L.stack + poolsz - 32 - 8 = L.stack + poolsz - 40 by ring]
      exact wrap_eq (by simp only [InRange, two63] at *; omega)
    rw [show n + 3 = (n + 2) + 1 from rfl, run_succ, step_LEV hlev]
    simp only [w1, w2, hret]
    rw [show n + 2 = (n + 1) + 1 from rfl, run_succ, step_PSH (by simp only; exact hpsh)]
    simp only [w3, w4]
    rw [run_succ, step_EXIT (by simp only; rw [loadInt_storeInt_disj _ _ _ _ (by omega)]; exact hexit)]
    simp only [loadInt_storeInt_same]
    rw [wrap_eq ha]

/-- C8 at scenario S1: the driver's stack at the addresses `L0`, the machine
after the `ENT` of `main`, and the run from the `LEV` of `main`. -/
theorem C8_main_return_is_exit_status_witness :
    (-two63 + 48 ≤ L0.stack + poolsz) ∧ (L0.stack + poolsz < two63) ∧
    (∃ v1, step bootS1 = .cont v1 ∧ v1.bp = L0.stack + poolsz - 48 ∧
        loadInt v1.mem (L0.stack + poolsz - 48) = L0.stack + poolsz ∧
        loadInt v1.mem (L0.stack + poolsz - 40) = L0.stack + poolsz - 16 ∧
        loadInt v1.mem (L0.stack + poolsz - 16) = Op.PSH ∧
        loadInt v1.mem (L0.stack + poolsz - 8) = Op.EXIT) ∧
    run 3 retS1 = .halt 0 :=
  ⟨by decide, by decide,
    (C8_main_return_is_exit_status L0 _ (L0.text + 8) 1 0 (fun _ => 0) (by decide) (by decide)).1
      (by decide!),
    (C8_main_return_is_exit_status L0 { e := [Op.ENT, 0, Op.IMM, 0, Op.LEV, Op.LEV] } (L0.text + 8) 1 0
      (fun _ => 0) (by decide) (by decide)).2.1 retS1 (by decide!) (by decide!) (by decide!) (by decide!)
      (by decide!) (by decide) 0⟩

end C4
namespace C4

/-! ## C9: integer arithmetic -/

/-- C9: compiler correctness on integer arithmetic.  Let `E` be an expression
built from decimal literals, parentheses, `+`, `-` and `*` (blanks allowed
after every token) whose tree is the reading of its text under C precedence
and left associativity.  (1) From any compiler state placed at the text of `E`
followed by a token below the assignment level, `expr(Assign)` returns, once
enough fuel is given, with exactly the words `E.code` appended to the text
area.  (2) Run on the machine from any state where these words are stored
clear of the stack words they use, the code ends at the word after it with
`a` the value of `E` as a signed 64-bit word, with `sp` and `bp` as they were.
(3) `int main(){ return 2*3 + 4; }` exits 10. -/
theorem C9_arith_correct (E : AExp) (hwf : E.wf = true) :
    (∀ (s0 : CState) (tail rest : List Nat) (t : Int), s0.p = E.render ++ tail →
      Follows tail t rest → t < Tok.Assign →
      ExprTo Tok.Assign (next s0) (.ok (post s0 rest t E.lastIval (s0.e ++ E.code)))) ∧
    Computes E.code E.depth (wrap E.value) ∧
    main L0 srcS2 1 0 (fun _ => 0) 50 100 = .halt 10 := by
  refine ⟨fun s0 tail rest t hp hf ht => ?_, exec_aexp E, by decide!⟩
  exact parse_aexp E hwf s0 tail rest t Tok.Assign _ hp hf
    (fun _ => ⟨by decide, lt_trans ht (by decide)⟩) (fun _ => ⟨by decide, lt_trans ht (by decide)⟩)
    (LoopTo.done (by rw [post_tk]; exact ht))

/-- C9 at the expression of scenario S2: its text is the one in the source
of S2, its value is 10, and `expr(Assign)` on the text `2*3 + 4; }` returns
at the semicolon with the code of the expression. -/
theorem C9_arith_correct_witness :
    exprS2.wf = true ∧ exprS2.value = 10 ∧
    srcS2 = bytes "int main()\x7b return " ++ (exprS2.render ++ bytes "; \x7d") ∧
    ExprTo Tok.Assign (next { p := exprS2.render ++ bytes "; \x7d" })
      (.ok (post { p := exprS2.render ++ bytes "; \x7d" } (bytes " \x7d") 59 exprS2.lastIval exprS2.code)) ∧
    Computes exprS2.code exprS2.depth (wrap exprS2.value) ∧
    main L0 srcS2 1 0 (fun _ => 0) 50 100 = .halt 10 :=
  ⟨by decide, by decide, by decide!,
    (C9_arith_correct exprS2 (by decide)).1 _ _ _ _ rfl (follows_semi _) (by decide),
    (C9_arith_correct exprS2 (by decide)).2⟩

end C4
namespace C4

/-! ## C10: the `while` statement and scenario S3 -/

/-- C10: scenario S3 and the code of `while`.  (1) When the condition
`(E)` of a `while` statement compiles to the words `cE` and its body `S` to the
words `cS` (after the `BZ` and its operand), `stmt` returns with the words
`cE; BZ h; cS; JMP a` appended, where `a` is the address of the first word of
`cE` and `h` the address of the word after the operand of `JMP`.  (2) The
program of S3 compiles to a prologue, the `while` statement in that shape, and
`return s`.  (3) Compiled and run, S3 exits 10. -/
theorem C10_while_and_S3 (n : Nat) (s s4 s5 : CState) (cE cS : List Int) (hk : s.tk = Tok.While)
    (hE : parenExpr (expr n) (next s) = .ok s4) (hEe : s4.e = s.e ++ cE)
    (hS : stmt n (hole (emit Op.BZ s4)).1 = .ok s5) (hSe : s5.e = s4.e ++ [Op.BZ, 0] ++ cS)
    (hb : s5.ebase = s.ebase) :
    stmt (n + 1) s = .ok { s5 with e := s.e ++ cE ++
      [Op.BZ, s.ebase + 8 * ((s.e.length + cE.length + 2 + cS.length + 2 + 1 : Nat) : Int)] ++ cS ++
      [Op.JMP, s.ebase + 8 * ((s.e.length + 1 : Nat) : Int)] } ∧
    emitted (compile L0 srcS3 50) = .ok ([Op.ENT, 2, Op.LEA, -2, Op.PSH, Op.IMM, 0, Op.SI,
        Op.LEA, -1, Op.PSH, Op.IMM, 1, Op.SI] ++
      ([Op.LEA, -1, Op.LI, Op.PSH, Op.IMM, 4, Op.LE] ++ [Op.BZ, L0.text + 8 * 49] ++
        [Op.LEA, -2, Op.PSH, Op.LEA, -2, Op.LI, Op.PSH, Op.LEA, -1, Op.LI, Op.ADD, Op.SI,
         Op.LEA, -1, Op.PSH, Op.LEA, -1, Op.LI, Op.PSH, Op.IMM, 1, Op.ADD, Op.SI] ++
        [Op.JMP, L0.text + 8 * 15]) ++
      [Op.LEA, -2, Op.LI, Op.LEV, Op.LEV]) ∧
    main L0 srcS3 1 0 (fun _ => 0) 50 200 = .halt 10 := by
  refine ⟨?_, by decide!, by decide!⟩
  rw [stmt_While n hk, stWhile, hE, bind_ok, hS, bind_ok]
  have hn : (next s).e = s.e := rfl
  have hnb : (next s).ebase = s.ebase := rfl
  simp only [patch, hole, emit, addrE, hSe, hEe, hn, hnb, hb, List.length_append, List.length_cons,
    List.length_nil]
  congr 2
  have := set_hole (s.e ++ cE) (cS ++ [Op.JMP, s.ebase + 8 * ((s.e.length + 1 : Nat) : Int)]) Op.BZ 0
    (s.ebase + 8 * ((s.e.length + cE.length + 2 + cS.length + 2 + 1 : Nat) : Int))
  simp only [List.length_append, List.append_assoc, List.cons_append, List.nil_append] at this ⊢
  rw [this]

/-- C10 at the statement `while(1);`: the condition is `IMM 1`, the body is
empty. -/
theorem C10_while_and_S3_witness :
    whileS.tk = Tok.While ∧ whileS.e = [] ∧ whileS.ebase = L0.text ∧
    stmt 10 whileS = .ok { whileS5 with e := [Op.IMM, 1, Op.BZ, L0.text + 8 * 7, Op.JMP, L0.text + 8 * 1] } :=
  ⟨by decide!, by decide!, by decide!,
    (C10_while_and_S3 9 whileS whileS4 whileS5 [Op.IMM, 1] [] (by decide!) (by decide!) (by decide!)
      (by decide!) (by decide!) (by decide!)).1⟩

end C4
namespace C4

/-! ## C11: scenario S6 -/

/-- C11: scenario S6.  The program `enum { A=5, B, C }; int main(){ return B<C ?
A+B : 0; }` compiles to the code of `6 < 7 ? 5 + 6 : 0` (the enumerators are
the constants 5, 6 and 7) and, run with `argc = 1`, `argv = 0` and zero-filled
memory at the area addresses `L0`, exits 11. -/
theorem C11_scenario_S6 :
    emitted (compile L0 srcS6 50) = .ok [Op.ENT, 0, Op.IMM, 6, Op.PSH, Op.IMM, 7, Op.LT,
      Op.BZ, L0.text + 8 * 19, Op.IMM, 5, Op.PSH, Op.IMM, 6, Op.ADD, Op.JMP, L0.text + 8 * 21,
      Op.IMM, 0, Op.LEV, Op.LEV] ∧
    main L0 srcS6 1 0 (fun _ => 0) 50 100 = .halt 11 :=
  ⟨by decide!, by decide!⟩

end C4
namespace C4

/-! ## C12: the address of a parameter -/

/-- C12, as the code has it: parameter `i` (from 0, in the order of the parameter
list) of a function with `n` parameters is referred to by `LEA n + 1 - i`.  Let the
parameter loop of a function definition take `n` turns, registering the identifiers
`ds` in this order (`paramIds` is that loop with a record of its turns).  (0) The
record is no restriction: whenever the parameter loop returns, so does the loop
with the record, with the same state and counter.  (1) The loop ends with the
counter at `n`, and the definition goes on with `loc = n + 1`: it reads the local
declarations and compiles the body.  (2) When the local declarations have been
read, the compiler is in the body of a function with the parameters `ds`
(`InBody`): `loc` is `n + 1` and parameter `i` is of class `Loc` with value `i`.
(3) The lexer, an expression, a statement and a sequence of statements keep
this.  (4) There, the expression that begins with the identifier of parameter `i`,
not followed by `(`, is compiled to `LEA n + 1 - i` and the load of the type of
the parameter, after which the loop of the operators goes on.  (5) With one
parameter the reference is `LEA 2`; with three, the references to the first,
second and third are `LEA 4`, `LEA 3` and `LEA 2`. -/
theorem C12_parameter_address (k : Nat) (s p : CState) (bt c : Int) (ds : List Nat)
    (hp : paramIds k (next (funcHead s)) 0 = .ok (p, c, ds))
    (hn : (ds.length : Int) + 1 < two63) :
    (∀ (m : Nat) (t : CState) (i : Int) (r : CState × Int), paramLoop m t i = .ok r →
      ∃ ds1, paramIds m t i = .ok (r.1, r.2, ds1)) ∧
    (paramLoop k (next (funcHead s)) 0 = .ok (p, (ds.length : Int)) ∧
     funcDef k s bt =
       if (next p).tk ≠ 123 then fail (next p) "bad function definition"
       else localLoop k (next { next p with loc := (ds.length : Int) + 1 }) ((ds.length : Int) + 1) bt >>= fun l =>
         stmtBlock (stmt k) k (emit (wrap (l.2.1 - l.1.loc)) (emit Op.ENT l.1)) >>= fun s6 =>
           .ok ({ emit Op.LEV s6 with sym := restoreLocals s6.sym, id := symEnd s6.sym }, l.2.2)) ∧
    (∀ l, localLoop k (next { next p with loc := (ds.length : Int) + 1 }) ((ds.length : Int) + 1) bt = .ok l →
      InBody ds [] (emit (wrap (l.2.1 - l.1.loc)) (emit Op.ENT l.1)).sym
        (emit (wrap (l.2.1 - l.1.loc)) (emit Op.ENT l.1)).loc) ∧
    ((∀ t : CState, InBody ds [] t.sym t.loc → InBody ds [] (next t).sym (next t).loc) ∧
     (∀ (m : Nat) (lev : Int) (t r : CState), InBody ds [] t.sym t.loc → expr m lev t = .ok r →
       InBody ds [] r.sym r.loc) ∧
     (∀ (m : Nat) (t r : CState), InBody ds [] t.sym t.loc → stmt m t = .ok r →
       InBody ds [] r.sym r.loc) ∧
     (∀ (m : Nat) (t r : CState), InBody ds [] t.sym t.loc → stmtBlock (stmt m) m t = .ok r →
       InBody ds [] r.sym r.loc)) ∧
    (∀ (i : Nat) (hi : i < ds.length) (m : Nat) (lev : Int) (t : CState),
      InBody ds [] t.sym t.loc → t.tk = Tok.Id → t.id = ds[i] → (next t).tk ≠ ch '(' →
      expr (m + 1) lev t = exprLoop (expr m) m lev
        (emit (if (symAt t.sym ds[i]).Typ = CHAR then Op.LC else Op.LI)
          { emit ((ds.length : Int) + 1 - (i : Int)) (emit Op.LEA (next t)) with
              ty := (symAt t.sym ds[i]).Typ })) ∧
    (emitted (compile L0 srcF1 50) = .ok [Op.ENT, 0, Op.LEA, 2, Op.LI, Op.LEV, Op.LEV,
       Op.ENT, 0, Op.IMM, 0, Op.LEV, Op.LEV] ∧
     emitted (compile L0 srcF3 50) = .ok [Op.ENT, 0, Op.LEA, 4, Op.LI, Op.LEA, 3, Op.LI,
       Op.LEA, 2, Op.LI, Op.LEV, Op.LEV, Op.ENT, 0, Op.IMM, 0, Op.LEV, Op.LEV]) := by
  obtain ⟨hc, k1, _, k5⟩ := params_read hp hn
  have hQ := inBody_stable ds []
  have hX : InBody ds [] (next { next p with loc := (ds.length : Int) + 1 }).sym
      (next { next p with loc := (ds.length : Int) + 1 }).loc :=
    inBody_of_slots (by simpa using hn) k5 ⟨k5.1, fun _ hx => absurd hx (List.not_mem_nil _)⟩
  refine ⟨paramIds_of_loop, ⟨k1, ?_⟩, fun l hl => ?_, ⟨fun t h => stable_next hQ h,
    fun m lev t r h hr => (expr_keep hQ m lev t h).holds r hr,
    fun m t r h hr => (stmt_keep hQ m t h).holds r hr,
    fun m t r h hr => (stmtBlock_keep hQ (stmt_keep hQ m) m t h).holds r hr⟩,
    fun i hi m lev t h h1 hd h2 => ?_, by decide!, by decide!⟩
  · rw [funcDef_eq, k1, bind_ok]
    dsimp only
    rw [wrap_small (by simp only [two63] at *; omega) hn]
  · exact (localLoop_keep hQ k _ _ bt hX).holds l hl
  · have hi1 : (i : Int) < (ds.length : Int) := by exact_mod_cast hi
    exact expr_ref_at m lev t ds[i] _ _ h1 hd h2 (h.2.1 i hi).1 (h.2.1 i hi).2 h.1
      (by simp only [two63] at *; omega) (by simp only [two63] at *; omega)

/-- C12 at `f(int a, char *b){ int x, y; char z; x = a; ... }`: the parameter loop
registers `a` and `b`, and in `x = a`, when the compiler is at `a`, the reference to
`a`, parameter 0 of 2, is `LEA 2 + 1 - 0`. -/
theorem C12_parameter_address_witness :
    paramIds 50 (next (funcHead slotS)) 0 = .ok (slotP, 2, [20, 21]) ∧
    (([20, 21] : List Nat).length : Int) + 1 < two63 ∧
    paramLoop 50 (next (funcHead slotS)) 0 = .ok (slotP, (([20, 21] : List Nat).length : Int)) ∧
    expr (5 + 1) Tok.Assign (next (next slotL)) =
      exprLoop (expr 5) 5 Tok.Assign
        (emit (if (symAt (next (next slotL)).sym ([20, 21] : List Nat)[0]).Typ = CHAR then Op.LC else Op.LI)
          { emit ((([20, 21] : List Nat).length : Int) + 1 - ((0 : Nat) : Int)) (emit Op.LEA (next (next (next slotL)))) with ty := (symAt (next (next slotL)).sym ([20, 21] : List Nat)[0]).Typ }) := by
  have hp : paramIds 50 (next (funcHead slotS)) 0 = .ok (slotP, 2, [20, 21]) := by decide!
  have hn : (([20, 21] : List Nat).length : Int) + 1 < two63 := by decide
  have hl : localLoop 50 (next { next slotP with loc := (([20, 21] : List Nat).length : Int) + 1 })
      ((([20, 21] : List Nat).length : Int) + 1) INT = .ok (slotL, 6, 0) := by decide!
  have hB := (C12_parameter_address 50 slotS slotP INT 2 [20, 21] hp hn).2.2.1 (slotL, 6, 0) hl
  simp only [emit_sym, emit_loc] at hB
  exact ⟨hp, hn, (C12_parameter_address 50 slotS slotP INT 2 [20, 21] hp hn).2.1.1,
    (C12_parameter_address 50 slotS slotP INT 2 [20, 21] hp hn).2.2.2.2.1 0 (by decide) 5 Tok.Assign _
      ((C12_parameter_address 50 slotS slotP INT 2 [20, 21] hp hn).2.2.2.1.1 _
        ((C12_parameter_address 50 slotS slotP INT 2 [20, 21] hp hn).2.2.2.1.1 _ hB))
      (by decide!) (by decide!) (by decide!)⟩

/-- C12 as stated fails: in `int f(int a, int b){ return a; }` the reference
to the parameter of index 0 is compiled to `LEA 3`, not to `LEA 2`. -/
theorem C12_first_of_two_is_LEA_3 :
    emitted (compile L0 srcF2 50) = .ok [Op.ENT, 0, Op.LEA, 3, Op.LI, Op.LEV, Op.LEV,
      Op.ENT, 0, Op.IMM, 0, Op.LEV, Op.LEV] ∧ (3 : Int) ≠ 0 + 2 :=
  ⟨by decide!, by decide⟩

end C4
namespace C4

/-! ## C13: the instruction stream -/

/-- C13 fails on `int main(){ return &10; }`, which the compiler accepts: the
words emitted are `ENT 0`, `IMM` and two `LEV`, the operand of `IMM` having been
removed by the address-of branch, so the sequential reading takes the first
`LEV`, emitted as an opcode, for the operand of `IMM`.  On `10 = 5` the operand
of `IMM` is overwritten by the opcode `PSH`. -/
theorem C13_operand_removed :
    emitted (compile L0 srcAddr10 50) = .ok [Op.ENT, 0, Op.IMM, Op.LEV, Op.LEV] ∧
    decode [Op.ENT, 0, Op.IMM, Op.LEV, Op.LEV]
      = [(Op.ENT, some 0), (Op.IMM, some Op.LEV), (Op.LEV, none)] ∧
    emitted (compile L0 srcAssign10 50)
      = .ok [Op.ENT, 0, Op.IMM, Op.PSH, Op.IMM, 5, Op.SI, Op.IMM, 0, Op.LEV, Op.LEV] ∧
    decode [Op.ENT, 0, Op.IMM, Op.PSH, Op.IMM, 5, Op.SI, Op.IMM, 0, Op.LEV, Op.LEV]
      = [(Op.ENT, some 0), (Op.IMM, some Op.PSH), (Op.IMM, some 5), (Op.SI, none),
         (Op.IMM, some 0), (Op.LEV, none), (Op.LEV, none)] :=
  ⟨by decide!, by decide, by decide!, by decide⟩

end C4
namespace C4

/-! ## C14: alignment after a string literal -/

/-- C14: literal alignment.  From any compiler state whose token is a string,
the first part of `expr` (the string branch with its loop over adjacent
string tokens) returns once the fuel exceeds the length of the remaining text,
and the data cursor `data` of the state it returns is a multiple of 8,
whatever it was; when the next token is below the level, that state is the
result of `expr`. -/
theorem C14_literal_alignment (s : CState) (h : s.tk = 34) :
    ∃ s1, (∀ n, s.p.length + 2 ≤ n → exprHead (expr n) n s = .ok s1) ∧ s1.data % 8 = 0 ∧
      ∀ lev, s1.tk < lev → ExprTo lev s (.ok s1) := by
  have hl : (next (emit s.ival (emit Op.IMM s))).p.length ≤ s.p.length :=
    (next_len (emit s.ival (emit Op.IMM s))).1
  obtain ⟨s1, h1⟩ := skipStrings_total s.p.length _ hl
  have hh : ∀ n, s.p.length + 2 ≤ n → exprHead (expr n) n s
      = .ok { s1 with data := band (wrap (s1.data + sizeofInt)) (-sizeofInt), ty := PTR } := by
    intro n hn
    rw [exprHead_Str _ _ h, hdStr, h1 n hn, bind_ok]
  refine ⟨_, hh, band_mask _, fun lev hlev => ?_⟩
  exact ExprTo.of_head ⟨ok_ne_fuel _, _, hh⟩ (LoopTo.done hlev)


/-- C14 at the literal `"ab" "c"` with the data cursor at 3: after the
expression the cursor is 8. -/
theorem C14_literal_alignment_witness : strS.tk = 34 ∧ (exprHead (expr 20) 20 strS).get.data = 8 ∧
    ∃ s1, (∀ n, strS.p.length + 2 ≤ n → exprHead (expr n) n strS = .ok s1) ∧ s1.data % 8 = 0 ∧
      ∀ lev, s1.tk < lev → ExprTo lev strS (.ok s1) :=
  ⟨by decide!, by decide!, C14_literal_alignment strS (by decide!)⟩

end C4
namespace C4

/-! ## C15: bytes the lexer does not recognise -/

/-- C15, as the code has it: a byte that no branch of the loop of `next()`
recognises (a blank, `@`, `$`, `.`, a backquote, ...) is skipped: `next()` goes
on with the following byte, so it returns what it returns from there and the
token is never set from the skipped byte. -/
theorem C15_unknown_bytes_skipped {s : CState} {c : Nat} {rest : List Nat} (hp : s.p = c :: rest)
    (hc : isUnknown c = true) : next s = next { s with p := rest } := by
  have hop : isOpChar c = true := by
    simp only [isUnknown, Bool.and_eq_true] at hc
    exact hc.1
  exact next_skip hp hop (lexOp_unknown hc rest)

/-- C15 at the text `@;`: the bytes `@`, `$`, `.` and the backquote are not
recognised, and lexing `@;` is lexing `;`. -/
theorem C15_unknown_bytes_skipped_witness :
    isUnknown 64 = true ∧ isUnknown 36 = true ∧ isUnknown 46 = true ∧ isUnknown 96 = true ∧
    next { p := [64, 59, 0] } = next { p := [59, 0] } :=
  ⟨by decide, by decide, by decide, by decide,
    C15_unknown_bytes_skipped (s := { p := [64, 59, 0] }) rfl (by decide)⟩

/-- C15 as stated fails: on the text `@;` the lexer returns the token `;`,
not the byte `@`. -/
theorem C15_unknown_byte_not_returned :
    (next { p := bytes "@;" ++ [0] }).tk = ch ';' ∧ (next { p := bytes "@;" ++ [0] }).tk ≠ ch '@' := by
  decide

end C4
namespace C4

/-! ## C16: a string literal that is not closed -/

/-- C16, as the code has it: when the remaining input is an opening `"` and a
body that runs up to the terminating NUL with no closing quote, `next()` (which
has no diagnostic) returns the string token `tk = '"'`, not the end-of-input
token, with `ival` the address of the literal in the data area; the line
counter and the code are as before.  When the body is the inside of a literal
(it has no NUL and no quote but after a backslash and does not end on a
backslash, which would escape the NUL), the bytes of the body, escapes decoded,
are stored at that address and `data` is behind them. -/
theorem C16_unterminated_string (s : CState) (body : List Nat) (hp : s.p = 34 :: (body ++ [0])) :
    (next s).tk = 34 ∧ (next s).ival = s.data ∧ (next s).line = s.line ∧ (next s).e = s.e ∧
    (isBody body = true →
      (next s).data = s.data + ((strBytes body).length : Int) ∧
      (next s).dmem = s.dmem ++ runAt s.data (strBytes body)) := by
  rw [next_quote hp]
  refine ⟨rfl, rfl, rfl, rfl, fun hb => ?_⟩
  obtain ⟨_, h2, h3⟩ := scanQuote_body_stop 0 (by decide) body.length body (le_refl _) hb []
    s.ival s.data s.dmem
  exact ⟨h2, h3⟩

/-- C16 at the input `"a\nb` followed by the NUL, the backslash and the `n` being
two characters of the source. -/
theorem C16_unterminated_string_witness :
    (next { p := [34, 97, 92, 110, 98, 0], data := 100 }).tk = 34 ∧
    (next { p := [34, 97, 92, 110, 98, 0], data := 100 }).ival = 100 ∧
    (next { p := [34, 97, 92, 110, 98, 0], data := 100 }).data = 103 ∧
    (next { p := [34, 97, 92, 110, 98, 0], data := 100 }).dmem = [(100, 97), (101, 10), (102, 98)] :=
  ⟨(C16_unterminated_string { p := [34, 97, 92, 110, 98, 0], data := 100 } [97, 92, 110, 98] rfl).1,
   (C16_unterminated_string { p := [34, 97, 92, 110, 98, 0], data := 100 } [97, 92, 110, 98] rfl).2.1,
   ((C16_unterminated_string { p := [34, 97, 92, 110, 98, 0], data := 100 } [97, 92, 110, 98] rfl).2.2.2.2
     (by decide)).1,
   ((C16_unterminated_string { p := [34, 97, 92, 110, 98, 0], data := 100 } [97, 92, 110, 98] rfl).2.2.2.2
     (by decide)).2⟩

/-- C16 as stated fails: on the input `"ab` followed by the NUL the token is
`'"'`, not 0, and the cursor is past the NUL, not on it. -/
theorem C16_string_token_at_end :
    (next { p := [34, 97, 98, 0] }).tk = 34 ∧ (next { p := [34, 97, 98, 0] }).tk ≠ 0 ∧
    (next { p := [34, 97, 98, 0] }).p = [] ∧ (next { p := [34, 97, 98, 0] }).p ≠ [0] := by
  decide

end C4
namespace C4

/-! ## C17: numeric literals -/

/-- C17: numeric literals.  (1) On a non-zero digit followed by decimal digits
and then a character that is not a decimal digit, `next()` returns `Num` with
`ival` the decimal value and the cursor at that character.  (2) On `0x` or
`0X` followed by hexadecimal digits of either case and then a character that
is not one (or the NUL), `ival` is the hexadecimal value.  (3) On `0` followed
by digits `0-7` and then a character that is not one (nor `x`, `X` right after
the `0`), `ival` is the octal value.  Values are taken as signed 64-bit words. -/
theorem C17_numeric_literals :
    (∀ (s : CState) (d0 : Nat) (ds rest : List Nat),
      s.p = (d0 + 48) :: (ds.map (fun d => d + 48) ++ rest) → 1 ≤ d0 → d0 ≤ 9 →
      (∀ d ∈ ds, d < 10) → ¬ (48 ≤ peek rest ∧ peek rest ≤ 57) →
      next s = { s with p := rest, ival := wrap (valOf 10 (d0 :: ds)), tk := Tok.Num }) ∧
    (∀ (s : CState) (x : Nat) (cs rest : List Nat),
      s.p = 48 :: x :: (cs ++ rest) → (x = 120 ∨ x = 88) →
      (∀ c ∈ cs, isHexChar c = true) → (peek rest = 0 ∨ isHex (peek rest) = false) →
      next s = { s with p := rest, ival := wrap (valOf 16 (cs.map hexDigit)), tk := Tok.Num }) ∧
    (∀ (s : CState) (ds rest : List Nat),
      s.p = 48 :: (ds.map (fun d => d + 48) ++ rest) → (∀ d ∈ ds, d < 8) →
      ¬ (48 ≤ peek rest ∧ peek rest ≤ 55) → (ds = [] → peek rest ≠ 120 ∧ peek rest ≠ 88) →
      next s = { s with p := rest, ival := wrap (valOf 8 ds), tk := Tok.Num }) := by
  refine ⟨fun s d0 ds rest hp h1 h2 hd hr => ?_, fun s x cs rest hp hx hd hr => ?_,
    fun s ds rest hp hd hr h0 => ?_⟩
  · rw [next_digit hp (by omega) (by omega)]
    have hc : cval (d0 + 48) = (d0 : Int) + 48 := by
      rw [cval_lt (by omega)]; push_cast; rfl
    have : lexNum (ds.map (fun d => d + 48) ++ rest) (cval (d0 + 48))
        = (rest, wrap (valOf 10 (d0 :: ds))) := by
      unfold lexNum
      rw [if_pos (by rw [hc, ch_48]; omega), hc, ch_48]
      have hv : ((d0 : Int) + 48 - 48) = wrap (d0 : Int) := by
        rw [wrap_eq (by simp only [InRange, two63]; omega)]; ring
      rw [scanDec_run ds hd hr _ d0 hv]
      simp [valOf]
    rw [this]
  · rw [next_digit hp (by omega) (by omega)]
    have : lexNum (x :: (cs ++ rest)) (cval 48) = (rest, wrap (valOf 16 (cs.map hexDigit))) := by
      unfold lexNum
      rw [if_neg (by rw [cval_lt (by decide)]; simp), if_pos (by
        rcases hx with h | h <;> rw [h] <;> simp [peek, cval_lt])]
      rw [List.tail_cons, scanHex_run cs hd hr 0 0 rfl]
      rfl
    rw [this]
  · rw [next_digit hp (by omega) (by omega)]
    have : lexNum (ds.map (fun d => d + 48) ++ rest) (cval 48) = (rest, wrap (valOf 8 ds)) := by
      unfold lexNum
      rw [if_neg (by rw [cval_lt (by decide)]; simp), if_neg, scanOct_run ds hd hr 0 0 rfl]
      · rfl
      · cases ds with
        | nil =>
          obtain ⟨a, b⟩ := h0 rfl
          simp only [List.map_nil, List.nil_append, ch_120, ch_88]
          intro h
          rcases h with h | h
          · exact a h
          · exact b h
        | cons d ds =>
          have hd1 : d < 8 := hd d (List.mem_cons_self _ _)
          have hc : cval (d + 48) = (d : Int) + 48 := by
            rw [cval_lt (by omega)]; push_cast; rfl
          simp only [List.map_cons, List.cons_append, peek, hc, ch_120, ch_88]
          omega
    rw [this]

/-- C17 at the literals `1234`, `0x1fA` and `0755`. -/
theorem C17_numeric_literals_witness :
    next { p := bytes "1234;" ++ [0] } = { p := bytes ";" ++ [0], ival := 1234, tk := Tok.Num } ∧
    next { p := bytes "0x1fA;" ++ [0] } = { p := bytes ";" ++ [0], ival := 506, tk := Tok.Num } ∧
    next { p := bytes "0755;" ++ [0] } = { p := bytes ";" ++ [0], ival := 493, tk := Tok.Num } :=
  ⟨C17_numeric_literals.1 { p := bytes "1234;" ++ [0] } 1 [2, 3, 4] (bytes ";" ++ [0]) rfl (by decide)
      (by decide) (by decide) (by decide),
    C17_numeric_literals.2.1 { p := bytes "0x1fA;" ++ [0] } 120 [49, 102, 65] (bytes ";" ++ [0]) rfl
      (by decide) (by decide) (by decide),
    C17_numeric_literals.2.2 { p := bytes "0755;" ++ [0] } [7, 5, 5] (bytes ";" ++ [0]) rfl
      (by decide) (by decide) (by decide)⟩

end C4
namespace C4

/-! ## C18: identifiers -/

/-- C18: identifier interning.  Let `next()` be at a letter or underscore, the
start of an identifier.  (1) When a record of the table matches it (same hash,
same first `p - pp` bytes of the name) and the records before it are in use
and do not match, `next()` returns that record's token with `id` at that
record and the table unchanged.  (2) When every record of the table is in use
and none matches, `next()` appends exactly one record, with token `Id`, the
hash and the name of the identifier and `Class`, `Type`, `Val` zero, leaves
the earlier records as they are and returns `Id` with `id` at the new record;
lexing the same name again on the new table returns the same `id` and
leaves the table unchanged. -/
theorem C18_identifier_interning (s : CState) (c : Nat) (q : List Nat) (hp : s.p = c :: q)
    (hc : isAlpha (cval c) = true) :
    (∀ (l1 l2 : List Sym) (d : Sym), s.sym = l1 ++ d :: l2 →
      (∀ x ∈ l1, x.Tk ≠ 0 ∧ ¬ Matches s.p (cval c) x) → d.Tk ≠ 0 → Matches s.p (cval c) d →
      next s = { s with p := (scanId q (cval c)).1, id := l1.length, tk := d.Tk }) ∧
    ((∀ x ∈ s.sym, x.Tk ≠ 0 ∧ ¬ Matches s.p (cval c) x) →
      next s = { s with p := (scanId q (cval c)).1, id := s.sym.length, tk := Tok.Id, sym := s.sym ++ [freshSym s.p (cval c)] } ∧
      ∀ (s2 : CState) (q2 : List Nat), s2.p = c :: q2 → s2.sym = (next s).sym →
        idHash s2.p (cval c) = idHash s.p (cval c) → idLen s2.p (cval c) = idLen s.p (cval c) →
        s2.p.take (idLen s.p (cval c)) = s.p.take (idLen s.p (cval c)) →
        (next s2).id = (next s).id ∧ (next s2).tk = Tok.Id ∧ (next s2).sym = (next s).sym) := by
  have ht : s.p.tail = q := by rw [hp]; rfl
  refine ⟨fun l1 l2 d hs hl h1 h2 => ?_, fun hl => ?_⟩
  · rw [next_ident hp hc, lexId_found s.sym s.p (cval c) l1 l2 d hs hl h1 h2, ht]
  · have e1 : next s = { s with p := (scanId q (cval c)).1, id := s.sym.length, tk := Tok.Id, sym := s.sym ++ [freshSym s.p (cval c)] } := by
      rw [next_ident hp hc, lexId_fresh s.sym s.p (cval c) hl, ht]
    refine ⟨e1, fun s2 q2 hp2 hs2 hh hn ht2 => ?_⟩
    have hM : ∀ x, Matches s2.p (cval c) x ↔ Matches s.p (cval c) x := by
      intro x
      unfold Matches
      rw [hh, hn, ht2]
    rw [e1] at hs2 ⊢
    simp only at hs2 ⊢
    have := lexId_found s2.sym s2.p (cval c) s.sym [] (freshSym s.p (cval c))
      hs2 (fun x hx => ⟨(hl x hx).1, fun h => (hl x hx).2 ((hM x).mp h)⟩)
      (show (Tok.Id : Int) ≠ 0 by decide)
      ((hM _).mpr ⟨rfl, rfl⟩)
    rw [next_ident hp2 hc, this]
    exact ⟨rfl, rfl, hs2⟩


/-- C18 at the text `ab ab;`: on an empty table the first `ab` is appended
as record 0; on that table a second `ab` returns record 0 and leaves the
table as it is. -/
theorem C18_identifier_interning_witness :
    next { p := bytes "ab ab;" ++ [0] } =
      { p := bytes " ab;" ++ [0], id := 0, tk := Tok.Id, sym := [freshSym (bytes "ab ab;" ++ [0]) 97] } ∧
    next { p := bytes "ab;" ++ [0], sym := [freshSym (bytes "ab ab;" ++ [0]) 97] } =
      { p := bytes ";" ++ [0], id := 0, tk := Tok.Id, sym := [freshSym (bytes "ab ab;" ++ [0]) 97] } :=
  ⟨((C18_identifier_interning { p := bytes "ab ab;" ++ [0] } 97 _ rfl (by decide)).2 (by simp)).1,
   (C18_identifier_interning { p := bytes "ab;" ++ [0], sym := [freshSym (bytes "ab ab;" ++ [0]) 97] } 97 _ rfl (by decide)).1
     [] [] (freshSym (bytes "ab ab;" ++ [0]) 97) rfl (by simp) (by decide) (by decide)⟩

end C4
namespace C4

/-! ## C19: enum numbering -/

/-- C19: enum numbering.  At an identifier of an enum block, with the counter
`i`: (1) without initializer, the record `id` points to gets class `Num`, type
`INT` and value `i`, and the loop goes on with the counter `i + 1`; (2) with
an initializer `= N`, that record gets class `Num`, type `INT` and value `N`,
and the loop goes on with the counter `N + 1`.  (3) The counter starts at 0:
`enum { A=5, B, C }; enum { X, Y };` gives `A`, `B`, `C` the values 5, 6, 7 and
`X`, `Y` the values 0, 1, all of class `Num` and type `INT`. -/
theorem C19_enum_numbering (n : Nat) (s : CState) (i : Int) (h : s.tk = Tok.Id) :
    ((next s).tk ≠ Tok.Assign →
      enumLoop (n + 1) s i = enumLoop n (comma ((next s).setCur (enumSym i))) (wrap (i + 1))) ∧
    ((next s).tk = Tok.Assign → (next (next s)).tk = Tok.Num →
      enumLoop (n + 1) s i = enumLoop n
        (comma ((next (next (next s))).setCur (enumSym (next (next s)).ival)))
        (wrap ((next (next s)).ival + 1))) ∧
    (symInfo "A" (compile L0 srcEnum 50) = some (Tok.Num, INT, 5) ∧
     symInfo "B" (compile L0 srcEnum 50) = some (Tok.Num, INT, 6) ∧
     symInfo "C" (compile L0 srcEnum 50) = some (Tok.Num, INT, 7) ∧
     symInfo "X" (compile L0 srcEnum 50) = some (Tok.Num, INT, 0) ∧
     symInfo "Y" (compile L0 srcEnum 50) = some (Tok.Num, INT, 1)) := by
  have h1 : s.tk ≠ 125 := by rw [h]; decide
  refine ⟨fun ha => ?_, fun ha hn => ?_, by decide!, by decide!, by decide!, by decide!, by decide!⟩
  · rw [enumLoop_succ, if_pos h1, if_neg (not_not.mpr h), if_neg ha, bind_ok]
  · rw [enumLoop_succ, if_pos h1, if_neg (not_not.mpr h), if_pos ha, if_neg (not_not.mpr hn), bind_ok]

/-- C19 at the enum body `A=5, B }`: the entry `A=5` gives `A` the value 5 and
the loop goes on at `B` with the counter 6. -/
theorem C19_enum_numbering_witness :
    enumS.tk = Tok.Id ∧ (next (next enumS)).ival = 5 ∧
    enumLoop 10 enumS 0 = enumLoop 9
      (comma ((next (next (next enumS))).setCur (enumSym (next (next enumS)).ival)))
      (wrap ((next (next enumS)).ival + 1)) :=
  ⟨by decide!, by decide!, (C19_enum_numbering 9 enumS 0 (by decide!)).2.1 (by decide!) (by decide!)⟩

end C4
namespace C4

/-! ## C20: duplicate definitions -/

/-- C20: duplicate definitions are rejected.  (1) A top-level declarator whose
identifier has a class already (`Glo`, `Fun`, `Num`, `Sys`, any non-zero class)
ends the compilation with the diagnostic `duplicate global definition` and the
status -1.  (2) A parameter whose identifier is of class `Loc`, that is a
parameter registered before it in the same function, ends it with `duplicate
parameter definition`.  (3) A local whose identifier is of class `Loc`, a
parameter or a local of the same function, ends it with `duplicate local
definition`.  (4) Programs that declare twice a global, a function, an enum
constant, a library function, a parameter, a local, or a local named as a
parameter are rejected with -1, and a program whose functions reuse each
other's parameter and local names is accepted. -/
theorem C20_duplicates_rejected :
    (∀ (n : Nat) (s : CState) (bt : Int) (r : CState × Int), (s.tk ≠ ch ';' ∧ s.tk ≠ 125) →
      stars n s bt = .ok r → r.1.tk = Tok.Id → r.1.cur.Class ≠ 0 →
      declLoop (n + 1) s bt = .exit (-1) r.1.line "duplicate global definition") ∧
    (∀ (n : Nat) (s : CState) (i : Int) (r : CState × Int), s.tk ≠ ch ')' →
      stars n (ptype s).1 (ptype s).2 = .ok r → r.1.tk = Tok.Id → r.1.cur.Class = Tok.Loc →
      paramLoop (n + 1) s i = .exit (-1) r.1.line "duplicate parameter definition") ∧
    (∀ (bt : Int) (n : Nat) (s : CState) (i : Int) (r : CState × Int), s.tk ≠ ch ';' →
      stars n s bt = .ok r → r.1.tk = Tok.Id → r.1.cur.Class = Tok.Loc →
      localDecl bt (n + 1) s i = .exit (-1) r.1.line "duplicate local definition") ∧
    (emitted (compile L0 srcDupGlo 50) = .exit (-1) 1 "duplicate global definition" ∧
     emitted (compile L0 srcDupFun 50) = .exit (-1) 1 "duplicate global definition" ∧
     emitted (compile L0 srcDupEnum 50) = .exit (-1) 1 "duplicate global definition" ∧
     emitted (compile L0 srcDupSys 50) = .exit (-1) 1 "duplicate global definition" ∧
     emitted (compile L0 srcDupPar 50) = .exit (-1) 1 "duplicate parameter definition" ∧
     emitted (compile L0 srcDupLoc 50) = .exit (-1) 1 "duplicate local definition" ∧
     emitted (compile L0 srcDupParLoc 50) = .exit (-1) 1 "duplicate local definition" ∧
     main L0 srcDupGlo 1 0 (fun _ => 0) 50 100 = .halt (-1) ∧
     emitted (compile L0 srcReuse 50) = .ok [Op.ENT, 1, Op.IMM, 0, Op.LEV, Op.LEV,
       Op.ENT, 1, Op.IMM, 0, Op.LEV, Op.LEV, Op.ENT, 0, Op.IMM, 0, Op.LEV, Op.LEV]) :=
  ⟨declLoop_dup, paramLoop_dup, localDecl_dup, by decide!, by decide!, by decide!, by decide!,
    by decide!, by decide!, by decide!, by decide!, by decide!⟩

/-- C20 at the declarator of `int printf;`: the identifier is a library
function (class `Sys`), and the declarator loop ends with the diagnostic. -/
theorem C20_duplicates_rejected_witness :
    dupS.tk = Tok.Id ∧ dupS.cur.Class = Tok.Sys ∧ dupS.line = 0 ∧
    declLoop 6 dupS INT = .exit (-1) (dupS, INT).1.line "duplicate global definition" :=
  ⟨by decide!, by decide!, by decide!,
    C20_duplicates_rejected.1 5 dupS INT (dupS, INT) (by decide!) (by decide!) (by decide!) (by decide!)⟩

end C4
namespace C4

/-! ## C21: logical not -/

/-- C21: logical not.  (1) On a `!` that no `=` follows, `next()` returns the
token `'!'` and moves past the character.  (2) At that token, when `expr(Inc)`
compiles the operand, leaving the state `s1`, the first part of `expr` returns
`s1` with the words `PSH; IMM 0; EQ` appended to the code and the type `INT`.
(3) On the machine, after the code of the operand has left its value in `a`,
these words end with `a = 1` when the value is 0 and `a = 0` otherwise, with
`sp` and `bp` as they were, at the word after them.  (4) `!0` is 1, `!5` is 0
and `!!7` is 1. -/
theorem C21_logical_not :
    (∀ (X : CState) (q : List Nat), X.p = 33 :: q → peek q ≠ ch '=' →
      next X = { X with p := q, tk := ch '!' }) ∧
    (∀ (n : Nat) (S s1 : CState), S.tk = ch '!' → expr n Tok.Inc (next S) = .ok s1 →
      exprHead (expr n) n S = .ok { s1 with e := s1.e ++ [Op.PSH, Op.IMM, 0, Op.EQ], ty := INT }) ∧
    (∀ v : VM, CodeAt v.mem v.pc [Op.PSH, Op.IMM, 0, Op.EQ] → InRange v.a →
      -two63 ≤ v.pc → v.pc + 32 < two63 → -two63 + 8 ≤ v.sp → v.sp < two63 →
      (v.pc + 32 ≤ v.sp - 8 ∨ v.sp ≤ v.pc) →
      ∃ v1, cycles 3 v = some v1 ∧ v1.a = (if v.a = 0 then 1 else 0) ∧ v1.sp = v.sp ∧
        v1.bp = v.bp ∧ v1.pc = v.pc + 32) ∧
    (emitted (compile L0 srcNot2 50) = .ok [Op.ENT, 0, Op.IMM, 5, Op.PSH, Op.IMM, 0, Op.EQ,
        Op.LEV, Op.LEV] ∧
     main L0 srcNot1 1 0 (fun _ => 0) 50 100 = .halt 1 ∧
     main L0 srcNot2 1 0 (fun _ => 0) 50 100 = .halt 0 ∧
     main L0 srcNot3 1 0 (fun _ => 0) 50 100 = .halt 1) := by
  refine ⟨fun X q hp hq => next_bang hp hq, fun n S s1 hk hn => ?_,
    fun v hc ha h1 h2 h3 h4 h5 => exec_not hc ha h1 h2 h3 h4 h5,
    by decide!, by decide!, by decide!, by decide!⟩
  rw [exprHead_Not _ _ hk, hdNot, hn, bind_ok]
  simp only [emit, List.append_assoc, List.cons_append, List.nil_append]

/-- C21 at `!5`: the token, the code `IMM 5; PSH; IMM 0; EQ`, and its run from the
`PSH` with `a = 5`, which ends with `a = 0`. -/
theorem C21_logical_not_witness :
    notS = { p := bytes "5;" ++ [0], tk := ch '!' } ∧
    exprHead (expr 5) 5 notS = .ok { notS1 with e := [Op.IMM, 5, Op.PSH, Op.IMM, 0, Op.EQ], ty := INT } ∧
    ∃ v1, cycles 3 notV = some v1 ∧ v1.a = (if notV.a = 0 then 1 else 0) ∧ v1.sp = notV.sp ∧
      v1.bp = notV.bp ∧ v1.pc = notV.pc + 32 :=
  ⟨C21_logical_not.1 { p := bytes "!5;" ++ [0] } (bytes "5;" ++ [0]) (by decide) (by decide),
   C21_logical_not.2.1 5 notS notS1 (by decide!) (by decide!),
   C21_logical_not.2.2.1 notV (by decide!) (by decide!) (by decide!) (by decide!) (by decide!)
     (by decide!) (by decide!)⟩

end C4

namespace C4

/-! ## C22: if and else -/

/-- C22: `if` and `else`.  Let `stmt` be at an `if`, and let the condition in
parentheses compile, leaving the state `s4` (its code is what `s4` has more than
the state before).  (1) When the statement `S1` compiles to the words `c1` after
the `BZ` and its operand and no `else` follows, `stmt` returns with the words
`BZ h1; c1` after the code of the condition, `h1` being the address of the word
after `c1`.  (2) When an `else` follows and the statement `S2` compiles to the
words `c2` after the `JMP` and its operand, `stmt` returns with `BZ h1; c1;
JMP h2; c2`, `h1` being the address of the first word of `c2` and `h2` the address
of the word after `c2`.  (3) Three programs and what they exit with. -/
theorem C22_if_else :
    (∀ (n : Nat) (S s4 s5 : CState) (c1 : List Int), S.tk = Tok.If →
      parenExpr (expr n) (next S) = .ok s4 → stmt n (thenAt s4) = .ok s5 → s5.tk ≠ Tok.Else →
      s5.e = s4.e ++ Op.BZ :: 0 :: c1 →
      stmt (n + 1) S = .ok { s5 with e := s4.e ++ Op.BZ :: addrE s5 1 :: c1 }) ∧
    (∀ (n : Nat) (S s4 s5 s6 : CState) (c1 c2 : List Int), S.tk = Tok.If →
      parenExpr (expr n) (next S) = .ok s4 → stmt n (thenAt s4) = .ok s5 → s5.tk = Tok.Else →
      s5.e = s4.e ++ Op.BZ :: 0 :: c1 → stmt n (elseStAt s4 s5) = .ok s6 →
      s6.e = s4.e ++ Op.BZ :: addrE s5 3 :: (c1 ++ Op.JMP :: 0 :: c2) →
      stmt (n + 1) S = .ok { s6 with
        e := s4.e ++ Op.BZ :: addrE s5 3 :: (c1 ++ Op.JMP :: addrE s6 1 :: c2) }) ∧
    (emitted (compile L0 srcIf1 50) = .ok ([Op.ENT, 0] ++ [Op.IMM, 0] ++ [Op.BZ, L0.text + 8 * 12] ++
        [Op.IMM, 1, Op.LEV] ++ [Op.JMP, L0.text + 8 * 15] ++ [Op.IMM, 2, Op.LEV] ++
        [Op.IMM, 3, Op.LEV, Op.LEV]) ∧
     emitted (compile L0 srcIf2 50) = .ok ([Op.ENT, 0] ++ [Op.IMM, 0] ++ [Op.BZ, L0.text + 8 * 10] ++
        [Op.IMM, 1, Op.LEV] ++ [Op.IMM, 3, Op.LEV, Op.LEV]) ∧
     main L0 srcIf1 1 0 (fun _ => 0) 50 100 = .halt 2 ∧
     main L0 srcIf2 1 0 (fun _ => 0) 50 100 = .halt 3 ∧
     main L0 srcIf3 1 0 (fun _ => 0) 50 100 = .halt 1) := by
  refine ⟨fun n S s4 s5 c1 hk hE h1 he h1e => ?_,
    fun n S s4 s5 s6 c1 c2 hk hE h1 he h1e h2 h2e => ?_,
    by decide!, by decide!, by decide!, by decide!, by decide!⟩
  · rw [stmt_If n hk]; exact stIf_code _ _ S s4 s5 c1 hE h1 he h1e
  · rw [stmt_If n hk]; exact stIf_else_code _ _ S s4 s5 s6 c1 c2 hE h1 he h1e h2 h2e

set_option maxRecDepth 100000

/-- C22 at `if (1) return 5; else return 7;` with the text area at `L0.text`: the
code is `IMM 1; BZ h1; IMM 5; LEV; JMP h2; IMM 7; LEV` with `h1` the address of the
tenth word and `h2` the address of the word after the twelfth. -/
theorem C22_if_else_witness :
    ifS.tk = Tok.If ∧ ifS5.tk = Tok.Else ∧ ifS4.e = [Op.IMM, 1] ∧
    addrE ifS5 3 = L0.text + 8 * 10 ∧ addrE ifS6 1 = L0.text + 8 * 13 ∧
    stmt 10 ifS = .ok { ifS6 with e := ifS4.e ++ Op.BZ :: addrE ifS5 3 ::
      ([Op.IMM, 5, Op.LEV] ++ Op.JMP :: addrE ifS6 1 :: [Op.IMM, 7, Op.LEV]) } :=
  ⟨by decide!, by decide!, by decide!, by decide!, by decide!,
   C22_if_else.2.1 9 ifS ifS4 ifS5 ifS6 [Op.IMM, 5, Op.LEV] [Op.IMM, 7, Op.LEV] (by decide!)
     (by decide!) (by decide!) (by decide!) (by decide!) (by decide!) (by decide!)⟩

end C4

namespace C4

/-! ## C23: the conditional operator -/

/-- C23: the conditional operator.  (1) At the `?` of `c ? u : v`, when
`expr(Assign)` compiles `u` to the words `cu` after the `BZ` and its operand and
stops at the colon, and `expr(Cond)` compiles `v` to the words `cv` after the
`JMP` and its operand, the turn of the loop of `expr` leaves the words `BZ h1; cu;
JMP h2; cv` after the code of `c`, where `h1` is the address of the first word of
`cv` and `h2` the address of the word after `cv`.  (2) On the machine, at the
`BZ h1` with `a` the value of `c`: when `a` is 0 the next turn of the interpreter
is at `h1`, the first word of `cv`, no word of `cu` executed; when `a` is not 0
the run goes through `cu` and, from the `JMP h2` that follows, to `h2` with `a` as
`cu` left it, no word of `cv` executed.  (3) `1 ? 5 : 7` is 5 and `0 ? 5 : 7`
is 7. -/
theorem C23_conditional :
    (∀ (n : Nat) (S su sw : CState) (cu cv : List Int), S.tk = Tok.Cond →
      expr n Tok.Assign (midAt S) = .ok su → su.tk = ch ':' → su.e = S.e ++ Op.BZ :: 0 :: cu →
      expr n Tok.Cond (elseAt S su) = .ok sw →
      sw.e = S.e ++ Op.BZ :: addrE (next su) 3 :: (cu ++ Op.JMP :: 0 :: cv) →
      exprStep (expr n) S = .ok { sw with
        e := S.e ++ Op.BZ :: addrE (next su) 3 :: (cu ++ Op.JMP :: addrE sw 1 :: cv) }) ∧
    (∀ (v : VM) (h1 : Int), CodeAt v.mem v.pc [Op.BZ, h1] → -two63 ≤ v.pc → v.pc + 16 < two63 →
      (v.a = 0 → cycles 1 v = some { v with pc := h1 }) ∧
      (v.a ≠ 0 → ∀ (k : Nat) (v2 : VM) (h2 : Int),
        cycles k { v with pc := v.pc + 16 } = some v2 → CodeAt v2.mem v2.pc [Op.JMP, h2] →
        -two63 ≤ v2.pc → v2.pc + 8 < two63 →
        cycles (1 + k + 1) v = some { v2 with pc := h2 })) ∧
    (emitted (compile L0 srcCond1 50) = .ok [Op.ENT, 0, Op.IMM, 1, Op.BZ, L0.text + 8 * 11,
        Op.IMM, 5, Op.JMP, L0.text + 8 * 13, Op.IMM, 7, Op.LEV, Op.LEV] ∧
     main L0 srcCond1 1 0 (fun _ => 0) 50 100 = .halt 5 ∧
     main L0 srcCond2 1 0 (fun _ => 0) 50 100 = .halt 7) := by
  refine ⟨fun n S su sw cu cv hk hu hc hue hw hwe => ?_,
    fun v h1 hc p1 p2 => ⟨fun ha => ?_, fun ha k v2 h2 hk hj q1 q2 => ?_⟩,
    by decide!, by decide!, by decide!⟩
  · rw [exprStep_Cond _ hk]; exact opCond_code _ S su sw cu cv hu hc hue hw hwe
  · exact exec_jump hc (Or.inr (Or.inl ⟨rfl, ha⟩)) p1 (by omega)
  · exact cycles_add (cycles_add (exec_fall hc (Or.inl ⟨rfl, ha⟩) p1 p2) hk)
      (exec_jump hj (Or.inl rfl) q1 q2)

/-- C23 at `1 ? 5 : 7`: the code is `IMM 1; BZ 72; IMM 5; JMP 88; IMM 7` when the
text area starts at 0, and the run from the `BZ` with `a = 1` ends after the code
with `a = 5` in three turns. -/
theorem C23_conditional_witness :
    cndS.tk = Tok.Cond ∧
    exprStep (expr 5) cndS = .ok { cndSw with
      e := [Op.IMM, 1, Op.BZ, 72, Op.IMM, 5, Op.JMP, 88, Op.IMM, 7] } ∧
    cycles (1 + 1 + 1) cndV = some { cndV2 with pc := 80 } ∧ cndV2.a = 5 :=
  ⟨by decide!,
   C23_conditional.1 5 cndS cndSu cndSw [Op.IMM, 5] [Op.IMM, 7] (by decide!) (by decide!)
     (by decide!) (by decide!) (by decide!) (by decide!),
   (C23_conditional.2.1 cndV 64 (by decide!) (by decide!) (by decide!)).2 (by decide!) 1 cndV2 80
     (cycles_getD (by decide!)) (by decide!) (by decide!) (by decide!),
   by decide!⟩

end C4

namespace C4

/-! ## C24: post-increment and post-decrement -/

/-- C24: post-increment and post-decrement.  (1) At a postfix `++` or `--` whose
operand is loaded by `LI` (its code is `c; LI`, `c` leaving the address in `a`) and
whose type is not `CHAR`, the turn of the loop of `expr` replaces the `LI` by
`PSH; LI; PSH; IMM s; ADD; SI; PSH; IMM s; SUB` (`SUB` and `ADD` exchanged for
`--`), `s` being 8 when the type is above `PTR` (a pointer to a non-char) and 1
otherwise.  (2) On the machine, run from the state where `a` is the address `A` of
the operand, with `A`, the code and the two stack words below `sp` clear of each
other, the words for `++` end after 9 instructions with the word at `A` replaced by
its old value plus `s` (as a signed 64-bit word), `a` the old value, and `sp`
and `bp` as they were; the words for `--` the same with minus.  (3) `x++` on an
`int` holding 5 is 5 and leaves 6, `x--` leaves 4, `p++` adds 8 to an `int *` and 1 to
a `char *`. -/
theorem C24_post_increment :
    (∀ (n : Nat) (S : CState) (c : List Int), (S.tk = Tok.Inc ∨ S.tk = Tok.Dec) →
      S.e = c ++ [Op.LI] → S.ty ≠ CHAR →
      exprStep (expr n) S =
        .ok (next { S with e := c ++ postCode (decide (S.tk = Tok.Inc)) (stride S.ty) })) ∧
    (∀ ty : Int, stride ty = if ty > PTR then 8 else 1) ∧
    (∀ (up : Bool) (v : VM) (s : Int), CodeAt v.mem v.pc (postCode up s) → InRange v.a →
      -two63 ≤ v.pc → v.pc + 88 < two63 → -two63 + 16 ≤ v.sp → v.sp < two63 →
      (v.pc + 88 ≤ v.sp - 16 ∨ v.sp ≤ v.pc) → (v.a + 8 ≤ v.sp - 16 ∨ v.sp ≤ v.a) →
      (v.a + 8 ≤ v.pc ∨ v.pc + 88 ≤ v.a) →
      ∃ v1, cycles 9 v = some v1 ∧ v1.a = loadInt v.mem v.a ∧
        loadInt v1.mem v.a = wrap (loadInt v.mem v.a + (if up then s else -s)) ∧
        v1.sp = v.sp ∧ v1.bp = v.bp ∧ v1.pc = v.pc + 88) ∧
    (main L0 srcPost1 1 0 (fun _ => 0) 50 100 = .halt 5 ∧
     main L0 srcPost2 1 0 (fun _ => 0) 50 100 = .halt 6 ∧
     main L0 srcPost3 1 0 (fun _ => 0) 50 100 = .halt 4 ∧
     main L0 srcPost4 1 0 (fun _ => 0) 50 100 = .halt 8 ∧
     main L0 srcPost5 1 0 (fun _ => 0) 50 100 = .halt 1) := by
  refine ⟨fun n S c hk he ht => ?_, fun ty => rfl,
    fun up v s hc hA p1 p2 s1 s2 d0 d1 d2 => ?_, by decide!, by decide!, by decide!, by decide!,
    by decide!⟩
  · rw [exprStep_Post _ hk]; exact opPost_code S c hk he ht
  · have hr := loadInt_inRange v.mem v.a
    cases up with
    | true =>
      obtain ⟨v1, h1, a1, m1, r⟩ := exec_post (f := fun x y => wrap (x + y))
        (g := fun x y => wrap (x - y)) hc (fun t h _ => step_alu_ADD h)
        (fun t h _ => step_alu_SUB h) hA p1 p2 s1 s2 d0 d1 d2
      exact ⟨v1, h1, by rw [a1]; exact wrap_add_sub _ _ hr, by rw [m1]; exact wrap_wrap _, r⟩
    | false =>
      obtain ⟨v1, h1, a1, m1, r⟩ := exec_post (f := fun x y => wrap (x - y))
        (g := fun x y => wrap (x + y)) hc (fun t h _ => step_alu_SUB h)
        (fun t h _ => step_alu_ADD h) hA p1 p2 s1 s2 d0 d1 d2
      exact ⟨v1, h1, by rw [a1]; exact wrap_sub_add _ _ hr,
        by rw [m1, wrap_wrap]; rfl, r⟩

/-- C24 at a `++` on an `int` at the address 4000 holding 41: the code, and its run,
which leaves 42 there and 41 in `a`. -/
theorem C24_post_increment_witness :
    postS.tk = Tok.Inc ∧ loadInt postV.mem postV.a = 41 ∧
    exprStep (expr 5) postS = .ok (next { postS with
      e := [Op.IMM, 4000] ++ postCode (decide (postS.tk = Tok.Inc)) (stride postS.ty) }) ∧
    ∃ v1, cycles 9 postV = some v1 ∧ v1.a = loadInt postV.mem postV.a ∧
      loadInt v1.mem postV.a = wrap (loadInt postV.mem postV.a + (if true then 1 else -1)) ∧
      v1.sp = postV.sp ∧ v1.bp = postV.bp ∧ v1.pc = postV.pc + 88 :=
  ⟨by decide!, by decide!,
   C24_post_increment.1 5 postS [Op.IMM, 4000] (by decide!) (by decide!) (by decide!),
   C24_post_increment.2.2.1 true postV 1 (by decide!) (by decide!) (by decide!) (by decide!)
     (by decide!) (by decide!) (by decide!) (by decide!) (by decide!)⟩

end C4

namespace C4

/-! ## C25: string literals -/

/-- C25: string literals.  Let the text at the compiler be `k ≥ 1` adjacent string
tokens (blanks between them allowed), each the inside of a literal between two
quotes, followed by a token that is not a string, and let the first token be read
(`next()`) and the string branch of `expr` run.  Then (1) the code emitted is the
single `IMM addr`, `addr` being the data cursor before the first token, and the
type is `PTR`; (2) the bytes stored are the decoded bytes of the tokens, in order,
at consecutive addresses from `addr` on, and the data area reads them back there;
(3) the data cursor ends above the address after the last byte, on a multiple of
8, when that address is a machine address; (4) the byte at the address after the
last one reads 0, the stores made before being below the cursor, and keeps reading
0 whatever is stored later at or above the new cursor.  (5) The byte at offset 2 of
`"ab" "c"` is `c`, the one at offset 3 is 0, and the one at offset 1 of `"a\nb"`
is a newline. -/
theorem C25_string_literals (X : CState) (b : Nat × List Nat) (toks : List (Nat × List Nat))
    (tail rest : List Nat) (t : Int) (n : Nat)
    (hp : X.p = strText (b :: toks) ++ tail) (hb : ∀ c ∈ b :: toks, isBody c.2 = true)
    (hf : ∀ Y : CState, Y.p = tail → next Y = { Y with p := rest, tk := t }) (ht : t ≠ 34)
    (hn : toks.length + 1 ≤ n)
    (hr : InRange (X.data + ((allBytes (b :: toks)).length : Int) + sizeofInt))
    (hd : ∀ w ∈ X.dmem, w.1 < X.data) :
    (∃ s1, exprHead (expr n) n (next X) = .ok s1 ∧
      s1.e = X.e ++ [Op.IMM, X.data] ∧ s1.ty = PTR ∧ s1.tk = t ∧
      s1.dmem = X.dmem ++ runAt X.data (allBytes (b :: toks)) ∧
      (∀ i : Nat, i < (allBytes (b :: toks)).length →
        dataByte s1.dmem (X.data + (i : Int)) = (allBytes (b :: toks)).getD i 0) ∧
      X.data + ((allBytes (b :: toks)).length : Int) < s1.data ∧ s1.data % 8 = 0 ∧
      (∀ later : List (Int × Int), (∀ w ∈ later, s1.data ≤ w.1) →
        dataByte (s1.dmem ++ later) (X.data + ((allBytes (b :: toks)).length : Int)) = 0)) ∧
    (main L0 srcStr1 1 0 (fun _ => 0) 50 100 = .halt 99 ∧
     main L0 srcStr2 1 0 (fun _ => 0) 50 100 = .halt 0 ∧
     main L0 srcStr3 1 0 (fun _ => 0) 50 100 = .halt 10) := by
  refine ⟨?_, by decide!, by decide!, by decide!⟩
  obtain ⟨iv, h⟩ := hdStr_toks X toks b tail rest t n hp hb hf ht hn
  have e8 : sizeofInt = 8 := rfl
  have hlt : X.data + ((allBytes (b :: toks)).length : Int) <
      band (wrap (X.data + ((allBytes (b :: toks)).length : Int) + sizeofInt)) (-sizeofInt) := by
    have h1 := (band_val _ (wrap_inRange (X.data + ((allBytes (b :: toks)).length : Int) + sizeofInt))).1
    rw [wrap_eq hr] at h1 ⊢
    omega
  refine ⟨_, h, rfl, rfl, rfl, rfl, fun i hi => dataByte_runAt _ _ _ i hi, hlt, band_mask _,
    fun later hl => ?_⟩
  apply dataByte_none
  intro w hw
  rcases List.mem_append.mp hw with hw | hw
  · rcases List.mem_append.mp hw with hw | hw
    · have := hd w hw
      have h0 : (0 : Int) ≤ ((allBytes (b :: toks)).length : Int) := Int.natCast_nonneg _
      omega
    · have := (mem_runAt hw).2
      omega
  · have h2 : band (wrap (X.data + ((allBytes (b :: toks)).length : Int) + sizeofInt))
        (-sizeofInt) ≤ w.1 := hl w hw
    omega

/-- C25 at the literal `"ab" "c"` followed by a semicolon, with the data cursor at 3:
the three bytes are stored at 3, 4 and 5 and the cursor ends at 8. -/
theorem C25_string_literals_witness :
    strX.p = strText [(0, bytes "ab"), (1, bytes "c")] ++ [59, 0] ∧
    allBytes [(0, bytes "ab"), (1, bytes "c")] = [97, 98, 99] ∧
    (exprHead (expr 5) 5 (next strX)).get.data = 8 ∧
    ((∃ s1, exprHead (expr 5) 5 (next strX) = .ok s1 ∧
      s1.e = strX.e ++ [Op.IMM, strX.data] ∧ s1.ty = PTR ∧ s1.tk = 59 ∧
      s1.dmem = strX.dmem ++ runAt strX.data (allBytes [(0, bytes "ab"), (1, bytes "c")]) ∧
      (∀ i : Nat, i < (allBytes [(0, bytes "ab"), (1, bytes "c")]).length →
        dataByte s1.dmem (strX.data + (i : Int)) = (allBytes [(0, bytes "ab"), (1, bytes "c")]).getD i 0) ∧
      strX.data + ((allBytes [(0, bytes "ab"), (1, bytes "c")]).length : Int) < s1.data ∧
      s1.data % 8 = 0 ∧
      (∀ later : List (Int × Int), (∀ w ∈ later, s1.data ≤ w.1) →
        dataByte (s1.dmem ++ later)
          (strX.data + ((allBytes [(0, bytes "ab"), (1, bytes "c")]).length : Int)) = 0)) ∧
    (main L0 srcStr1 1 0 (fun _ => 0) 50 100 = .halt 99 ∧
     main L0 srcStr2 1 0 (fun _ => 0) 50 100 = .halt 0 ∧
     main L0 srcStr3 1 0 (fun _ => 0) 50 100 = .halt 10)) :=
  ⟨by decide, by decide, by decide!,
   C25_string_literals strX (0, bytes "ab") [(1, bytes "c")] [59, 0] [0] 59 5 (by decide)
     (by decide) (follows_semi [0]).2 (by decide) (by decide) (by decide!)
     (fun w hw => absurd hw (List.not_mem_nil w))⟩

end C4

namespace C4

/-! ## C26: local slots -/

/-- C26: local slots.  Let the parameter loop of a function definition take `n`
turns, registering the identifiers `ds`, let `{` follow the parameter list, and let
the loop over the local declarations register the `m` identifiers `js`, in this
order (`paramIds` and `localIds` are these loops with a record of their turns).
(0) The record is no restriction: whenever one of the two loops returns, so does
the loop with the record, with the same result.  (1) The loops of the compiler end
with the counter at `n` and at `n + 1 + m`, and the definition compiles its body in
the state that follows `ENT m`: the code of the function begins with `ENT m`.
(2) In that state the compiler is in the body of a function with the parameters
`ds` and the locals `js` (`InBody`): `loc` is `n + 1` and the local of index `j`
(from 0) is of class `Loc` with value `loc + j + 1`.  (3) The lexer, an expression,
a statement and a sequence of statements keep this.  (4) There, the expression
that begins with the identifier of the local of index `j` from 0, the `j + 1`-th
local, not followed by `(`, is compiled to `LEA -(j + 1)` and the load of the type
of the local, after which the loop of the operators goes on.  (5) On the machine
`ENT m` sets `bp` to the stack pointer after the push of the old `bp` and `sp` to
`bp - 8 m`, and `LEA -j` leaves `a = bp - 8 j`, a word between the new `sp` and `bp`
when `1 ≤ j ≤ m`.  (6) A function with two parameters and three locals starts with
`ENT 3` and refers to its locals by `LEA -1`, `LEA -2`, `LEA -3`; a program storing
3 and 4 to two locals reads them back. -/
theorem C26_local_slots (k : Nat) (s p l : CState) (bt c c2 bt2 : Int) (ds js : List Nat)
    (hp : paramIds k (next (funcHead s)) 0 = .ok (p, c, ds))
    (hb : (next p).tk = 123)
    (hl : localIds k (next { next p with loc := (ds.length : Int) + 1 }) ((ds.length : Int) + 1) bt =
      .ok (l, c2, bt2, js))
    (hn : (ds.length : Int) + 1 + (js.length : Int) < two63) :
    ((∀ (m : Nat) (t : CState) (i : Int) (r : CState × Int), paramLoop m t i = .ok r →
       ∃ ds1, paramIds m t i = .ok (r.1, r.2, ds1)) ∧
     (∀ (m : Nat) (t : CState) (i b : Int) (r : CState × Int × Int), localLoop m t i b = .ok r →
       ∃ js1, localIds m t i b = .ok (r.1, r.2.1, r.2.2, js1))) ∧
    (paramLoop k (next (funcHead s)) 0 = .ok (p, (ds.length : Int)) ∧
     localLoop k (next { next p with loc := (ds.length : Int) + 1 }) ((ds.length : Int) + 1) bt =
       .ok (l, (ds.length : Int) + 1 + (js.length : Int), bt2) ∧
     (funcDef k s bt = stmtBlock (stmt k) k (emit (js.length : Int) (emit Op.ENT l)) >>= fun s6 =>
       .ok ({ emit Op.LEV s6 with sym := restoreLocals s6.sym, id := symEnd s6.sym }, bt2)) ∧
     (emit (js.length : Int) (emit Op.ENT l)).e = s.e ++ [Op.ENT, (js.length : Int)]) ∧
    InBody ds js (emit (js.length : Int) (emit Op.ENT l)).sym (emit (js.length : Int) (emit Op.ENT l)).loc ∧
    ((∀ t : CState, InBody ds js t.sym t.loc → InBody ds js (next t).sym (next t).loc) ∧
     (∀ (m : Nat) (lev : Int) (t r : CState), InBody ds js t.sym t.loc → expr m lev t = .ok r →
       InBody ds js r.sym r.loc) ∧
     (∀ (m : Nat) (t r : CState), InBody ds js t.sym t.loc → stmt m t = .ok r →
       InBody ds js r.sym r.loc) ∧
     (∀ (m : Nat) (t r : CState), InBody ds js t.sym t.loc → stmtBlock (stmt m) m t = .ok r →
       InBody ds js r.sym r.loc)) ∧
    (∀ (j : Nat) (hj : j < js.length) (m : Nat) (lev : Int) (t : CState),
      InBody ds js t.sym t.loc → t.tk = Tok.Id → t.id = js[j] → (next t).tk ≠ ch '(' →
      expr (m + 1) lev t = exprLoop (expr m) m lev
        (emit (if (symAt t.sym js[j]).Typ = CHAR then Op.LC else Op.LI)
          { emit (-((j : Int) + 1)) (emit Op.LEA (next t)) with ty := (symAt t.sym js[j]).Typ })) ∧
    (∀ (v : VM) (m : Nat), CodeAt v.mem v.pc [Op.ENT, m] → -two63 ≤ v.pc → v.pc + 16 < two63 →
      -two63 + 8 + 8 * (m : Int) ≤ v.sp → v.sp < two63 →
      cycles 1 v = some { v with pc := v.pc + 16, bp := v.sp - 8, sp := v.sp - 8 - 8 * (m : Int),
                                 mem := storeInt v.mem (v.sp - 8) v.bp }) ∧
    (∀ (v : VM) (m j : Nat), CodeAt v.mem v.pc [Op.LEA, -(j : Int)] → -two63 ≤ v.pc →
      v.pc + 16 < two63 → -two63 + 8 * (m : Int) ≤ v.bp → v.bp < two63 → 1 ≤ j → j ≤ m →
      cycles 1 v = some { v with pc := v.pc + 16, a := v.bp - 8 * (j : Int) } ∧
      v.bp - 8 * (m : Int) ≤ v.bp - 8 * (j : Int) ∧ v.bp - 8 * (j : Int) + 8 ≤ v.bp) ∧
    (emitted (compile L0 srcLoc1 50) = .ok [Op.ENT, 3, Op.LEA, -1, Op.LI, Op.LEA, -2, Op.LI,
        Op.LEA, -3, Op.LC, Op.LEV, Op.LEV, Op.ENT, 0, Op.IMM, 0, Op.LEV, Op.LEV] ∧
     main L0 srcLoc2 1 0 (fun _ => 0) 50 100 = .halt 34) := by
  have hn1 : (ds.length : Int) + 1 < two63 := by
    have : (0 : Int) ≤ (js.length : Int) := Int.natCast_nonneg _
    omega
  have hd0 : (0 : Int) ≤ (ds.length : Int) := Int.natCast_nonneg _
  have hj0 : (0 : Int) ≤ (js.length : Int) := Int.natCast_nonneg _
  obtain ⟨hc, k1, k4, k5⟩ := params_read hp hn1
  obtain ⟨m1, m2, m3, m4, m5⟩ := localIds_spec k _ _ bt _ hl
  have hc2 : c2 = (ds.length : Int) + 1 + (js.length : Int) := by
    rw [countFrom_eq _ _ (by simp only [two63]; omega) hn] at m2
    exact m2
  have hloc : l.loc = (ds.length : Int) + 1 := m3
  have hQ := inBody_stable ds js
  have hB : InBody ds js l.sym l.loc := by
    refine inBody_of_slots hn ((localLoop_keep (slots_stable _ _) k _ _ bt k5).holds _ m1) ?_
    have : (next { next p with loc := (ds.length : Int) + 1 }).loc = (ds.length : Int) + 1 := rfl
    rw [this] at m5
    exact m5
  refine ⟨⟨paramIds_of_loop, localIds_of_loop⟩, ⟨k1, ?_, ?_, ?_⟩, hB, ⟨fun t h => stable_next hQ h,
    fun m lev t r h hr => (expr_keep hQ m lev t h).holds r hr,
    fun m t r h hr => (stmt_keep hQ m t h).holds r hr,
    fun m t r h hr => (stmtBlock_keep hQ (stmt_keep hQ m) m t h).holds r hr⟩,
    fun j hj m lev t h h1 hd h2 => ?_,
    fun v m hc p1 p2 s1 s2 => ?_, fun v m j hc p1 p2 b1 b2 j1 j2 => ?_, by decide!, by decide!⟩
  · rw [← hc2]; exact m1
  · rw [funcDef_eq, k1, bind_ok]
    dsimp only
    rw [if_neg (not_not.mpr hb), wrap_small (by simp only [two63] at *; omega) hn1, m1, bind_ok]
    dsimp only
    rw [hloc, hc2, add_sub_cancel_left, wrap_small (by simp only [two63] at *; omega) (by omega)]
  · have he : l.e = s.e := m4.trans k4
    show (l.e ++ [Op.ENT]) ++ [(js.length : Int)] = s.e ++ [Op.ENT, (js.length : Int)]
    rw [he, List.append_assoc]
    rfl
  · have hj1 : (j : Int) < (js.length : Int) := by exact_mod_cast hj
    have hj2 : (0 : Int) ≤ (j : Int) := Int.natCast_nonneg _
    have := expr_ref_at m lev t js[j] _ _ h1 hd h2 (h.2.2 j hj).1 (h.2.2 j hj).2 h.1
      (by simp only [two63] at *; omega) (by simp only [two63] at *; omega)
    have e : (ds.length : Int) + 1 - ((ds.length : Int) + 1 + ((j : Int) + 1)) = -((j : Int) + 1) := by
      ring
    rw [e] at this
    exact this
  · exact exec_ent hc p1 p2 (by simp only [two63] at *; omega) s2
      (by simp only [InRange, two63] at *; omega)
  · have hj1 : (j : Int) ≤ (m : Int) := by exact_mod_cast j2
    have hj0 : (1 : Int) ≤ (j : Int) := by exact_mod_cast j1
    refine ⟨?_, by omega, by omega⟩
    have := exec_lea hc p1 p2 (by simp only [InRange, two63] at *; omega)
    rw [this]
    congr 2
    ring

/-- C26 at `f(int a, char *b){ int x, y; char z; ... }`: the loops register `a`, `b`
and `x`, `y`, `z`, the body is compiled after `ENT 3`, and in `x = a`, when the
compiler is at `x`, the reference to `x`, the first local, is `LEA -1`; and `ENT 3`
on a machine with `sp = 1000`. -/
theorem C26_local_slots_witness :
    paramIds 50 (next (funcHead slotS)) 0 = .ok (slotP, 2, [20, 21]) ∧
    (next slotP).tk = 123 ∧
    localIds 50 (next { next slotP with loc := (([20, 21] : List Nat).length : Int) + 1 })
      ((([20, 21] : List Nat).length : Int) + 1) INT = .ok (slotL, 6, 0, [22, 23, 24]) ∧
    (([20, 21] : List Nat).length : Int) + 1 + (([22, 23, 24] : List Nat).length : Int) < two63 ∧
    (emit (([22, 23, 24] : List Nat).length : Int) (emit Op.ENT slotL)).e =
      slotS.e ++ [Op.ENT, (([22, 23, 24] : List Nat).length : Int)] ∧
    cycles 1 locV = some { locV with pc := locV.pc + 16, bp := locV.sp - 8, sp := locV.sp - 8 - 8 * ((3 : Nat) : Int), mem := storeInt locV.mem (locV.sp - 8) locV.bp } ∧
    expr (5 + 1) Tok.Assign (emit (([22, 23, 24] : List Nat).length : Int) (emit Op.ENT slotL)) =
      exprLoop (expr 5) 5 Tok.Assign
        (emit (if (symAt (emit (([22, 23, 24] : List Nat).length : Int) (emit Op.ENT slotL)).sym ([22, 23, 24] : List Nat)[0]).Typ = CHAR then Op.LC else Op.LI)
          { emit (-(((0 : Nat) : Int) + 1)) (emit Op.LEA (next (emit (([22, 23, 24] : List Nat).length : Int) (emit Op.ENT slotL)))) with ty := (symAt (emit (([22, 23, 24] : List Nat).length : Int) (emit Op.ENT slotL)).sym ([22, 23, 24] : List Nat)[0]).Typ }) := by
  have hp : paramIds 50 (next (funcHead slotS)) 0 = .ok (slotP, 2, [20, 21]) := by decide!
  have hb : (next slotP).tk = 123 := by decide!
  have hl : localIds 50 (next { next slotP with loc := (([20, 21] : List Nat).length : Int) + 1 })
      ((([20, 21] : List Nat).length : Int) + 1) INT = .ok (slotL, 6, 0, [22, 23, 24]) := by decide!
  have hn : (([20, 21] : List Nat).length : Int) + 1 + (([22, 23, 24] : List Nat).length : Int) < two63 := by
    decide
  exact ⟨hp, hb, hl, hn,
    (C26_local_slots 50 slotS slotP slotL INT 2 6 0 [20, 21] [22, 23, 24] hp hb hl hn).2.1.2.2.2,
    (C26_local_slots 50 slotS slotP slotL INT 2 6 0 [20, 21] [22, 23, 24] hp hb hl hn).2.2.2.2.2.1
      locV 3 (by decide!) (by decide!) (by decide!) (by decide!) (by decide!),
    (C26_local_slots 50 slotS slotP slotL INT 2 6 0 [20, 21] [22, 23, 24] hp hb hl hn).2.2.2.2.1 0
      (by decide) 5 Tok.Assign _
      (C26_local_slots 50 slotS slotP slotL INT 2 6 0 [20, 21] [22, 23, 24] hp hb hl hn).2.2.1
      (by decide!) (by decide!) (by decide!)⟩

end C4
namespace C4

/-! ## C27: short-circuit operators -/

/-- C27: the short-circuit operators do not normalise their result.  (1) At
`||` (resp. `&&`), when the right operand compiles to the words `cy` after the
`BNZ` (resp. `BZ`) and its operand, the turn of the loop of `expr` leaves the words
`BNZ h; cy` (resp. `BZ h; cy`) after the code of the left operand, `h` being the
address of the word after `cy`, and the type `INT`.  (2) On the machine, at the
`BNZ h` with `a` the value of the left operand: when `a` is not 0 the next turn
of the interpreter is at `h`, with `a` unchanged and no word of `cy` executed;
when `a` is 0 it is at the first word of `cy`, so the run goes on as the run of
`cy` does and ends with what `cy` leaves in `a`.  At the `BZ h` the same with the
two cases exchanged: `a = 0` goes to `h` with `a` still 0.  (3) `2 || 0` is 2,
`0 || 3` is 3, `0 && 5` is 0 and `2 && 3` is 3. -/
theorem C27_short_circuit :
    (∀ (n : Nat) (S s1 : CState) (cy : List Int), S.tk = Tok.Lor →
      expr n Tok.Lan (hole (emit Op.BNZ (next S))).1 = .ok s1 → s1.e = S.e ++ Op.BNZ :: 0 :: cy →
      exprStep (expr n) S = .ok { s1 with e := S.e ++ Op.BNZ :: addrE s1 1 :: cy, ty := INT }) ∧
    (∀ (n : Nat) (S s1 : CState) (cy : List Int), S.tk = Tok.Lan →
      expr n Tok.Or (hole (emit Op.BZ (next S))).1 = .ok s1 → s1.e = S.e ++ Op.BZ :: 0 :: cy →
      exprStep (expr n) S = .ok { s1 with e := S.e ++ Op.BZ :: addrE s1 1 :: cy, ty := INT }) ∧
    (∀ (v : VM) (h : Int), CodeAt v.mem v.pc [Op.BNZ, h] → -two63 ≤ v.pc → v.pc + 16 < two63 →
      (v.a ≠ 0 → cycles 1 v = some { v with pc := h }) ∧
      (v.a = 0 → ∀ (k : Nat) (v2 : VM), cycles k { v with pc := v.pc + 16 } = some v2 →
        cycles (1 + k) v = some v2)) ∧
    (∀ (v : VM) (h : Int), CodeAt v.mem v.pc [Op.BZ, h] → -two63 ≤ v.pc → v.pc + 16 < two63 →
      (v.a = 0 → cycles 1 v = some { v with pc := h }) ∧
      (v.a ≠ 0 → ∀ (k : Nat) (v2 : VM), cycles k { v with pc := v.pc + 16 } = some v2 →
        cycles (1 + k) v = some v2)) ∧
    (emitted (compile L0 srcLor1 50) = .ok [Op.ENT, 0, Op.IMM, 2, Op.BNZ, L0.text + 8 * 9,
        Op.IMM, 0, Op.LEV, Op.LEV] ∧
     main L0 srcLor1 1 0 (fun _ => 0) 50 100 = .halt 2 ∧
     main L0 srcLor2 1 0 (fun _ => 0) 50 100 = .halt 3 ∧
     main L0 srcLan1 1 0 (fun _ => 0) 50 100 = .halt 0 ∧
     main L0 srcLan2 1 0 (fun _ => 0) 50 100 = .halt 3) := by
  refine ⟨fun n S s1 cy hk hn hne => ?_, fun n S s1 cy hk hn hne => ?_,
    fun v h hc h1 h2 => ⟨fun ha => ?_, fun ha k v2 hk => ?_⟩,
    fun v h hc h1 h2 => ⟨fun ha => ?_, fun ha k v2 hk => ?_⟩,
    by decide!, by decide!, by decide!, by decide!, by decide!⟩
  · rw [exprStep_Lor _ hk]; exact opJump_code _ _ _ S s1 cy hn hne
  · rw [exprStep_Lan _ hk]; exact opJump_code _ _ _ S s1 cy hn hne
  · exact exec_jump hc (Or.inr (Or.inr ⟨rfl, ha⟩)) h1 (by omega)
  · exact cycles_add (exec_fall hc (Or.inr ⟨rfl, ha⟩) h1 h2) hk
  · exact exec_jump hc (Or.inr (Or.inl ⟨rfl, ha⟩)) h1 (by omega)
  · exact cycles_add (exec_fall hc (Or.inl ⟨rfl, ha⟩) h1 h2) hk

/-- C27 at `2 || 0`: the code is `IMM 2; BNZ 56; IMM 0` when the text area starts
at 0, and the machine at the `BNZ` with `a = 2` goes to the end of the code with
`a = 2`. -/
theorem C27_short_circuit_witness :
    lorS.tk = Tok.Lor ∧
    exprStep (expr 5) lorS = .ok { lorS1 with e := [Op.IMM, 2, Op.BNZ, 56, Op.IMM, 0], ty := INT } ∧
    cycles 1 lorV = some { lorV with pc := 48 } ∧ lorV.a = 2 :=
  ⟨by decide!,
   C27_short_circuit.1 5 lorS lorS1 [Op.IMM, 0] (by decide!) (by decide!) (by decide!),
   (C27_short_circuit.2.2.1 lorV 48 (by decide!) (by decide!) (by decide!)).1 (by decide!),
   by decide!⟩

end C4

